import Mathlib

/-!
The go-ucl scanner, parser and encoder.

A shallow embedding of `scanner.go`, `parser.go` and `encoder.go`.

* Go byte strings and byte slices are `List Nat` (one entry per byte).
* The `io.Reader` handed to the scanner is the list of what its successive
  `Read` calls return, the bytes and the error of each; the empty list is
  the exhausted reader. A list of byte strings is the reader whose `Read`
  calls deliver them with a nil error.
* Go maps are association lists in insertion order, each key occurring once.
-/

namespace GoUcl

/-- Go `string` / `[]byte`: a sequence of bytes. -/
abbrev Bytes := List Nat

/-- The bytes of an ASCII text, used to write inputs down. -/
def B (s : String) : Bytes := s.data.map Char.toNat

/-! ## scanner.go -/

/-- The `iota` block of token kinds and scanner states. -/
inductive St
  | WHITESPACE | TAG | SEMICOL | COMMA | COLON | EQUAL | QUOTE | VQUOTE | SLASH
  | HCOMMENT | LCOMMENT | MLSTRING | BRACEOPEN | BRACECLOSE | BRACKETOPEN
  | BRACKETCLOSE | LCOMMENT_CLOSING | MAYBE_MLSTRING | MAYBE_MLSTRING2
  | MLSTRING_PREP | MLSTRING_HEADER_OK
  deriving DecidableEq, Repr

/-- The struct `tag` (`flag` is never read or written and is left out). -/
structure Tag where
  val : Bytes
  state : St
  deriving DecidableEq, Repr

/-- Errors, by kind: the text of a message is not modelled. `panicked` is an
explicit `panic(...)` call of the source, `indexOutOfRange` the run-time
panic of an index or slice expression out of bounds, `reader` an error other
than `io.EOF` that a `Read` returned; `outOfFuel` belongs to the model. -/
inductive Err
  | EOF
  | UnexpectedEOF
  | misplaced (c : Nat)
  | unexpected (c : Nat)
  | unquoteErr
  | mlheader
  | parseSemicolon
  | parseComma
  | invalidTag
  | unexpectedTag
  | unexpectedMlstring
  | keyorderNotSlice
  | invalidBrace
  | panicked
  | indexOutOfRange
  | reader (id : Nat)
  | outOfFuel
  deriving DecidableEq, Repr

/-- The error that a `Read` of the reader returns when it is not nil:
`io.EOF`, or another error, told from the others by a number. -/
inductive RdErr
  | EOF
  | other (id : Nat)
  deriving DecidableEq, Repr

/-- The error as `nexttags` hands it on. -/
def RdErr.toErr : RdErr → Err
  | RdErr.EOF => Err.EOF
  | RdErr.other id => Err.reader id

/-- What one `Read` call of the reader returns: the bytes it delivers and
its error (`none` is nil). A reader is the list of what its `Read` calls
return, in order; once the list is used up, `Read` delivers no byte. -/
structure Rd where
  data : Bytes
  err : Option RdErr := none
  deriving DecidableEq, Repr

/-- A chunk of bytes stands for the `Read` that delivers it with a nil error. -/
instance : Coe Bytes Rd := ⟨fun data => { data := data }⟩

/-- The struct `scanner` without its reader and buffer, which the scanning
loop carries; `skipsep` is kept as its two bits `skip_white` and `skip_sep`. -/
structure Scanner where
  depth : Bytes := []
  curtag : Bytes := []
  state : St := St.WHITESPACE
  skip_white : Bool := false
  skip_sep : Bool := false
  line : Nat := 1
  mlstring_tag : Bytes := []
  curline : Bytes := []
  deriving DecidableEq, Repr

def newScanner : Scanner := {}

def isAlnum (c : Nat) : Bool :=
  (97 ≤ c && c ≤ 122) || (65 ≤ c && c ≤ 90) || (48 ≤ c && c ≤ 57)

def scopeadd (s : Scanner) (c : Nat) : Scanner := { s with depth := s.depth ++ [c] }

/-- The method `scopereduce`: the new scanner and the boolean it returns. -/
def scopereduce (s : Scanner) (c : Nat) : Scanner × Bool :=
  match s.depth.getLast? with
  | none => (s, false)
  | some top =>
    if top = 91 then
      if c = 93 then ({ s with depth := s.depth.dropLast }, true) else (s, false)
    else if top = 123 then
      if c = 125 then ({ s with depth := s.depth.dropLast }, true) else (s, false)
    else if top = 40 then
      if c = 41 then ({ s with depth := s.depth.dropLast }, true) else (s, false)
    else (s, false)

def curdepth (s : Scanner) : Nat := s.depth.getLast?.getD 0

def discard (s : Scanner) : Scanner := { s with curtag := [] }

def contains (s : Bytes) (c : Nat) : Bool := s.any (fun b => b == c)

/-! ### Standard-library routines used by `unquote` and `encodeStr` -/

/-- The multi-byte case of Go `utf8.DecodeRuneInString`: `s0` is the lead
byte, `sz` the size it announces, `lo .. hi` the range accepted for the second
byte, `n` the length of the string and `s1 s2 s3` its next bytes. -/
def decodeMulti (s0 sz lo hi n s1 s2 s3 : Nat) : Nat × Nat :=
  if n < sz then (0xFFFD, 1)
  else if s1 < lo ∨ hi < s1 then (0xFFFD, 1)
  else if sz ≤ 2 then ((s0 % 32) * 64 + s1 % 64, 2)
  else if s2 < 0x80 ∨ 0xBF < s2 then (0xFFFD, 1)
  else if sz ≤ 3 then ((s0 % 16) * 4096 + (s1 % 64) * 64 + s2 % 64, 3)
  else if s3 < 0x80 ∨ 0xBF < s3 then (0xFFFD, 1)
  else ((s0 % 8) * 262144 + (s1 % 64) * 4096 + (s2 % 64) * 64 + s3 % 64, 4)

/-- Go `utf8.DecodeRuneInString`: the rune and its width; `0xFFFD` with
width 1 marks an invalid encoding. -/
def decodeRune (s : Bytes) : Nat × Nat :=
  match s with
  | [] => (0xFFFD, 0)
  | s0 :: t =>
    if s0 < 0x80 then (s0, 1)
    else if s0 < 0xC2 ∨ 0xF4 < s0 then (0xFFFD, 1)
    else
      decodeMulti s0 (if s0 < 0xE0 then 2 else if s0 < 0xF0 then 3 else 4)
        (if s0 = 0xE0 then 0xA0 else if s0 = 0xF0 then 0x90 else 0x80)
        (if s0 = 0xED then 0x9F else if s0 = 0xF4 then 0x8F else 0xBF)
        s.length (t.getD 0 0) (t.getD 1 0) (t.getD 2 0)

/-- Go `utf8.ValidRune`. -/
def validRune (r : Nat) : Bool := r < 0xD800 || (0xDFFF < r && r ≤ 0x10FFFF)

/-- Go `utf8.EncodeRune` / `utf8.AppendRune`. -/
def encodeRune (r : Nat) : Bytes :=
  if r ≤ 0x7F then [r]
  else if r ≤ 0x7FF then [0xC0 + r / 64, 0x80 + r % 64]
  else if 0x10FFFF < r ∨ (0xD800 ≤ r ∧ r ≤ 0xDFFF) then [0xEF, 0xBF, 0xBD]
  else if r ≤ 0xFFFF then [0xE0 + r / 4096, 0x80 + (r / 64) % 64, 0x80 + r % 64]
  else [0xF0 + r / 262144, 0x80 + (r / 4096) % 64, 0x80 + (r / 64) % 64, 0x80 + r % 64]

/-- Go `unhex`. -/
def unhex (c : Nat) : Option Nat :=
  if 48 ≤ c ∧ c ≤ 57 then some (c - 48)
  else if 97 ≤ c ∧ c ≤ 102 then some (c - 97 + 10)
  else if 65 ≤ c ∧ c ≤ 70 then some (c - 65 + 10)
  else none

/-- The hexadecimal number written by the digits `ds` on top of `v`. -/
def unhexAll (ds : Bytes) (v : Nat) : Option Nat :=
  match ds with
  | [] => some v
  | d :: t => match unhex d with
    | none => none
    | some x => unhexAll t (v * 16 + x)

/-- The octal number written by the digits `ds` on top of `v`. -/
def unoctAll (ds : Bytes) (v : Nat) : Option Nat :=
  match ds with
  | [] => some v
  | d :: t => if 48 ≤ d ∧ d ≤ 55 then unoctAll t (v * 8 + (d - 48)) else none

/-- Go `strconv.UnquoteChar`: `none` is `ErrSyntax`, otherwise the value,
the multibyte flag and the tail. -/
def unquoteChar (s : Bytes) (quote : Nat) : Option (Nat × Bool × Bytes) :=
  match s with
  | [] => none
  | c :: t =>
    if c = quote ∧ (quote = 39 ∨ quote = 34) then none
    else if 0x80 ≤ c then
      let rw := decodeRune s
      some (rw.1, true, s.drop rw.2)
    else if c ≠ 92 then some (c, false, t)
    else match t with
      | [] => none
      | e :: u =>
        if e = 97 then some (7, false, u)
        else if e = 98 then some (8, false, u)
        else if e = 102 then some (12, false, u)
        else if e = 110 then some (10, false, u)
        else if e = 114 then some (13, false, u)
        else if e = 116 then some (9, false, u)
        else if e = 118 then some (11, false, u)
        else if e = 120 ∨ e = 117 ∨ e = 85 then
          let n := if e = 120 then 2 else if e = 117 then 4 else 8
          if u.length < n then none
          else match unhexAll (u.take n) 0 with
            | none => none
            | some v =>
              if e = 120 then some (v, false, u.drop n)
              else if validRune v then some (v, true, u.drop n) else none
        else if 48 ≤ e ∧ e ≤ 55 then
          if u.length < 2 then none
          else match unoctAll (u.take 2) (e - 48) with
            | none => none
            | some v => if 255 < v then none else some (v, false, u.drop 2)
        else if e = 92 then some (92, false, u)
        else if e = 39 ∨ e = 34 then
          if e ≠ quote then none else some (e, false, u)
        else none

/-- The decoding loop of `unquote`; every round removes at least one byte,
so `fuel = len(s)` rounds are enough. -/
def unquoteLoop (fuel : Nat) (s : Bytes) (quote : Nat) (buf : Bytes) : Option Bytes :=
  match s with
  | [] => some buf
  | _ :: _ =>
    match fuel with
    | 0 => none
    | fuel + 1 =>
      match unquoteChar s quote with
      | none => none
      | some (c, multibyte, ss) =>
        if c < 0x80 ∨ ¬ multibyte then unquoteLoop fuel ss quote (buf ++ [c % 256])
        else unquoteLoop fuel ss quote (buf ++ encodeRune c)

/-- The function `unquote` of scanner.go; `none` is an error. -/
def unquote (s : Bytes) (quote : Nat) : Option Bytes :=
  if s.length = 0 then some []
  else if quote = 96 then (if contains s 96 then none else some s)
  else if quote ≠ 34 ∧ quote ≠ 39 then none
  else if ¬ contains s 92 ∧ ¬ contains s quote then some s
  else unquoteLoop s.length s quote []

/-- The call `maketag(v, state)` with `v != nil`; it does not touch the scanner. -/
def maketagV (v : Bytes) (state : St) : Tag :=
  if 0 < v.length then { val := v, state := state } else { val := [], state := St.WHITESPACE }

/-- The call `maketag(nil, 0)`: the tag is cut from `curtag` and the scanner
state; `none` is the `nil` result that comes with `s.err` set. -/
def maketag0 (s : Scanner) : Option (Scanner × Tag) :=
  if s.state = St.QUOTE ∨ s.state = St.VQUOTE then
    let c := if s.state = St.QUOTE then 34 else 39
    match unquote s.curtag c with
    | none => none
    | some qs => some ({ s with curtag := [] }, { val := qs, state := s.state })
  else if 0 < s.curtag.length then
    some ({ s with curtag := [] }, { val := s.curtag, state := s.state })
  else some (s, { val := [], state := St.WHITESPACE })

/-! ### The scanning loop `nexttags` -/

/-- What one round of the `for` loop of `nexttags` does: go round again
(`skip` further bytes of the buffer were consumed in this round), return the
tags with a nil error, or return an error. -/
inductive Step
  | cont (s : Scanner) (tags : List Tag) (skip : Nat)
  | ret (s : Scanner) (tags : List Tag)
  | fail (e : Err)
  deriving DecidableEq, Repr

/-- The statement pair `tags = append(tags, s.maketag(nil, 0))`,
`if s.err != nil return nil, s.err`, followed by `k`. -/
def emit0 (s : Scanner) (tags : List Tag) (k : Scanner → List Tag → Step) : Step :=
  match maketag0 s with
  | none => Step.fail Err.unquoteErr
  | some (s1, t) => k s1 (tags ++ [t])

/-- Go `strings.Split(s, " ")`. -/
def splitSpace (s : Bytes) : List Bytes :=
  match s with
  | [] => [[]]
  | c :: t =>
    if c = 32 then [] :: splitSpace t
    else match splitSpace t with
      | [] => [[c]]
      | f :: fs => (c :: f) :: fs

/-- The loop over `fields` before an opening brace or bracket: one TAG per
non-empty field. -/
def fieldTags (curtag : Bytes) : List Tag :=
  ((splitSpace curtag).filter (fun f => f ≠ [])).map (fun f => maketagV f St.TAG)

/-- The backwards scan `for i := len(s.curtag)-1; i >= 0; i--`: the prefix
of `curtag` up to its last byte above the space, if there is one. -/
def trimTag (curtag : Bytes) : List Tag :=
  let v := (curtag.reverse.dropWhile (fun b => b ≤ 32)).reverse
  if v = [] then [] else [maketagV v St.TAG]

/-- The cases WHITESPACE, BRACEOPEN, BRACECLOSE of the state switch. -/
def stepWhite (s : Scanner) (tags : List Tag) (c : Nat) : Step :=
  if c ≤ 32 then
    let k := fun (s1 : Scanner) (tags1 : List Tag) =>
      let s2 := { s1 with curtag := s1.curtag ++ [c], state := St.WHITESPACE }
      if 0 < tags1.length then Step.ret s2 tags1 else Step.cont s2 tags1 0
    if s.state ≠ St.WHITESPACE then emit0 s tags k else k s tags
  else
    let s1 := if 0 < s.curtag.length ∧ s.curtag.getLast?.getD 0 ≤ 32 then discard s else s
    let s2 := if c ≠ 34 ∧ c ≠ 39 then { s1 with curtag := s1.curtag ++ [c] } else s1
    if c = 91 then
      emit0 { scopeadd s2 c with state := St.BRACKETOPEN } tags
        (fun s3 tags3 => Step.ret { s3 with state := St.WHITESPACE } tags3)
    else if c = 93 then
      if (scopereduce s2 c).2 then
        emit0 { (scopereduce s2 c).1 with state := St.BRACKETCLOSE } tags
          (fun s3 tags3 => Step.ret { s3 with state := St.WHITESPACE } tags3)
      else Step.fail (Err.misplaced c)
    else if c = 40 ∨ c = 41 ∨ c = 60 then
      Step.cont { s2 with state := St.TAG, skip_white := true, skip_sep := true } tags 0
    else if c = 123 then
      emit0 { scopeadd s2 c with state := St.BRACEOPEN } tags
        (fun s3 tags3 => Step.ret { s3 with state := St.WHITESPACE } tags3)
    else if c = 125 then
      if (scopereduce s2 c).2 then
        emit0 { (scopereduce s2 c).1 with state := St.BRACECLOSE } tags
          (fun s3 tags3 => Step.ret { s3 with state := St.WHITESPACE } tags3)
      else Step.fail (Err.misplaced c)
    else if c = 47 then Step.cont { s2 with state := St.SLASH } tags 0
    else if c = 34 then Step.cont { s2 with state := St.QUOTE } tags 0
    else if c = 39 then Step.cont { s2 with state := St.VQUOTE } tags 0
    else if c = 35 then Step.cont { s2 with state := St.HCOMMENT } tags 0
    else if c = 61 ∨ c = 58 then
      if tags.length = 0 ∨
          ((tags.getLast?.map Tag.state) ≠ some St.QUOTE ∧
           (tags.getLast?.map Tag.state) ≠ some St.VQUOTE) then
        Step.fail (Err.unexpected c)
      else Step.cont { s2 with state := St.TAG, skip_white := true, skip_sep := false } tags 0
    else if c = 44 then
      if curdepth s2 = 91 then
        emit0 { s2 with state := St.COMMA } tags
          (fun s3 tags3 => Step.ret { s3 with state := St.WHITESPACE } tags3)
      else Step.fail (Err.unexpected c)
    else if c = 59 then
      emit0 { s2 with state := St.SEMICOL } tags
        (fun s3 tags3 => Step.ret { s3 with state := St.WHITESPACE } tags3)
    else Step.cont { s2 with state := St.TAG, skip_white := true, skip_sep := true } tags 0

/-- The case TAG of the state switch. -/
def stepTag (s : Scanner) (tags : List Tag) (c : Nat) : Step :=
  if 0 < s.curtag.length ∧ s.curtag.getLast? = some 60 then
    Step.cont { s with curtag := s.curtag ++ [c], state := St.MAYBE_MLSTRING } tags 0
  else if c = 123 then
    emit0 { scopeadd { s with curtag := [c] } c with state := St.BRACEOPEN }
      (tags ++ fieldTags s.curtag)
      (fun s3 tags3 => Step.ret { s3 with state := St.WHITESPACE } tags3)
  else if c = 125 then
    if curdepth s ≠ 123 then Step.fail (Err.unexpected c)
    else if (scopereduce s c).2 then
      Step.ret { (scopereduce s c).1 with curtag := [], state := St.WHITESPACE }
        (tags ++ trimTag s.curtag ++ [maketagV [125] St.BRACECLOSE])
    else Step.fail Err.panicked
  else if c = 39 ∨ c = 34 then
    Step.ret { s with curtag := [], state := if c = 39 then St.VQUOTE else St.QUOTE }
      (tags ++ trimTag s.curtag)
  else if c = 91 then
    emit0 { scopeadd { s with curtag := [c] } c with state := St.BRACKETOPEN }
      (tags ++ fieldTags s.curtag)
      (fun s3 tags3 => Step.ret { s3 with state := St.WHITESPACE } tags3)
  else if c = 93 then
    if curdepth s ≠ 91 then Step.fail (Err.unexpected c)
    else if (scopereduce s c).2 then
      Step.ret { (scopereduce s c).1 with curtag := [], state := St.WHITESPACE }
        (tags ++ trimTag s.curtag ++ [maketagV [93] St.BRACKETCLOSE])
    else Step.fail Err.panicked
  else if c = 59 then
    emit0 s tags (fun s1 tags1 =>
      emit0 { s1 with curtag := [c], state := St.SEMICOL } tags1
        (fun s3 tags3 => Step.ret { s3 with state := St.WHITESPACE } tags3))
  else if c = 44 then
    if curdepth s ≠ 91 ∧ curdepth s ≠ 123 then
      Step.cont { s with curtag := s.curtag ++ [c] } tags 0
    else
      emit0 s tags (fun s1 tags1 =>
        emit0 { s1 with curtag := [c], state := St.COMMA } tags1
          (fun s3 tags3 => Step.ret { s3 with state := St.WHITESPACE } tags3))
  else if c = 10 then
    emit0 s tags (fun s1 tags1 =>
      Step.ret { s1 with state := St.WHITESPACE, curtag := [] }
        (tags1 ++ [maketagV [59] St.SEMICOL]))
  else if c ≤ 32 then
    if tags.length = 0 then emit0 s tags (fun s1 tags1 => Step.cont s1 tags1 0)
    else if ¬ s.skip_white then Step.cont { s with curtag := s.curtag ++ [c] } tags 0
    else Step.cont s tags 0
  else if c = 58 ∨ c = 61 then
    if s.skip_sep then
      emit0 s tags (fun s1 tags1 =>
        emit0 { s1 with curtag := [c], state := if c = 58 then St.COLON else St.EQUAL } tags1
          (fun s3 tags3 => Step.cont { s3 with state := St.TAG, skip_sep := false } tags3 0))
    else Step.cont { s with curtag := s.curtag ++ [c], skip_white := false } tags 0
  else if c = 92 then Step.fail (Err.unexpected c)
  else
    Step.cont { s with curtag := s.curtag ++ [c],
                       skip_white := if 0 < tags.length then false else s.skip_white } tags 0

/-- The key split of the case MLSTRING_PREP when `curtag` does not start
with `<`: `ti` is the first byte at or below the space, `te` the first `<`
from there on; `none` when a byte other than blanks and `=` stands between. -/
def mlKeySplit (curtag : Bytes) : Option (Nat × Nat) :=
  let ti := (curtag.takeWhile (fun b => ¬ b ≤ 32)).length
  let mid := (curtag.drop ti).takeWhile (fun b => b ≠ 60)
  if mid.all (fun b => ¬ (32 < b ∧ b ≠ 61)) then some (ti, ti + mid.length) else none

/-- The cases MAYBE_MLSTRING, MLSTRING_PREP, MLSTRING_HEADER_OK, MLSTRING. -/
def stepMl (s : Scanner) (tags : List Tag) (c : Nat) : Step :=
  if s.state = St.MAYBE_MLSTRING then
    if isAlnum c then
      Step.cont { s with curtag := s.curtag ++ [c], state := St.MLSTRING_PREP, curline := [c] } tags 0
    else Step.cont { s with curtag := s.curtag ++ [c], state := St.TAG } tags 0
  else if s.state = St.MLSTRING_PREP then
    if isAlnum c then
      match s.curtag.head? with
      | none => Step.fail Err.indexOutOfRange
      | some h =>
        let k := fun (s1 : Scanner) (tags1 : List Tag) =>
          let s2 := { s1 with curtag := s1.curtag ++ [c], curline := s1.curline ++ [c] }
          if 0 < tags1.length then Step.ret s2 tags1 else Step.cont s2 tags1 0
        if h ≠ 60 then
          match mlKeySplit s.curtag with
          | none => Step.fail Err.mlheader
          | some (ti, te) =>
            k { s with curtag := s.curtag.drop te } (tags ++ [maketagV (s.curtag.take ti) St.TAG])
        else k s tags
    else
      Step.cont { s with mlstring_tag := s.curline, curline := [], curtag := [],
                         state := if c = 10 then St.MLSTRING else St.MLSTRING_HEADER_OK } tags 0
  else if s.state = St.MLSTRING_HEADER_OK then
    if c = 10 then Step.cont { s with state := St.MLSTRING } tags 0 else Step.cont s tags 0
  else
    let k := fun (s1 : Scanner) (tags1 : List Tag) =>
      if 0 < tags1.length then Step.ret s1 tags1 else Step.cont s1 tags1 0
    if c = 59 ∨ c = 10 then
      if s.curline = s.mlstring_tag then
        if s.curtag.length = 0 then Step.fail Err.indexOutOfRange
        else
          emit0 { s with curtag := s.curtag.dropLast } tags
            (fun s1 tags1 => k { s1 with state := St.WHITESPACE, curline := [] } tags1)
      else k { s with curtag := s.curtag ++ s.curline ++ [c], curline := [] } tags
    else k { s with curline := s.curline ++ [c] } tags

/-- The case QUOTE, VQUOTE; `rest` is what is left of the buffer after `c`. -/
def stepQuote (s : Scanner) (tags : List Tag) (c : Nat) (rest : Bytes) : Step :=
  if c = 92 then
    match rest with
    | [] => Step.cont { s with curtag := s.curtag ++ [c] } tags 0
    | c2 :: _ =>
      Step.cont { s with curtag := s.curtag ++ [c, c2],
                         line := if c2 = 10 then s.line + 1 else s.line } tags 1
  else if (s.state = St.QUOTE ∧ c = 34) ∨ (s.state = St.VQUOTE ∧ c = 39) then
    emit0 s tags (fun s1 tags1 =>
      Step.cont { s1 with state := St.TAG, skip_white := true, skip_sep := true } tags1 0)
  else Step.cont { s with curtag := s.curtag ++ [c] } tags 0

/-- The case SLASH; `rest` is what is left of the buffer after `c`. The
escape branch steps over the byte after the backslash and keeps the one
after that, as the source does. -/
def stepSlash (s : Scanner) (tags : List Tag) (c : Nat) (rest : Bytes) : Step :=
  if s.curtag.length = 1 ∧ c = 42 then
    Step.cont { s with curtag := s.curtag ++ [c], state := St.LCOMMENT } tags 0
  else
    match (if c = 92 then rest else []) with
    | _ :: c3 :: _ => Step.cont { s with curtag := s.curtag ++ [c, c3] } tags 2
    | _ =>
      if c = 47 then
        emit0 { s with curtag := s.curtag ++ [c] } tags
          (fun s1 tags1 => Step.ret { s1 with state := St.WHITESPACE } tags1)
      else if c = 10 then
        emit0 s tags (fun s1 tags1 => Step.ret { s1 with state := St.WHITESPACE } tags1)
      else if c = 32 then
        emit0 s tags (fun s1 tags1 =>
          Step.ret { s1 with curtag := s1.curtag ++ [c], state := St.WHITESPACE } tags1)
      else if c = 59 then
        emit0 { s with state := St.TAG } tags (fun s1 tags1 =>
          Step.ret { s1 with curtag := s1.curtag ++ [c], state := St.TAG } tags1)
      else Step.cont { s with curtag := s.curtag ++ [c] } tags 0

/-- The cases HCOMMENT, LCOMMENT, LCOMMENT_CLOSING. -/
def stepComment (s : Scanner) (tags : List Tag) (c : Nat) : Step :=
  if s.state = St.HCOMMENT then
    if c = 10 then
      emit0 s tags (fun s1 tags1 => Step.ret { s1 with state := St.WHITESPACE } tags1)
    else Step.cont { s with curtag := s.curtag ++ [c] } tags 0
  else if s.state = St.LCOMMENT then
    Step.cont { s with curtag := s.curtag ++ [c],
                       state := if c = 42 then St.LCOMMENT_CLOSING else St.LCOMMENT } tags 0
  else
    if c = 47 then
      emit0 { s with curtag := s.curtag ++ [c], state := St.LCOMMENT } tags
        (fun s1 tags1 => Step.ret { s1 with state := St.WHITESPACE } tags1)
    else Step.cont { s with curtag := s.curtag ++ [c], state := St.LCOMMENT } tags 0

/-- One round of the loop of `nexttags` on the byte `c`, the buffer holding
`rest` after it: the line count, then the switch on the state. -/
def step (s0 : Scanner) (tags : List Tag) (c : Nat) (rest : Bytes) : Step :=
  let s := if c = 10 then { s0 with line := s0.line + 1 } else s0
  match s.state with
  | St.WHITESPACE | St.BRACEOPEN | St.BRACECLOSE => stepWhite s tags c
  | St.TAG => stepTag s tags c
  | St.MAYBE_MLSTRING | St.MLSTRING_PREP | St.MLSTRING_HEADER_OK | St.MLSTRING => stepMl s tags c
  | St.QUOTE | St.VQUOTE => stepQuote s tags c rest
  | St.SLASH => stepSlash s tags c rest
  | St.HCOMMENT | St.LCOMMENT | St.LCOMMENT_CLOSING => stepComment s tags c
  | _ => Step.cont s tags 0

/-- How the loop of `nexttags` leaves the buffer it was given: it returned
tags (`rest` is the unread part of the buffer), it returned an error, or it
used the buffer up and needs another `Read`. -/
inductive BufOut
  | ret (s : Scanner) (tags : List Tag) (rest : Bytes)
  | fail (e : Err)
  | more (s : Scanner) (tags : List Tag)
  deriving DecidableEq, Repr

/-- The loop of `nexttags` over the unread part of the buffer
(`s.buf[s.bufi:s.bufmax]`); `skip` bytes at its front were already consumed
by the previous round. -/
def nexttagsBuf (s : Scanner) (tags : List Tag) (skip : Nat) (buf : Bytes) : BufOut :=
  match buf with
  | [] => BufOut.more s tags
  | c :: rest =>
    match skip with
    | k + 1 => nexttagsBuf s tags k rest
    | 0 =>
      match step s tags c rest with
      | Step.cont s1 tags1 k => nexttagsBuf s1 tags1 k rest
      | Step.ret s1 tags1 => BufOut.ret s1 tags1 rest
      | Step.fail e => BufOut.fail e

/-- The result of one `nexttags` call: the scanner, the unread part of its
buffer, the reader, and the returned tags or error. -/
structure ScanOut where
  scanner : Scanner
  buf : Bytes
  r : List Rd
  res : Except Err (List Tag)

/-- The end-of-input return of `nexttags` (`s.bufmax == 0`). -/
def eofOut (s : Scanner) (r : List Rd) : ScanOut :=
  { scanner := s, buf := [], r := r,
    res := Except.error (if 0 < s.depth.length then Err.UnexpectedEOF else Err.EOF) }

/-- The method `nexttags`, entered with pending tags `tags` (empty at the
call). The reader `r` is the list of what its `Read` calls return; the
exhausted reader and a `Read` without bytes both give `s.bufmax == 0`, and a
`Read` that delivers bytes together with an error makes the call return that
error (`if err != nil`), the bytes unscanned. After an error of the loop
the result holds the scanner of the entry and an empty buffer, and after an
error of a `Read` an empty buffer, where the source has advanced: no caller
scans on after an error. -/
def nexttagsFrom (s : Scanner) (tags : List Tag) (buf : Bytes) (r : List Rd) : ScanOut :=
  match nexttagsBuf s tags 0 buf with
  | BufOut.ret s1 tags1 rest => { scanner := s1, buf := rest, r := r, res := Except.ok tags1 }
  | BufOut.fail e => { scanner := s, buf := [], r := r, res := Except.error e }
  | BufOut.more s1 tags1 =>
    match r with
    | [] => eofOut s1 []
    | rd :: r1 =>
      if rd.data.length = 0 then eofOut s1 r1
      else
        match rd.err with
        | some e => { scanner := s1, buf := [], r := r1, res := Except.error e.toErr }
        | none => nexttagsFrom s1 tags1 rd.data r1

def nexttags (s : Scanner) (buf : Bytes) (r : List Rd) : ScanOut :=
  nexttagsFrom s [] buf r

/-! ## parser.go -/

/-- The constant `KeyOrder`, the bytes of `--ucl-keyorder--`. -/
def KeyOrder : Bytes := [45, 45, 117, 99, 108, 45, 107, 101, 121, 111, 114, 100, 101, 114, 45, 45]

/-- What an `interface{}` of the document holds: nil, a string, a
`map[string]interface{}`, a `[]interface{}`, the `[]string` of a key order,
or a `*tag`. -/
inductive Value
  | null
  | str (s : Bytes)
  | map (m : List (Bytes × Value))
  | list (l : List Value)
  | strs (l : List Bytes)
  | tag (t : Tag)
  deriving Repr

/-- A Go map from strings to values. -/
abbrev GoMap := List (Bytes × Value)

/-- The map read `m[k]`. -/
def mapGet (m : GoMap) (k : Bytes) : Option Value :=
  match m with
  | [] => none
  | (k1, v1) :: t => if k1 = k then some v1 else mapGet t k

/-- The map write `m[k] = v`. -/
def mapSet (m : GoMap) (k : Bytes) (v : Value) : GoMap :=
  match m with
  | [] => [(k, v)]
  | (k1, v1) :: t => if k1 = k then (k1, v) :: t else (k1, v1) :: mapSet t k v

/-- The struct `Parser`: its scanner with the unread part of the scanner's
buffer and the reader, and the unread tags `p.tags[p.tagsi:]`. The fields
`ucl` and `err` are passed to and returned by `parse`; `done` is never set. -/
structure Parser where
  scanner : Scanner
  buf : Bytes
  r : List Rd
  tags : List Tag

def NewParser (r : List Rd) : Parser :=
  { scanner := newScanner, buf := [], r := r, tags := [] }

/-- The tags that `nexttag` steps over. -/
def filtered (m : Tag) : Bool :=
  m.state = St.WHITESPACE ∨ m.state = St.LCOMMENT ∨ m.state = St.HCOMMENT

/-- The loop of `nexttag`; every `nexttags` call that returns tags has
consumed input, which bounds the number of rounds. -/
def nexttagLoop (fuel : Nat) (p : Parser) : Except Err Tag × Parser :=
  match fuel with
  | 0 => (Except.error Err.outOfFuel, p)
  | fuel + 1 =>
    match p.tags.dropWhile filtered with
    | m :: rest => (Except.ok m, { p with tags := rest })
    | [] =>
      match nexttags p.scanner p.buf p.r with
      | ⟨s1, buf1, r1, Except.error e⟩ =>
        (Except.error e, { scanner := s1, buf := buf1, r := r1, tags := [] })
      | ⟨s1, buf1, r1, Except.ok tags⟩ =>
        nexttagLoop fuel { scanner := s1, buf := buf1, r := r1, tags := tags }

/-- The number of input bytes not yet scanned. -/
def Parser.remaining (p : Parser) : Nat :=
  p.buf.length + (p.r.map (fun rd => rd.data.length)).sum

def nexttag (p : Parser) : Except Err Tag × Parser := nexttagLoop (p.remaining + 2) p

/-- What `parsevalue` and `parselist` return: the value, the error (`none`
is nil) and the parser after the call. -/
structure PRes where
  val : Value
  err : Option Err
  p : Parser

/-- What `parse` returns, together with the state of the container `parent`
after the call: a map handed to `parse` is filled in place. -/
structure PMRes where
  val : Value
  err : Option Err
  parent : Value
  p : Parser

/-- The key insertion of `parse` (`if mapitems, ok := themap[k]; ok ...`);
`korder` is `none` when the slice was not initialised (`cap(korder) == 0`). -/
def insertKey (themap : GoMap) (korder : Option (List Bytes)) (k : Bytes) (res : Value) : GoMap :=
  match mapGet themap k with
  | some (Value.list childarray) => mapSet themap k (Value.list (childarray ++ [res]))
  | some mapitems => mapSet themap k (Value.list [mapitems, res])
  | none =>
    match korder with
    | some ko => mapSet (mapSet themap KeyOrder (Value.strs (ko ++ [k]))) k res
    | none => mapSet themap k res

/-- The key order slice that `parse` starts a key with: the one stored under
`KeyOrder`, or a fresh one when none is stored and `UclExportKeyOrder` is set
(`none` is the nil slice); an error when the entry is not a `[]string`. -/
def korderOf (exportKeyOrder : Bool) (themap : GoMap) : Except Err (Option (List Bytes)) :=
  match mapGet themap KeyOrder with
  | none => Except.ok (if exportKeyOrder then some [] else none)
  | some (Value.strs korder) => Except.ok (some korder)
  | some _ => Except.error Err.keyorderNotSlice

mutual

/-- The method `parsevalue`; `exportKeyOrder` is the variable
`UclExportKeyOrder`, `t = none` the nil tag, `Value.null` the nil parent. -/
def parsevalue (exportKeyOrder : Bool) (fuel : Nat) (p : Parser) (t : Option Tag)
    (parent : Value) : PRes :=
  match fuel with
  | 0 => { val := Value.null, err := some Err.outOfFuel, p := p }
  | fuel + 1 =>
    match t with
    | none =>
      match nexttag p with
      | (Except.error e, p1) => { val := Value.null, err := some e, p := p1 }
      | (Except.ok t1, p1) => parsevalue exportKeyOrder fuel p1 (some t1) parent
    | some t =>
      match t.state with
      | St.TAG | St.QUOTE | St.VQUOTE | St.SLASH =>
        match nexttag p with
        | (Except.error e, p1) => { val := Value.null, err := some e, p := p1 }
        | (Except.ok nt, p1) =>
          if nt.state = St.SEMICOL ∨ nt.state = St.COMMA then
            { val := Value.str t.val, err := none, p := p1 }
          else if nt.state = St.BRACECLOSE ∨ nt.state = St.BRACKETCLOSE then
            { val := Value.tag { nt with val := t.val }, err := none, p := p1 }
          else
            match parsevalue exportKeyOrder fuel p1 (some nt) parent with
            | ⟨_, some e, p2⟩ => { val := Value.null, err := some e, p := p2 }
            | ⟨res, none, p2⟩ =>
              { val := Value.map (mapSet (mapSet [] KeyOrder (Value.strs [t.val])) t.val res),
                err := none, p := p2 }
      | St.SEMICOL =>
        match parent with
        | Value.null => { val := Value.tag t, err := some Err.parseSemicolon, p := p }
        | _ => { val := parent, err := none, p := p }
      | St.COMMA =>
        match parent with
        | Value.null => { val := Value.tag t, err := some Err.parseComma, p := p }
        | _ => { val := parent, err := none, p := p }
      | St.MLSTRING => { val := Value.str t.val, err := none, p := p }
      | St.BRACEOPEN =>
        match parse exportKeyOrder fuel p (some t) parent with
        | ⟨res, err, _, p2⟩ => { val := res, err := err, p := p2 }
      | St.BRACECLOSE => { val := parent, err := none, p := p }
      | St.BRACKETOPEN => parselist exportKeyOrder fuel p none []
      | St.BRACKETCLOSE => { val := parent, err := none, p := p }
      | St.EQUAL | St.COLON => parsevalue exportKeyOrder fuel p none parent
      | _ => { val := Value.null, err := none, p := p }

/-- The method `parselist`; `parent` is the slice built so far. -/
def parselist (exportKeyOrder : Bool) (fuel : Nat) (p : Parser) (t : Option Tag)
    (parent : List Value) : PRes :=
  match fuel with
  | 0 => { val := Value.null, err := some Err.outOfFuel, p := p }
  | fuel + 1 =>
    match t with
    | none =>
      match nexttag p with
      | (Except.error e, p1) => { val := Value.null, err := some e, p := p1 }
      | (Except.ok t1, p1) => parselist exportKeyOrder fuel p1 (some t1) parent
    | some t =>
      match t.state with
      | St.BRACKETCLOSE => { val := Value.list parent, err := none, p := p }
      | St.SEMICOL | St.COLON | St.EQUAL =>
        { val := Value.null, err := some Err.invalidTag, p := p }
      | St.COMMA => parselist exportKeyOrder fuel p none parent
      | _ =>
        match parsevalue exportKeyOrder fuel p (some t) Value.null with
        | ⟨_, some e, p2⟩ => { val := Value.null, err := some e, p := p2 }
        | ⟨Value.tag restag, none, p2⟩ =>
          if restag.state = St.BRACKETCLOSE then
            { val := Value.list (parent ++ [Value.str restag.val]), err := none, p := p2 }
          else { val := Value.null, err := some Err.unexpectedTag, p := p2 }
        | ⟨res, none, p2⟩ => parselist exportKeyOrder fuel p2 none (parent ++ [res])

/-- The method `parse`; the result carries the container `parent` as the
call leaves it. After a key is stored the source tests `t.state == BRACECLOSE`:
`t` is then either the key tag, whose state is none of the closing ones, so
that the loop goes on, or the closing tag that `parsevalue` handed back. -/
def parse (exportKeyOrder : Bool) (fuel : Nat) (p : Parser) (t : Option Tag)
    (parent : Value) : PMRes :=
  match fuel with
  | 0 => { val := Value.null, err := some Err.outOfFuel, parent := parent, p := p }
  | fuel + 1 =>
    match t with
    | none =>
      match nexttag p with
      | (Except.error e, p1) => { val := Value.null, err := some e, parent := parent, p := p1 }
      | (Except.ok t1, p1) => parse exportKeyOrder fuel p1 (some t1) parent
    | some t =>
      match t.state with
      | St.TAG | St.QUOTE | St.VQUOTE | St.SLASH =>
        match parent with
        | Value.map themap =>
          match korderOf exportKeyOrder themap with
          | Except.error e => { val := Value.null, err := some e, parent := parent, p := p }
          | Except.ok korder =>
            match parsevalue exportKeyOrder fuel p none Value.null with
            | ⟨Value.tag restag, some _, p2⟩ =>
              parse exportKeyOrder fuel p2 none
                (Value.map (insertKey themap korder t.val
                  (if restag.state = St.SEMICOL then Value.null else Value.tag restag)))
            | ⟨_, some e, p2⟩ => { val := Value.null, err := some e, parent := parent, p := p2 }
            | ⟨Value.tag restag, none, p2⟩ =>
              if restag.state ≠ St.BRACECLOSE then parse exportKeyOrder fuel p2 (some restag) parent
              else
                { val := Value.map (insertKey themap korder t.val (Value.str restag.val)), err := none,
                  parent := Value.map (insertKey themap korder t.val (Value.str restag.val)), p := p2 }
            | ⟨res, none, p2⟩ =>
              parse exportKeyOrder fuel p2 none (Value.map (insertKey themap korder t.val res))
        | _ => { val := Value.null, err := some Err.panicked, parent := parent, p := p }
      | St.SEMICOL => parse exportKeyOrder fuel p none parent
      | St.MLSTRING =>
        { val := Value.null, err := some Err.unexpectedMlstring, parent := parent, p := p }
      | St.BRACEOPEN =>
        match parent with
        | Value.null =>
          match parse exportKeyOrder fuel p none (Value.map []) with
          | ⟨res, err, _, p2⟩ => { val := res, err := err, parent := parent, p := p2 }
        | Value.map _ => parse exportKeyOrder fuel p none parent
        | Value.list _ =>
          match parse exportKeyOrder fuel p none parent with
          | ⟨res, err, _, p2⟩ => { val := res, err := err, parent := parent, p := p2 }
        | _ => { val := Value.null, err := some Err.invalidBrace, parent := parent, p := p }
      | St.BRACECLOSE => { val := parent, err := none, parent := parent, p := p }
      | St.BRACKETOPEN =>
        match parselist exportKeyOrder fuel p none [] with
        | ⟨res, err, p2⟩ => { val := res, err := err, parent := parent, p := p2 }
      | St.BRACKETCLOSE => { val := parent, err := none, parent := parent, p := p }
      | _ => { val := Value.null, err := none, parent := parent, p := p }

end

/-- What `Ucl` returns, with the parser as the call leaves it. -/
structure UclOut where
  ucl : Value
  err : Option Err
  p : Parser

/-- The fuel `Ucl` runs `parse` with: more than the calls the input can cause. -/
def uclFuel (r : List Rd) : Nat := 4 * (r.map (fun rd => rd.data.length)).sum + 8

/-- The call `NewParser(r).Ucl()`: `parse(nil, p.ucl)`, then `p.ucl` with
`p.err`, where `io.EOF` counts as no error. -/
def Ucl (exportKeyOrder : Bool) (r : List Rd) : UclOut :=
  match parse exportKeyOrder (uclFuel r) (NewParser r) none (Value.map []) with
  | ⟨_, err, ucl, p⟩ => { ucl := ucl, err := if err = some Err.EOF then none else err, p := p }

/-! ## encoder.go -/

/-- A digit of Go `lowerhex`. -/
def lowerhex (d : Nat) : Nat := if d < 10 then 48 + d else 87 + d

/-- Go `strconv.IsPrint`; `tbl` stands for its tables for the runes above
`0xFF`. -/
def isPrint (tbl : Nat → Bool) (r : Nat) : Bool :=
  if r ≤ 0xFF then
    if 0x20 ≤ r ∧ r ≤ 0x7E then true
    else if 0xA1 ≤ r then r ≠ 0xAD
    else false
  else tbl r

/-- The `switch r` of Go `strconv.appendEscapedRune`: the escape of a rune
that is not printed as it is. -/
def escapeOther (r : Nat) : Bytes :=
  if r = 7 then [92, 97]
  else if r = 8 then [92, 98]
  else if r = 12 then [92, 102]
  else if r = 10 then [92, 110]
  else if r = 13 then [92, 114]
  else if r = 9 then [92, 116]
  else if r = 11 then [92, 118]
  else if r < 32 ∨ r = 0x7F then [92, 120, lowerhex (r / 16 % 16), lowerhex (r % 16)]
  else if ¬ validRune r then [92, 117, 102, 102, 102, 100]
  else if r < 0x10000 then
    [92, 117, lowerhex (r / 4096 % 16), lowerhex (r / 256 % 16), lowerhex (r / 16 % 16),
      lowerhex (r % 16)]
  else
    [92, 85, lowerhex (r / 268435456 % 16), lowerhex (r / 16777216 % 16),
      lowerhex (r / 1048576 % 16), lowerhex (r / 65536 % 16), lowerhex (r / 4096 % 16),
      lowerhex (r / 256 % 16), lowerhex (r / 16 % 16), lowerhex (r % 16)]

/-- Go `strconv.appendEscapedRune` for the double quote, neither ASCII-only
nor graphic-only. -/
def appendEscapedRune (tbl : Nat → Bool) (r : Nat) : Bytes :=
  if r = 34 ∨ r = 92 then [92, r]
  else if isPrint tbl r then encodeRune r
  else escapeOther r

/-- The loop of Go `strconv.Quote` over the string; `skip` bytes at the
front belong to the rune escaped in the previous round. -/
def quoteBody (tbl : Nat → Bool) (skip : Nat) (s : Bytes) : Bytes :=
  match s with
  | [] => []
  | c :: rest =>
    match skip with
    | k + 1 => quoteBody tbl k rest
    | 0 =>
      let rw := if 0x80 ≤ c then decodeRune (c :: rest) else (c, 1)
      (if rw.2 = 1 ∧ rw.1 = 0xFFFD then [92, 120, lowerhex (c / 16 % 16), lowerhex (c % 16)]
       else appendEscapedRune tbl rw.1) ++ quoteBody tbl (rw.2 - 1) rest

/-- Go `strconv.Quote`. -/
def Quote (tbl : Nat → Bool) (s : Bytes) : Bytes := [34] ++ quoteBody tbl 0 s ++ [34]

/-- The function `encodeStr`: the bytes `qs[1 .. len(qs)-2]` are tested. -/
def encodeStr (tbl : Nat → Bool) (s : Bytes) : Bytes :=
  let qs := Quote tbl s
  if (qs.drop 1).dropLast.all isAlnum then s else qs

/-! ### `fmt.Fprintf` with a format and no operands

`encodeMap`, `encodeSlice` and `encodeScalar` hand `e.newline` and
`encodeStr(s)` to `fmt.Fprintf` as the format string. -/

/-- Go `fmt.parsenum` on the bytes up to `end`: whether a number was read
and what follows it (nothing once the number is too large). -/
def fmtParsenum (s : Bytes) (num : Nat) (isnum : Bool) : Bool × Bytes :=
  match s with
  | [] => (isnum, [])
  | c :: t =>
    if 48 ≤ c ∧ c ≤ 57 then
      if 1000000 < num then (false, []) else fmtParsenum t (num * 10 + (c - 48)) true
    else (isnum, c :: t)

/-- Like `fmtParsenum`, when the number is too large the rest of the whole
format is dropped: `s` is the format from the number on. -/
def fmtNum (s : Bytes) : Bool × Bytes := fmtParsenum s 0 false

/-- Go `fmt.parseArgNumber` on a format starting with `[`: the width of the
index and whether it is well formed. -/
def fmtParseArgNumber (s : Bytes) : Nat × Bool :=
  if s.length < 3 then (1, false)
  else
    let inner := (s.drop 1).takeWhile (fun b => b ≠ 93)
    if (s.drop 1).length = inner.length then (1, false)
    else
      let pn := fmtParsenum inner 0 false
      if pn.1 ∧ pn.2 = [] ∧ inner ≠ [] then (inner.length + 2, true) else (inner.length + 2, false)

/-- Go `(*pp).argNumber` with no operands: the format after the index,
whether an index was found, and whether `goodArgNum` was cleared. -/
def fmtArgNumber (s : Bytes) : Bytes × Bool × Bool :=
  match s with
  | 91 :: _ => let pw := fmtParseArgNumber s; (s.drop pw.1, pw.2, true)
  | _ => (s, false, false)

/-- The flags `#0+- ` after the percent sign. -/
def fmtFlags (s : Bytes) : Bytes :=
  s.dropWhile (fun c => c = 35 ∨ c = 48 ∨ c = 43 ∨ c = 45 ∨ c = 32)

/-- One directive of `doPrintf` with no operands; `s` is the format after
the percent sign. The bytes written and the format that remains. -/
def fmtDirective (s : Bytes) : Bytes × Bytes :=
  let a1 := fmtArgNumber (fmtFlags s)
  -- width
  let w : Bytes × Bytes × Bool × Bool :=
    match a1.1 with
    | 42 :: t => (B "%!(BADWIDTH)", t, false, a1.2.2)
    | t => let pn := fmtNum t; ([], pn.2, a1.2.1, a1.2.2 || (a1.2.1 && pn.1))
  -- precision
  let pr : Bytes × Bytes × Bool × Bool :=
    match w.2.1 with
    | 46 :: t =>
      let a2 := fmtArgNumber t
      let bad := w.2.2.2 || w.2.2.1 || a2.2.2
      match a2.1 with
      | 42 :: u => (w.1 ++ B "%!(BADPREC)", u, false, bad)
      | u => (w.1, (fmtNum u).2, a2.2.1, bad)
    | _ => w
  let a3 := if pr.2.2.1 then (pr.2.1, true, false) else fmtArgNumber pr.2.1
  let bad := pr.2.2.2 || a3.2.2
  match a3.1 with
  | [] => (pr.1 ++ B "%!(NOVERB)", [])
  | c :: t =>
    let rw := if 0x80 ≤ c then decodeRune (c :: t) else (c, 1)
    let rest := (c :: t).drop rw.2
    if rw.1 = 37 then (pr.1 ++ [37], rest)
    else if bad then (pr.1 ++ [37, 33] ++ encodeRune rw.1 ++ B "(BADINDEX)", rest)
    else (pr.1 ++ [37, 33] ++ encodeRune rw.1 ++ B "(MISSING)", rest)

/-- The loop of `doPrintf` with no operands; every round consumes a byte of
the format, so `fuel = len(format) + 1` rounds are enough. -/
def fmtLoop (fuel : Nat) (format : Bytes) : Bytes :=
  match fuel with
  | 0 => []
  | fuel + 1 =>
    let lit := format.takeWhile (fun c => c ≠ 37)
    match format.drop lit.length with
    | [] => lit
    | _ :: d => let o := fmtDirective d; lit ++ o.1 ++ fmtLoop fuel o.2

/-- What `fmt.Fprintf(w, format)` writes when it is given no operands. -/
def Fprintf0 (format : Bytes) : Bytes := fmtLoop (format.length + 1) format

/-- The constants `parent_map`, `parent_array`, `parent_anon`. -/
inductive ParentType
  | parent_map | parent_array | parent_anon
  deriving DecidableEq, Repr

/-- The struct `encoder` without its writer: the encoding functions return
the bytes they write. `tbl` is the table parameter of `isPrint`; the field
`tag` is only read for struct fields with a tag string and is left out. -/
structure Encoder where
  tbl : Nat → Bool
  indenter : Bytes
  newline : Bytes
  nilval : Bytes

/-- The local `indents`: `indent` copies of the indenter. -/
def indents (e : Encoder) (indent : Nat) : Bytes := (List.replicate indent e.indenter).flatten

/-- The `reflect.String` case of `encodeScalar`. The newline count stops at
four in the source, which does not change the test `nl > 3`. -/
def encodeString (e : Encoder) (s : Bytes) : Bytes :=
  let nl := if 160 < s.length then s.count 10 else 0
  if 3 < nl then B "<<EOSTR\n" ++ s ++ B "\nEOSTR"
  else if s.length = 0 then [34, 34]
  else if s.head? ≠ some 47 then Fprintf0 (encodeStr e.tbl s)
  else s

/-- The method `encodeScalar` on a string (`some s`) or on the invalid
value of a nil interface (`none`). -/
def encodeScalar (e : Encoder) (v : Option Bytes) (parenttype : ParentType) (indent : Nat) : Bytes :=
  (if parenttype = ParentType.parent_array then indents e indent else []) ++
  match v with
  | some s => encodeString e s
  | none => if e.nilval ≠ [] then [32] ++ e.nilval else []

/-- The method `encodeStruct` on the struct `tag` behind a `*tag`: its three
fields are unexported and carry no tag string, so each round of the loop
writes at most the separating newline. -/
def encodeStruct (e : Encoder) (parenttype : ParentType) : Bytes :=
  Fprintf0 e.newline ++ Fprintf0 e.newline ++
  (if parenttype ≠ ParentType.parent_array ∧ parenttype ≠ ParentType.parent_anon
   then Fprintf0 e.newline else [])

/-- The loop of `encodeMap` over the keys, in either of its two copies;
`child k` is what the round writes for the value of `k` (the blank and the
`switch cv.Kind()`). -/
def encodeKeys (e : Encoder) (child : Bytes → Bytes) (parenttype : ParentType) (indent : Nat)
    (first : Bool) (keys : List Bytes) : Bytes :=
  match keys with
  | [] => []
  | k :: t =>
    (if first then [] else Fprintf0 e.newline) ++ indents e indent ++ encodeStr e.tbl k ++
    child k ++ (if parenttype ≠ ParentType.parent_array then [59] else []) ++
    encodeKeys e child parenttype indent false t

/-- The loop of `encodeSlice` over a `[]string`. -/
def encodeStrs (e : Encoder) (indent : Nat) (first : Bool) (l : List Bytes) : Bytes :=
  match l with
  | [] => []
  | x :: t =>
    (if first then Fprintf0 e.newline else [44] ++ e.newline) ++
    encodeScalar e (some x) ParentType.parent_array (indent + 1) ++ encodeStrs e indent false t

mutual

/-- The method `doencode` with the methods `encodeMap` and `encodeSlice`. -/
def doencode (e : Encoder) (v : Value) (parenttype : ParentType) (indent : Nat) : Bytes :=
  match v with
  | Value.map m =>
    let child := fun (k : Bytes) => ((mapChildren e m indent).lookup k).getD (encodeScalar e none ParentType.parent_map (indent + 1))
    match mapGet m KeyOrder with
    | some (Value.strs korder) =>
      encodeKeys e child parenttype indent true korder ++
      (if 0 < korder.length then Fprintf0 e.newline else [])
    | _ =>
      encodeKeys e child parenttype indent true (m.map Prod.fst) ++
      (if 0 < m.length then Fprintf0 e.newline else [])
  | Value.list l =>
    [91] ++ sliceElems e l indent true ++
    (if 0 < l.length then Fprintf0 e.newline ++ indents e indent ++ [93] else [93])
  | Value.strs l =>
    [91] ++ encodeStrs e indent true l ++
    (if 0 < l.length then Fprintf0 e.newline ++ indents e indent ++ [93] else [93])
  | Value.tag _ => encodeStruct e parenttype
  | Value.str s => encodeScalar e (some s) parenttype indent
  | Value.null => encodeScalar e none parenttype indent

/-- For every entry of a map, what a round of the loop of `encodeMap` writes
for its value: the blank when the value is valid, then the
`switch cv.Kind()`. -/
def mapChildren (e : Encoder) (m : List (Bytes × Value)) (indent : Nat) : List (Bytes × Bytes) :=
  match m with
  | [] => []
  | (k, Value.null) :: t =>
    (k, doencode e Value.null ParentType.parent_map (indent + 1)) :: mapChildren e t indent
  | (k, Value.list l) :: t =>
    (k, [32] ++ doencode e (Value.list l) ParentType.parent_map indent) :: mapChildren e t indent
  | (k, Value.strs l) :: t =>
    (k, [32] ++ doencode e (Value.strs l) ParentType.parent_map indent) :: mapChildren e t indent
  | (k, Value.map c) :: t =>
    (k, [32] ++ [123] ++ e.newline ++ doencode e (Value.map c) ParentType.parent_map (indent + 1)
        ++ indents e indent ++ [125]) :: mapChildren e t indent
  | (k, v) :: t =>
    (k, [32] ++ doencode e v ParentType.parent_map (indent + 1)) :: mapChildren e t indent

/-- The loop of `encodeSlice` over a `[]interface{}`. -/
def sliceElems (e : Encoder) (l : List Value) (indent : Nat) (first : Bool) : Bytes :=
  match l with
  | [] => []
  | v :: t =>
    (if first then Fprintf0 e.newline else [44] ++ e.newline) ++
    (match v with
     | Value.list x => doencode e (Value.list x) ParentType.parent_array indent
     | Value.strs x => doencode e (Value.strs x) ParentType.parent_array indent
     | Value.map c =>
       e.indenter ++ indents e indent ++ [123] ++ e.newline ++
       doencode e (Value.map c) ParentType.parent_array (indent + 2) ++
       e.indenter ++ indents e indent ++ [125]
     | w => doencode e w ParentType.parent_array (indent + 1)) ++
    sliceElems e t indent false

end

/-- The function `Encode` on a document value: the bytes written to `w`.
The error it returns is nil for every value of the document model. -/
def Encode (tbl : Nat → Bool) (v : Value) (indenter nilval : Bytes) : Bytes :=
  doencode { tbl := tbl, indenter := indenter, newline := if indenter ≠ [] then [10] else [],
             nilval := nilval } v ParentType.parent_map 0

/-! ### Settings used in the evaluated examples -/

/-- A table for `isPrint` that holds no rune above `0xFF` printable; the
inputs evaluated below stay within ASCII. -/
def noTbl : Nat → Bool := fun _ => false

/-- The encoder settings of the byte-level test of parser_test.go: an indent
of three spaces and the empty null literal. -/
def testEncode (v : Value) : Bytes := Encode noTbl v (B "   ") []

/-- The document decoded from `a "%";`. -/
def percentDoc : Value := Value.map [(KeyOrder, Value.strs [B "a"]), (B "a", Value.str (B "%"))]

/-- The document decoded from the encoding of `percentDoc`. -/
def percentDoc2 : Value :=
  Value.map [(KeyOrder, Value.strs [B "a"]),
    (B "a", Value.map [(KeyOrder, Value.strs [B "%!"]), (B "%!", Value.str (B "(MISSING)"))])]

/-- A string of 170 bytes, `n` of them newlines (for `n ≤ 170`). -/
def sample170 (n : Nat) : Bytes := List.replicate (170 - n) 97 ++ List.replicate n 10

/-- A byte of a bareword: above the space and none of the bytes
`" # ' , / : ; < = [ \ ] { }` that the scanner treats specially. -/
def isBare (c : Nat) : Bool :=
  32 < c && c != 34 && c != 35 && c != 39 && c != 44 && c != 47 && c != 58 && c != 59 &&
  c != 60 && c != 61 && c != 91 && c != 92 && c != 93 && c != 123 && c != 125

/-- A bareword: a non-empty run of bareword bytes. -/
def Bareword (w : Bytes) : Prop := w ≠ [] ∧ ∀ c ∈ w, isBare c = true

/-- An alphanumeric bareword: a non-empty run of ASCII letters and digits. -/
def Alnum (w : Bytes) : Prop := w ≠ [] ∧ ∀ c ∈ w, isAlnum c = true

/-- The pending text of a resting scanner: empty or ending in a blank. -/
def WhiteEnd (curtag : Bytes) : Prop := ∀ b, curtag.getLast? = some b → b ≤ 32

/-- The text ` k v;` of one statement, led by a blank. -/
def stmtSp (kv : Bytes × Bytes) : Bytes := 32 :: (kv.1 ++ 32 :: (kv.2 ++ [59]))

/-- The statements ` k1 v1; k2 v2; ...`, each led by a blank. -/
def stmtsSp (kvs : List (Bytes × Bytes)) : Bytes := (kvs.map stmtSp).flatten

/-- The text `k1 v1; k2 v2; ... kn vn;`. -/
def stmts (kvs : List (Bytes × Bytes)) : Bytes := (stmtsSp kvs).drop 1

/-- The text `{ k1 v1; ... kn vn; }`. -/
def block (kvs : List (Bytes × Bytes)) : Bytes := 123 :: (stmtsSp kvs ++ [32, 125])

/-- The map that `parse` builds from first insertions of the given entries
with order tracking: the key-order list, then the entries. -/
def docOf (es : List (Bytes × Value)) : GoMap :=
  match es with
  | [] => []
  | _ :: _ => (KeyOrder, Value.strs (es.map Prod.fst)) :: es

/-- The entries decoded from a list of statements: each key with its value
as a string. -/
def entriesOf (kvs : List (Bytes × Bytes)) : List (Bytes × Value) :=
  kvs.map (fun kv => (kv.1, Value.str kv.2))

/-- The text expected from `encodeMap` at indent 0 for string entries that
need no quoting: `k v;` per entry, `nl` between the entries. -/
def encLines (nl : Bytes) (first : Bool) (kvs : List (Bytes × Bytes)) : Bytes :=
  match kvs with
  | [] => []
  | kv :: t => (if first then [] else nl) ++ kv.1 ++ [32] ++ kv.2 ++ [59] ++ encLines nl false t

/-- What the key insertion of `parse` leaves under a key that already holds
`old`: an existing array grows by `res`, anything else becomes the array
`[old, res]`. -/
def promote (old res : Value) : Value :=
  match old with
  | Value.list l => Value.list (l ++ [res])
  | o => Value.list [o, res]

/-- The statements `k v` for the values `vs`, all with the key `k`. -/
def sameKey (k : Bytes) (vs : List Bytes) : List (Bytes × Bytes) := vs.map (fun v => (k, v))

/-- The text `outer inner value;`. -/
def shorthand (outer inner value : Bytes) : Bytes :=
  outer ++ 32 :: (inner ++ 32 :: (value ++ [59]))

/-- The text `outer { inner value; }`. -/
def nestedBlock (outer inner value : Bytes) : Bytes :=
  outer ++ 32 :: 123 :: (stmtSp (inner, value) ++ [32, 125])

/-- The text `outer inner "value";`. -/
def shorthandQuoted (outer inner value : Bytes) : Bytes :=
  outer ++ 32 :: (inner ++ 32 :: 34 :: (value ++ [34, 59]))

/-- The document in which `outer` maps to the one-entry map from `inner` to
the string `value`, each map with its key-order list. -/
def nestedDoc (outer inner value : Bytes) : Value :=
  Value.map [(KeyOrder, Value.strs [outer]),
    (outer, Value.map [(KeyOrder, Value.strs [inner]), (inner, Value.str value)])]

/-- The keys of a map other than the sentinel `KeyOrder`, in the order of
their first insertion. -/
def otherKeys (m : GoMap) : List Bytes := (m.map Prod.fst).filter (fun k => k ≠ KeyOrder)

/-- The key-order invariant of one map: its keys are distinct; when the
sentinel entry is a key-order list (a `[]string`), that list has no
duplicates and is exactly the list of the other keys in insertion order; and
a map without a sentinel entry has no entry at all. -/
def KeyOrderInv (m : GoMap) : Prop :=
  (m.map Prod.fst).Nodup ∧
  match mapGet m KeyOrder with
  | none => m = []
  | some (Value.strs ks) => ks.Nodup ∧ ks = otherKeys m
  | some _ => True

mutual

/-- `P` holds of every map reachable in the value. -/
def Value.AllMaps (P : GoMap → Prop) (v : Value) : Prop :=
  match v with
  | Value.map m => P m ∧ AllMapsE P m
  | Value.list l => AllMapsL P l
  | _ => True

/-- `P` holds of every map reachable in the entries of a map. -/
def AllMapsE (P : GoMap → Prop) (m : List (Bytes × Value)) : Prop :=
  match m with
  | [] => True
  | (_, v) :: t => Value.AllMaps P v ∧ AllMapsE P t

/-- `P` holds of every map reachable in the elements of an array. -/
def AllMapsL (P : GoMap → Prop) (l : List Value) : Prop :=
  match l with
  | [] => True
  | v :: t => Value.AllMaps P v ∧ AllMapsL P t

end

/-- A value as `parsevalue` hands it to `parse`: every map in it keeps the
key-order invariant, and it is no bare `[]string`. -/
def GoodV (v : Value) : Prop := Value.AllMaps KeyOrderInv v ∧ ∀ l, v ≠ Value.strs l

/-- A closing byte `c` that does not match the innermost open scope of `s`:
`}` while the top of the scope stack is not an opening brace, or `]` while it is
not `[` (`curdepth` is 0 when no scope is open). -/
def Mismatch (s : Scanner) (c : Nat) : Prop :=
  (c = 125 ∧ curdepth s ≠ 123) ∨ (c = 93 ∧ curdepth s ≠ 91)

/-- The parser after `k` calls of `nexttag` that all returned a tag, starting
from `p`; `none` when one of these calls returns an error. -/
def afterTags (k : Nat) (p : Parser) : Option Parser :=
  match k with
  | 0 => some p
  | k + 1 =>
    match nexttag p with
    | (Except.ok _, p1) => afterTags k p1
    | (Except.error _, _) => none

/-- How a call of `parse`, `parsevalue` or `parselist` that starts with the
parser `p` and returns the value `val`, the error `err` and the parser `p1` has
used `nexttag`: either all its `nexttag` calls returned a tag, or the last of
them returned an error, and then the call returned nil with that very error. -/
def Threaded (p : Parser) (val : Value) (err : Option Err) (p1 : Parser) : Prop :=
  (∃ k, afterTags k p = some p1) ∨
  (val = Value.null ∧
    ∃ k pk e, afterTags k p = some pk ∧ nexttag pk = (Except.error e, p1) ∧ err = some e)

/-- Of a result of `parsevalue`: when the value is a tag returned with a nil
error, it is a closing token (`}` or `]`) that `parsevalue` hands back. -/
def ClosingTag (q : PRes) : Prop :=
  ∀ x, q.val = Value.tag x → q.err = none → x.state = St.BRACECLOSE ∨ x.state = St.BRACKETCLOSE

/-- The value is no token. -/
def NoTag (v : Value) : Prop := ∀ x, v ≠ Value.tag x

/-- Starting from `p`, the first `j` calls of `nexttag` return a tag and the
next one returns the error `e`. -/
def FailsAfter (p : Parser) (j : Nat) (e : Err) : Prop :=
  ∃ pk p1, afterTags j p = some pk ∧ nexttag pk = (Except.error e, p1)

/-- The fuel `f` is enough for every call of `parsevalue`, `parselist` and
`parse` whose parser has `j` tags left before `nexttag` fails with `e`: the
call does not end for lack of fuel. A call that is handed a tag needs more
than one that first fetches it. -/
def FuelEnough (ko : Bool) (e : Err) (f : Nat) : Prop :=
  (∀ p j, FailsAfter p j e → 4 * j + 1 ≤ f →
    (parsevalue ko f p none Value.null).err ≠ some Err.outOfFuel) ∧
  (∀ p j t, FailsAfter p j e → 4 * j + 3 ≤ f →
    (parsevalue ko f p (some t) Value.null).err ≠ some Err.outOfFuel) ∧
  (∀ p j l, FailsAfter p j e → 4 * j + 1 ≤ f →
    (parselist ko f p none l).err ≠ some Err.outOfFuel) ∧
  (∀ p j t l, FailsAfter p j e → 4 * j + 4 ≤ f →
    (parselist ko f p (some t) l).err ≠ some Err.outOfFuel) ∧
  (∀ p j parent, FailsAfter p j e → 4 * j + 1 ≤ f →
    (parse ko f p none parent).err ≠ some Err.outOfFuel) ∧
  (∀ p j t parent, FailsAfter p j e → 4 * j + 2 ≤ f →
    (parse ko f p (some t) parent).err ≠ some Err.outOfFuel)

/-- The text `x { k }`: a block closed right after the key `k`. -/
def keyOnlyBlock (x k : Bytes) : Bytes := x ++ 32 :: 123 :: 32 :: (k ++ [32, 125])

/-- What one round of the loop of `encodeMap` writes for the key `k` of the
map `m`: the indent, the key, the value (the nil literal when `m` has no such
key) and, outside an array, the `;`. -/
def mapRound (e : Encoder) (m : GoMap) (parenttype : ParentType) (indent : Nat) (k : Bytes) :
    Bytes :=
  indents e indent ++ encodeStr e.tbl k ++
  ((mapChildren e m indent).lookup k).getD (encodeScalar e none ParentType.parent_map (indent + 1)) ++
  (if parenttype ≠ ParentType.parent_array then [59] else [])

/-- The texts `xs` with `sep` written between them. -/
def joinWith (sep : Bytes) (xs : List Bytes) : Bytes :=
  match xs with
  | [] => []
  | [x] => x
  | x :: y :: t => x ++ sep ++ joinWith sep (y :: t)

/-- The text ` e1, e2, ... en,` of list elements, each led by a blank and
followed by a comma. -/
def elemsSp (es : List Bytes) : Bytes := (es.map (fun e => 32 :: (e ++ [44]))).flatten

/-- The text `k [ e1, ... en, ;` followed by `rest`: a list in which a `;`
stands where an element is due. -/
def listSemi (k : Bytes) (es : List Bytes) (rest : Bytes) : Bytes :=
  k ++ 32 :: 91 :: (elemsSp es ++ 32 :: 59 :: rest)

/-- The text `k = <<T`, newline, `body`, newline, `T`, newline. -/
def heredoc (k T body : Bytes) : Bytes :=
  k ++ 32 :: 61 :: 32 :: 60 :: 60 :: (T ++ 10 :: (body ++ 10 :: (T ++ [10])))

/-- The pieces that the bytes `;` and newline cut a text into, `cl` being
what the current piece holds so far. -/
def mlSegs (cl : Bytes) (body : Bytes) : List Bytes :=
  match body with
  | [] => [cl]
  | c :: t => if c = 59 ∨ c = 10 then cl :: mlSegs [] t else mlSegs (cl ++ [c]) t

/-- The text `k = <<T`, newline, `body`, newline, `T;`, newline. -/
def heredocSemi (k T body : Bytes) : Bytes :=
  k ++ 32 :: 61 :: 32 :: 60 :: 60 :: (T ++ 10 :: (body ++ 10 :: (T ++ [59, 10])))

/-- What `strconv.Quote` writes for one rune of its argument, `chunk` being
the bytes of the rune: `strconv.UnquoteChar` reads `piece` back to a value
that `unquote` appends as `chunk`, and `piece` is either `chunk` itself, free
of backslash, double quote and newline, or a backslash escape. -/
def QuotePiece (piece chunk : Bytes) : Prop :=
  (∃ v mb, (∀ tail, unquoteChar (piece ++ tail) 34 = some (v, mb, tail)) ∧
     (if v < 0x80 ∨ ¬ mb = true then [v % 256] else encodeRune v) = chunk) ∧
  ((piece = chunk ∧ ∀ b ∈ piece, b ≠ 92 ∧ b ≠ 34 ∧ b ≠ 10) ∨
   (∃ e h, piece = 92 :: e :: h ∧ e ≠ 10 ∧ ∀ b ∈ h, b ≠ 92 ∧ b ≠ 34 ∧ b ≠ 10))

/-- The statement `k "...";`: the key, a blank, the literal
`strconv.Quote(s)` and `;`. -/
def quotedStmt (tbl : Nat → Bool) (k s : Bytes) : Bytes := k ++ 32 :: (Quote tbl s ++ [59])

/-- The text `a:w;` or `a=w;`: the key, the separator `sep`, the value text
`w` and `;`. -/
def sepStmt (a : Bytes) (sep : Nat) (w : Bytes) : Bytes := a ++ sep :: (w ++ [59])

/-- The token of a separator: COLON for `:`, EQUAL otherwise. -/
def sepTag (sep : Nat) : Tag := ⟨[sep], if sep = 58 then St.COLON else St.EQUAL⟩

/-- The text `k = <<T`, newline, `T`, newline: a heredoc whose terminator
line follows its header. -/
def heredocEmpty (k T : Bytes) : Bytes :=
  k ++ 32 :: 61 :: 32 :: 60 :: 60 :: (T ++ 10 :: (T ++ [10]))

/-- The rounds of the loop of one `nexttags` call that started with the
scanner `s0`: `LoopAt s0 s tags` says that the loop is at the top of a round
with the scanner `s` and the pending tokens `tags`. The call starts with no
token; a round that neither returns nor fails leads to the next one. -/
inductive LoopAt (s0 : Scanner) : Scanner → List Tag → Prop
  | start : LoopAt s0 s0 []
  | round (s : Scanner) (tags : List Tag) (c : Nat) (rest : Bytes) (s1 : Scanner)
      (tags1 : List Tag) (k : Nat) :
      LoopAt s0 s tags → step s tags c rest = Step.cont s1 tags1 k → LoopAt s0 s1 tags1

/-- A round that goes on in the state WHITESPACE has no token pending. -/
def RestsEmpty (st : Step) : Prop :=
  ∀ s1 tags1 k, st = Step.cont s1 tags1 k → s1.state = St.WHITESPACE → tags1 = []

/-- The keys that the loop of `encodeMap` goes through: the key-order list
when the map holds one as a `[]string`, else `v.MapKeys()`. -/
def loopKeys (m : GoMap) : List Bytes :=
  match mapGet m KeyOrder with
  | some (Value.strs korder) => korder
  | _ => m.map Prod.fst

/-- What a round of the loop of `encodeMap` writes for a valid value after
the blank: the `switch cv.Kind()`. -/
def entryValue (e : Encoder) (v : Value) (indent : Nat) : Bytes :=
  match v with
  | Value.list l => doencode e (Value.list l) ParentType.parent_map indent
  | Value.strs l => doencode e (Value.strs l) ParentType.parent_map indent
  | Value.map c =>
    [123] ++ e.newline ++ doencode e (Value.map c) ParentType.parent_map (indent + 1)
      ++ indents e indent ++ [125]
  | w => doencode e w ParentType.parent_map (indent + 1)

/-- A list holding one map, `a: 1, b: 2`, without a key-order list. -/
def listOfMap : Value :=
  Value.list [Value.map [(B "a", Value.str (B "1")), (B "b", Value.str (B "2"))]]

/-- The document decoded from `x [ { a 1; b 2; } ];`. -/
def listOfMapDoc : Value :=
  Value.map [(KeyOrder, Value.strs [B "x"]),
    (B "x", Value.list [Value.map [(KeyOrder, Value.strs [B "a", B "b"]),
      (B "a", Value.str (B "1")), (B "b", Value.str (B "2"))]])]

/-! ### The encoder with its writer

The functions above return the bytes that the encoder hands to its writer.
The ones below thread the `io.Writer` through and return the `error` of the
source function, so that what the encoder does with the results of its
writes can be stated. -/

/-- An `io.Writer`: the data of the `Write` calls made so far, and which
calls fail: `fails n` tells whether the call number `n`, counted from 0,
returns a non-nil error. -/
structure Writer where
  calls : List Bytes
  fails : Nat → Bool

/-- The call `w.Write(data)`: the writer after the call, and whether the call
returned a non-nil error. -/
def Writer.Write (w : Writer) (data : Bytes) : Writer × Bool :=
  ({ w with calls := w.calls ++ [data] }, w.fails w.calls.length)

/-- A statement `fmt.Fprintf(e.w, ...)` that formats to `text`: `Fprintf`
makes one `Write` call with the formatted text and returns its results,
which the statement does not assign. -/
def Fprintf (w : Writer) (text : Bytes) : Writer := (w.Write text).1

/-- The `reflect.String` case of `encodeScalar`. -/
def encodeStringW (e : Encoder) (w : Writer) (s : Bytes) : Writer :=
  let nl := if 160 < s.length then s.count 10 else 0
  if 3 < nl then Fprintf (Fprintf (Fprintf w (B "<<EOSTR\n")) s) (B "\nEOSTR")
  else if s.length = 0 then Fprintf w [34, 34]
  else if s.head? ≠ some 47 then Fprintf w (Fprintf0 (encodeStr e.tbl s))
  else Fprintf w s

/-- The method `encodeScalar`; it ends in `return nil`. -/
def encodeScalarW (e : Encoder) (w : Writer) (v : Option Bytes) (parenttype : ParentType)
    (indent : Nat) : Writer × Option Err :=
  let w1 := if parenttype = ParentType.parent_array then Fprintf w (indents e indent) else w
  match v with
  | some s => (encodeStringW e w1 s, none)
  | none => (if e.nilval ≠ [] then Fprintf w1 ([32] ++ e.nilval) else w1, none)

/-- The method `encodeStruct` on the struct `tag` behind a `*tag`. -/
def encodeStructW (e : Encoder) (w : Writer) (parenttype : ParentType) : Writer × Option Err :=
  let w2 := Fprintf (Fprintf w (Fprintf0 e.newline)) (Fprintf0 e.newline)
  (if parenttype ≠ ParentType.parent_array ∧ parenttype ≠ ParentType.parent_anon
   then Fprintf w2 (Fprintf0 e.newline) else w2, none)

/-- The loop of `encodeMap` over the keys; `child k` is the part of a round
from the blank to the end of the `switch cv.Kind()`, which assigns `err`. -/
def encodeKeysW (e : Encoder) (child : Bytes → Writer → Writer × Option Err)
    (parenttype : ParentType) (indent : Nat) (first : Bool) (keys : List Bytes) (w : Writer) :
    Writer × Option Err :=
  match keys with
  | [] => (w, none)
  | k :: t =>
    let w1 := if first then w else Fprintf w (Fprintf0 e.newline)
    let w2 := Fprintf w1 (indents e indent ++ encodeStr e.tbl k)
    match child k w2 with
    | (w3, some err) => (w3, some err)
    | (w3, none) =>
      encodeKeysW e child parenttype indent false t
        (if parenttype ≠ ParentType.parent_array then Fprintf w3 [59] else w3)

/-- The method `encodeMap` on the keys `keys`: the loop, then the newline
`if err == nil && len(keys) > 0`. -/
def encodeMapW (e : Encoder) (child : Bytes → Writer → Writer × Option Err)
    (parenttype : ParentType) (indent : Nat) (keys : List Bytes) (w : Writer) :
    Writer × Option Err :=
  match encodeKeysW e child parenttype indent true keys w with
  | (w1, some err) => (w1, some err)
  | (w1, none) => (if 0 < keys.length then Fprintf w1 (Fprintf0 e.newline) else w1, none)

/-- The loop of `encodeSlice` over a `[]string`. -/
def encodeStrsW (e : Encoder) (indent : Nat) (first : Bool) (l : List Bytes) (w : Writer) :
    Writer × Option Err :=
  match l with
  | [] => (w, none)
  | x :: t =>
    match encodeScalarW e (Fprintf w (if first then Fprintf0 e.newline else [44] ++ e.newline))
        (some x) ParentType.parent_array (indent + 1) with
    | (w1, some err) => (w1, some err)
    | (w1, none) => encodeStrsW e indent false t w1

/-- The end of `encodeSlice`: the closing bracket, then `return err`. -/
def closeSlice (e : Encoder) (indent : Nat) (len : Nat) (r : Writer × Option Err) :
    Writer × Option Err :=
  (if 0 < len then Fprintf (Fprintf r.1 (Fprintf0 e.newline)) (indents e indent ++ [93])
   else Fprintf r.1 [93], r.2)

mutual

/-- The method `doencode` with the methods `encodeMap` and `encodeSlice`. -/
def doencodeW (e : Encoder) (v : Value) (parenttype : ParentType) (indent : Nat) (w : Writer) :
    Writer × Option Err :=
  match v with
  | Value.map m =>
    let child := fun (k : Bytes) => ((mapChildrenW e m indent).lookup k).getD
      (fun w1 => encodeScalarW e w1 none ParentType.parent_map (indent + 1))
    match mapGet m KeyOrder with
    | some (Value.strs korder) => encodeMapW e child parenttype indent korder w
    | _ => encodeMapW e child parenttype indent (m.map Prod.fst) w
  | Value.list l => closeSlice e indent l.length (sliceElemsW e l indent true (Fprintf w [91]))
  | Value.strs l => closeSlice e indent l.length (encodeStrsW e indent true l (Fprintf w [91]))
  | Value.tag _ => encodeStructW e w parenttype
  | Value.str s => encodeScalarW e w (some s) parenttype indent
  | Value.null => encodeScalarW e w none parenttype indent

/-- For every entry of a map, the part of a round of the loop of `encodeMap`
for its value: the blank when the value is valid, then the
`switch cv.Kind()`. -/
def mapChildrenW (e : Encoder) (m : List (Bytes × Value)) (indent : Nat) :
    List (Bytes × (Writer → Writer × Option Err)) :=
  match m with
  | [] => []
  | (k, Value.null) :: t =>
    (k, fun w => doencodeW e Value.null ParentType.parent_map (indent + 1) w) ::
      mapChildrenW e t indent
  | (k, Value.list l) :: t =>
    (k, fun w => doencodeW e (Value.list l) ParentType.parent_map indent (Fprintf w [32])) ::
      mapChildrenW e t indent
  | (k, Value.strs l) :: t =>
    (k, fun w => doencodeW e (Value.strs l) ParentType.parent_map indent (Fprintf w [32])) ::
      mapChildrenW e t indent
  | (k, Value.map c) :: t =>
    (k, fun w =>
      match doencodeW e (Value.map c) ParentType.parent_map (indent + 1)
          (Fprintf (Fprintf w [32]) ([123] ++ e.newline)) with
      | (w1, err) => (Fprintf w1 (indents e indent ++ [125]), err)) :: mapChildrenW e t indent
  | (k, v) :: t =>
    (k, fun w => doencodeW e v ParentType.parent_map (indent + 1) (Fprintf w [32])) ::
      mapChildrenW e t indent

/-- The loop of `encodeSlice` over a `[]interface{}`. -/
def sliceElemsW (e : Encoder) (l : List Value) (indent : Nat) (first : Bool) (w : Writer) :
    Writer × Option Err :=
  match l with
  | [] => (w, none)
  | v :: t =>
    match (match v with
      | Value.list x =>
        doencodeW e (Value.list x) ParentType.parent_array indent
          (Fprintf w (if first then Fprintf0 e.newline else [44] ++ e.newline))
      | Value.strs x =>
        doencodeW e (Value.strs x) ParentType.parent_array indent
          (Fprintf w (if first then Fprintf0 e.newline else [44] ++ e.newline))
      | Value.map c =>
        match doencodeW e (Value.map c) ParentType.parent_array (indent + 2)
            (Fprintf (Fprintf w (if first then Fprintf0 e.newline else [44] ++ e.newline))
              (e.indenter ++ indents e indent ++ [123] ++ e.newline)) with
        | (w1, err) => (Fprintf w1 (e.indenter ++ indents e indent ++ [125]), err)
      | x =>
        doencodeW e x ParentType.parent_array (indent + 1)
          (Fprintf w (if first then Fprintf0 e.newline else [44] ++ e.newline))) with
    | (w2, some err) => (w2, some err)
    | (w2, none) => sliceElemsW e t indent false w2

end

/-- The function `Encode` writing to `w`: the writer after the call and the
error returned. -/
def EncodeW (tbl : Nat → Bool) (w : Writer) (v : Value) (indenter nilval : Bytes) :
    Writer × Option Err :=
  doencodeW { tbl := tbl, indenter := indenter, newline := if indenter ≠ [] then [10] else [],
              nilval := nilval } v ParentType.parent_map 0 w

/-- Between the writers `w` and `w1` the `Write` calls add up to `text`, and
the two fail on the same calls. -/
def Wrote (w w1 : Writer) (text : Bytes) : Prop :=
  w1.calls.flatten = w.calls.flatten ++ text ∧ w1.fails = w.fails

/-- The entries of `mapChildrenW` and of `mapChildren` go by pairs: the same
key, and a function that writes what the other holds. -/
def ChildrenAgree (cw : List (Bytes × (Writer → Writer × Option Err)))
    (c : List (Bytes × Bytes)) : Prop :=
  List.Forall₂ (fun a b => a.1 = b.1 ∧ ∀ w, Wrote w (a.2 w).1 b.2) cw c

/-- A writer on which every `Write` fails. -/
def brokenWriter : Writer := ⟨[], fun _ => true⟩

/-- The document decoded from `a 1;`. -/
def oneEntryDoc : Value := Value.map [(KeyOrder, Value.strs [B "a"]), (B "a", Value.str (B "1"))]

/-! ### Flat documents and input read in chunks -/

/-- Rounds of the loop of `nexttags` over the bytes `w`, from the scanner `s`
with the pending tags `tags`: every round goes round again, with no further
byte consumed, whatever follows its byte in the buffer. -/
inductive Runs : Scanner → List Tag → Bytes → Scanner → List Tag → Prop
  | nil (s : Scanner) (tags : List Tag) : Runs s tags [] s tags
  | cons (s s1 s2 : Scanner) (tags tags1 tags2 : List Tag) (c : Nat) (w : Bytes) :
      (∀ rest, step s tags c rest = Step.cont s1 tags1 0) → Runs s1 tags1 w s2 tags2 →
      Runs s tags (c :: w) s2 tags2

/-- The flat map with the key-order list `k1 .. kn` and the string `vi`
under the key `ki`. -/
def flatMap (kvs : List (Bytes × Bytes)) : GoMap :=
  (KeyOrder, Value.strs (kvs.map Prod.fst)) :: entriesOf kvs

/-- The text `body` inside the blocks of the keys `xs`, outermost first,
each key led by a blank: for the keys `x1`, `x2` it is ` x1 {` ` x2 {`
`body` ` }` ` }`. -/
def nestSp (xs : List Bytes) (body : Bytes) : Bytes :=
  match xs with
  | [] => body
  | x :: t => 32 :: (x ++ 32 :: 123 :: (nestSp t body ++ [32, 125]))

/-- The text `x1 { x2 { ... body } }`: `nestSp` without its leading blank. -/
def nested (xs : List Bytes) (body : Bytes) : Bytes := (nestSp xs body).drop 1

/-- The map `m` under the keys `xs`, outermost first: every level is a map
with its key-order list and the one key. -/
def nestMap (xs : List Bytes) (m : GoMap) : GoMap :=
  match xs with
  | [] => m
  | x :: t => [(KeyOrder, Value.strs [x]), (x, Value.map (nestMap t m))]

/-! ## Properties -/

set_option maxRecDepth 100000

/-- C5 (failing input): decoding `{a,}` returns no error, and the value
stored under `a` is the scanner's comma token, not a string, map, array or
nil. -/
theorem C5_token_stored_as_value :
    (Ucl true [B "\x7ba,\x7d"]).err = none ∧
    (Ucl true [B "\x7ba,\x7d"]).ucl =
      Value.map [(KeyOrder, Value.strs [B "a"]),
                 (B "a", Value.tag { val := B ",", state := St.COMMA })] := by
  constructor
  · decide
  · rfl

/-- C7 (failing input): for the one-byte string `%`, which is non-empty,
does not start with `/` and is no heredoc, `encodeStr` gives `"%"` but
`encodeScalar` writes `"%!"(MISSING)`. -/
theorem C7_percent_value_not_encodeStr :
    encodeStr noTbl (B "%") = B "\"%\"" ∧
    encodeScalar { tbl := noTbl, indenter := B "   ", newline := B "\n", nilval := [] }
      (some (B "%")) ParentType.parent_map 1 = B "\"%!\"(MISSING)" ∧
    encodeScalar { tbl := noTbl, indenter := B "   ", newline := B "\n", nilval := [] }
      (some (B "%")) ParentType.parent_map 1 ≠ encodeStr noTbl (B "%") := by
  refine ⟨by decide, by decide, by decide⟩

theorem isAlnum_iff (c : Nat) :
    isAlnum c = true ↔ (97 ≤ c ∧ c ≤ 122) ∨ (65 ≤ c ∧ c ≤ 90) ∨ (48 ≤ c ∧ c ≤ 57) := by
  simp [isAlnum, or_assoc]

theorem isAlnum_false_of (c : Nat) (h : c < 48 ∨ 122 < c) : isAlnum c = false := by
  rw [Bool.eq_false_iff]; intro ha; rw [isAlnum_iff] at ha; omega

theorem decodeMulti_ge (s0 sz lo hi n s1 s2 s3 : Nat) (h0 : 194 ≤ s0) (h1 : s0 ≤ 244)
    (hsz : sz = if s0 < 224 then 2 else if s0 < 240 then 3 else 4)
    (hlo : lo = if s0 = 224 then 160 else if s0 = 240 then 144 else 128)
    (hhi : hi ≤ 191) :
    128 ≤ (decodeMulti s0 sz lo hi n s1 s2 s3).1 := by
  unfold decodeMulti
  split_ifs at hsz hlo ⊢ <;> simp only [] <;> omega

theorem decodeRune_ge (c : Nat) (rest : Bytes) (h : 128 ≤ c) :
    128 ≤ (decodeRune (c :: rest)).1 := by
  simp only [decodeRune]
  rw [if_neg (by omega)]
  by_cases hinv : c < 194 ∨ 244 < c
  · rw [if_pos hinv]; decide
  · rw [if_neg hinv]
    apply decodeMulti_ge _ _ _ _ _ _ _ _ (by omega) (by omega) rfl rfl
    split_ifs <;> omega

theorem encodeRune_head (r : Nat) (h : r ≤ 0x7F → isAlnum r = false) :
    ∃ a t, encodeRune r = a :: t ∧ isAlnum a = false := by
  unfold encodeRune
  split_ifs with h1 h2 h3 h4
  · exact ⟨_, _, rfl, h h1⟩
  all_goals refine ⟨_, _, rfl, isAlnum_false_of _ (by omega)⟩

theorem head?_ite (p : Prop) [Decidable p] (a b : Bytes) (x : Nat)
    (ha : a.head? = some x) (hb : b.head? = some x) :
    (if p then a else b).head? = some x := by
  split <;> assumption

theorem escapeOther_head (r : Nat) : ∃ t, escapeOther r = 92 :: t := by
  have h : (escapeOther r).head? = some 92 := by
    unfold escapeOther
    repeat (first | rfl | apply head?_ite)
  cases hx : escapeOther r with
  | nil => rw [hx] at h; cases h
  | cons a t =>
    rw [hx] at h
    simp only [List.head?_cons, Option.some.injEq] at h
    exact ⟨t, by rw [h]⟩

theorem appendEscapedRune_head (tbl : Nat → Bool) (r : Nat) (h : isAlnum r = false) :
    ∃ a t, appendEscapedRune tbl r = a :: t ∧ isAlnum a = false := by
  unfold appendEscapedRune
  split_ifs
  · exact ⟨92, _, rfl, by decide⟩
  · exact encodeRune_head r (fun _ => h)
  · obtain ⟨t, e⟩ := escapeOther_head r
    exact ⟨92, t, e, by decide⟩

theorem appendEscapedRune_alnum (tbl : Nat → Bool) (c : Nat) (h : isAlnum c = true) :
    appendEscapedRune tbl c = [c] := by
  rw [isAlnum_iff] at h
  have h1 : ¬ (c = 34 ∨ c = 92) := by omega
  have h2 : isPrint tbl c = true := by
    unfold isPrint
    rw [if_pos (by omega), if_pos (by omega)]
  have h3 : encodeRune c = [c] := by
    unfold encodeRune
    rw [if_pos (by omega)]
  unfold appendEscapedRune
  rw [if_neg h1, if_pos h2, h3]

theorem quoteBody_cons_alnum (tbl : Nat → Bool) (c : Nat) (rest : Bytes) (h : isAlnum c = true) :
    quoteBody tbl 0 (c :: rest) = c :: quoteBody tbl 0 rest := by
  have hc := (isAlnum_iff c).1 h
  have h1 : ¬ 128 ≤ c := by omega
  simp only [quoteBody, if_neg h1]
  rw [if_neg (by omega), appendEscapedRune_alnum tbl c h]
  rfl

theorem quoteBody_cons_other (tbl : Nat → Bool) (c : Nat) (rest : Bytes) (h : isAlnum c = false) :
    ∃ a t, quoteBody tbl 0 (c :: rest) = a :: t ∧ isAlnum a = false := by
  simp only [quoteBody]
  split_ifs with h1 h2 h3
  · exact ⟨92, _, rfl, by decide⟩
  · obtain ⟨a, t, e, ha⟩ := appendEscapedRune_head tbl (decodeRune (c :: rest)).1
      (isAlnum_false_of _ (by have := decodeRune_ge c rest h1; omega))
    exact ⟨a, _, by rw [e]; rfl, ha⟩
  · exact ⟨92, _, rfl, by decide⟩
  · obtain ⟨a, t, e, ha⟩ := appendEscapedRune_head tbl c h
    exact ⟨a, _, by simp only [e]; rfl, ha⟩

theorem quoteBody_all (tbl : Nat → Bool) (s : Bytes) :
    (quoteBody tbl 0 s).all isAlnum = s.all isAlnum ∧
    (s.all isAlnum = true → quoteBody tbl 0 s = s) := by
  induction s with
  | nil => simp [quoteBody]
  | cons c rest ih =>
    cases h : isAlnum c
    · obtain ⟨a, t, e, ha⟩ := quoteBody_cons_other tbl c rest h
      simp [e, ha, h]
    · rw [quoteBody_cons_alnum tbl c rest h]
      simp only [List.all_cons, h, Bool.true_and]
      refine ⟨ih.1, fun hr => by rw [ih.2 hr]⟩

theorem encodeStr_eq (tbl : Nat → Bool) (s : Bytes) :
    encodeStr tbl s = if s.all isAlnum then s else Quote tbl s := by
  have hb : ((Quote tbl s).drop 1).dropLast = quoteBody tbl 0 s := by
    simp [Quote]
  unfold encodeStr
  simp only [hb, (quoteBody_all tbl s).1]


theorem escapeOther_len (r : Nat) (h : 128 ≤ r) : 4 ≤ (escapeOther r).length := by
  unfold escapeOther
  rw [if_neg (by omega), if_neg (by omega), if_neg (by omega), if_neg (by omega),
    if_neg (by omega), if_neg (by omega), if_neg (by omega), if_neg (by omega)]
  split
  · decide
  · split
    · simp
    · simp

theorem encodeRune_len2 (r : Nat) (h1 : 128 ≤ r) (_h2 : r ≤ 2047) :
    2 ≤ (encodeRune r).length := by
  unfold encodeRune
  rw [if_neg (by omega)]
  split_ifs <;> simp

theorem encodeRune_len3 (r : Nat) (h1 : 2048 ≤ r) :
    3 ≤ (encodeRune r).length := by
  unfold encodeRune
  rw [if_neg (by omega), if_neg (by omega)]
  split_ifs <;> simp

theorem encodeRune_len4 (r : Nat) (h1 : 65536 ≤ r) (h2 : r ≤ 1114111) :
    4 ≤ (encodeRune r).length := by
  unfold encodeRune
  rw [if_neg (by omega), if_neg (by omega), if_neg (by omega), if_neg (by omega)]
  simp

theorem decodeMulti_len (s0 sz lo hi n s1 s2 s3 : Nat) (h0 : 194 ≤ s0) (h1 : s0 ≤ 244)
    (hsz : sz = if s0 < 224 then 2 else if s0 < 240 then 3 else 4)
    (hlo : lo = if s0 = 224 then 160 else if s0 = 240 then 144 else 128)
    (hhi : hi = if s0 = 237 then 159 else if s0 = 244 then 143 else 191) :
    (decodeMulti s0 sz lo hi n s1 s2 s3).2
      ≤ (encodeRune (decodeMulti s0 sz lo hi n s1 s2 s3).1).length := by
  unfold decodeMulti
  split_ifs at hsz hlo hhi ⊢ <;> simp only [] <;>
    first
    | decide
    | exact encodeRune_len2 _ (by omega) (by omega)
    | exact encodeRune_len3 _ (by omega)
    | exact encodeRune_len4 _ (by omega) (by omega)


theorem decodeMulti_width (s0 sz lo hi n s1 s2 s3 : Nat) :
    1 ≤ (decodeMulti s0 sz lo hi n s1 s2 s3).2 ∧ (decodeMulti s0 sz lo hi n s1 s2 s3).2 ≤ 4 := by
  unfold decodeMulti
  split_ifs <;> simp

theorem decodeRune_width (c : Nat) (rest : Bytes) :
    1 ≤ (decodeRune (c :: rest)).2 ∧ (decodeRune (c :: rest)).2 ≤ 4 := by
  simp only [decodeRune]
  split
  · simp
  · split
    · simp
    · exact decodeMulti_width _ _ _ _ _ _ _ _

theorem decodeRune_len (c : Nat) (rest : Bytes) (h : 128 ≤ c) :
    (decodeRune (c :: rest)).2 ≤ (encodeRune (decodeRune (c :: rest)).1).length := by
  simp only [decodeRune]
  rw [if_neg (by omega)]
  by_cases hinv : c < 194 ∨ 244 < c
  · rw [if_pos hinv]; decide
  · rw [if_neg hinv]
    exact decodeMulti_len _ _ _ _ _ _ _ _ (by omega) (by omega) rfl rfl rfl

theorem appendEscapedRune_len (tbl : Nat → Bool) (c : Nat) (rest : Bytes) (h : 128 ≤ c) :
    (decodeRune (c :: rest)).2 ≤ (appendEscapedRune tbl (decodeRune (c :: rest)).1).length := by
  have hr := decodeRune_ge c rest h
  have hw := decodeRune_width c rest
  unfold appendEscapedRune
  rw [if_neg (by omega)]
  split
  · exact decodeRune_len c rest h
  · have := escapeOther_len _ hr
    omega

theorem appendEscapedRune_len_pos (tbl : Nat → Bool) (r : Nat) :
    1 ≤ (appendEscapedRune tbl r).length := by
  unfold appendEscapedRune
  split
  · simp
  · split
    · unfold encodeRune
      split_ifs <;> simp
    · obtain ⟨t, e⟩ := escapeOther_head r
      rw [e]; simp

theorem quoteBody_len (tbl : Nat → Bool) (s : Bytes) :
    ∀ k, s.length ≤ (quoteBody tbl k s).length + k := by
  induction s with
  | nil => intro k; simp
  | cons c rest ih =>
    intro k
    cases k with
    | succ k =>
      have := ih k
      simp only [quoteBody, List.length_cons]
      omega
    | zero =>
      simp only [quoteBody, List.length_cons, List.length_append]
      by_cases hc : 128 ≤ c
      · simp only [if_pos hc]
        have hw := decodeRune_width c rest
        have h1 := ih ((decodeRune (c :: rest)).2 - 1)
        split
        · simp only [List.length_cons, List.length_nil]
          omega
        · have := appendEscapedRune_len tbl c rest hc
          omega
      · simp only [if_neg hc]
        have h1 := ih 0
        split
        · simp only [List.length_cons, List.length_nil]
          omega
        · have := appendEscapedRune_len_pos tbl c
          simp only [Nat.sub_self]
          omega

theorem Quote_ne (tbl : Nat → Bool) (s : Bytes) : Quote tbl s ≠ s := by
  intro h
  have h1 := congrArg List.length h
  have h2 := quoteBody_len tbl s 0
  simp only [Quote, List.length_append, List.length_cons, List.length_nil] at h1
  omega

/-- C6: `encodeStr(s)` is `s` itself when every byte of `s` is an ASCII
letter or digit and `strconv.Quote(s)`, which always differs from `s`,
otherwise; `abc123` comes back unquoted and `adsfasf:asdfsa` quoted. -/
theorem C6_encodeStr_quoting_rule (tbl : Nat → Bool) (s : Bytes) :
    encodeStr tbl s = (if s.all isAlnum then s else Quote tbl s) ∧
    Quote tbl s ≠ s ∧
    (encodeStr tbl s = s ↔ s.all isAlnum = true) ∧
    encodeStr tbl (B "abc123") = B "abc123" ∧
    encodeStr tbl (B "adsfasf:asdfsa") = B "\"adsfasf:asdfsa\"" := by
  have he := encodeStr_eq tbl
  refine ⟨he s, Quote_ne tbl s, ?_, ?_, ?_⟩
  · rw [he s]
    constructor
    · intro h
      by_contra hn
      rw [if_neg hn] at h
      exact Quote_ne tbl s h
    · intro h
      rw [if_pos h]
  · rw [he]; rfl
  · rw [he]; rfl

theorem percent_decode :
    (Ucl true [B "a \"%\";"]).ucl = percentDoc ∧ (Ucl true [B "a \"%\";"]).err = none :=
  ⟨by rfl, by decide⟩

theorem percent_encode : testEncode percentDoc = B "a \"%!\"(MISSING);\n" := by decide

theorem percent_decode2 :
    (Ucl true [B "a \"%!\"(MISSING);\n"]).ucl = percentDoc2 ∧
    (Ucl true [B "a \"%!\"(MISSING);\n"]).err = none :=
  ⟨by rfl, by decide⟩

theorem percent_encode2 :
    testEncode percentDoc2 = B "a \x7b\n   \"%!\" \"(MISSING)\";\n\x7d;\n" := by decide

/-- C1 (failing input): the document decoded from `a "%";` is returned
without error, and encoding it, decoding that text and encoding again does
not give back the first encoding: the value is handed to `fmt.Fprintf` as a
format string and comes out as `"%!"(MISSING)`, which decodes to a map. -/
theorem C1_roundtrip_unstable :
    (Ucl true [B "a \"%\";"]).err = none ∧
    testEncode (Ucl true [B "a \"%\";"]).ucl = B "a \"%!\"(MISSING);\n" ∧
    (Ucl true [testEncode (Ucl true [B "a \"%\";"]).ucl]).err = none ∧
    testEncode (Ucl true [testEncode (Ucl true [B "a \"%\";"]).ucl]).ucl
      = B "a \x7b\n   \"%!\" \"(MISSING)\";\n\x7d;\n" ∧
    testEncode (Ucl true [testEncode (Ucl true [B "a \"%\";"]).ucl]).ucl
      ≠ testEncode (Ucl true [B "a \"%\";"]).ucl := by
  rw [percent_decode.1, percent_encode, percent_decode2.1, percent_encode2]
  exact ⟨percent_decode.2, rfl, percent_decode2.2, rfl, by decide⟩

theorem fmtLoop_no_percent (fuel : Nat) (s : Bytes) (h : ∀ c ∈ s, c ≠ 37) :
    fmtLoop (fuel + 1) s = s := by
  have ht : s.takeWhile (fun c => decide (c ≠ 37)) = s := by
    rw [List.takeWhile_eq_self_iff]
    intro c hc
    simpa using h c hc
  simp only [fmtLoop, ht, List.drop_length]

theorem Fprintf0_no_percent (s : Bytes) (h : ∀ c ∈ s, c ≠ 37) : Fprintf0 s = s :=
  fmtLoop_no_percent _ s h

theorem Fprintf0_head (c : Nat) (x : Bytes) (h : c ≠ 37) : ∃ t, Fprintf0 (c :: x) = c :: t := by
  unfold Fprintf0
  simp only [List.length_cons, fmtLoop, List.takeWhile_cons, h, decide_True, ne_eq,
    not_false_eq_true, if_true]
  split
  · exact ⟨_, rfl⟩
  · exact ⟨_, rfl⟩

theorem alnum_ne_percent (s : Bytes) (h : s.all isAlnum = true) : ∀ c ∈ s, c ≠ 37 := by
  intro c hc hp
  rw [List.all_eq_true] at h
  have := h c hc
  rw [hp] at this
  revert this
  decide

theorem encodeString_short (e : Encoder) (s : Bytes) (h : ¬ (160 < s.length ∧ 3 < s.count 10)) :
    encodeString e s ≠ B "<<EOSTR\n" ++ s ++ B "\nEOSTR" := by
  have hnl : ¬ 3 < (if 160 < s.length then s.count 10 else 0) := by
    split
    · rename_i h1; intro h2; exact h ⟨h1, h2⟩
    · omega
  unfold encodeString
  simp only [if_neg hnl]
  split
  · intro hx; cases hx
  · split
    · rw [encodeStr_eq e.tbl s]
      split
      · rename_i ha
        rw [Fprintf0_no_percent s (alnum_ne_percent s ha)]
        intro hx
        have := congrArg List.length hx
        have h1 : (B "<<EOSTR\n").length = 8 := rfl
        have h2 : (B "\nEOSTR").length = 6 := rfl
        simp only [List.length_append, h1, h2] at this
        omega
      · obtain ⟨t, ht⟩ := Fprintf0_head 34 (quoteBody e.tbl 0 s ++ [34]) (by decide)
        have hq : Quote e.tbl s = 34 :: (quoteBody e.tbl 0 s ++ [34]) := rfl
        rw [hq, ht]
        intro hx; cases hx
    · intro hx
      have := congrArg List.length hx
      have h1 : (B "<<EOSTR\n").length = 8 := rfl
      have h2 : (B "\nEOSTR").length = 6 := rfl
      simp only [List.length_append, h1, h2] at this
      omega

/-- C8: `Encode` writes the string `s` as the heredoc block `<<EOSTR`,
newline, `s`, newline, `EOSTR` exactly when `s` is longer than 160 bytes and
holds more than 3 newlines; a 170-byte string with 4 newlines is written as
a heredoc and one with 3 newlines as its quoted literal. -/
theorem C8_heredoc_threshold (tbl : Nat → Bool) (indenter nilval s : Bytes) :
    (Encode tbl (Value.str s) indenter nilval = B "<<EOSTR\n" ++ s ++ B "\nEOSTR"
      ↔ (160 < s.length ∧ 3 < s.count 10)) ∧
    (sample170 4).length = 170 ∧ (sample170 4).count 10 = 4 ∧
    Encode tbl (Value.str (sample170 4)) indenter nilval
      = B "<<EOSTR\n" ++ sample170 4 ++ B "\nEOSTR" ∧
    (sample170 3).length = 170 ∧ (sample170 3).count 10 = 3 ∧
    Encode tbl (Value.str (sample170 3)) indenter nilval = Quote tbl (sample170 3) := by
  have hE : ∀ x, Encode tbl (Value.str x) indenter nilval
      = encodeString { tbl := tbl, indenter := indenter,
                       newline := if indenter ≠ [] then [10] else [], nilval := nilval } x := by
    intro x
    simp [Encode, doencode, encodeScalar]
  refine ⟨?_, by decide, by decide, ?_, by decide, by decide, ?_⟩
  · rw [hE]
    constructor
    · intro h
      by_contra hn
      exact encodeString_short _ s hn h
    · intro h
      unfold encodeString
      simp only [if_pos h.1, if_pos h.2]
  · rw [hE]; rfl
  · rw [hE]; rfl

theorem isBare_iff (c : Nat) :
    isBare c = true ↔ 32 < c ∧ c ≠ 34 ∧ c ≠ 35 ∧ c ≠ 39 ∧ c ≠ 44 ∧ c ≠ 47 ∧ c ≠ 58 ∧ c ≠ 59 ∧
      c ≠ 60 ∧ c ≠ 61 ∧ c ≠ 91 ∧ c ≠ 92 ∧ c ≠ 93 ∧ c ≠ 123 ∧ c ≠ 125 := by
  simp [isBare, and_assoc]

theorem isBare_of_isAlnum (c : Nat) (h : isAlnum c = true) : isBare c = true := by
  rw [isAlnum_iff] at h
  rw [isBare_iff]
  omega

theorem WhiteEnd_nil : WhiteEnd [] := by
  intro b h; cases h

theorem WhiteEnd_append (ct : Bytes) (c : Nat) (h : c ≤ 32) : WhiteEnd (ct ++ [c]) := by
  intro b hb
  simp at hb
  omega

theorem whiteEnd_discard (ct : Bytes) (h : WhiteEnd ct) :
    (if 0 < ct.length ∧ ct.getLast?.getD 0 ≤ 32 then ([] : Bytes) else ct) = [] := by
  cases hl : ct.getLast? with
  | none =>
    rw [List.getLast?_eq_none_iff] at hl
    simp [hl]
  | some b =>
    have hb := h b hl
    have hne : ct ≠ [] := by
      intro h0; rw [h0] at hl; cases hl
    have : 0 < ct.length := List.length_pos.2 hne
    simp [this, hb]

theorem step_white_bare (d ct : Bytes) (sw ss : Bool) (ln : Nat) (mt cl : Bytes)
    (tags : List Tag) (c : Nat) (rest : Bytes) (hct : WhiteEnd ct) (hc : isBare c = true) :
    step ⟨d, ct, St.WHITESPACE, sw, ss, ln, mt, cl⟩ tags c rest =
      Step.cont ⟨d, [c], St.TAG, true, true, ln, mt, cl⟩ tags 0 := by
  rw [isBare_iff] at hc
  obtain ⟨h1, h2, h3, h4, h5, h6, h7, h8, h9, h11, h12, h13, h14, h15, h16⟩ := hc
  have h10 : c ≠ 10 := by omega
  have hle : ¬ c ≤ 32 := by omega
  have hd := whiteEnd_discard ct hct
  cases hl : ct.getLast? with
  | none =>
    rw [List.getLast?_eq_none_iff] at hl
    subst hl
    simp [step, stepWhite, discard, *]
  | some b =>
    have hb := hct b hl
    have hne : ct ≠ [] := by
      intro h0; rw [h0] at hl; cases hl
    have : 0 < ct.length := List.length_pos.2 hne
    simp [step, stepWhite, discard, *]

theorem step_tag_bare (d ct : Bytes) (sw ss : Bool) (ln : Nat) (mt cl : Bytes)
    (tags : List Tag) (c : Nat) (rest : Bytes) (hct : ct.getLast? ≠ some 60)
    (hc : isBare c = true) :
    step ⟨d, ct, St.TAG, sw, ss, ln, mt, cl⟩ tags c rest =
      Step.cont ⟨d, ct ++ [c], St.TAG, if 0 < tags.length then false else sw, ss, ln, mt, cl⟩
        tags 0 := by
  rw [isBare_iff] at hc
  obtain ⟨h1, h2, h3, h4, h5, h6, h7, h8, h9, h11, h12, h13, h14, h15, h16⟩ := hc
  have h10 : c ≠ 10 := by omega
  have hle : ¬ c ≤ 32 := by omega
  simp [step, stepTag, *]


theorem getLast?_append_bare (ct w : Bytes) (hct : ct.getLast? ≠ some 60)
    (hw : ∀ c ∈ w, isBare c = true) : (ct ++ w).getLast? ≠ some 60 := by
  intro h
  rcases List.eq_nil_or_concat w with hnil | ⟨w', c, hwc⟩
  · subst hnil; simp at h; exact hct h
  · subst hwc
    rw [List.concat_eq_append, ← List.append_assoc, List.getLast?_concat] at h
    have hc : c = 60 := by simpa using h
    have := hw 60 (by simp [hc])
    revert this; decide

theorem nil_getLast?_ne : ([] : Bytes).getLast? ≠ some 60 := by simp

theorem step_tag_space_first (d ct : Bytes) (sw ss : Bool) (ln : Nat) (mt cl : Bytes)
    (rest : Bytes) (hct : ct.getLast? ≠ some 60) (hne : ct ≠ []) :
    step ⟨d, ct, St.TAG, sw, ss, ln, mt, cl⟩ [] 32 rest =
      Step.cont ⟨d, [], St.TAG, sw, ss, ln, mt, cl⟩ [⟨ct, St.TAG⟩] 0 := by
  have : 0 < ct.length := List.length_pos.2 hne
  simp [step, stepTag, emit0, maketag0, *]

theorem step_tag_space_more (d ct : Bytes) (ss : Bool) (ln : Nat) (mt cl : Bytes)
    (tags : List Tag) (rest : Bytes) (hct : ct.getLast? ≠ some 60) (ht : tags ≠ []) :
    step ⟨d, ct, St.TAG, false, ss, ln, mt, cl⟩ tags 32 rest =
      Step.cont ⟨d, ct ++ [32], St.TAG, false, ss, ln, mt, cl⟩ tags 0 := by
  have : tags.length ≠ 0 := by
    intro h; exact ht (List.length_eq_zero.1 h)
  simp [step, stepTag, *]

theorem step_tag_semi (d ct : Bytes) (sw ss : Bool) (ln : Nat) (mt cl : Bytes)
    (tags : List Tag) (rest : Bytes) (hct : ct.getLast? ≠ some 60) (hne : ct ≠ []) :
    step ⟨d, ct, St.TAG, sw, ss, ln, mt, cl⟩ tags 59 rest =
      Step.ret ⟨d, [], St.WHITESPACE, sw, ss, ln, mt, cl⟩
        (tags ++ [⟨ct, St.TAG⟩, ⟨[59], St.SEMICOL⟩]) := by
  have : 0 < ct.length := List.length_pos.2 hne
  simp [step, stepTag, emit0, maketag0, *]

theorem step_white_blank (d ct : Bytes) (sw ss : Bool) (ln : Nat) (mt cl : Bytes)
    (rest : Bytes) :
    step ⟨d, ct, St.WHITESPACE, sw, ss, ln, mt, cl⟩ [] 32 rest =
      Step.cont ⟨d, ct ++ [32], St.WHITESPACE, sw, ss, ln, mt, cl⟩ [] 0 := by
  simp [step, stepWhite]

theorem buf_tag_word (d : Bytes) (ss : Bool) (ln : Nat) (mt cl : Bytes) (tags : List Tag)
    (rest : Bytes) (w : Bytes) (hw : ∀ c ∈ w, isBare c = true) :
    ∀ (ct : Bytes) (sw : Bool), ct.getLast? ≠ some 60 →
    nexttagsBuf ⟨d, ct, St.TAG, sw, ss, ln, mt, cl⟩ tags 0 (w ++ rest) =
      nexttagsBuf ⟨d, ct ++ w, St.TAG, if w ≠ [] ∧ 0 < tags.length then false else sw,
        ss, ln, mt, cl⟩ tags 0 rest := by
  induction w with
  | nil => intro ct sw _; simp
  | cons c w ih =>
    intro ct sw hct
    have hc := hw c (by simp)
    have hw' : ∀ x ∈ w, isBare x = true := fun x hx => hw x (by simp [hx])
    have hct' : (ct ++ [c]).getLast? ≠ some 60 :=
      getLast?_append_bare ct [c] hct (by intro x hx; simp at hx; subst hx; exact hc)
    rw [List.cons_append, nexttagsBuf, step_tag_bare d ct sw ss ln mt cl tags c _ hct hc]
    simp only []
    rw [ih hw' (ct ++ [c]) _ hct']
    congr 2
    · simp
    · by_cases ht : 0 < tags.length <;> simp [ht]


theorem Bareword.of_alnum (w : Bytes) (h : Alnum w) : Bareword w :=
  ⟨h.1, fun c hc => isBare_of_isAlnum c (h.2 c hc)⟩

theorem buf_white_blank (d ct : Bytes) (sw ss : Bool) (ln : Nat) (mt cl : Bytes) (buf : Bytes) :
    nexttagsBuf ⟨d, ct, St.WHITESPACE, sw, ss, ln, mt, cl⟩ [] 0 (32 :: buf) =
      nexttagsBuf ⟨d, ct ++ [32], St.WHITESPACE, sw, ss, ln, mt, cl⟩ [] 0 buf := by
  rw [nexttagsBuf, step_white_blank]

theorem scan_stmt (d ct : Bytes) (sw ss : Bool) (ln : Nat) (mt cl : Bytes) (k v rest : Bytes)
    (hct : WhiteEnd ct) (hk : Bareword k) (hv : Bareword v) :
    nexttagsBuf ⟨d, ct, St.WHITESPACE, sw, ss, ln, mt, cl⟩ [] 0 (k ++ 32 :: (v ++ 59 :: rest)) =
      BufOut.ret ⟨d, [], St.WHITESPACE, false, true, ln, mt, cl⟩
        [⟨k, St.TAG⟩, ⟨v, St.TAG⟩, ⟨[59], St.SEMICOL⟩] rest := by
  obtain ⟨hkne, hkb⟩ := hk
  obtain ⟨hvne, hvb⟩ := hv
  cases k with
  | nil => exact absurd rfl hkne
  | cons c k' =>
    have hc := hkb c (by simp)
    have hk' : ∀ x ∈ k', isBare x = true := fun x hx => hkb x (by simp [hx])
    have h1 : ([c] : Bytes).getLast? ≠ some 60 :=
      getLast?_append_bare [] [c] nil_getLast?_ne (by intro x hx; simp at hx; subst hx; exact hc)
    have h2 : ([c] ++ k').getLast? ≠ some 60 := getLast?_append_bare [c] k' h1 hk'
    have h3 : (([] : Bytes) ++ v).getLast? ≠ some 60 := getLast?_append_bare [] v nil_getLast?_ne hvb
    rw [List.cons_append, nexttagsBuf, step_white_bare d ct sw ss ln mt cl [] c _ hct hc]
    simp only []
    rw [buf_tag_word d true ln mt cl [] _ k' hk' [c] true h1]
    rw [nexttagsBuf, step_tag_space_first d _ _ true ln mt cl _ h2 (by simp)]
    simp only []
    rw [buf_tag_word d true ln mt cl _ _ v hvb [] _ nil_getLast?_ne]
    rw [nexttagsBuf, step_tag_semi d _ _ true ln mt cl _ _ h3 (by simpa using hvne)]
    simp [hvne]

theorem nexttags_first_read (s : Scanner) (chunk : Bytes) (r : List Rd) (h : chunk ≠ []) :
    nexttags s [] (chunk :: r) = nexttags s chunk r := by
  have : chunk.length ≠ 0 := by
    intro h0; exact h (List.length_eq_zero.1 h0)
  unfold nexttags
  conv_lhs => rw [nexttagsFrom]
  simp only [nexttagsBuf, if_neg this]

theorem nexttag_first_read (s : Scanner) (chunk : Bytes) (r : List Rd) (h : chunk ≠ []) :
    nexttag ⟨s, [], chunk :: r, []⟩ = nexttag ⟨s, chunk, r, []⟩ := by
  have hr : (⟨s, [], chunk :: r, []⟩ : Parser).remaining = (⟨s, chunk, r, []⟩ : Parser).remaining := by
    simp [Parser.remaining]
  unfold nexttag
  rw [hr]
  simp only [nexttagLoop, List.dropWhile_nil, nexttags_first_read s chunk r h]

theorem nexttag_tags (s : Scanner) (buf : Bytes) (r : List Rd) (t : Tag) (ts : List Tag)
    (h : filtered t = false) :
    nexttag ⟨s, buf, r, t :: ts⟩ = (Except.ok t, ⟨s, buf, r, ts⟩) := by
  simp [nexttag, nexttagLoop, List.dropWhile, h]

theorem nexttag_scan (s s1 : Scanner) (buf rest : Bytes) (r : List Rd) (t : Tag)
    (tags1 ts : List Tag) (h : nexttagsBuf s [] 0 buf = BufOut.ret s1 tags1 rest)
    (ht : tags1.dropWhile filtered = t :: ts) :
    nexttag ⟨s, buf, r, []⟩ = (Except.ok t, ⟨s1, rest, r, ts⟩) := by
  simp [nexttag, nexttagLoop, nexttags, nexttagsFrom, h, ht]

theorem nexttag_eof (s : Scanner) :
    nexttag ⟨s, [], [], []⟩ =
      (Except.error (if 0 < s.depth.length then Err.UnexpectedEOF else Err.EOF), ⟨s, [], [], []⟩) := by
  rfl

theorem parse_none (ko : Bool) (f : Nat) (p : Parser) (parent : Value) :
    parse ko (f + 1) p none parent =
      match nexttag p with
      | (Except.error e, p1) => { val := Value.null, err := some e, parent := parent, p := p1 }
      | (Except.ok t1, p1) => parse ko f p1 (some t1) parent := rfl

theorem parsevalue_none (ko : Bool) (f : Nat) (p : Parser) (parent : Value) :
    parsevalue ko (f + 1) p none parent =
      match nexttag p with
      | (Except.error e, p1) => { val := Value.null, err := some e, p := p1 }
      | (Except.ok t1, p1) => parsevalue ko f p1 (some t1) parent := rfl

theorem parselist_none (ko : Bool) (f : Nat) (p : Parser) (parent : List Value) :
    parselist ko (f + 1) p none parent =
      match nexttag p with
      | (Except.error e, p1) => { val := Value.null, err := some e, p := p1 }
      | (Except.ok t1, p1) => parselist ko f p1 (some t1) parent := rfl

theorem parse_key (ko : Bool) (f : Nat) (p : Parser) (k : Bytes) (themap : GoMap) :
    parse ko (f + 1) p (some ⟨k, St.TAG⟩) (Value.map themap) =
          match korderOf ko themap with
          | Except.error e => { val := Value.null, err := some e, parent := Value.map themap, p := p }
          | Except.ok korder =>
            match parsevalue ko f p none Value.null with
            | ⟨Value.tag restag, some _, p2⟩ =>
              parse ko f p2 none
                (Value.map (insertKey themap korder k
                  (if restag.state = St.SEMICOL then Value.null else Value.tag restag)))
            | ⟨_, some e, p2⟩ => { val := Value.null, err := some e, parent := Value.map themap, p := p2 }
            | ⟨Value.tag restag, none, p2⟩ =>
              if restag.state ≠ St.BRACECLOSE then parse ko f p2 (some restag) (Value.map themap)
              else
                { val := Value.map (insertKey themap korder k (Value.str restag.val)), err := none,
                  parent := Value.map (insertKey themap korder k (Value.str restag.val)), p := p2 }
            | ⟨res, none, p2⟩ =>
              parse ko f p2 none (Value.map (insertKey themap korder k res)) := rfl

theorem parsevalue_word (ko : Bool) (f : Nat) (p : Parser) (v : Bytes) (parent : Value) :
    parsevalue ko (f + 1) p (some ⟨v, St.TAG⟩) parent =
        match nexttag p with
        | (Except.error e, p1) => { val := Value.null, err := some e, p := p1 }
        | (Except.ok nt, p1) =>
          if nt.state = St.SEMICOL ∨ nt.state = St.COMMA then
            { val := Value.str v, err := none, p := p1 }
          else if nt.state = St.BRACECLOSE ∨ nt.state = St.BRACKETCLOSE then
            { val := Value.tag { nt with val := v }, err := none, p := p1 }
          else
            match parsevalue ko f p1 (some nt) parent with
            | ⟨_, some e, p2⟩ => { val := Value.null, err := some e, p := p2 }
            | ⟨res, none, p2⟩ =>
              { val := Value.map (mapSet (mapSet [] KeyOrder (Value.strs [v])) v res),
                err := none, p := p2 } := rfl

theorem scan_stmt_sp (d ct : Bytes) (sw ss : Bool) (ln : Nat) (mt cl : Bytes) (k v rest : Bytes)
    (hk : Bareword k) (hv : Bareword v) :
    nexttagsBuf ⟨d, ct, St.WHITESPACE, sw, ss, ln, mt, cl⟩ [] 0 (stmtSp (k, v) ++ rest) =
      BufOut.ret ⟨d, [], St.WHITESPACE, false, true, ln, mt, cl⟩
        [⟨k, St.TAG⟩, ⟨v, St.TAG⟩, ⟨[59], St.SEMICOL⟩] rest := by
  have h := scan_stmt d (ct ++ [32]) sw ss ln mt cl k v rest (WhiteEnd_append ct 32 (by decide)) hk hv
  simp only [stmtSp, List.cons_append, List.append_assoc, List.singleton_append, List.nil_append]
  rw [buf_white_blank, h]

theorem parse_kv_of_scan (ko : Bool) (f : Nat) (S S1 : Scanner) (buf rest k v : Bytes)
    (r : List Rd) (m : GoMap) (korder : Option (List Bytes))
    (hscan : nexttagsBuf S [] 0 buf =
      BufOut.ret S1 [⟨k, St.TAG⟩, ⟨v, St.TAG⟩, ⟨[59], St.SEMICOL⟩] rest)
    (hm : korderOf ko m = Except.ok korder) :
    parse ko (f + 4) ⟨S, buf, r, []⟩ none (Value.map m) =
      parse ko (f + 2) ⟨S1, rest, r, []⟩ none (Value.map (insertKey m korder k (Value.str v))) := by
  have h1 := nexttag_scan _ _ _ _ r ⟨k, St.TAG⟩ _ [⟨v, St.TAG⟩, ⟨[59], St.SEMICOL⟩] hscan
    (by simp [List.dropWhile, filtered])
  have h2 := nexttag_tags S1 rest r ⟨v, St.TAG⟩ [⟨[59], St.SEMICOL⟩] (by simp [filtered])
  have h3 := nexttag_tags S1 rest r ⟨[59], St.SEMICOL⟩ [] (by simp [filtered])
  rw [parse_none, h1]
  simp only []
  rw [parse_key, hm]
  simp only []
  rw [parsevalue_none, h2]
  simp only []
  rw [parsevalue_word, h3]
  simp

theorem parse_stmt_sp (ko : Bool) (f : Nat) (d ct : Bytes) (sw ss : Bool) (ln : Nat) (mt cl : Bytes)
    (k v rest : Bytes) (r : List Rd) (m : GoMap) (korder : Option (List Bytes))
    (hk : Bareword k) (hv : Bareword v) (hm : korderOf ko m = Except.ok korder) :
    parse ko (f + 4) ⟨⟨d, ct, St.WHITESPACE, sw, ss, ln, mt, cl⟩, stmtSp (k, v) ++ rest, r, []⟩
        none (Value.map m) =
      parse ko (f + 2) ⟨⟨d, [], St.WHITESPACE, false, true, ln, mt, cl⟩, rest, r, []⟩ none
        (Value.map (insertKey m korder k (Value.str v))) :=
  parse_kv_of_scan ko f _ _ _ _ k v r m korder (scan_stmt_sp d ct sw ss ln mt cl k v rest hk hv) hm

theorem parse_stmt (ko : Bool) (f : Nat) (d ct : Bytes) (sw ss : Bool) (ln : Nat) (mt cl : Bytes)
    (k v rest : Bytes) (r : List Rd) (m : GoMap) (korder : Option (List Bytes))
    (hct : WhiteEnd ct) (hk : Bareword k) (hv : Bareword v)
    (hm : korderOf ko m = Except.ok korder) :
    parse ko (f + 4) ⟨⟨d, ct, St.WHITESPACE, sw, ss, ln, mt, cl⟩, k ++ 32 :: (v ++ 59 :: rest), r, []⟩
        none (Value.map m) =
      parse ko (f + 2) ⟨⟨d, [], St.WHITESPACE, false, true, ln, mt, cl⟩, rest, r, []⟩ none
        (Value.map (insertKey m korder k (Value.str v))) :=
  parse_kv_of_scan ko f _ _ _ _ k v r m korder (scan_stmt d ct sw ss ln mt cl k v rest hct hk hv) hm

theorem parse_eof (ko : Bool) (f : Nat) (s : Scanner) (parent : Value) (hd : s.depth = []) :
    parse ko (f + 1) ⟨s, [], [], []⟩ none parent =
      ⟨Value.null, some Err.EOF, parent, ⟨s, [], [], []⟩⟩ := by
  rw [parse_none, nexttag_eof]
  simp [hd]

theorem parse_first_read (ko : Bool) (f : Nat) (s : Scanner) (chunk : Bytes) (r : List Rd)
    (parent : Value) (h : chunk ≠ []) :
    parse ko (f + 1) ⟨s, [], chunk :: r, []⟩ none parent =
      parse ko (f + 1) ⟨s, chunk, r, []⟩ none parent := by
  rw [parse_none, parse_none, nexttag_first_read s chunk r h]

theorem step_white_lbrace (d ct : Bytes) (sw ss : Bool) (ln : Nat) (mt cl : Bytes)
    (tags : List Tag) (rest : Bytes) (hct : WhiteEnd ct) :
    step ⟨d, ct, St.WHITESPACE, sw, ss, ln, mt, cl⟩ tags 123 rest =
      Step.ret ⟨d ++ [123], [], St.WHITESPACE, sw, ss, ln, mt, cl⟩
        (tags ++ [⟨[123], St.BRACEOPEN⟩]) := by
  have hd := whiteEnd_discard ct hct
  cases hl : ct.getLast? with
  | none =>
    rw [List.getLast?_eq_none_iff] at hl
    subst hl
    simp [step, stepWhite, discard, emit0, maketag0, scopeadd]
  | some b =>
    have hb := hct b hl
    have hne : ct ≠ [] := by
      intro h0; rw [h0] at hl; cases hl
    have : 0 < ct.length := List.length_pos.2 hne
    simp [step, stepWhite, discard, emit0, maketag0, scopeadd, *]

theorem step_white_rbrace (d ct : Bytes) (sw ss : Bool) (ln : Nat) (mt cl : Bytes)
    (tags : List Tag) (rest : Bytes) (hct : WhiteEnd ct) :
    step ⟨d ++ [123], ct, St.WHITESPACE, sw, ss, ln, mt, cl⟩ tags 125 rest =
      Step.ret ⟨d, [], St.WHITESPACE, sw, ss, ln, mt, cl⟩
        (tags ++ [⟨[125], St.BRACECLOSE⟩]) := by
  have hd := whiteEnd_discard ct hct
  cases hl : ct.getLast? with
  | none =>
    rw [List.getLast?_eq_none_iff] at hl
    subst hl
    simp [step, stepWhite, discard, emit0, maketag0, scopereduce]
  | some b =>
    have hb := hct b hl
    have hne : ct ≠ [] := by
      intro h0; rw [h0] at hl; cases hl
    have : 0 < ct.length := List.length_pos.2 hne
    simp [step, stepWhite, discard, emit0, maketag0, scopereduce, *]

theorem parse_block_open (ko : Bool) (f : Nat) (d ct : Bytes) (sw ss : Bool) (ln : Nat)
    (mt cl : Bytes) (rest : Bytes) (r : List Rd) (m : GoMap) (hct : WhiteEnd ct) :
    parse ko (f + 3) ⟨⟨d, ct, St.WHITESPACE, sw, ss, ln, mt, cl⟩, 123 :: rest, r, []⟩ none
        (Value.map m) =
      parse ko (f + 1) ⟨⟨d ++ [123], [], St.WHITESPACE, sw, ss, ln, mt, cl⟩, rest, r, []⟩ none
        (Value.map m) := by
  have hscan : nexttagsBuf ⟨d, ct, St.WHITESPACE, sw, ss, ln, mt, cl⟩ [] 0 (123 :: rest) =
      BufOut.ret ⟨d ++ [123], [], St.WHITESPACE, sw, ss, ln, mt, cl⟩ [⟨[123], St.BRACEOPEN⟩] rest := by
    rw [nexttagsBuf, step_white_lbrace _ _ _ _ _ _ _ _ _ hct]
    rfl
  have h1 := nexttag_scan _ _ _ _ r ⟨[123], St.BRACEOPEN⟩ _ [] hscan
    (by simp [List.dropWhile, filtered])
  rw [parse_none, h1]
  rfl

theorem parse_block_close (ko : Bool) (f : Nat) (d ct : Bytes) (sw ss : Bool) (ln : Nat)
    (mt cl : Bytes) (rest : Bytes) (r : List Rd) (parent : Value) :
    parse ko (f + 2) ⟨⟨d ++ [123], ct, St.WHITESPACE, sw, ss, ln, mt, cl⟩, 32 :: 125 :: rest, r, []⟩
        none parent =
      ⟨parent, none, parent, ⟨⟨d, [], St.WHITESPACE, sw, ss, ln, mt, cl⟩, rest, r, []⟩⟩ := by
  have hscan : nexttagsBuf ⟨d ++ [123], ct, St.WHITESPACE, sw, ss, ln, mt, cl⟩ [] 0
      (32 :: 125 :: rest) =
      BufOut.ret ⟨d, [], St.WHITESPACE, sw, ss, ln, mt, cl⟩ [⟨[125], St.BRACECLOSE⟩] rest := by
    rw [buf_white_blank, nexttagsBuf,
      step_white_rbrace _ _ _ _ _ _ _ _ _ (WhiteEnd_append ct 32 (by decide))]
    rfl
  have h1 := nexttag_scan _ _ _ _ r ⟨[125], St.BRACECLOSE⟩ _ [] hscan
    (by simp [List.dropWhile, filtered])
  rw [parse_none, h1]
  rfl

theorem mapGet_none_of_notin (m : GoMap) (k : Bytes) (h : k ∉ m.map Prod.fst) :
    mapGet m k = none := by
  induction m with
  | nil => rfl
  | cons e m ih =>
    obtain ⟨k1, v1⟩ := e
    simp only [List.map_cons, List.mem_cons, not_or] at h
    simp only [mapGet]
    rw [if_neg (fun h' => h.1 h'.symm), ih h.2]

theorem mapSet_of_notin (m : GoMap) (k : Bytes) (v : Value) (h : k ∉ m.map Prod.fst) :
    mapSet m k v = m ++ [(k, v)] := by
  induction m with
  | nil => rfl
  | cons e m ih =>
    obtain ⟨k1, v1⟩ := e
    simp only [List.map_cons, List.mem_cons, not_or] at h
    simp only [mapSet]
    rw [if_neg (fun h' => h.1 h'.symm), ih h.2]
    rfl

theorem korderOf_docOf (es : List (Bytes × Value)) :
    korderOf true (docOf es) = Except.ok (some (es.map Prod.fst)) := by
  cases es with
  | nil => rfl
  | cons e es => simp [docOf, korderOf, mapGet]

theorem insertKey_docOf (es : List (Bytes × Value)) (k : Bytes) (res : Value)
    (hk : k ≠ KeyOrder) (hfresh : k ∉ es.map Prod.fst) :
    insertKey (docOf es) (some (es.map Prod.fst)) k res = docOf (es ++ [(k, res)]) := by
  cases es with
  | nil =>
    simp [docOf, insertKey, mapGet, mapSet, Ne.symm hk]
  | cons e es =>
    have hg : mapGet (docOf (e :: es)) k = none := by
      apply mapGet_none_of_notin
      simp only [docOf, List.map_cons, List.mem_cons, not_or]
      simp only [List.map_cons, List.mem_cons, not_or] at hfresh
      exact ⟨hk, hfresh⟩
    simp only [insertKey, hg]
    have h1 : mapSet (docOf (e :: es)) KeyOrder (Value.strs (List.map Prod.fst (e :: es) ++ [k]))
        = (KeyOrder, Value.strs (List.map Prod.fst (e :: es) ++ [k])) :: (e :: es) := by
      simp [docOf, mapSet]
    rw [h1]
    have h2 : mapSet ((KeyOrder, Value.strs (List.map Prod.fst (e :: es) ++ [k])) :: (e :: es)) k res
        = (KeyOrder, Value.strs (List.map Prod.fst (e :: es) ++ [k])) :: mapSet (e :: es) k res := by
      rw [mapSet, if_neg (Ne.symm hk)]
    rw [h2, mapSet_of_notin (e :: es) k res hfresh]
    simp [docOf]

theorem entriesOf_keys (kvs : List (Bytes × Bytes)) :
    (entriesOf kvs).map Prod.fst = kvs.map Prod.fst := by
  simp [entriesOf]

theorem decode_stmtsSp (f : Nat) (d : Bytes) (ln : Nat) (mt cl tail : Bytes) (r : List Rd)
    (kvs : List (Bytes × Bytes)) :
    ∀ (es : List (Bytes × Value)) (ct : Bytes) (sw ss : Bool),
      (∀ kv ∈ kvs, Bareword kv.1 ∧ Bareword kv.2 ∧ kv.1 ≠ KeyOrder) →
      (es.map Prod.fst ++ kvs.map Prod.fst).Nodup →
      ∃ ct1 sw1 ss1,
        parse true (2 * kvs.length + (f + 2))
            ⟨⟨d, ct, St.WHITESPACE, sw, ss, ln, mt, cl⟩, stmtsSp kvs ++ tail, r, []⟩ none
            (Value.map (docOf es)) =
          parse true (f + 2) ⟨⟨d, ct1, St.WHITESPACE, sw1, ss1, ln, mt, cl⟩, tail, r, []⟩ none
            (Value.map (docOf (es ++ entriesOf kvs))) := by
  induction kvs with
  | nil =>
    intro es ct sw ss _ _
    exact ⟨ct, sw, ss, by simp [stmtsSp, entriesOf]⟩
  | cons kv kvs ih =>
    intro es ct sw ss hb hnd
    obtain ⟨k, v⟩ := kv
    obtain ⟨hk, hv, hkk⟩ := hb (k, v) (by simp)
    have hb' : ∀ kv ∈ kvs, Bareword kv.1 ∧ Bareword kv.2 ∧ kv.1 ≠ KeyOrder :=
      fun kv h => hb kv (by simp [h])
    have hfresh : k ∉ es.map Prod.fst := by
      intro hmem
      have := List.nodup_append.1 hnd
      exact this.2.2 hmem (by simp)
    have hnd' : ((es ++ [(k, Value.str v)]).map Prod.fst ++ kvs.map Prod.fst).Nodup := by
      simpa [List.append_assoc] using hnd
    obtain ⟨ct1, sw1, ss1, h⟩ := ih (es ++ [(k, Value.str v)]) [] false true hb' hnd'
    refine ⟨ct1, sw1, ss1, ?_⟩
    have hfuel : 2 * (kvs.length + 1) + (f + 2) = (2 * kvs.length + f) + 4 := by omega
    have htext : stmtsSp ((k, v) :: kvs) ++ tail = stmtSp (k, v) ++ (stmtsSp kvs ++ tail) := by
      simp [stmtsSp]
    rw [List.length_cons, hfuel, htext,
      parse_stmt_sp true _ d ct sw ss ln mt cl k v _ r _ _ hk hv (korderOf_docOf es),
      insertKey_docOf es k (Value.str v) hkk hfresh]
    have hfuel2 : 2 * kvs.length + f + 2 = 2 * kvs.length + (f + 2) := by omega
    rw [hfuel2, h]
    simp [entriesOf, List.append_assoc]

theorem stmtsSp_length (kvs : List (Bytes × Bytes)) : kvs.length ≤ (stmtsSp kvs).length := by
  induction kvs with
  | nil => simp
  | cons kv kvs ih =>
    simp only [stmtsSp, List.map_cons, List.flatten_cons, List.length_append, List.length_cons,
      stmtSp] at ih ⊢
    omega

theorem Ucl_of_parse (ko : Bool) (r : List Rd) (val ucl : Value) (err : Option Err) (p : Parser)
    (h : parse ko (uclFuel r) (NewParser r) none (Value.map []) = ⟨val, err, ucl, p⟩) :
    Ucl ko r = ⟨ucl, if err = some Err.EOF then none else err, p⟩ := by
  simp only [Ucl, h]

theorem decode_block (kvs : List (Bytes × Bytes))
    (hb : ∀ kv ∈ kvs, Bareword kv.1 ∧ Bareword kv.2 ∧ kv.1 ≠ KeyOrder)
    (hnd : (kvs.map Prod.fst).Nodup) :
    (Ucl true [block kvs]).ucl = Value.map (docOf (entriesOf kvs)) ∧
    (Ucl true [block kvs]).err = none := by
  have hlen := stmtsSp_length kvs
  obtain ⟨f, hf⟩ : ∃ f, uclFuel [block kvs] = (2 * kvs.length + f + 1) + 3 := by
    refine ⟨uclFuel [block kvs] - 2 * kvs.length - 4, ?_⟩
    simp only [uclFuel, block, List.map_cons, List.map_nil, List.sum_cons, List.sum_nil,
      List.length_cons, List.length_append, List.length_nil]
    omega
  obtain ⟨ct1, sw1, ss1, h⟩ := decode_stmtsSp f ([] ++ [123]) 1 [] [] [32, 125] [] kvs [] [] false
    false hb (by simpa using hnd)
  have hparse : parse true (uclFuel [block kvs]) (NewParser [block kvs]) none (Value.map []) =
      ⟨Value.map (docOf (entriesOf kvs)), none, Value.map (docOf (entriesOf kvs)),
        ⟨⟨[], [], St.WHITESPACE, sw1, ss1, 1, [], []⟩, [], [], []⟩⟩ := by
    rw [hf]
    show parse true (2 * kvs.length + f + 1 + 3)
      ⟨⟨[], [], St.WHITESPACE, false, false, 1, [], []⟩, [], [block kvs], []⟩ none (Value.map []) = _
    rw [parse_first_read _ _ _ _ _ _ (by simp [block])]
    show parse true (2 * kvs.length + f + 1 + 3)
      ⟨⟨[], [], St.WHITESPACE, false, false, 1, [], []⟩, 123 :: (stmtsSp kvs ++ [32, 125]), [], []⟩
      none (Value.map []) = _
    rw [parse_block_open _ _ _ _ _ _ _ _ _ _ _ _ WhiteEnd_nil]
    have hfu : 2 * kvs.length + f + 1 + 1 = 2 * kvs.length + (f + 2) := by omega
    rw [hfu]
    refine h.trans ?_
    rw [parse_block_close]
    rfl
  rw [Ucl_of_parse _ _ _ _ _ _ hparse]
  simp

theorem decode_stmts (kv : Bytes × Bytes) (kvs : List (Bytes × Bytes))
    (hb : ∀ x ∈ kv :: kvs, Bareword x.1 ∧ Bareword x.2 ∧ x.1 ≠ KeyOrder)
    (hnd : ((kv :: kvs).map Prod.fst).Nodup) :
    (Ucl true [stmts (kv :: kvs)]).ucl = Value.map (docOf (entriesOf (kv :: kvs))) ∧
    (Ucl true [stmts (kv :: kvs)]).err = none := by
  obtain ⟨k, v⟩ := kv
  obtain ⟨hk, hv, hkk⟩ := hb (k, v) (by simp)
  have hb' : ∀ kv ∈ kvs, Bareword kv.1 ∧ Bareword kv.2 ∧ kv.1 ≠ KeyOrder :=
    fun kv h => hb kv (by simp [h])
  have htext : stmts ((k, v) :: kvs) = k ++ 32 :: (v ++ 59 :: (stmtsSp kvs ++ [])) := by
    simp [stmts, stmtsSp, stmtSp]
  have hlen := stmtsSp_length kvs
  have hne : stmts ((k, v) :: kvs) ≠ [] := by
    rw [htext]
    obtain ⟨hk0, _⟩ := hk
    cases k with
    | nil => exact absurd rfl hk0
    | cons c k => simp
  obtain ⟨f, hf⟩ : ∃ f, uclFuel [stmts ((k, v) :: kvs)] = (2 * kvs.length + f) + 4 := by
    refine ⟨uclFuel [stmts ((k, v) :: kvs)] - 2 * kvs.length - 4, ?_⟩
    rw [htext]
    simp only [uclFuel, List.map_cons, List.map_nil, List.sum_cons, List.sum_nil,
      List.length_cons, List.length_append, List.length_nil]
    omega
  obtain ⟨ct1, sw1, ss1, h⟩ := decode_stmtsSp f [] 1 [] [] [] [] kvs [(k, Value.str v)] [] false
    true hb' (by simpa using hnd)
  have hparse : parse true (uclFuel [stmts ((k, v) :: kvs)]) (NewParser [stmts ((k, v) :: kvs)])
      none (Value.map []) =
      ⟨Value.null, some Err.EOF, Value.map (docOf (entriesOf ((k, v) :: kvs))),
        ⟨⟨[], ct1, St.WHITESPACE, sw1, ss1, 1, [], []⟩, [], [], []⟩⟩ := by
    rw [hf]
    show parse true (2 * kvs.length + f + 4)
      ⟨⟨[], [], St.WHITESPACE, false, false, 1, [], []⟩, [], [stmts ((k, v) :: kvs)], []⟩ none
      (Value.map []) = _
    rw [parse_first_read _ _ _ _ _ _ hne, htext,
      parse_stmt true _ [] [] false false 1 [] [] k v _ [] [] _ WhiteEnd_nil hk hv
        (korderOf_docOf [])]
    have hi : insertKey [] (some (List.map Prod.fst ([] : List (Bytes × Value)))) k (Value.str v)
        = docOf [(k, Value.str v)] := insertKey_docOf [] k (Value.str v) hkk (by simp)
    have hfu : 2 * kvs.length + f + 2 = 2 * kvs.length + (f + 2) := by omega
    rw [hi, hfu]
    refine h.trans ?_
    rw [parse_eof _ _ _ _ rfl]
    rfl
  rw [Ucl_of_parse _ _ _ _ _ _ hparse]
  simp

theorem Alnum.all (w : Bytes) (h : Alnum w) : w.all isAlnum = true := by
  rw [List.all_eq_true]; exact h.2

theorem Alnum.ne_keyOrder (w : Bytes) (h : Alnum w) : w ≠ KeyOrder := by
  intro he
  have := h.2 45 (by rw [he]; decide)
  revert this; decide

theorem encodeStr_alnum (tbl : Nat → Bool) (w : Bytes) (h : Alnum w) : encodeStr tbl w = w := by
  rw [encodeStr_eq, if_pos (Alnum.all w h)]

theorem encodeString_alnum (e : Encoder) (w : Bytes) (h : Alnum w) : encodeString e w = w := by
  have hc : w.count 10 = 0 := by
    rw [List.count_eq_zero]
    intro hm
    have := h.2 10 hm
    revert this; decide
  have hnl : ¬ 3 < (if 160 < w.length then w.count 10 else 0) := by
    rw [hc]; simp
  have hlen : ¬ w.length = 0 := by
    intro h0; exact h.1 (List.length_eq_zero.1 h0)
  have hhead : w.head? ≠ some 47 := by
    intro hh
    have hm : (47 : Nat) ∈ w := by
      cases w with
      | nil => cases hh
      | cons a t => simp at hh; simp [hh]
    have := h.2 47 hm
    revert this; decide
  unfold encodeString
  simp only [if_neg hnl, if_neg hlen, if_pos hhead]
  rw [encodeStr_alnum e.tbl w h, Fprintf0_no_percent w (alnum_ne_percent w (Alnum.all w h))]

theorem mapChildren_entriesOf (e : Encoder) (kvs : List (Bytes × Bytes)) (indent : Nat) :
    mapChildren e (entriesOf kvs) indent =
      kvs.map (fun kv => (kv.1, [32] ++ encodeScalar e (some kv.2) ParentType.parent_map (indent + 1))) := by
  induction kvs with
  | nil => simp [entriesOf, mapChildren]
  | cons kv kvs ih =>
    simp only [entriesOf, List.map_cons] at ih ⊢
    rw [mapChildren, ih]
    all_goals simp [doencode]

theorem lookup_of_mem {β : Type} (T : List (Bytes × β)) (k : Bytes) (x : β)
    (hnd : (T.map Prod.fst).Nodup) (hm : (k, x) ∈ T) : T.lookup k = some x := by
  induction T with
  | nil => cases hm
  | cons a T ih =>
    obtain ⟨k1, x1⟩ := a
    simp only [List.map_cons, List.nodup_cons] at hnd
    rcases List.mem_cons.1 hm with h | h
    · cases h
      simp [List.lookup]
    · have hne : k ≠ k1 := by
        intro he
        subst he
        exact hnd.1 (List.mem_map.2 ⟨(k, x), h, rfl⟩)
      have : (k == k1) = false := by simpa using hne
      simp only [List.lookup, this]
      exact ih hnd.2 h

theorem encodeKeys_lines (e : Encoder) (child : Bytes → Bytes) (l : List (Bytes × Bytes)) :
    ∀ first, (∀ kv ∈ l, Alnum kv.1 ∧ child kv.1 = 32 :: kv.2) →
    encodeKeys e child ParentType.parent_map 0 first (l.map Prod.fst) =
      encLines (Fprintf0 e.newline) first l := by
  induction l with
  | nil => intro first _; rfl
  | cons kv l ih =>
    intro first h
    obtain ⟨hk, hc⟩ := h kv (by simp)
    simp only [List.map_cons, encodeKeys, encLines]
    rw [ih false (fun x hx => h x (by simp [hx])), hc, encodeStr_alnum e.tbl kv.1 hk]
    simp [indents]

theorem Fprintf0_newline (indenter : Bytes) :
    Fprintf0 (if indenter ≠ [] then [10] else []) = (if indenter ≠ [] then [10] else []) := by
  apply Fprintf0_no_percent
  intro c hc
  split at hc
  · simp at hc; omega
  · cases hc

theorem encode_docOf (tbl : Nat → Bool) (indenter nilval : Bytes) (kvs : List (Bytes × Bytes))
    (h : ∀ kv ∈ kvs, Alnum kv.1 ∧ Alnum kv.2) (hnd : (kvs.map Prod.fst).Nodup) :
    Encode tbl (Value.map (docOf (entriesOf kvs))) indenter nilval =
      encLines (if indenter ≠ [] then [10] else []) true kvs ++
        (if kvs = [] then [] else if indenter ≠ [] then [10] else []) := by
  cases hk : kvs with
  | nil => simp [Encode, doencode, docOf, entriesOf, mapGet, encodeKeys, encLines]
  | cons kv0 kvs0 =>
    rw [← hk]
    have hdoc : docOf (entriesOf kvs) =
        (KeyOrder, Value.strs (kvs.map Prod.fst)) :: entriesOf kvs := by
      rw [hk]; simp [docOf, entriesOf]
    have hne : kvs ≠ [] := by rw [hk]; simp
    have hlen : 0 < (kvs.map Prod.fst).length := by
      rw [hk]; simp
    rw [hdoc]
    generalize he : (⟨tbl, indenter, (if indenter ≠ [] then [10] else []), nilval⟩ : Encoder) = e
    have hnl : Fprintf0 e.newline = (if indenter ≠ [] then [10] else []) := by
      rw [← he]; exact Fprintf0_newline indenter
    have hE : Encode tbl (Value.map ((KeyOrder, Value.strs (kvs.map Prod.fst)) :: entriesOf kvs))
        indenter nilval = doencode e (Value.map ((KeyOrder, Value.strs (kvs.map Prod.fst)) :: entriesOf kvs))
          ParentType.parent_map 0 := by
      rw [← he]; rfl
    rw [hE, doencode]
    simp only [mapGet, if_true, if_pos hlen, if_neg hne]
    rw [encodeKeys_lines e _ kvs true, hnl]
    intro kv hkv
    obtain ⟨h1, h2⟩ := h kv hkv
    refine ⟨h1, ?_⟩
    have hmc : mapChildren e ((KeyOrder, Value.strs (kvs.map Prod.fst)) :: entriesOf kvs) 0 =
        (KeyOrder, [32] ++ doencode e (Value.strs (kvs.map Prod.fst)) ParentType.parent_map 0) ::
          mapChildren e (entriesOf kvs) 0 := by
      rw [mapChildren]
    have hkk : (kv.1 == KeyOrder) = false := by
      simpa using Alnum.ne_keyOrder kv.1 h1
    rw [hmc, List.lookup, hkk, mapChildren_entriesOf]
    have hl := lookup_of_mem
      (kvs.map (fun kv => (kv.1, [32] ++ encodeScalar e (some kv.2) ParentType.parent_map (0 + 1))))
      kv.1 ([32] ++ encodeScalar e (some kv.2) ParentType.parent_map (0 + 1))
      (by simpa [List.map_map, Function.comp] using hnd)
      (List.mem_map.2 ⟨kv, hkv, rfl⟩)
    rw [hl]
    simp [encodeScalar, encodeString_alnum e kv.2 h2]

theorem bare_of_alnum_entries (kvs : List (Bytes × Bytes))
    (h : ∀ x ∈ kvs, Alnum x.1 ∧ Alnum x.2) :
    ∀ x ∈ kvs, Bareword x.1 ∧ Bareword x.2 ∧ x.1 ≠ KeyOrder :=
  fun x hx => ⟨Bareword.of_alnum _ (h x hx).1, Bareword.of_alnum _ (h x hx).2,
    Alnum.ne_keyOrder _ (h x hx).1⟩

/-- C3: for statements `k1 v1; ... kn vn;` with distinct alphanumeric keys
and alphanumeric values, written bare or wrapped in top-level braces, `Ucl`
with order tracking returns no error and the map whose key-order list is
`k1 .. kn`, and `Encode` writes that map as `k1 v1;` .. `kn vn;` in this
order (a newline after each entry when the indent is not empty). -/
theorem C3_key_order_preserved (tbl : Nat → Bool) (indenter nilval : Bytes)
    (kv : Bytes × Bytes) (kvs : List (Bytes × Bytes))
    (h : ∀ x ∈ kv :: kvs, Alnum x.1 ∧ Alnum x.2)
    (hnd : ((kv :: kvs).map Prod.fst).Nodup) :
    (Ucl true [stmts (kv :: kvs)]).err = none ∧
    (Ucl true [block (kv :: kvs)]).err = none ∧
    (Ucl true [stmts (kv :: kvs)]).ucl =
      Value.map ((KeyOrder, Value.strs ((kv :: kvs).map Prod.fst)) :: entriesOf (kv :: kvs)) ∧
    (Ucl true [block (kv :: kvs)]).ucl = (Ucl true [stmts (kv :: kvs)]).ucl ∧
    Encode tbl (Ucl true [stmts (kv :: kvs)]).ucl indenter nilval =
      encLines (if indenter ≠ [] then [10] else []) true (kv :: kvs) ++
        (if indenter ≠ [] then [10] else []) ∧
    Encode tbl (Ucl true [block (kv :: kvs)]).ucl indenter nilval =
      encLines (if indenter ≠ [] then [10] else []) true (kv :: kvs) ++
        (if indenter ≠ [] then [10] else []) := by
  have hb := bare_of_alnum_entries (kv :: kvs) h
  obtain ⟨hs1, hs2⟩ := decode_stmts kv kvs hb hnd
  obtain ⟨hb1, hb2⟩ := decode_block (kv :: kvs) hb hnd
  have he := encode_docOf tbl indenter nilval (kv :: kvs) h hnd
  have hne : ¬ (kv :: kvs = []) := by simp
  simp only [if_neg hne] at he
  have hd : docOf (entriesOf (kv :: kvs)) =
      (KeyOrder, Value.strs ((kv :: kvs).map Prod.fst)) :: entriesOf (kv :: kvs) := by
    simp [docOf, entriesOf]
  refine ⟨hs2, hb2, ?_, ?_, ?_, ?_⟩
  · rw [hs1, hd]
  · rw [hs1, hb1]
  · rw [hs1, he]
  · rw [hb1, he]

/-- C3 (witness): `{ z 1; a 2; }` and `z 1; a 2;` decode to the key order
`z, a` and are encoded, with an indent of three spaces, as `z 1;` then
`a 2;`. -/
theorem C3_key_order_preserved_witness :
    block [(B "z", B "1"), (B "a", B "2")] = B "\x7b z 1; a 2; \x7d" ∧
    stmts [(B "z", B "1"), (B "a", B "2")] = B "z 1; a 2;" ∧
    (Ucl true [B "\x7b z 1; a 2; \x7d"]).ucl =
      Value.map [(KeyOrder, Value.strs [B "z", B "a"]), (B "z", Value.str (B "1")),
        (B "a", Value.str (B "2"))] ∧
    Encode noTbl (Ucl true [B "\x7b z 1; a 2; \x7d"]).ucl (B "   ") [] = B "z 1;\na 2;\n" := by
  have hA : ∀ x ∈ [(B "z", B "1"), (B "a", B "2")], Alnum x.1 ∧ Alnum x.2 := by
    intro x hx
    simp only [List.mem_cons, List.mem_singleton, List.not_mem_nil, or_false] at hx
    rcases hx with rfl | rfl <;> exact ⟨⟨by decide, by decide⟩, ⟨by decide, by decide⟩⟩
  have hN : (([(B "z", B "1"), (B "a", B "2")] : List (Bytes × Bytes)).map Prod.fst).Nodup := by
    decide
  have hw := C3_key_order_preserved noTbl (B "   ") [] (B "z", B "1") [(B "a", B "2")] hA hN
  have hblock : block [(B "z", B "1"), (B "a", B "2")] = B "\x7b z 1; a 2; \x7d" := by decide
  rw [hblock] at hw
  refine ⟨hblock, by decide, ?_, ?_⟩
  · rw [hw.2.2.2.1, hw.2.2.1]; rfl
  · rw [hw.2.2.2.2.2]; decide

theorem insertKey_dup (k : Bytes) (old res : Value) (hk : k ≠ KeyOrder) :
    insertKey [(KeyOrder, Value.strs [k]), (k, old)] (some [k]) k res =
      [(KeyOrder, Value.strs [k]), (k, promote old res)] := by
  have h1 : mapGet [(KeyOrder, Value.strs [k]), (k, old)] k = some old := by
    simp [mapGet, Ne.symm hk]
  have h2 : ∀ x, mapSet [(KeyOrder, Value.strs [k]), (k, old)] k x =
      [(KeyOrder, Value.strs [k]), (k, x)] := by
    intro x; simp [mapSet, Ne.symm hk]
  unfold insertKey
  rw [h1]
  cases old <;> simp [h2, promote]

theorem korderOf_dup (k : Bytes) (old : Value) :
    korderOf true [(KeyOrder, Value.strs [k]), (k, old)] = Except.ok (some [k]) := by
  simp [korderOf, mapGet]

theorem decode_dup (f : Nat) (d : Bytes) (ln : Nat) (mt cl tail : Bytes) (r : List Rd)
    (k : Bytes) (hk : Bareword k) (hkk : k ≠ KeyOrder) (vs : List Bytes) :
    ∀ (old : Value) (ct : Bytes) (sw ss : Bool), (∀ v ∈ vs, Bareword v) →
      ∃ ct1 sw1 ss1,
        parse true (2 * vs.length + (f + 2))
            ⟨⟨d, ct, St.WHITESPACE, sw, ss, ln, mt, cl⟩, stmtsSp (sameKey k vs) ++ tail, r, []⟩ none
            (Value.map [(KeyOrder, Value.strs [k]), (k, old)]) =
          parse true (f + 2) ⟨⟨d, ct1, St.WHITESPACE, sw1, ss1, ln, mt, cl⟩, tail, r, []⟩ none
            (Value.map [(KeyOrder, Value.strs [k]),
              (k, vs.foldl (fun acc v => promote acc (Value.str v)) old)]) := by
  induction vs with
  | nil =>
    intro old ct sw ss _
    exact ⟨ct, sw, ss, by simp [stmtsSp, sameKey]⟩
  | cons v vs ih =>
    intro old ct sw ss hv
    obtain ⟨ct1, sw1, ss1, h⟩ := ih (promote old (Value.str v)) [] false true
      (fun x hx => hv x (by simp [hx]))
    refine ⟨ct1, sw1, ss1, ?_⟩
    have hfuel : 2 * (vs.length + 1) + (f + 2) = (2 * vs.length + f) + 4 := by omega
    have htext : stmtsSp (sameKey k (v :: vs)) ++ tail =
        stmtSp (k, v) ++ (stmtsSp (sameKey k vs) ++ tail) := by
      simp [stmtsSp, sameKey]
    rw [List.length_cons, hfuel, htext,
      parse_stmt_sp true _ d ct sw ss ln mt cl k v _ r _ _ hk (hv v (by simp)) (korderOf_dup k old),
      insertKey_dup k old (Value.str v) hkk]
    have hfuel2 : 2 * vs.length + f + 2 = 2 * vs.length + (f + 2) := by omega
    rw [hfuel2, h]
    rfl

theorem foldl_promote_list (vs : List Bytes) :
    ∀ l : List Value, vs.foldl (fun acc v => promote acc (Value.str v)) (Value.list l) =
      Value.list (l ++ vs.map Value.str) := by
  induction vs with
  | nil => intro l; simp
  | cons v vs ih =>
    intro l
    have hp : promote (Value.list l) (Value.str v) = Value.list (l ++ [Value.str v]) := rfl
    rw [List.foldl_cons, hp, ih]
    simp

theorem foldl_promote_str (a b : Bytes) (vs : List Bytes) :
    (b :: vs).foldl (fun acc v => promote acc (Value.str v)) (Value.str a) =
      Value.list ((a :: b :: vs).map Value.str) := by
  have hp : promote (Value.str a) (Value.str b) = Value.list [Value.str a, Value.str b] := rfl
  rw [List.foldl_cons, hp, foldl_promote_list]
  simp

theorem decode_dup_stmts (k v1 : Bytes) (vs : List Bytes) (hk : Bareword k) (hkk : k ≠ KeyOrder)
    (hv1 : Bareword v1) (hvs : ∀ v ∈ vs, Bareword v) :
    (Ucl true [stmts (sameKey k (v1 :: vs))]).ucl =
      Value.map [(KeyOrder, Value.strs [k]),
        (k, vs.foldl (fun acc v => promote acc (Value.str v)) (Value.str v1))] ∧
    (Ucl true [stmts (sameKey k (v1 :: vs))]).err = none := by
  have htext : stmts (sameKey k (v1 :: vs)) =
      k ++ 32 :: (v1 ++ 59 :: (stmtsSp (sameKey k vs) ++ [])) := by
    simp [stmts, stmtsSp, stmtSp, sameKey]
  have hlen := stmtsSp_length (sameKey k vs)
  have hl2 : (sameKey k vs).length = vs.length := by simp [sameKey]
  have hne : stmts (sameKey k (v1 :: vs)) ≠ [] := by
    rw [htext]
    obtain ⟨hk0, _⟩ := hk
    cases k with
    | nil => exact absurd rfl hk0
    | cons c k => simp
  obtain ⟨f, hf⟩ : ∃ f, uclFuel [stmts (sameKey k (v1 :: vs))] = (2 * vs.length + f) + 4 := by
    refine ⟨uclFuel [stmts (sameKey k (v1 :: vs))] - 2 * vs.length - 4, ?_⟩
    rw [htext]
    simp only [uclFuel, List.map_cons, List.map_nil, List.sum_cons, List.sum_nil,
      List.length_cons, List.length_append, List.length_nil]
    omega
  obtain ⟨ct1, sw1, ss1, h⟩ := decode_dup f [] 1 [] [] [] [] k hk hkk vs (Value.str v1) [] false
    true hvs
  have hparse : parse true (uclFuel [stmts (sameKey k (v1 :: vs))])
      (NewParser [stmts (sameKey k (v1 :: vs))]) none (Value.map []) =
      ⟨Value.null, some Err.EOF, Value.map [(KeyOrder, Value.strs [k]),
        (k, vs.foldl (fun acc v => promote acc (Value.str v)) (Value.str v1))],
        ⟨⟨[], ct1, St.WHITESPACE, sw1, ss1, 1, [], []⟩, [], [], []⟩⟩ := by
    rw [hf]
    show parse true (2 * vs.length + f + 4)
      ⟨⟨[], [], St.WHITESPACE, false, false, 1, [], []⟩, [], [stmts (sameKey k (v1 :: vs))], []⟩
      none (Value.map []) = _
    rw [parse_first_read _ _ _ _ _ _ hne, htext,
      parse_stmt true _ [] [] false false 1 [] [] k v1 _ [] [] _ WhiteEnd_nil hk hv1
        (korderOf_docOf [])]
    have hi : insertKey [] (some (List.map Prod.fst ([] : List (Bytes × Value)))) k (Value.str v1)
        = docOf [(k, Value.str v1)] := insertKey_docOf [] k (Value.str v1) hkk (by simp)
    have hfu : 2 * vs.length + f + 2 = 2 * vs.length + (f + 2) := by omega
    rw [hi, hfu]
    refine h.trans ?_
    rw [parse_eof _ _ _ _ rfl]
  rw [Ucl_of_parse _ _ _ _ _ _ hparse]
  simp

theorem decode_dup_block (k v1 : Bytes) (vs : List Bytes) (hk : Bareword k) (hkk : k ≠ KeyOrder)
    (hv1 : Bareword v1) (hvs : ∀ v ∈ vs, Bareword v) :
    (Ucl true [block (sameKey k (v1 :: vs))]).ucl =
      Value.map [(KeyOrder, Value.strs [k]),
        (k, vs.foldl (fun acc v => promote acc (Value.str v)) (Value.str v1))] ∧
    (Ucl true [block (sameKey k (v1 :: vs))]).err = none := by
  have htext : block (sameKey k (v1 :: vs)) =
      123 :: (stmtSp (k, v1) ++ (stmtsSp (sameKey k vs) ++ [32, 125])) := by
    simp [block, stmtsSp, sameKey]
  have hlen := stmtsSp_length (sameKey k vs)
  have hl2 : (sameKey k vs).length = vs.length := by simp [sameKey]
  obtain ⟨f, hf⟩ : ∃ f, uclFuel [block (sameKey k (v1 :: vs))] = (2 * vs.length + f + 3) + 3 := by
    refine ⟨uclFuel [block (sameKey k (v1 :: vs))] - 2 * vs.length - 6, ?_⟩
    rw [htext]
    simp only [uclFuel, List.map_cons, List.map_nil, List.sum_cons, List.sum_nil,
      List.length_cons, List.length_append, List.length_nil, stmtSp]
    omega
  obtain ⟨ct1, sw1, ss1, h⟩ := decode_dup f ([] ++ [123]) 1 [] [] [32, 125] [] k hk hkk vs
    (Value.str v1) [] false true hvs
  have hparse : parse true (uclFuel [block (sameKey k (v1 :: vs))])
      (NewParser [block (sameKey k (v1 :: vs))]) none (Value.map []) =
      ⟨Value.map [(KeyOrder, Value.strs [k]),
        (k, vs.foldl (fun acc v => promote acc (Value.str v)) (Value.str v1))], none,
        Value.map [(KeyOrder, Value.strs [k]),
        (k, vs.foldl (fun acc v => promote acc (Value.str v)) (Value.str v1))],
        ⟨⟨[], [], St.WHITESPACE, sw1, ss1, 1, [], []⟩, [], [], []⟩⟩ := by
    rw [hf]
    show parse true (2 * vs.length + f + 3 + 3)
      ⟨⟨[], [], St.WHITESPACE, false, false, 1, [], []⟩, [], [block (sameKey k (v1 :: vs))], []⟩
      none (Value.map []) = _
    rw [parse_first_read _ _ _ _ _ _ (by simp [block]), htext,
      parse_block_open _ _ _ _ _ _ _ _ _ _ _ _ WhiteEnd_nil]
    have hfu0 : 2 * vs.length + f + 3 + 1 = (2 * vs.length + f) + 4 := by omega
    rw [hfu0, parse_stmt_sp true _ _ _ _ _ _ _ _ k v1 _ _ [] (some []) hk hv1 rfl]
    have hi : insertKey [] (some []) k (Value.str v1)
        = docOf [(k, Value.str v1)] := insertKey_docOf [] k (Value.str v1) hkk (by simp)
    have hfu : 2 * vs.length + f + 2 = 2 * vs.length + (f + 2) := by omega
    rw [hi, hfu]
    refine h.trans ?_
    rw [parse_block_close]
  rw [Ucl_of_parse _ _ _ _ _ _ hparse]
  simp

/-- C2 (counterexample): the sentinel `--ucl-keyorder--` is a bareword key,
and `--ucl-keyorder-- 1; --ucl-keyorder-- 2;` does not decode to that key
mapped to the array of `1` and `2`: the first value overwrites the key-order
list and the second assignment fails with an error. -/
theorem C2_sentinel_key_not_promoted :
    Bareword KeyOrder ∧
    stmts (sameKey KeyOrder [B "1", B "2"]) = B "--ucl-keyorder-- 1; --ucl-keyorder-- 2;" ∧
    (Ucl true [B "--ucl-keyorder-- 1; --ucl-keyorder-- 2;"]).ucl =
      Value.map [(KeyOrder, Value.str (B "1"))] ∧
    (Ucl true [B "--ucl-keyorder-- 1; --ucl-keyorder-- 2;"]).err = some Err.keyorderNotSlice ∧
    (Ucl true [B "--ucl-keyorder-- 1; --ucl-keyorder-- 2;"]).ucl ≠
      Value.map [(KeyOrder, Value.strs [KeyOrder]),
        (KeyOrder, Value.list [Value.str (B "1"), Value.str (B "2")])] := by
  have h : (Ucl true [B "--ucl-keyorder-- 1; --ucl-keyorder-- 2;"]).ucl =
      Value.map [(KeyOrder, Value.str (B "1"))] := by rfl
  refine ⟨⟨by decide, by decide⟩, by decide, h, by decide, ?_⟩
  rw [h]
  simp

theorem getLast?_append_space (a : Bytes) : (a ++ [32]).getLast? ≠ some 60 := by
  simp

theorem buf_tag_word_first (d : Bytes) (sw ss : Bool) (ln : Nat) (mt cl : Bytes)
    (rest w ct : Bytes) (hw : ∀ c ∈ w, isBare c = true) (hct : ct.getLast? ≠ some 60) :
    nexttagsBuf ⟨d, ct, St.TAG, sw, ss, ln, mt, cl⟩ [] 0 (w ++ rest) =
      nexttagsBuf ⟨d, ct ++ w, St.TAG, sw, ss, ln, mt, cl⟩ [] 0 rest := by
  rw [buf_tag_word d ss ln mt cl [] rest w hw ct sw hct]
  simp

theorem buf_tag_word_value (d : Bytes) (sw ss : Bool) (ln : Nat) (mt cl : Bytes)
    (tags : List Tag) (rest w ct : Bytes) (hw : ∀ c ∈ w, isBare c = true)
    (hct : ct.getLast? ≠ some 60) (hne : w ≠ []) (ht : tags ≠ []) :
    nexttagsBuf ⟨d, ct, St.TAG, sw, ss, ln, mt, cl⟩ tags 0 (w ++ rest) =
      nexttagsBuf ⟨d, ct ++ w, St.TAG, false, ss, ln, mt, cl⟩ tags 0 rest := by
  rw [buf_tag_word d ss ln mt cl tags rest w hw ct sw hct]
  have : 0 < tags.length := List.length_pos.2 ht
  simp [hne, this]

theorem scan_stmt2 (d ct : Bytes) (sw ss : Bool) (ln : Nat) (mt cl : Bytes) (k a b rest : Bytes)
    (hct : WhiteEnd ct) (hk : Bareword k) (ha : Bareword a) (hb : Bareword b) :
    nexttagsBuf ⟨d, ct, St.WHITESPACE, sw, ss, ln, mt, cl⟩ [] 0
        (k ++ 32 :: (a ++ 32 :: (b ++ 59 :: rest))) =
      BufOut.ret ⟨d, [], St.WHITESPACE, false, true, ln, mt, cl⟩
        [⟨k, St.TAG⟩, ⟨a ++ 32 :: b, St.TAG⟩, ⟨[59], St.SEMICOL⟩] rest := by
  obtain ⟨hkne, hkb⟩ := hk
  obtain ⟨hane, hab⟩ := ha
  obtain ⟨hbne, hbb⟩ := hb
  cases k with
  | nil => exact absurd rfl hkne
  | cons c k' =>
    have hc := hkb c (by simp)
    have hk' : ∀ x ∈ k', isBare x = true := fun x hx => hkb x (by simp [hx])
    have h1 : ([c] : Bytes).getLast? ≠ some 60 :=
      getLast?_append_bare [] [c] nil_getLast?_ne (by intro x hx; simp at hx; subst hx; exact hc)
    have h2 : ([c] ++ k').getLast? ≠ some 60 := getLast?_append_bare [c] k' h1 hk'
    have h3 : (([] : Bytes) ++ a).getLast? ≠ some 60 := getLast?_append_bare [] a nil_getLast?_ne hab
    have h4 : (([] : Bytes) ++ a ++ [32]).getLast? ≠ some 60 := getLast?_append_space _
    have h5 : (([] : Bytes) ++ a ++ [32] ++ b).getLast? ≠ some 60 :=
      getLast?_append_bare _ b h4 hbb
    rw [List.cons_append, nexttagsBuf, step_white_bare d ct sw ss ln mt cl [] c _ hct hc]
    simp only []
    rw [buf_tag_word_first d true true ln mt cl _ k' [c] hk' h1]
    rw [nexttagsBuf, step_tag_space_first d _ _ true ln mt cl _ h2 (by simp)]
    simp only []
    rw [buf_tag_word_value d true true ln mt cl _ _ a [] hab nil_getLast?_ne hane (by simp)]
    rw [nexttagsBuf, step_tag_space_more d _ true ln mt cl _ _ h3 (by simp)]
    simp only []
    rw [buf_tag_word_value d false true ln mt cl _ _ b _ hbb h4 hbne (by simp)]
    rw [nexttagsBuf, step_tag_semi d _ _ true ln mt cl _ _ h5 (by simp [hbne])]
    simp

theorem insertKey_first (k : Bytes) (res : Value) (hk : k ≠ KeyOrder) :
    insertKey [] (some []) k res = [(KeyOrder, Value.strs [k]), (k, res)] := by
  have := insertKey_docOf [] k res hk (by simp)
  simpa [docOf] using this

theorem bareword_ne_nil (k : Bytes) (hk : Bareword k) (rest : Bytes) : k ++ rest ≠ [] := by
  obtain ⟨hk0, _⟩ := hk
  cases k with
  | nil => exact absurd rfl hk0
  | cons c k => simp

theorem decode_shorthand (o i v : Bytes) (ho : Bareword o) (hoo : o ≠ KeyOrder)
    (hi : Bareword i) (hv : Bareword v) :
    (Ucl true [shorthand o i v]).ucl =
      Value.map [(KeyOrder, Value.strs [o]), (o, Value.str (i ++ 32 :: v))] ∧
    (Ucl true [shorthand o i v]).err = none := by
  obtain ⟨f, hf⟩ : ∃ f, uclFuel [shorthand o i v] = f + 4 :=
    ⟨uclFuel [shorthand o i v] - 4, by simp only [uclFuel]; omega⟩
  have hparse : parse true (uclFuel [shorthand o i v]) (NewParser [shorthand o i v]) none
      (Value.map []) =
      ⟨Value.null, some Err.EOF,
        Value.map [(KeyOrder, Value.strs [o]), (o, Value.str (i ++ 32 :: v))],
        ⟨⟨[], [], St.WHITESPACE, false, true, 1, [], []⟩, [], [], []⟩⟩ := by
    rw [hf]
    show parse true (f + 4)
      ⟨⟨[], [], St.WHITESPACE, false, false, 1, [], []⟩, [], [shorthand o i v], []⟩
      none (Value.map []) = _
    have hne : shorthand o i v ≠ [] := bareword_ne_nil o ho _
    rw [parse_first_read _ _ _ _ _ _ hne]
    refine (parse_kv_of_scan true f _ _ _ [] o (i ++ 32 :: v) [] [] (some [])
        (scan_stmt2 [] [] false false 1 [] [] o i v [] WhiteEnd_nil ho hi hv) rfl).trans ?_
    rw [insertKey_first o _ hoo, parse_eof _ _ _ _ rfl]
  rw [Ucl_of_parse _ _ _ _ _ _ hparse]
  simp

theorem parsevalue_braceopen (ko : Bool) (f : Nat) (p : Parser) (v : Bytes) (parent : Value) :
    parsevalue ko (f + 1) p (some ⟨v, St.BRACEOPEN⟩) parent =
      match parse ko f p (some ⟨v, St.BRACEOPEN⟩) parent with
      | ⟨res, err, _, p2⟩ => { val := res, err := err, p := p2 } := rfl

theorem parse_braceopen_null (ko : Bool) (f : Nat) (p : Parser) (v : Bytes) :
    parse ko (f + 1) p (some ⟨v, St.BRACEOPEN⟩) Value.null =
      match parse ko f p none (Value.map []) with
      | ⟨res, err, _, p2⟩ => { val := res, err := err, parent := Value.null, p := p2 } := rfl

theorem step_tag_lbrace_empty (d : Bytes) (sw ss : Bool) (ln : Nat) (mt cl : Bytes)
    (tags : List Tag) (rest : Bytes) :
    step ⟨d, [], St.TAG, sw, ss, ln, mt, cl⟩ tags 123 rest =
      Step.ret ⟨d ++ [123], [], St.WHITESPACE, sw, ss, ln, mt, cl⟩
        (tags ++ [⟨[123], St.BRACEOPEN⟩]) := by
  simp [step, stepTag, emit0, maketag0, scopeadd, fieldTags, splitSpace]

theorem scan_key_lbrace (d ct : Bytes) (sw ss : Bool) (ln : Nat) (mt cl : Bytes) (k rest : Bytes)
    (hct : WhiteEnd ct) (hk : Bareword k) :
    nexttagsBuf ⟨d, ct, St.WHITESPACE, sw, ss, ln, mt, cl⟩ [] 0 (k ++ 32 :: 123 :: rest) =
      BufOut.ret ⟨d ++ [123], [], St.WHITESPACE, true, true, ln, mt, cl⟩
        [⟨k, St.TAG⟩, ⟨[123], St.BRACEOPEN⟩] rest := by
  obtain ⟨hkne, hkb⟩ := hk
  cases k with
  | nil => exact absurd rfl hkne
  | cons c k' =>
    have hc := hkb c (by simp)
    have hk' : ∀ x ∈ k', isBare x = true := fun x hx => hkb x (by simp [hx])
    have h1 : ([c] : Bytes).getLast? ≠ some 60 :=
      getLast?_append_bare [] [c] nil_getLast?_ne (by intro x hx; simp at hx; subst hx; exact hc)
    have h2 : ([c] ++ k').getLast? ≠ some 60 := getLast?_append_bare [c] k' h1 hk'
    rw [List.cons_append, nexttagsBuf, step_white_bare d ct sw ss ln mt cl [] c _ hct hc]
    simp only []
    rw [buf_tag_word_first d true true ln mt cl _ k' [c] hk' h1]
    rw [nexttagsBuf, step_tag_space_first d _ _ true ln mt cl _ h2 (by simp)]
    simp only []
    rw [nexttagsBuf, step_tag_lbrace_empty]
    simp

theorem parse_nested_block (f : Nat) (S : Scanner) (d ct : Bytes) (sw ss : Bool) (ln : Nat)
    (mt cl : Bytes) (o i v rest : Bytes) (r : List Rd)
    (hS : S = ⟨d, ct, St.WHITESPACE, sw, ss, ln, mt, cl⟩) (hct : WhiteEnd ct)
    (ho : Bareword o) (hoo : o ≠ KeyOrder) (hi : Bareword i) (hii : i ≠ KeyOrder)
    (hv : Bareword v) :
    parse true (f + 9) ⟨S, o ++ 32 :: 123 :: (stmtSp (i, v) ++ 32 :: 125 :: rest), r, []⟩ none
        (Value.map []) =
      parse true (f + 7) ⟨⟨d, [], St.WHITESPACE, false, true, ln, mt, cl⟩, rest, r, []⟩ none
        (nestedDoc o i v) := by
  subst hS
  have hscan := scan_key_lbrace d ct sw ss ln mt cl o (stmtSp (i, v) ++ 32 :: 125 :: rest) hct ho
  have h1 := nexttag_scan _ _ _ _ r ⟨o, St.TAG⟩ _ [⟨[123], St.BRACEOPEN⟩] hscan
    (by simp [List.dropWhile, filtered])
  have h2 := nexttag_tags ⟨d ++ [123], [], St.WHITESPACE, true, true, ln, mt, cl⟩
    (stmtSp (i, v) ++ 32 :: 125 :: rest) r ⟨[123], St.BRACEOPEN⟩ [] (by simp [filtered])
  rw [parse_none, h1]
  simp only []
  rw [parse_key]
  have hk0 : korderOf true [] = Except.ok (some []) := rfl
  rw [hk0]
  simp only []
  rw [parsevalue_none, h2]
  simp only []
  rw [parsevalue_braceopen, parse_braceopen_null,
    parse_stmt_sp true f _ _ _ _ _ _ _ i v _ _ [] (some []) hi hv rfl,
    insertKey_first i _ hii, parse_block_close]
  simp only []
  rw [insertKey_first o _ hoo]
  rfl

theorem decode_nestedBlock (o i v : Bytes) (ho : Bareword o) (hoo : o ≠ KeyOrder)
    (hi : Bareword i) (hii : i ≠ KeyOrder) (hv : Bareword v) :
    (Ucl true [nestedBlock o i v]).ucl = nestedDoc o i v ∧
    (Ucl true [nestedBlock o i v]).err = none := by
  have hlen : 1 ≤ (nestedBlock o i v).length := by
    simp only [nestedBlock, List.length_append, List.length_cons]
    omega
  obtain ⟨f, hf⟩ : ∃ f, uclFuel [nestedBlock o i v] = f + 9 :=
    ⟨uclFuel [nestedBlock o i v] - 9, by
      simp only [uclFuel, List.map_cons, List.map_nil, List.sum_cons, List.sum_nil]; omega⟩
  have hparse : parse true (uclFuel [nestedBlock o i v]) (NewParser [nestedBlock o i v]) none
      (Value.map []) =
      ⟨Value.null, some Err.EOF, nestedDoc o i v,
        ⟨⟨[], [], St.WHITESPACE, false, true, 1, [], []⟩, [], [], []⟩⟩ := by
    rw [hf]
    show parse true (f + 9)
      ⟨⟨[], [], St.WHITESPACE, false, false, 1, [], []⟩, [], [nestedBlock o i v], []⟩
      none (Value.map []) = _
    have hne : nestedBlock o i v ≠ [] := bareword_ne_nil o ho _
    rw [parse_first_read _ _ _ _ _ _ hne]
    refine (parse_nested_block f _ [] [] false false 1 [] [] o i v [] [] rfl WhiteEnd_nil
      ho hoo hi hii hv).trans ?_
    rw [parse_eof _ _ _ _ rfl]
  rw [Ucl_of_parse _ _ _ _ _ _ hparse]
  simp

theorem trimTag_word_space (a : Bytes) (ha : Bareword a) :
    trimTag (a ++ [32]) = [⟨a, St.TAG⟩] := by
  obtain ⟨hne, hb⟩ := ha
  rcases List.eq_nil_or_concat a with h | ⟨a', c, h⟩
  · exact absurd h hne
  · subst h
    have hc := hb c (by simp)
    rw [isBare_iff] at hc
    have hc32 : ¬ c ≤ 32 := by omega
    simp [trimTag, List.dropWhile, hc32, maketagV]

theorem step_tag_quote (d ct : Bytes) (sw ss : Bool) (ln : Nat) (mt cl : Bytes)
    (tags : List Tag) (rest : Bytes) (hct : ct.getLast? ≠ some 60) :
    step ⟨d, ct, St.TAG, sw, ss, ln, mt, cl⟩ tags 34 rest =
      Step.ret ⟨d, [], St.QUOTE, sw, ss, ln, mt, cl⟩ (tags ++ trimTag ct) := by
  simp [step, stepTag, *]

theorem step_quote_plain (d ct : Bytes) (sw ss : Bool) (ln : Nat) (mt cl : Bytes)
    (tags : List Tag) (c : Nat) (rest : Bytes) (hc : isAlnum c = true) :
    step ⟨d, ct, St.QUOTE, sw, ss, ln, mt, cl⟩ tags c rest =
      Step.cont ⟨d, ct ++ [c], St.QUOTE, sw, ss, ln, mt, cl⟩ tags 0 := by
  rw [isAlnum_iff] at hc
  have h1 : c ≠ 10 := by omega
  have h2 : c ≠ 92 := by omega
  have h3 : c ≠ 34 := by omega
  simp [step, stepQuote, *]

theorem buf_quote_word (d : Bytes) (sw ss : Bool) (ln : Nat) (mt cl : Bytes) (tags : List Tag)
    (rest : Bytes) (w : Bytes) (hw : ∀ c ∈ w, isAlnum c = true) :
    ∀ ct : Bytes,
    nexttagsBuf ⟨d, ct, St.QUOTE, sw, ss, ln, mt, cl⟩ tags 0 (w ++ rest) =
      nexttagsBuf ⟨d, ct ++ w, St.QUOTE, sw, ss, ln, mt, cl⟩ tags 0 rest := by
  induction w with
  | nil => intro ct; simp
  | cons c w ih =>
    intro ct
    rw [List.cons_append, nexttagsBuf, step_quote_plain d ct sw ss ln mt cl tags c _ (hw c (by simp))]
    simp only []
    rw [ih (fun x hx => hw x (by simp [hx]))]
    simp

theorem unquote_alnum (w : Bytes) (hw : ∀ c ∈ w, isAlnum c = true) : unquote w 34 = some w := by
  have h1 : contains w 92 = false := by
    simp only [contains, List.any_eq_false]
    intro x hx
    have := hw x hx
    rw [isAlnum_iff] at this
    simp; omega
  have h2 : contains w 34 = false := by
    simp only [contains, List.any_eq_false]
    intro x hx
    have := hw x hx
    rw [isAlnum_iff] at this
    simp; omega
  unfold unquote
  split
  · rename_i h0
    have : w = [] := List.length_eq_zero.1 h0
    simp [this]
  · simp [h1, h2]

theorem step_quote_close (d ct : Bytes) (sw ss : Bool) (ln : Nat) (mt cl : Bytes)
    (tags : List Tag) (rest : Bytes) (hw : ∀ c ∈ ct, isAlnum c = true) :
    step ⟨d, ct, St.QUOTE, sw, ss, ln, mt, cl⟩ tags 34 rest =
      Step.cont ⟨d, [], St.TAG, true, true, ln, mt, cl⟩ (tags ++ [⟨ct, St.QUOTE⟩]) 0 := by
  simp [step, stepQuote, emit0, maketag0, unquote_alnum ct hw]

theorem step_tag_semi_empty (d : Bytes) (sw ss : Bool) (ln : Nat) (mt cl : Bytes)
    (tags : List Tag) (rest : Bytes) :
    step ⟨d, [], St.TAG, sw, ss, ln, mt, cl⟩ tags 59 rest =
      Step.ret ⟨d, [], St.WHITESPACE, sw, ss, ln, mt, cl⟩
        (tags ++ [⟨[], St.WHITESPACE⟩, ⟨[59], St.SEMICOL⟩]) := by
  simp [step, stepTag, emit0, maketag0]

theorem parsevalue_quoted (ko : Bool) (f : Nat) (p : Parser) (v : Bytes) (parent : Value) :
    parsevalue ko (f + 1) p (some ⟨v, St.QUOTE⟩) parent =
        match nexttag p with
        | (Except.error e, p1) => { val := Value.null, err := some e, p := p1 }
        | (Except.ok nt, p1) =>
          if nt.state = St.SEMICOL ∨ nt.state = St.COMMA then
            { val := Value.str v, err := none, p := p1 }
          else if nt.state = St.BRACECLOSE ∨ nt.state = St.BRACKETCLOSE then
            { val := Value.tag { nt with val := v }, err := none, p := p1 }
          else
            match parsevalue ko f p1 (some nt) parent with
            | ⟨_, some e, p2⟩ => { val := Value.null, err := some e, p := p2 }
            | ⟨res, none, p2⟩ =>
              { val := Value.map (mapSet (mapSet [] KeyOrder (Value.strs [v])) v res),
                err := none, p := p2 } := rfl

theorem nexttag_tags_skip (s : Scanner) (buf : Bytes) (r : List Rd) (t0 t : Tag)
    (ts : List Tag) (h0 : filtered t0 = true) (h : filtered t = false) :
    nexttag ⟨s, buf, r, t0 :: t :: ts⟩ = (Except.ok t, ⟨s, buf, r, ts⟩) := by
  simp [nexttag, nexttagLoop, List.dropWhile, h, h0]

theorem scan_q1 (d ct : Bytes) (sw ss : Bool) (ln : Nat) (mt cl : Bytes) (o i rest : Bytes)
    (hct : WhiteEnd ct) (ho : Bareword o) (hi : Bareword i) :
    nexttagsBuf ⟨d, ct, St.WHITESPACE, sw, ss, ln, mt, cl⟩ [] 0
        (o ++ 32 :: (i ++ 32 :: 34 :: rest)) =
      BufOut.ret ⟨d, [], St.QUOTE, false, true, ln, mt, cl⟩ [⟨o, St.TAG⟩, ⟨i, St.TAG⟩] rest := by
  obtain ⟨hone, hob⟩ := ho
  have hi' := hi
  obtain ⟨hine, hib⟩ := hi
  cases o with
  | nil => exact absurd rfl hone
  | cons c k' =>
    have hc := hob c (by simp)
    have hk' : ∀ x ∈ k', isBare x = true := fun x hx => hob x (by simp [hx])
    have h1 : ([c] : Bytes).getLast? ≠ some 60 :=
      getLast?_append_bare [] [c] nil_getLast?_ne (by intro x hx; simp at hx; subst hx; exact hc)
    have h2 : ([c] ++ k').getLast? ≠ some 60 := getLast?_append_bare [c] k' h1 hk'
    have h3 : (([] : Bytes) ++ i).getLast? ≠ some 60 := getLast?_append_bare [] i nil_getLast?_ne hib
    have h4 : (([] : Bytes) ++ i ++ [32]).getLast? ≠ some 60 := getLast?_append_space _
    rw [List.cons_append, nexttagsBuf, step_white_bare d ct sw ss ln mt cl [] c _ hct hc]
    simp only []
    rw [buf_tag_word_first d true true ln mt cl _ k' [c] hk' h1]
    rw [nexttagsBuf, step_tag_space_first d _ _ true ln mt cl _ h2 (by simp)]
    simp only []
    rw [buf_tag_word_value d true true ln mt cl _ _ i [] hib nil_getLast?_ne hine (by simp)]
    rw [nexttagsBuf, step_tag_space_more d _ true ln mt cl _ _ h3 (by simp)]
    simp only []
    rw [nexttagsBuf, step_tag_quote d _ _ true ln mt cl _ _ h4]
    simp only [List.nil_append, trimTag_word_space i hi']
    simp

theorem scan_q2 (d : Bytes) (sw ss : Bool) (ln : Nat) (mt cl : Bytes) (v rest : Bytes)
    (hv : ∀ c ∈ v, isAlnum c = true) :
    nexttagsBuf ⟨d, [], St.QUOTE, sw, ss, ln, mt, cl⟩ [] 0 (v ++ 34 :: 59 :: rest) =
      BufOut.ret ⟨d, [], St.WHITESPACE, true, true, ln, mt, cl⟩
        [⟨v, St.QUOTE⟩, ⟨[], St.WHITESPACE⟩, ⟨[59], St.SEMICOL⟩] rest := by
  rw [buf_quote_word d sw ss ln mt cl [] _ v hv []]
  rw [nexttagsBuf, step_quote_close d _ sw ss ln mt cl [] _ (by simpa using hv)]
  simp only []
  rw [nexttagsBuf, step_tag_semi_empty]
  simp

theorem parse_shorthand_quoted (f : Nat) (S : Scanner) (d ct : Bytes) (sw ss : Bool) (ln : Nat)
    (mt cl : Bytes) (o i v rest : Bytes) (r : List Rd)
    (hS : S = ⟨d, ct, St.WHITESPACE, sw, ss, ln, mt, cl⟩) (hct : WhiteEnd ct)
    (ho : Bareword o) (hoo : o ≠ KeyOrder) (hi : Bareword i) (hii : i ≠ KeyOrder)
    (hv : ∀ c ∈ v, isAlnum c = true) :
    parse true (f + 5) ⟨S, o ++ 32 :: (i ++ 32 :: 34 :: (v ++ 34 :: 59 :: rest)), r, []⟩ none
        (Value.map []) =
      parse true (f + 3) ⟨⟨d, [], St.WHITESPACE, true, true, ln, mt, cl⟩, rest, r, []⟩ none
        (nestedDoc o i v) := by
  subst hS
  have hscan1 := scan_q1 d ct sw ss ln mt cl o i (v ++ 34 :: 59 :: rest) hct ho hi
  have hscan2 := scan_q2 d false true ln mt cl v rest hv
  have h1 := nexttag_scan _ _ _ _ r ⟨o, St.TAG⟩ _ [⟨i, St.TAG⟩] hscan1
    (by simp [List.dropWhile, filtered])
  have h2 := nexttag_tags ⟨d, [], St.QUOTE, false, true, ln, mt, cl⟩
    (v ++ 34 :: 59 :: rest) r ⟨i, St.TAG⟩ [] (by simp [filtered])
  have h3 := nexttag_scan _ _ _ _ r ⟨v, St.QUOTE⟩ _ [⟨[], St.WHITESPACE⟩, ⟨[59], St.SEMICOL⟩]
    hscan2 (by simp [List.dropWhile, filtered])
  have h4 := nexttag_tags_skip ⟨d, [], St.WHITESPACE, true, true, ln, mt, cl⟩ rest r
    ⟨[], St.WHITESPACE⟩ ⟨[59], St.SEMICOL⟩ [] (by simp [filtered]) (by simp [filtered])
  rw [parse_none, h1]
  simp only []
  rw [parse_key]
  have hk0 : korderOf true [] = Except.ok (some []) := rfl
  rw [hk0]
  simp only []
  rw [parsevalue_none, h2]
  simp only []
  rw [parsevalue_word, h3]
  simp only []
  rw [parsevalue_quoted, h4]
  have hm : mapSet (mapSet [] KeyOrder (Value.strs [i])) i (Value.str v) =
      [(KeyOrder, Value.strs [i]), (i, Value.str v)] := by
    simp [mapSet, Ne.symm hii]
  simp [hm, insertKey_first o _ hoo, nestedDoc]

theorem decode_shorthandQuoted (o i v : Bytes) (ho : Bareword o) (hoo : o ≠ KeyOrder)
    (hi : Bareword i) (hii : i ≠ KeyOrder) (hv : ∀ c ∈ v, isAlnum c = true) :
    (Ucl true [shorthandQuoted o i v]).ucl = nestedDoc o i v ∧
    (Ucl true [shorthandQuoted o i v]).err = none := by
  obtain ⟨f, hf⟩ : ∃ f, uclFuel [shorthandQuoted o i v] = f + 5 :=
    ⟨uclFuel [shorthandQuoted o i v] - 5, by simp only [uclFuel]; omega⟩
  have hparse : parse true (uclFuel [shorthandQuoted o i v]) (NewParser [shorthandQuoted o i v])
      none (Value.map []) =
      ⟨Value.null, some Err.EOF, nestedDoc o i v,
        ⟨⟨[], [], St.WHITESPACE, true, true, 1, [], []⟩, [], [], []⟩⟩ := by
    rw [hf]
    show parse true (f + 5)
      ⟨⟨[], [], St.WHITESPACE, false, false, 1, [], []⟩, [], [shorthandQuoted o i v], []⟩
      none (Value.map []) = _
    have hne : shorthandQuoted o i v ≠ [] := bareword_ne_nil o ho _
    rw [parse_first_read _ _ _ _ _ _ hne]
    refine (parse_shorthand_quoted f _ [] [] false false 1 [] [] o i v [] [] rfl WhiteEnd_nil
      ho hoo hi hii hv).trans ?_
    rw [parse_eof _ _ _ _ rfl]
  rw [Ucl_of_parse _ _ _ _ _ _ hparse]
  simp

/-- C10 (counterexample): `outer inner value;` decodes to `outer` mapped to
the one string `inner value`, which is not the document of
`outer { inner value; }`, where `outer` maps to a map. -/
theorem C10_bareword_run_is_one_value :
    (Ucl true [B "outer inner value;"]).err = none ∧
    (Ucl true [B "outer inner value;"]).ucl =
      Value.map [(KeyOrder, Value.strs [B "outer"]), (B "outer", Value.str (B "inner value"))] ∧
    (Ucl true [B "outer \x7b inner value; \x7d"]).err = none ∧
    (Ucl true [B "outer \x7b inner value; \x7d"]).ucl =
      nestedDoc (B "outer") (B "inner") (B "value") ∧
    (Ucl true [B "outer inner value;"]).ucl ≠ (Ucl true [B "outer \x7b inner value; \x7d"]).ucl := by
  have h1 : (Ucl true [B "outer inner value;"]).ucl =
      Value.map [(KeyOrder, Value.strs [B "outer"]), (B "outer", Value.str (B "inner value"))] := by
    rfl
  have h2 : (Ucl true [B "outer \x7b inner value; \x7d"]).ucl =
      nestedDoc (B "outer") (B "inner") (B "value") := by rfl
  refine ⟨by decide, h1, by decide, h2, ?_⟩
  rw [h1, h2]
  simp [nestedDoc]

/-- C10 (amended): for alphanumeric barewords `outer`, `inner`, `value`,
decoding `outer inner "value";`, with the value quoted, yields the same
document as decoding `outer { inner value; }`: `outer` mapped to the
one-entry map from `inner` to the string `value`; with the value left bare,
`outer inner value;` maps `outer` to the single string `inner value`. -/
theorem C10_nested_key_shorthand (outer inner value : Bytes)
    (ho : Alnum outer) (hi : Alnum inner) (hv : Alnum value) :
    (Ucl true [shorthandQuoted outer inner value]).err = none ∧
    (Ucl true [nestedBlock outer inner value]).err = none ∧
    (Ucl true [shorthandQuoted outer inner value]).ucl =
      (Ucl true [nestedBlock outer inner value]).ucl ∧
    (Ucl true [nestedBlock outer inner value]).ucl = nestedDoc outer inner value ∧
    (Ucl true [shorthand outer inner value]).err = none ∧
    (Ucl true [shorthand outer inner value]).ucl =
      Value.map [(KeyOrder, Value.strs [outer]), (outer, Value.str (inner ++ 32 :: value))] := by
  have hob := Bareword.of_alnum _ ho
  have hib := Bareword.of_alnum _ hi
  have hvb := Bareword.of_alnum _ hv
  have hoo := Alnum.ne_keyOrder _ ho
  have hii := Alnum.ne_keyOrder _ hi
  obtain ⟨q1, q2⟩ := decode_shorthandQuoted outer inner value hob hoo hib hii hv.2
  obtain ⟨n1, n2⟩ := decode_nestedBlock outer inner value hob hoo hib hii hvb
  obtain ⟨s1, s2⟩ := decode_shorthand outer inner value hob hoo hib hvb
  exact ⟨q2, n2, by rw [q1, n1], n1, s2, s1⟩

/-- C10 (witness): `outer inner "value";` and `outer { inner value; }`
decode to the same document; `outer inner value;` gives the string
`inner value`. -/
theorem C10_nested_key_shorthand_witness :
    shorthandQuoted (B "outer") (B "inner") (B "value") = B "outer inner \"value\";" ∧
    nestedBlock (B "outer") (B "inner") (B "value") = B "outer \x7b inner value; \x7d" ∧
    shorthand (B "outer") (B "inner") (B "value") = B "outer inner value;" ∧
    (Ucl true [B "outer inner \"value\";"]).ucl = (Ucl true [B "outer \x7b inner value; \x7d"]).ucl ∧
    (Ucl true [B "outer \x7b inner value; \x7d"]).ucl =
      nestedDoc (B "outer") (B "inner") (B "value") ∧
    (Ucl true [B "outer inner value;"]).ucl =
      Value.map [(KeyOrder, Value.strs [B "outer"]), (B "outer", Value.str (B "inner value"))] := by
  have hw := C10_nested_key_shorthand (B "outer") (B "inner") (B "value")
    ⟨by decide, by decide⟩ ⟨by decide, by decide⟩ ⟨by decide, by decide⟩
  have t1 : shorthandQuoted (B "outer") (B "inner") (B "value") = B "outer inner \"value\";" := by
    decide
  have t2 : nestedBlock (B "outer") (B "inner") (B "value") = B "outer \x7b inner value; \x7d" := by
    decide
  have t3 : shorthand (B "outer") (B "inner") (B "value") = B "outer inner value;" := by decide
  rw [t1, t2, t3] at hw
  exact ⟨t1, t2, t3, hw.2.2.1, hw.2.2.2.1, hw.2.2.2.2.2⟩

theorem AllMaps_map (P : GoMap → Prop) (m : GoMap) :
    Value.AllMaps P (Value.map m) = (P m ∧ AllMapsE P m) := by
  simp [Value.AllMaps]

theorem AllMaps_list (P : GoMap → Prop) (l : List Value) :
    Value.AllMaps P (Value.list l) = AllMapsL P l := by
  simp [Value.AllMaps]

theorem AllMaps_null (P : GoMap → Prop) : Value.AllMaps P Value.null := by
  simp [Value.AllMaps]

theorem AllMaps_str (P : GoMap → Prop) (s : Bytes) : Value.AllMaps P (Value.str s) := by
  simp [Value.AllMaps]

theorem AllMaps_strs (P : GoMap → Prop) (s : List Bytes) : Value.AllMaps P (Value.strs s) := by
  simp [Value.AllMaps]

theorem AllMaps_tag (P : GoMap → Prop) (t : Tag) : Value.AllMaps P (Value.tag t) := by
  simp [Value.AllMaps]

theorem AllMapsE_nil (P : GoMap → Prop) : AllMapsE P [] := by
  simp [AllMapsE]

theorem AllMapsE_cons (P : GoMap → Prop) (k : Bytes) (v : Value) (t : GoMap) :
    AllMapsE P ((k, v) :: t) = (Value.AllMaps P v ∧ AllMapsE P t) := by
  simp [AllMapsE]

theorem AllMapsL_nil (P : GoMap → Prop) : AllMapsL P [] := by
  simp [AllMapsL]

theorem AllMapsL_cons (P : GoMap → Prop) (v : Value) (t : List Value) :
    AllMapsL P (v :: t) = (Value.AllMaps P v ∧ AllMapsL P t) := by
  simp [AllMapsL]

theorem mapGet_eq_none_iff (m : GoMap) (k : Bytes) :
    mapGet m k = none ↔ k ∉ m.map Prod.fst := by
  induction m with
  | nil => simp [mapGet]
  | cons e m ih =>
    obtain ⟨k1, v1⟩ := e
    simp only [mapGet, List.map_cons, List.mem_cons, not_or]
    by_cases h : k1 = k
    · simp [h]
    · rw [if_neg h, ih]
      exact ⟨fun h2 => ⟨fun h3 => h h3.symm, h2⟩, fun h2 => h2.2⟩

theorem mapSet_keys_of_mem (m : GoMap) (k : Bytes) (v : Value) (h : k ∈ m.map Prod.fst) :
    (mapSet m k v).map Prod.fst = m.map Prod.fst := by
  induction m with
  | nil => simp at h
  | cons e m ih =>
    obtain ⟨k1, v1⟩ := e
    simp only [mapSet]
    by_cases h1 : k1 = k
    · rw [if_pos h1]; rfl
    · rw [if_neg h1]
      simp only [List.map_cons, List.mem_cons] at h
      rcases h with h | h
      · exact absurd h.symm h1
      · simp only [List.map_cons, ih h]

theorem mapSet_keys_of_notin (m : GoMap) (k : Bytes) (v : Value) (h : k ∉ m.map Prod.fst) :
    (mapSet m k v).map Prod.fst = m.map Prod.fst ++ [k] := by
  rw [mapSet_of_notin m k v h]; simp

theorem mapGet_mapSet_same (m : GoMap) (k : Bytes) (v : Value) :
    mapGet (mapSet m k v) k = some v := by
  induction m with
  | nil => simp [mapSet, mapGet]
  | cons e m ih =>
    obtain ⟨k1, v1⟩ := e
    simp only [mapSet]
    by_cases h1 : k1 = k
    · rw [if_pos h1]; simp [mapGet, h1]
    · rw [if_neg h1]; simp only [mapGet]; rw [if_neg h1, ih]

theorem mapGet_mapSet_ne (m : GoMap) (k k2 : Bytes) (v : Value) (h : k ≠ k2) :
    mapGet (mapSet m k v) k2 = mapGet m k2 := by
  induction m with
  | nil => simp [mapSet, mapGet, h]
  | cons e m ih =>
    obtain ⟨k1, v1⟩ := e
    simp only [mapSet]
    by_cases h1 : k1 = k
    · rw [if_pos h1]
      simp only [mapGet]
      rw [if_neg (by rw [h1]; exact h), if_neg (by rw [h1]; exact h)]
    · rw [if_neg h1]; simp only [mapGet]; rw [ih]

theorem AllMapsE_mapSet (P : GoMap → Prop) (m : GoMap) (k : Bytes) (v : Value)
    (hm : AllMapsE P m) (hv : Value.AllMaps P v) : AllMapsE P (mapSet m k v) := by
  induction m with
  | nil => simp only [mapSet]; rw [AllMapsE_cons]; exact ⟨hv, AllMapsE_nil P⟩
  | cons e m ih =>
    obtain ⟨k1, v1⟩ := e
    rw [AllMapsE_cons] at hm
    simp only [mapSet]
    by_cases h1 : k1 = k
    · rw [if_pos h1, AllMapsE_cons]; exact ⟨hv, hm.2⟩
    · rw [if_neg h1, AllMapsE_cons]; exact ⟨hm.1, ih hm.2⟩

theorem AllMapsE_get (P : GoMap → Prop) (m : GoMap) (k : Bytes) (v : Value)
    (hm : AllMapsE P m) (hg : mapGet m k = some v) : Value.AllMaps P v := by
  induction m with
  | nil => simp [mapGet] at hg
  | cons e m ih =>
    obtain ⟨k1, v1⟩ := e
    rw [AllMapsE_cons] at hm
    simp only [mapGet] at hg
    by_cases h1 : k1 = k
    · rw [if_pos h1] at hg
      have : v1 = v := Option.some.inj hg
      rw [← this]; exact hm.1
    · rw [if_neg h1] at hg; exact ih hm.2 hg

theorem AllMapsL_append (P : GoMap → Prop) (l : List Value) (v : Value)
    (hl : AllMapsL P l) (hv : Value.AllMaps P v) : AllMapsL P (l ++ [v]) := by
  induction l with
  | nil => simp only [List.nil_append]; rw [AllMapsL_cons]; exact ⟨hv, AllMapsL_nil P⟩
  | cons a l ih =>
    rw [AllMapsL_cons] at hl
    simp only [List.cons_append]
    rw [AllMapsL_cons]; exact ⟨hl.1, ih hl.2⟩

theorem KeyOrderInv_iff (m : GoMap) :
    KeyOrderInv m ↔ (m.map Prod.fst).Nodup ∧ (mapGet m KeyOrder = none → m = []) ∧
      ∀ ks, mapGet m KeyOrder = some (Value.strs ks) → ks.Nodup ∧ ks = otherKeys m := by
  unfold KeyOrderInv
  cases h : mapGet m KeyOrder with
  | none => simp
  | some v =>
    cases v <;> simp

theorem otherKeys_mapSet_of_mem (m : GoMap) (k : Bytes) (v : Value) (h : k ∈ m.map Prod.fst) :
    otherKeys (mapSet m k v) = otherKeys m := by
  unfold otherKeys; rw [mapSet_keys_of_mem m k v h]

theorem KeyOrderInv_overwrite (m : GoMap) (k : Bytes) (v : Value)
    (hm : KeyOrderInv m) (hk : k ∈ m.map Prod.fst) (hv : ∀ l, v ≠ Value.strs l) :
    KeyOrderInv (mapSet m k v) := by
  rw [KeyOrderInv_iff] at hm ⊢
  obtain ⟨h1, h2, h3⟩ := hm
  refine ⟨by rw [mapSet_keys_of_mem m k v hk]; exact h1, ?_, ?_⟩
  · intro hn
    rw [mapGet_eq_none_iff, mapSet_keys_of_mem m k v hk, ← mapGet_eq_none_iff] at hn
    have := h2 hn
    rw [this] at hk; simp at hk
  · intro ks hks
    rw [otherKeys_mapSet_of_mem m k v hk]
    by_cases hkk : k = KeyOrder
    · rw [hkk, mapGet_mapSet_same] at hks
      exact absurd (Option.some.inj hks) (hv ks)
    · rw [mapGet_mapSet_ne m k KeyOrder v hkk] at hks
      exact h3 ks hks

theorem KeyOrderInv_first (k : Bytes) (v : Value) (hv : ∀ l, v ≠ Value.strs l) :
    KeyOrderInv (mapSet (mapSet [] KeyOrder (Value.strs [k])) k v) := by
  rw [KeyOrderInv_iff]
  by_cases hk : k = KeyOrder
  · have e : mapSet (mapSet [] KeyOrder (Value.strs [k])) k v = [(KeyOrder, v)] := by
      simp [mapSet, hk]
    rw [e]
    refine ⟨by simp, by simp [mapGet], ?_⟩
    intro ks hks
    simp only [mapGet, if_true] at hks
    exact absurd (Option.some.inj hks) (hv ks)
  · have hk2 : ¬ KeyOrder = k := fun h => hk h.symm
    have e : mapSet (mapSet [] KeyOrder (Value.strs [k])) k v =
        [(KeyOrder, Value.strs [k]), (k, v)] := by
      simp [mapSet, hk2]
    rw [e]
    refine ⟨by simp [hk2], by simp [mapGet], ?_⟩
    intro ks hks
    simp only [mapGet, if_true] at hks
    have : [k] = ks := by
      have := Option.some.inj hks
      injection this
    rw [← this]
    simp [otherKeys, hk]

theorem KeyOrderInv_insertKey (m : GoMap) (korder : Option (List Bytes)) (k : Bytes) (res : Value)
    (hm : KeyOrderInv m) (hko : korderOf true m = Except.ok korder)
    (hres : ∀ l, res ≠ Value.strs l) : KeyOrderInv (insertKey m korder k res) := by
  unfold insertKey
  cases hg : mapGet m k with
  | some v =>
    have hk : k ∈ m.map Prod.fst := by
      by_contra hn
      rw [← mapGet_eq_none_iff, hg] at hn
      exact Option.noConfusion hn
    cases v <;> exact KeyOrderInv_overwrite m k _ hm hk (by intro l; simp)
  | none =>
    have hk : k ∉ m.map Prod.fst := (mapGet_eq_none_iff m k).1 hg
    have hm2 := (KeyOrderInv_iff m).1 hm
    obtain ⟨h1, h2, h3⟩ := hm2
    unfold korderOf at hko
    cases hs : mapGet m KeyOrder with
    | none =>
      rw [hs] at hko
      simp only [if_true] at hko
      have hko2 : korder = some [] := (Except.ok.inj hko).symm
      have hme := h2 hs
      rw [hko2, hme]
      exact KeyOrderInv_first k res hres
    | some v =>
      rw [hs] at hko
      cases v with
      | strs ks =>
        have hko2 : korder = some ks := (Except.ok.inj hko).symm
        rw [hko2]
        obtain ⟨hn, hks⟩ := h3 ks hs
        have hKm : KeyOrder ∈ m.map Prod.fst := by
          by_contra hc
          rw [← mapGet_eq_none_iff, hs] at hc
          exact Option.noConfusion hc
        have hkK : k ≠ KeyOrder := fun h => hk (h ▸ hKm)
        have hkeys1 : (mapSet m KeyOrder (Value.strs (ks ++ [k]))).map Prod.fst = m.map Prod.fst :=
          mapSet_keys_of_mem m KeyOrder _ hKm
        have hk1 : k ∉ (mapSet m KeyOrder (Value.strs (ks ++ [k]))).map Prod.fst := by
          rw [hkeys1]; exact hk
        have hkeys2 : (mapSet (mapSet m KeyOrder (Value.strs (ks ++ [k]))) k res).map Prod.fst =
            m.map Prod.fst ++ [k] := by
          rw [mapSet_keys_of_notin _ k res hk1, hkeys1]
        show KeyOrderInv (mapSet (mapSet m KeyOrder (Value.strs (ks ++ [k]))) k res)
        rw [KeyOrderInv_iff]
        refine ⟨?_, ?_, ?_⟩
        · rw [hkeys2]
          exact List.Nodup.append h1 (List.nodup_singleton k) (by simpa using hk)
        · intro hc
          rw [mapGet_mapSet_ne _ k KeyOrder res hkK, mapGet_mapSet_same] at hc
          exact Option.noConfusion hc
        · intro ks2 hks2
          rw [mapGet_mapSet_ne _ k KeyOrder res hkK, mapGet_mapSet_same] at hks2
          have e : ks ++ [k] = ks2 := by
            have := Option.some.inj hks2
            injection this
          rw [← e]
          have hko3 : otherKeys (mapSet (mapSet m KeyOrder (Value.strs (ks ++ [k]))) k res) =
              otherKeys m ++ [k] := by
            unfold otherKeys
            rw [hkeys2, List.filter_append]
            simp [hkK]
          rw [hko3, ← hks]
          refine ⟨?_, rfl⟩
          have hkks : k ∉ ks := by
            rw [hks]; unfold otherKeys
            intro hc
            exact hk (List.mem_filter.1 hc).1
          exact List.Nodup.append hn (List.nodup_singleton k) (by simpa using hkks)
      | null => simp at hko
      | str _ => simp at hko
      | map _ => simp at hko
      | list _ => simp at hko
      | tag _ => simp at hko

theorem AllMapsE_insertKey (P : GoMap → Prop) (m : GoMap) (korder : Option (List Bytes))
    (k : Bytes) (res : Value) (hm : AllMapsE P m) (hres : Value.AllMaps P res) :
    AllMapsE P (insertKey m korder k res) := by
  unfold insertKey
  cases hg : mapGet m k with
  | some v =>
    have hv := AllMapsE_get P m k v hm hg
    cases v with
    | list ch =>
      rw [AllMaps_list] at hv
      exact AllMapsE_mapSet P m k _ hm (by rw [AllMaps_list]; exact AllMapsL_append P ch res hv hres)
    | null =>
      exact AllMapsE_mapSet P m k _ hm (by
        rw [AllMaps_list, AllMapsL_cons, AllMapsL_cons]; exact ⟨hv, hres, AllMapsL_nil P⟩)
    | str _ =>
      exact AllMapsE_mapSet P m k _ hm (by
        rw [AllMaps_list, AllMapsL_cons, AllMapsL_cons]; exact ⟨hv, hres, AllMapsL_nil P⟩)
    | map _ =>
      exact AllMapsE_mapSet P m k _ hm (by
        rw [AllMaps_list, AllMapsL_cons, AllMapsL_cons]; exact ⟨hv, hres, AllMapsL_nil P⟩)
    | strs _ =>
      exact AllMapsE_mapSet P m k _ hm (by
        rw [AllMaps_list, AllMapsL_cons, AllMapsL_cons]; exact ⟨hv, hres, AllMapsL_nil P⟩)
    | tag _ =>
      exact AllMapsE_mapSet P m k _ hm (by
        rw [AllMaps_list, AllMapsL_cons, AllMapsL_cons]; exact ⟨hv, hres, AllMapsL_nil P⟩)
  | none =>
    cases korder with
    | none => exact AllMapsE_mapSet P m k res hm hres
    | some ko =>
      exact AllMapsE_mapSet P _ k res (AllMapsE_mapSet P m KeyOrder _ hm (AllMaps_strs P _)) hres

theorem GoodV_null : GoodV Value.null := ⟨AllMaps_null _, by intro l; simp⟩

theorem GoodV_str (s : Bytes) : GoodV (Value.str s) := ⟨AllMaps_str _ s, by intro l; simp⟩

theorem GoodV_tag (t : Tag) : GoodV (Value.tag t) := ⟨AllMaps_tag _ t, by intro l; simp⟩

theorem GoodV_list (l : List Value) (h : AllMapsL KeyOrderInv l) : GoodV (Value.list l) :=
  ⟨by rw [AllMaps_list]; exact h, by intro l; simp⟩

theorem GoodV_map (m : GoMap) (h1 : KeyOrderInv m) (h2 : AllMapsE KeyOrderInv m) :
    GoodV (Value.map m) :=
  ⟨by rw [AllMaps_map]; exact ⟨h1, h2⟩, by intro l; simp⟩

theorem parsevalue_good_key (f : Nat)
    (ihv : ∀ p t parent, GoodV parent → GoodV (parsevalue true f p t parent).val)
    (p : Parser) (tv : Bytes) (st : St) (parent : Value) (hp : GoodV parent)
    (hst : st = St.TAG ∨ st = St.QUOTE ∨ st = St.VQUOTE ∨ st = St.SLASH) :
    GoodV (parsevalue true (f + 1) p (some ⟨tv, st⟩) parent).val := by
  rcases hst with h | h | h | h
  all_goals
    subst h
    simp only [parsevalue]
    rcases h : nexttag p with ⟨r, p1⟩
    rcases r with e | nt
    · exact GoodV_null
    · dsimp only
      split_ifs
      · exact GoodV_str _
      · exact GoodV_tag _
      · have ih := ihv p1 (some nt) parent hp
        generalize parsevalue true f p1 (some nt) parent = r at ih ⊢
        obtain ⟨rv, re, rp⟩ := r
        cases re with
        | some e => exact GoodV_null
        | none =>
          exact GoodV_map _ (KeyOrderInv_first tv rv ih.2)
            (AllMapsE_mapSet _ _ _ _
              (AllMapsE_mapSet _ _ _ _ (AllMapsE_nil _) (AllMaps_strs _ _)) ih.1)

theorem parsevalue_good_step (f : Nat)
    (ihv : ∀ p t parent, GoodV parent → GoodV (parsevalue true f p t parent).val)
    (ihl : ∀ p t l, AllMapsL KeyOrderInv l → GoodV (parselist true f p t l).val)
    (ihp : ∀ p t parent, GoodV parent →
      GoodV (parse true f p t parent).val ∧ GoodV (parse true f p t parent).parent) :
    ∀ p t parent, GoodV parent → GoodV (parsevalue true (f + 1) p t parent).val := by
  intro p t parent hp
  cases t with
  | none =>
    simp only [parsevalue]
    cases h : nexttag p with
    | mk r p1 =>
      cases r with
      | error e => exact GoodV_null
      | ok t1 => exact ihv p1 (some t1) parent hp
  | some t =>
    obtain ⟨tv, st⟩ := t
    cases st
    case TAG => exact parsevalue_good_key f ihv p tv _ parent hp (by simp)
    case QUOTE => exact parsevalue_good_key f ihv p tv _ parent hp (by simp)
    case VQUOTE => exact parsevalue_good_key f ihv p tv _ parent hp (by simp)
    case SLASH => exact parsevalue_good_key f ihv p tv _ parent hp (by simp)
    case SEMICOL =>
      simp only [parsevalue]
      cases parent <;> first | exact GoodV_tag _ | exact hp
    case COMMA =>
      simp only [parsevalue]
      cases parent <;> first | exact GoodV_tag _ | exact hp
    all_goals simp only [parsevalue]
    all_goals first
      | exact GoodV_null
      | exact GoodV_str _
      | exact hp
      | exact ihv _ _ _ hp
      | exact (ihp _ _ _ hp).1
      | exact ihl _ _ _ (AllMapsL_nil _)

theorem parselist_good_elem (f : Nat)
    (ihv : ∀ p t parent, GoodV parent → GoodV (parsevalue true f p t parent).val)
    (ihl : ∀ p t l, AllMapsL KeyOrderInv l → GoodV (parselist true f p t l).val)
    (p : Parser) (t : Tag) (l : List Value) (hl : AllMapsL KeyOrderInv l) :
    GoodV (match parsevalue true f p (some t) Value.null with
      | ⟨_, some e, p2⟩ => ({ val := Value.null, err := some e, p := p2 } : PRes)
      | ⟨Value.tag restag, none, p2⟩ =>
        if restag.state = St.BRACKETCLOSE then
          { val := Value.list (l ++ [Value.str restag.val]), err := none, p := p2 }
        else { val := Value.null, err := some Err.unexpectedTag, p := p2 }
      | ⟨res, none, p2⟩ => parselist true f p2 none (l ++ [res])).val := by
  have ih := ihv p (some t) Value.null GoodV_null
  generalize parsevalue true f p (some t) Value.null = r at ih ⊢
  obtain ⟨rv, re, rp⟩ := r
  cases rv <;> cases re
  all_goals first
    | exact GoodV_null
    | exact ihl _ _ _ (AllMapsL_append _ _ _ hl ih.1)
    | (dsimp only
       split_ifs
       · exact GoodV_list _ (AllMapsL_append _ _ _ hl (AllMaps_str _ _))
       · exact GoodV_null)

theorem parselist_good_step (f : Nat)
    (ihv : ∀ p t parent, GoodV parent → GoodV (parsevalue true f p t parent).val)
    (ihl : ∀ p t l, AllMapsL KeyOrderInv l → GoodV (parselist true f p t l).val) :
    ∀ p t l, AllMapsL KeyOrderInv l → GoodV (parselist true (f + 1) p t l).val := by
  intro p t l hl
  cases t with
  | none =>
    simp only [parselist]
    cases h : nexttag p with
    | mk r p1 =>
      cases r with
      | error e => exact GoodV_null
      | ok t1 => exact ihl p1 (some t1) l hl
  | some t =>
    obtain ⟨tv, st⟩ := t
    cases st
    all_goals simp only [parselist]
    all_goals first
      | exact GoodV_null
      | exact GoodV_list _ hl
      | exact ihl _ _ _ hl
      | exact parselist_good_elem f ihv ihl p _ l hl

theorem KeyOrderInv_nil : KeyOrderInv [] := by
  rw [KeyOrderInv_iff]; simp [mapGet]

theorem GoodV_emptyMap : GoodV (Value.map []) := GoodV_map [] KeyOrderInv_nil (AllMapsE_nil _)

theorem GoodV_insertKey (m : GoMap) (korder : Option (List Bytes)) (k : Bytes) (res : Value)
    (hm : GoodV (Value.map m)) (hko : korderOf true m = Except.ok korder) (hres : GoodV res) :
    GoodV (Value.map (insertKey m korder k res)) := by
  have h := hm.1
  rw [AllMaps_map] at h
  exact GoodV_map _ (KeyOrderInv_insertKey m korder k res h.1 hko hres.2)
    (AllMapsE_insertKey _ m korder k res h.2 hres.1)

theorem parse_good_key (f : Nat)
    (ihv : ∀ p t parent, GoodV parent → GoodV (parsevalue true f p t parent).val)
    (ihp : ∀ p t parent, GoodV parent →
      GoodV (parse true f p t parent).val ∧ GoodV (parse true f p t parent).parent)
    (p : Parser) (tv : Bytes) (st : St) (parent : Value) (hp : GoodV parent)
    (hst : st = St.TAG ∨ st = St.QUOTE ∨ st = St.VQUOTE ∨ st = St.SLASH) :
    GoodV (parse true (f + 1) p (some ⟨tv, st⟩) parent).val ∧
    GoodV (parse true (f + 1) p (some ⟨tv, st⟩) parent).parent := by
  rcases hst with h | h | h | h
  all_goals
    subst h
    simp only [parse]
    cases parent
    case map themap =>
      dsimp only
      cases hk : korderOf true themap with
      | error e => exact ⟨GoodV_null, hp⟩
      | ok korder =>
        dsimp only
        have ih := ihv p none Value.null GoodV_null
        generalize parsevalue true f p none Value.null = r at ih ⊢
        obtain ⟨rv, re, rp⟩ := r
        cases rv <;> cases re
        all_goals first
          | exact ⟨GoodV_null, hp⟩
          | exact ihp _ _ _ (GoodV_insertKey themap korder tv _ hp hk ih)
          | (dsimp only
             split_ifs
             · exact ihp _ _ _ (GoodV_insertKey themap korder tv _ hp hk GoodV_null)
             · exact ihp _ _ _ (GoodV_insertKey themap korder tv _ hp hk (GoodV_tag _)))
          | (dsimp only
             split_ifs
             · exact ihp _ _ _ hp
             · exact ⟨GoodV_insertKey themap korder tv _ hp hk (GoodV_str _),
                 GoodV_insertKey themap korder tv _ hp hk (GoodV_str _)⟩)
    all_goals exact ⟨GoodV_null, hp⟩

theorem parse_good_step (f : Nat)
    (ihv : ∀ p t parent, GoodV parent → GoodV (parsevalue true f p t parent).val)
    (ihl : ∀ p t l, AllMapsL KeyOrderInv l → GoodV (parselist true f p t l).val)
    (ihp : ∀ p t parent, GoodV parent →
      GoodV (parse true f p t parent).val ∧ GoodV (parse true f p t parent).parent) :
    ∀ p t parent, GoodV parent →
      GoodV (parse true (f + 1) p t parent).val ∧ GoodV (parse true (f + 1) p t parent).parent := by
  intro p t parent hp
  cases t with
  | none =>
    simp only [parse]
    cases h : nexttag p with
    | mk r p1 =>
      cases r with
      | error e => exact ⟨GoodV_null, hp⟩
      | ok t1 => exact ihp p1 (some t1) parent hp
  | some t =>
    obtain ⟨tv, st⟩ := t
    cases st
    case TAG => exact parse_good_key f ihv ihp p tv _ parent hp (by simp)
    case QUOTE => exact parse_good_key f ihv ihp p tv _ parent hp (by simp)
    case VQUOTE => exact parse_good_key f ihv ihp p tv _ parent hp (by simp)
    case SLASH => exact parse_good_key f ihv ihp p tv _ parent hp (by simp)
    case BRACEOPEN =>
      simp only [parse]
      cases parent
      all_goals first
        | exact ⟨GoodV_null, hp⟩
        | exact ihp _ _ _ hp
        | exact ⟨(ihp _ _ _ hp).1, hp⟩
        | exact ⟨(ihp _ _ _ GoodV_emptyMap).1, hp⟩
    all_goals simp only [parse]
    all_goals first
      | exact ⟨GoodV_null, hp⟩
      | exact ⟨hp, hp⟩
      | exact ihp _ _ _ hp
      | exact ⟨ihl _ _ _ (AllMapsL_nil _), hp⟩

theorem parser_good (f : Nat) :
    (∀ p t parent, GoodV parent → GoodV (parsevalue true f p t parent).val) ∧
    (∀ p t l, AllMapsL KeyOrderInv l → GoodV (parselist true f p t l).val) ∧
    (∀ p t parent, GoodV parent →
      GoodV (parse true f p t parent).val ∧ GoodV (parse true f p t parent).parent) := by
  induction f with
  | zero =>
    refine ⟨?_, ?_, ?_⟩
    · intro p t parent _; simp only [parsevalue]; exact GoodV_null
    · intro p t l _; simp only [parselist]; exact GoodV_null
    · intro p t parent hp; simp only [parse]; exact ⟨GoodV_null, hp⟩
  | succ f ih =>
    obtain ⟨ihv, ihl, ihp⟩ := ih
    exact ⟨parsevalue_good_step f ihv ihl ihp, parselist_good_step f ihv ihl,
      parse_good_step f ihv ihl ihp⟩

theorem Ucl_good (r : List Rd) : Value.AllMaps KeyOrderInv (Ucl true r).ucl := by
  have h := ((parser_good (uclFuel r)).2.2 (NewParser r) none (Value.map []) GoodV_emptyMap).2
  unfold Ucl
  generalize parse true (uclFuel r) (NewParser r) none (Value.map []) = q at h ⊢
  obtain ⟨qv, qe, qp, qq⟩ := q
  exact h.1

/-- C4: with order tracking enabled, every map of the document that `Ucl`
returns (for any input, with or without an error) keeps the key-order
invariant `KeyOrderInv`: its keys are distinct and, whenever the sentinel
entry is a key-order list, that list has no duplicates and is exactly the
list of the map's other keys in order of first insertion. The first part
states it of the map that `parse(nil, p.ucl)` fills, whatever the fuel of the
run; the last part shows it on an input that repeats a key: `a 1; b 2; a 3;`
gives the key order `a, b` while `a` holds the array of both values. -/
theorem C4_key_order_invariant :
    (∀ (fuel : Nat) (r : List Rd),
      Value.AllMaps KeyOrderInv (parse true fuel (NewParser r) none (Value.map [])).parent) ∧
    (∀ r : List Rd, Value.AllMaps KeyOrderInv (Ucl true r).ucl) ∧
    (Ucl true [B "a 1; b 2; a 3;"]).err = none ∧
    (Ucl true [B "a 1; b 2; a 3;"]).ucl =
      Value.map [(KeyOrder, Value.strs [B "a", B "b"]),
        (B "a", Value.list [Value.str (B "1"), Value.str (B "3")]),
        (B "b", Value.str (B "2"))] :=
  ⟨fun fuel r => ((parser_good fuel).2.2 (NewParser r) none (Value.map []) GoodV_emptyMap).2.1,
   Ucl_good, by decide, by rfl⟩

theorem scopereduce_brace (s : Scanner) (h : curdepth s ≠ 123) : (scopereduce s 125).2 = false := by
  unfold scopereduce
  unfold curdepth at h
  cases hd : s.depth.getLast? with
  | none => rfl
  | some top =>
    rw [hd] at h
    simp only [Option.getD_some] at h
    dsimp only
    split_ifs <;> first | rfl | (exfalso; omega)

theorem scopereduce_bracket (s : Scanner) (h : curdepth s ≠ 91) : (scopereduce s 93).2 = false := by
  unfold scopereduce
  unfold curdepth at h
  cases hd : s.depth.getLast? with
  | none => rfl
  | some top =>
    rw [hd] at h
    simp only [Option.getD_some] at h
    dsimp only
    split_ifs <;> first | rfl | (exfalso; omega)

theorem step_white_mismatch (s : Scanner) (tags : List Tag) (c : Nat) (rest : Bytes)
    (hs : s.state = St.WHITESPACE) (hm : Mismatch s c) :
    step s tags c rest = Step.fail (Err.misplaced c) := by
  obtain ⟨d, ct, st, sw, ss, ln, mt, cl⟩ := s
  simp only at hs
  subst hs
  rcases hm with ⟨rfl, h⟩ | ⟨rfl, h⟩
  · have h2 : ∀ ct2, (scopereduce ⟨d, ct2, St.WHITESPACE, sw, ss, ln, mt, cl⟩ 125).2 = false :=
      fun ct2 => scopereduce_brace _ h
    simp [step, stepWhite, discard, h2]
    split_ifs <;> simp [h2]
  · have h2 : ∀ ct2, (scopereduce ⟨d, ct2, St.WHITESPACE, sw, ss, ln, mt, cl⟩ 93).2 = false :=
      fun ct2 => scopereduce_bracket _ h
    simp [step, stepWhite, discard, h2]
    split_ifs <;> simp [h2]

theorem step_tag_mismatch (s : Scanner) (tags : List Tag) (c : Nat) (rest : Bytes)
    (hs : s.state = St.TAG) (hlt : s.curtag.getLast? ≠ some 60) (hm : Mismatch s c) :
    step s tags c rest = Step.fail (Err.unexpected c) := by
  obtain ⟨d, ct, st, sw, ss, ln, mt, cl⟩ := s
  simp only at hs hlt
  subst hs
  rcases hm with ⟨rfl, h⟩ | ⟨rfl, h⟩
  · simp [step, stepTag, hlt, h]
  · simp [step, stepTag, hlt, h]

theorem nexttagsBuf_fail (s : Scanner) (tags : List Tag) (c : Nat) (rest : Bytes) (e : Err)
    (h : step s tags c rest = Step.fail e) : nexttagsBuf s tags 0 (c :: rest) = BufOut.fail e := by
  simp only [nexttagsBuf, h]

theorem nexttagsFrom_fail (s : Scanner) (tags : List Tag) (c : Nat) (rest : Bytes) (r : List Rd)
    (e : Err) (h : step s tags c rest = Step.fail e) :
    (nexttagsFrom s tags (c :: rest) r).res = Except.error e := by
  rw [nexttagsFrom, nexttagsBuf_fail s tags c rest e h]

theorem afterTags_zero (p : Parser) : afterTags 0 p = some p := rfl

theorem afterTags_succ_ok (k : Nat) (p p1 : Parser) (t : Tag) (h : nexttag p = (Except.ok t, p1)) :
    afterTags (k + 1) p = afterTags k p1 := by
  simp only [afterTags, h]

theorem afterTags_succ_error (k : Nat) (p p1 : Parser) (e : Err)
    (h : nexttag p = (Except.error e, p1)) : afterTags (k + 1) p = none := by
  simp only [afterTags, h]

theorem afterTags_add (k j : Nat) (p p1 : Parser) (h : afterTags k p = some p1) :
    afterTags (k + j) p = afterTags j p1 := by
  induction k generalizing p with
  | zero =>
    rw [afterTags_zero] at h
    rw [Nat.zero_add, Option.some.inj h]
  | succ k ih =>
    rcases hn : nexttag p with ⟨res, p2⟩
    cases res with
    | error e => rw [afterTags_succ_error k p p2 e hn] at h; exact Option.noConfusion h
    | ok t =>
      rw [afterTags_succ_ok k p p2 t hn] at h
      rw [show k + 1 + j = (k + j) + 1 by omega, afterTags_succ_ok (k + j) p p2 t hn]
      exact ih p2 h

theorem afterTags_fail (k : Nat) (p pk p1 : Parser) (e : Err) (h : afterTags k p = some pk)
    (hn : nexttag pk = (Except.error e, p1)) (m : Nat) (hm : k < m) : afterTags m p = none := by
  obtain ⟨j, rfl⟩ : ∃ j, m = k + (j + 1) := ⟨m - k - 1, by omega⟩
  rw [afterTags_add k (j + 1) p pk h, afterTags_succ_error j pk p1 e hn]

theorem Threaded_refl (p : Parser) (v : Value) (e : Option Err) : Threaded p v e p :=
  Or.inl ⟨0, rfl⟩

theorem Threaded_fail (p p1 : Parser) (e : Err) (h : nexttag p = (Except.error e, p1)) :
    Threaded p Value.null (some e) p1 :=
  Or.inr ⟨rfl, 0, p, e, rfl, h, rfl⟩

theorem Threaded_trans (p p1 p2 : Parser) (v : Value) (e : Option Err)
    (h1 : ∃ k, afterTags k p = some p1) (h2 : Threaded p1 v e p2) : Threaded p v e p2 := by
  obtain ⟨k, hk⟩ := h1
  rcases h2 with ⟨j, hj⟩ | ⟨hv, j, pj, e1, hj, hn, he⟩
  · exact Or.inl ⟨k + j, by rw [afterTags_add k j p p1 hk, hj]⟩
  · exact Or.inr ⟨hv, k + j, pj, e1, by rw [afterTags_add k j p p1 hk, hj], hn, he⟩

theorem Threaded_step (p p1 p2 : Parser) (t : Tag) (v : Value) (e : Option Err)
    (h : nexttag p = (Except.ok t, p1)) (h2 : Threaded p1 v e p2) : Threaded p v e p2 :=
  Threaded_trans p p1 p2 v e ⟨1, by rw [afterTags_succ_ok 0 p p1 t h]; rfl⟩ h2

theorem Threaded_chain (p p1 : Parser) (v : Value) (e : Option Err) (h : Threaded p v e p1)
    (hv : e = none ∨ v ≠ Value.null) : ∃ k, afterTags k p = some p1 := by
  rcases h with h | ⟨hn, k, pk, e1, _, _, he⟩
  · exact h
  · rcases hv with hv | hv
    · rw [hv] at he; exact Option.noConfusion he
    · exact absurd hn hv

theorem Threaded_null (p p1 : Parser) (v : Value) (e : Option Err) (h : Threaded p v e p1) :
    Threaded p Value.null e p1 := by
  rcases h with h | ⟨_, h⟩
  · exact Or.inl h
  · exact Or.inr ⟨rfl, h⟩

theorem Threaded_any (p p1 : Parser) (v v2 : Value) (e e2 : Option Err) (h : Threaded p v e p1)
    (hv : e = none ∨ v ≠ Value.null) : Threaded p v2 e2 p1 :=
  Or.inl (Threaded_chain p p1 v e h hv)

theorem parsevalue_threaded_key (ko : Bool) (f : Nat)
    (ihv : ∀ p t parent, Threaded p (parsevalue ko f p t parent).val
      (parsevalue ko f p t parent).err (parsevalue ko f p t parent).p)
    (p : Parser) (tv : Bytes) (st : St) (parent : Value)
    (hst : st = St.TAG ∨ st = St.QUOTE ∨ st = St.VQUOTE ∨ st = St.SLASH) :
    Threaded p (parsevalue ko (f + 1) p (some ⟨tv, st⟩) parent).val
      (parsevalue ko (f + 1) p (some ⟨tv, st⟩) parent).err
      (parsevalue ko (f + 1) p (some ⟨tv, st⟩) parent).p := by
  rcases hst with h | h | h | h
  all_goals
    subst h
    simp only [parsevalue]
    rcases h : nexttag p with ⟨r, p1⟩
    rcases r with e | nt
    · exact Threaded_fail p p1 e h
    · dsimp only
      split_ifs
      · exact Threaded_step p p1 p1 nt _ _ h (Threaded_refl _ _ _)
      · exact Threaded_step p p1 p1 nt _ _ h (Threaded_refl _ _ _)
      · have ih := ihv p1 (some nt) parent
        generalize parsevalue ko f p1 (some nt) parent = r at ih ⊢
        obtain ⟨rv, re, rp⟩ := r
        cases re with
        | some e => exact Threaded_step p p1 rp nt _ _ h (Threaded_null _ _ _ _ ih)
        | none =>
          exact Threaded_step p p1 rp nt _ _ h (Threaded_any _ _ _ _ _ _ ih (Or.inl rfl))

theorem parsevalue_threaded_step (ko : Bool) (f : Nat)
    (ihv : ∀ p t parent, Threaded p (parsevalue ko f p t parent).val
      (parsevalue ko f p t parent).err (parsevalue ko f p t parent).p)
    (ihl : ∀ p t l, Threaded p (parselist ko f p t l).val
      (parselist ko f p t l).err (parselist ko f p t l).p)
    (ihp : ∀ p t parent, Threaded p (parse ko f p t parent).val
      (parse ko f p t parent).err (parse ko f p t parent).p) :
    ∀ p t parent, Threaded p (parsevalue ko (f + 1) p t parent).val
      (parsevalue ko (f + 1) p t parent).err (parsevalue ko (f + 1) p t parent).p := by
  intro p t parent
  cases t with
  | none =>
    simp only [parsevalue]
    cases h : nexttag p with
    | mk r p1 =>
      cases r with
      | error e => exact Threaded_fail p p1 e h
      | ok t1 => exact Threaded_step p p1 _ t1 _ _ h (ihv p1 (some t1) parent)
  | some t =>
    obtain ⟨tv, st⟩ := t
    cases st
    case TAG => exact parsevalue_threaded_key ko f ihv p tv _ parent (by simp)
    case QUOTE => exact parsevalue_threaded_key ko f ihv p tv _ parent (by simp)
    case VQUOTE => exact parsevalue_threaded_key ko f ihv p tv _ parent (by simp)
    case SLASH => exact parsevalue_threaded_key ko f ihv p tv _ parent (by simp)
    case SEMICOL =>
      simp only [parsevalue]
      cases parent <;> exact Threaded_refl _ _ _
    case COMMA =>
      simp only [parsevalue]
      cases parent <;> exact Threaded_refl _ _ _
    all_goals simp only [parsevalue]
    all_goals first
      | exact Threaded_refl _ _ _
      | exact ihv _ _ _
      | exact ihp _ _ _
      | exact ihl _ _ _

theorem parselist_threaded_elem (ko : Bool) (f : Nat)
    (ihv : ∀ p t parent, Threaded p (parsevalue ko f p t parent).val
      (parsevalue ko f p t parent).err (parsevalue ko f p t parent).p)
    (ihl : ∀ p t l, Threaded p (parselist ko f p t l).val
      (parselist ko f p t l).err (parselist ko f p t l).p)
    (p : Parser) (t : Tag) (l : List Value) (q : PRes)
    (hq : q = (match parsevalue ko f p (some t) Value.null with
      | ⟨_, some e, p2⟩ => ({ val := Value.null, err := some e, p := p2 } : PRes)
      | ⟨Value.tag restag, none, p2⟩ =>
        if restag.state = St.BRACKETCLOSE then
          { val := Value.list (l ++ [Value.str restag.val]), err := none, p := p2 }
        else { val := Value.null, err := some Err.unexpectedTag, p := p2 }
      | ⟨res, none, p2⟩ => parselist ko f p2 none (l ++ [res]))) :
    Threaded p q.val q.err q.p := by
  subst hq
  have ih := ihv p (some t) Value.null
  generalize parsevalue ko f p (some t) Value.null = r at ih ⊢
  obtain ⟨rv, re, rp⟩ := r
  cases rv <;> cases re
  all_goals first
    | exact Threaded_null _ _ _ _ ih
    | exact Threaded_trans _ _ _ _ _ (Threaded_chain _ _ _ _ ih (Or.inl rfl)) (ihl _ _ _)
    | (dsimp only
       split_ifs
       · exact Threaded_any _ _ _ _ _ _ ih (Or.inl rfl)
       · exact Threaded_any _ _ _ _ _ _ ih (Or.inl rfl))

theorem parselist_threaded_step (ko : Bool) (f : Nat)
    (ihv : ∀ p t parent, Threaded p (parsevalue ko f p t parent).val
      (parsevalue ko f p t parent).err (parsevalue ko f p t parent).p)
    (ihl : ∀ p t l, Threaded p (parselist ko f p t l).val
      (parselist ko f p t l).err (parselist ko f p t l).p) :
    ∀ p t l, Threaded p (parselist ko (f + 1) p t l).val
      (parselist ko (f + 1) p t l).err (parselist ko (f + 1) p t l).p := by
  intro p t l
  cases t with
  | none =>
    simp only [parselist]
    cases h : nexttag p with
    | mk r p1 =>
      cases r with
      | error e => exact Threaded_fail p p1 e h
      | ok t1 => exact Threaded_step p p1 _ t1 _ _ h (ihl p1 (some t1) l)
  | some t =>
    obtain ⟨tv, st⟩ := t
    cases st
    all_goals simp only [parselist]
    all_goals first
      | exact Threaded_refl _ _ _
      | exact ihl _ _ _
      | exact parselist_threaded_elem ko f ihv ihl p _ l _ rfl

theorem parse_threaded_key (ko : Bool) (f : Nat)
    (ihv : ∀ p t parent, Threaded p (parsevalue ko f p t parent).val
      (parsevalue ko f p t parent).err (parsevalue ko f p t parent).p)
    (ihp : ∀ p t parent, Threaded p (parse ko f p t parent).val
      (parse ko f p t parent).err (parse ko f p t parent).p)
    (p : Parser) (tv : Bytes) (st : St) (parent : Value)
    (hst : st = St.TAG ∨ st = St.QUOTE ∨ st = St.VQUOTE ∨ st = St.SLASH) :
    Threaded p (parse ko (f + 1) p (some ⟨tv, st⟩) parent).val
      (parse ko (f + 1) p (some ⟨tv, st⟩) parent).err
      (parse ko (f + 1) p (some ⟨tv, st⟩) parent).p := by
  rcases hst with h | h | h | h
  all_goals
    subst h
    simp only [parse]
    cases parent
    case map themap =>
      dsimp only
      cases hk : korderOf ko themap with
      | error e => exact Threaded_refl _ _ _
      | ok korder =>
        dsimp only
        have ih := ihv p none Value.null
        generalize parsevalue ko f p none Value.null = r at ih ⊢
        obtain ⟨rv, re, rp⟩ := r
        cases rv <;> cases re
        all_goals first
          | exact Threaded_null _ _ _ _ ih
          | exact Threaded_trans _ _ _ _ _ (Threaded_chain _ _ _ _ ih (Or.inl rfl)) (ihp _ _ _)
          | exact Threaded_trans _ _ _ _ _
              (Threaded_chain _ _ _ _ ih (Or.inr (by simp))) (ihp _ _ _)
          | (dsimp only
             split_ifs
             · exact Threaded_trans _ _ _ _ _
                 (Threaded_chain _ _ _ _ ih (Or.inl rfl)) (ihp _ _ _)
             · exact Threaded_any _ _ _ _ _ _ ih (Or.inl rfl))
    all_goals exact Threaded_refl _ _ _

theorem parse_threaded_step (ko : Bool) (f : Nat)
    (ihv : ∀ p t parent, Threaded p (parsevalue ko f p t parent).val
      (parsevalue ko f p t parent).err (parsevalue ko f p t parent).p)
    (ihl : ∀ p t l, Threaded p (parselist ko f p t l).val
      (parselist ko f p t l).err (parselist ko f p t l).p)
    (ihp : ∀ p t parent, Threaded p (parse ko f p t parent).val
      (parse ko f p t parent).err (parse ko f p t parent).p) :
    ∀ p t parent, Threaded p (parse ko (f + 1) p t parent).val
      (parse ko (f + 1) p t parent).err (parse ko (f + 1) p t parent).p := by
  intro p t parent
  cases t with
  | none =>
    simp only [parse]
    cases h : nexttag p with
    | mk r p1 =>
      cases r with
      | error e => exact Threaded_fail p p1 e h
      | ok t1 => exact Threaded_step p p1 _ t1 _ _ h (ihp p1 (some t1) parent)
  | some t =>
    obtain ⟨tv, st⟩ := t
    cases st
    case TAG => exact parse_threaded_key ko f ihv ihp p tv _ parent (by simp)
    case QUOTE => exact parse_threaded_key ko f ihv ihp p tv _ parent (by simp)
    case VQUOTE => exact parse_threaded_key ko f ihv ihp p tv _ parent (by simp)
    case SLASH => exact parse_threaded_key ko f ihv ihp p tv _ parent (by simp)
    case BRACEOPEN =>
      simp only [parse]
      cases parent
      all_goals first
        | exact Threaded_refl _ _ _
        | exact ihp _ _ _
    all_goals simp only [parse]
    all_goals first
      | exact Threaded_refl _ _ _
      | exact ihp _ _ _
      | exact ihl _ _ _

theorem parser_threaded (ko : Bool) (f : Nat) :
    (∀ p t parent, Threaded p (parsevalue ko f p t parent).val
      (parsevalue ko f p t parent).err (parsevalue ko f p t parent).p) ∧
    (∀ p t l, Threaded p (parselist ko f p t l).val
      (parselist ko f p t l).err (parselist ko f p t l).p) ∧
    (∀ p t parent, Threaded p (parse ko f p t parent).val
      (parse ko f p t parent).err (parse ko f p t parent).p) := by
  induction f with
  | zero =>
    refine ⟨?_, ?_, ?_⟩
    · intro p t parent; simp only [parsevalue]; exact Threaded_refl _ _ _
    · intro p t l; simp only [parselist]; exact Threaded_refl _ _ _
    · intro p t parent; simp only [parse]; exact Threaded_refl _ _ _
  | succ f ih =>
    obtain ⟨ihv, ihl, ihp⟩ := ih
    exact ⟨parsevalue_threaded_step ko f ihv ihl ihp, parselist_threaded_step ko f ihv ihl,
      parse_threaded_step ko f ihv ihl ihp⟩

theorem nexttagsFrom_mismatch (s : Scanner) (tags : List Tag) (c : Nat) (rest : Bytes)
    (r : List Rd)
    (hs : s.state = St.WHITESPACE ∨ (s.state = St.TAG ∧ s.curtag.getLast? ≠ some 60))
    (hm : Mismatch s c) :
    (nexttagsFrom s tags (c :: rest) r).res =
      Except.error (if s.state = St.WHITESPACE then Err.misplaced c else Err.unexpected c) := by
  rcases hs with hs | ⟨hs, hlt⟩
  · rw [if_pos hs]
    exact nexttagsFrom_fail s tags c rest r _ (step_white_mismatch s tags c rest hs hm)
  · rw [if_neg (by rw [hs]; decide)]
    exact nexttagsFrom_fail s tags c rest r _ (step_tag_mismatch s tags c rest hs hlt hm)

theorem nexttag_of_nexttags_error (p : Parser) (e : Err)
    (ht : p.tags.dropWhile filtered = [])
    (h : (nexttags p.scanner p.buf p.r).res = Except.error e) :
    (nexttag p).1 = Except.error e := by
  unfold nexttag
  simp only [nexttagLoop, ht]
  generalize nexttags p.scanner p.buf p.r = q at h ⊢
  obtain ⟨s1, b1, r1, res⟩ := q
  simp only at h
  subst h
  rfl

/-- C9 (failing input): in Tag state with the accumulated tag ending in `<`,
the scanner reads `}` while no scope is open and raises no error: the byte is
appended to the tag without being looked at and the state becomes
MAYBE_MLSTRING, so the test against the scope stack that the case makes for
a `}` is never reached. The input `a <} ;` reaches that state after `a <`;
its `nexttags` call returns the tags `a`, `<} ` and `;`, and `Ucl` returns a
nil error with `a` mapped to `<} `. -/
theorem C9_closer_after_lt_kept_in_tag :
    (⟨[], [60], St.TAG, false, true, 1, [], []⟩ : Scanner).state = St.TAG ∧
    Mismatch ⟨[], [60], St.TAG, false, true, 1, [], []⟩ 125 ∧
    nexttagsBuf newScanner [] 0 (B "a <\x7d ;") =
      nexttagsBuf ⟨[], [60], St.TAG, false, true, 1, [], []⟩ [⟨B "a", St.TAG⟩] 0 (B "\x7d ;") ∧
    step ⟨[], [60], St.TAG, false, true, 1, [], []⟩ [⟨B "a", St.TAG⟩] 125 (B " ;") =
      Step.cont ⟨[], [60, 125], St.MAYBE_MLSTRING, false, true, 1, [], []⟩ [⟨B "a", St.TAG⟩] 0 ∧
    (nexttags newScanner (B "a <\x7d ;") []).res =
      Except.ok [⟨B "a", St.TAG⟩, ⟨B "<\x7d ", St.TAG⟩, ⟨B ";", St.SEMICOL⟩] ∧
    (Ucl true [B "a <\x7d ;"]).err = none ∧
    (Ucl true [B "a <\x7d ;"]).ucl =
      Value.map [(KeyOrder, Value.strs [B "a"]), (B "a", Value.str (B "<\x7d "))] := by
  refine ⟨rfl, Or.inl ⟨rfl, by decide⟩, by rfl, by rfl, by rfl, by decide, by rfl⟩

theorem parsevalue_closer_key (ko : Bool) (f : Nat)
    (p : Parser) (tv : Bytes) (st : St)
    (hst : st = St.TAG ∨ st = St.QUOTE ∨ st = St.VQUOTE ∨ st = St.SLASH) :
    ClosingTag (parsevalue ko (f + 1) p (some ⟨tv, st⟩) Value.null) := by
  rcases hst with h | h | h | h
  all_goals
    subst h
    simp only [parsevalue]
    rcases h : nexttag p with ⟨r, p1⟩
    rcases r with e | nt
    · intro x hx; simp at hx
    · dsimp only
      split_ifs with h1 h2
      · intro x hx; simp at hx
      · intro x hx _
        simp only [Value.tag.injEq] at hx
        rw [← hx]
        exact h2
      · generalize parsevalue ko f p1 (some nt) Value.null = r
        obtain ⟨rv, re, rp⟩ := r
        cases re <;> (intro x hx; simp at hx)

theorem NoTag_null : NoTag Value.null := by intro x; simp

theorem NoTag_map (m : GoMap) : NoTag (Value.map m) := by intro x; simp

theorem NoTag_list (l : List Value) : NoTag (Value.list l) := by intro x; simp

theorem NoTag_str (s : Bytes) : NoTag (Value.str s) := by intro x; simp

theorem ClosingTag_of_NoTag (q : PRes) (h : NoTag q.val) : ClosingTag q :=
  fun x hx _ => absurd hx (h x)

theorem ClosingTag_of_err (q : PRes) (e : Err) (h : q.err = some e) : ClosingTag q := by
  intro x _ hn
  rw [h] at hn
  exact Option.noConfusion hn

theorem parsevalue_closer_step (ko : Bool) (f : Nat)
    (ihv : ∀ p t, ClosingTag (parsevalue ko f p t Value.null))
    (ihl : ∀ p t l, NoTag (parselist ko f p t l).val)
    (ihp : ∀ p t parent, NoTag parent → NoTag (parse ko f p t parent).val) :
    ∀ p t, ClosingTag (parsevalue ko (f + 1) p t Value.null) := by
  intro p t
  cases t with
  | none =>
    simp only [parsevalue]
    cases h : nexttag p with
    | mk r p1 =>
      cases r with
      | error e => exact ClosingTag_of_NoTag _ NoTag_null
      | ok t1 => exact ihv p1 (some t1)
  | some t =>
    obtain ⟨tv, st⟩ := t
    cases st
    case TAG => exact parsevalue_closer_key ko f p tv _ (by simp)
    case QUOTE => exact parsevalue_closer_key ko f p tv _ (by simp)
    case VQUOTE => exact parsevalue_closer_key ko f p tv _ (by simp)
    case SLASH => exact parsevalue_closer_key ko f p tv _ (by simp)
    all_goals simp only [parsevalue]
    all_goals first
      | exact ClosingTag_of_NoTag _ NoTag_null
      | exact ClosingTag_of_NoTag _ (NoTag_str _)
      | exact ClosingTag_of_err _ _ rfl
      | exact ihv _ _
      | exact ClosingTag_of_NoTag _ (ihp _ _ _ NoTag_null)
      | exact ClosingTag_of_NoTag _ (ihl _ _ _)

theorem parselist_notag_step (ko : Bool) (f : Nat)
    (ihl : ∀ p t l, NoTag (parselist ko f p t l).val) :
    ∀ p t l, NoTag (parselist ko (f + 1) p t l).val := by
  intro p t l
  cases t with
  | none =>
    simp only [parselist]
    cases h : nexttag p with
    | mk r p1 =>
      cases r with
      | error e => exact NoTag_null
      | ok t1 => exact ihl p1 (some t1) l
  | some t =>
    obtain ⟨tv, st⟩ := t
    cases st
    all_goals simp only [parselist]
    all_goals first
      | exact NoTag_null
      | exact NoTag_list _
      | exact ihl _ _ _
      | (generalize parsevalue ko f p _ Value.null = r
         obtain ⟨rv, re, rp⟩ := r
         cases rv <;> cases re
         all_goals first
           | exact NoTag_null
           | exact ihl _ _ _
           | (dsimp only
              split_ifs
              · exact NoTag_list _
              · exact NoTag_null))

theorem parse_notag_key (ko : Bool) (f : Nat)
    (ihp : ∀ p t parent, NoTag parent → NoTag (parse ko f p t parent).val)
    (p : Parser) (tv : Bytes) (st : St) (parent : Value) (hp : NoTag parent)
    (hst : st = St.TAG ∨ st = St.QUOTE ∨ st = St.VQUOTE ∨ st = St.SLASH) :
    NoTag (parse ko (f + 1) p (some ⟨tv, st⟩) parent).val := by
  rcases hst with h | h | h | h
  all_goals
    subst h
    simp only [parse]
    cases parent
    case map themap =>
      dsimp only
      cases hk : korderOf ko themap with
      | error e => exact NoTag_null
      | ok korder =>
        dsimp only
        generalize parsevalue ko f p none Value.null = r
        obtain ⟨rv, re, rp⟩ := r
        cases rv <;> cases re
        all_goals first
          | exact NoTag_null
          | exact ihp _ _ _ (NoTag_map _)
          | (dsimp only
             split_ifs
             · exact ihp _ _ _ (NoTag_map _)
             · exact NoTag_map _)
    all_goals exact NoTag_null

theorem parse_notag_step (ko : Bool) (f : Nat)
    (ihl : ∀ p t l, NoTag (parselist ko f p t l).val)
    (ihp : ∀ p t parent, NoTag parent → NoTag (parse ko f p t parent).val) :
    ∀ p t parent, NoTag parent → NoTag (parse ko (f + 1) p t parent).val := by
  intro p t parent hp
  cases t with
  | none =>
    simp only [parse]
    cases h : nexttag p with
    | mk r p1 =>
      cases r with
      | error e => exact NoTag_null
      | ok t1 => exact ihp p1 (some t1) parent hp
  | some t =>
    obtain ⟨tv, st⟩ := t
    cases st
    case TAG => exact parse_notag_key ko f ihp p tv _ parent hp (by simp)
    case QUOTE => exact parse_notag_key ko f ihp p tv _ parent hp (by simp)
    case VQUOTE => exact parse_notag_key ko f ihp p tv _ parent hp (by simp)
    case SLASH => exact parse_notag_key ko f ihp p tv _ parent hp (by simp)
    case BRACEOPEN =>
      simp only [parse]
      cases parent
      all_goals first
        | exact NoTag_null
        | exact ihp _ _ _ hp
        | exact ihp _ _ _ (NoTag_map _)
    all_goals simp only [parse]
    all_goals first
      | exact NoTag_null
      | exact hp
      | exact ihp _ _ _ hp
      | exact ihl _ _ _

theorem parser_notag (ko : Bool) (f : Nat) :
    (∀ p t, ClosingTag (parsevalue ko f p t Value.null)) ∧
    (∀ p t l, NoTag (parselist ko f p t l).val) ∧
    (∀ p t parent, NoTag parent → NoTag (parse ko f p t parent).val) := by
  induction f with
  | zero =>
    refine ⟨?_, ?_, ?_⟩
    · intro p t; simp only [parsevalue]; exact ClosingTag_of_NoTag _ NoTag_null
    · intro p t l; simp only [parselist]; exact NoTag_null
    · intro p t parent _; simp only [parse]; exact NoTag_null
  | succ f ih =>
    obtain ⟨ihv, ihl, ihp⟩ := ih
    exact ⟨parsevalue_closer_step ko f ihv ihl ihp, parselist_notag_step ko f ihl,
      parse_notag_step ko f ihl ihp⟩

theorem FailsAfter_error (p p1 : Parser) (j : Nat) (e e1 : Err) (h : FailsAfter p j e)
    (hn : nexttag p = (Except.error e1, p1)) : e1 = e := by
  obtain ⟨pk, p2, hk, hf⟩ := h
  cases j with
  | zero =>
    rw [afterTags_zero] at hk
    rw [← Option.some.inj hk, hn] at hf
    exact Except.error.inj (Prod.mk.inj hf).1
  | succ j =>
    rw [afterTags_succ_error j p p1 e1 hn] at hk
    exact Option.noConfusion hk

theorem FailsAfter_ok (p p1 : Parser) (t : Tag) (j : Nat) (e : Err) (h : FailsAfter p j e)
    (hn : nexttag p = (Except.ok t, p1)) : ∃ j1, j = j1 + 1 ∧ FailsAfter p1 j1 e := by
  obtain ⟨pk, p2, hk, hf⟩ := h
  cases j with
  | zero =>
    rw [afterTags_zero] at hk
    rw [← Option.some.inj hk, hn] at hf
    exact absurd (Prod.mk.inj hf).1 (by simp)
  | succ j =>
    rw [afterTags_succ_ok j p p1 t hn] at hk
    exact ⟨j, rfl, pk, p2, hk, hf⟩

theorem FailsAfter_chain (p p2 : Parser) (j : Nat) (e : Err) (h : FailsAfter p j e)
    (hc : ∃ i, afterTags i p = some p2) : ∃ j2, j2 ≤ j ∧ FailsAfter p2 j2 e := by
  obtain ⟨pk, p1, hk, hf⟩ := h
  obtain ⟨i, hi⟩ := hc
  by_cases hij : i ≤ j
  · refine ⟨j - i, by omega, pk, p1, ?_, hf⟩
    rw [← afterTags_add i (j - i) p p2 hi, show i + (j - i) = j by omega]
    exact hk
  · rw [afterTags_fail j p pk p1 e hk hf i (by omega)] at hi
    exact Option.noConfusion hi

theorem korderOf_error (ko : Bool) (m : GoMap) (e : Err) (h : korderOf ko m = Except.error e) :
    e = Err.keyorderNotSlice := by
  unfold korderOf at h
  cases hg : mapGet m KeyOrder with
  | none => rw [hg] at h; simp at h
  | some v =>
    rw [hg] at h
    cases v <;> simp at h <;> exact h.symm

theorem fuel_parsevalue_none (ko : Bool) (e : Err) (he : e ≠ Err.outOfFuel) (f : Nat)
    (ih : FuelEnough ko e f) (p : Parser) (j : Nat) (hj : FailsAfter p j e)
    (hf : 4 * j + 1 ≤ f + 1) :
    (parsevalue ko (f + 1) p none Value.null).err ≠ some Err.outOfFuel := by
  simp only [parsevalue]
  rcases h : nexttag p with ⟨r, p1⟩
  rcases r with e1 | t1
  · have := FailsAfter_error p p1 j e e1 hj h
    subst this
    intro hc
    exact he (Option.some.inj hc)
  · obtain ⟨j1, hj1, hfa⟩ := FailsAfter_ok p p1 t1 j e hj h
    exact ih.2.1 p1 j1 t1 hfa (by omega)

theorem fuel_parsevalue_key (ko : Bool) (e : Err) (he : e ≠ Err.outOfFuel) (f : Nat)
    (ih : FuelEnough ko e f) (p : Parser) (j : Nat) (tv : Bytes) (st : St)
    (hj : FailsAfter p j e) (hf : 4 * j + 3 ≤ f + 1)
    (hst : st = St.TAG ∨ st = St.QUOTE ∨ st = St.VQUOTE ∨ st = St.SLASH) :
    (parsevalue ko (f + 1) p (some ⟨tv, st⟩) Value.null).err ≠ some Err.outOfFuel := by
  rcases hst with h | h | h | h
  all_goals
    subst h
    simp only [parsevalue]
    rcases h : nexttag p with ⟨r, p1⟩
    rcases r with e1 | nt
    · have := FailsAfter_error p p1 j e e1 hj h
      subst this
      intro hc
      exact he (Option.some.inj hc)
    · obtain ⟨j1, hj1, hfa⟩ := FailsAfter_ok p p1 nt j e hj h
      dsimp only
      split_ifs
      · simp
      · simp
      · have ih2 := ih.2.1 p1 j1 nt hfa (by omega)
        generalize parsevalue ko f p1 (some nt) Value.null = r at ih2 ⊢
        obtain ⟨rv, re, rp⟩ := r
        cases re with
        | some e2 => exact ih2
        | none => simp

theorem fuel_parsevalue_some (ko : Bool) (e : Err) (he : e ≠ Err.outOfFuel) (f : Nat)
    (ih : FuelEnough ko e f) (p : Parser) (j : Nat) (t : Tag)
    (hj : FailsAfter p j e) (hf : 4 * j + 3 ≤ f + 1) :
    (parsevalue ko (f + 1) p (some t) Value.null).err ≠ some Err.outOfFuel := by
  obtain ⟨tv, st⟩ := t
  cases st
  case TAG => exact fuel_parsevalue_key ko e he f ih p j tv _ hj hf (by simp)
  case QUOTE => exact fuel_parsevalue_key ko e he f ih p j tv _ hj hf (by simp)
  case VQUOTE => exact fuel_parsevalue_key ko e he f ih p j tv _ hj hf (by simp)
  case SLASH => exact fuel_parsevalue_key ko e he f ih p j tv _ hj hf (by simp)
  all_goals simp only [parsevalue]
  all_goals first
    | exact ih.1 p j hj (by omega)
    | exact ih.2.2.1 p j _ hj (by omega)
    | exact ih.2.2.2.2.2 p j _ _ hj (by omega)
    | simp

theorem fuel_parselist_none (ko : Bool) (e : Err) (he : e ≠ Err.outOfFuel) (f : Nat)
    (ih : FuelEnough ko e f) (p : Parser) (j : Nat) (l : List Value) (hj : FailsAfter p j e)
    (hf : 4 * j + 1 ≤ f + 1) :
    (parselist ko (f + 1) p none l).err ≠ some Err.outOfFuel := by
  simp only [parselist]
  rcases h : nexttag p with ⟨r, p1⟩
  rcases r with e1 | t1
  · have := FailsAfter_error p p1 j e e1 hj h
    subst this
    intro hc
    exact he (Option.some.inj hc)
  · obtain ⟨j1, hj1, hfa⟩ := FailsAfter_ok p p1 t1 j e hj h
    exact ih.2.2.2.1 p1 j1 t1 l hfa (by omega)

theorem fuel_parselist_elem (ko : Bool) (e : Err) (f : Nat)
    (ih : FuelEnough ko e f) (p : Parser) (j : Nat) (t : Tag) (l : List Value)
    (hj : FailsAfter p j e) (hf : 4 * j + 4 ≤ f + 1) (q : PRes)
    (hq : q = (match parsevalue ko f p (some t) Value.null with
      | ⟨_, some e, p2⟩ => ({ val := Value.null, err := some e, p := p2 } : PRes)
      | ⟨Value.tag restag, none, p2⟩ =>
        if restag.state = St.BRACKETCLOSE then
          { val := Value.list (l ++ [Value.str restag.val]), err := none, p := p2 }
        else { val := Value.null, err := some Err.unexpectedTag, p := p2 }
      | ⟨res, none, p2⟩ => parselist ko f p2 none (l ++ [res]))) :
    q.err ≠ some Err.outOfFuel := by
  subst hq
  have ih2 := ih.2.1 p j t hj (by omega)
  have ht := (parser_threaded ko f).1 p (some t) Value.null
  generalize parsevalue ko f p (some t) Value.null = r at ih2 ht ⊢
  obtain ⟨rv, re, rp⟩ := r
  have hcont : ∀ l2, re = none → (parselist ko f rp none l2).err ≠ some Err.outOfFuel := by
    intro l2 hre
    obtain ⟨j2, hj2, hfa⟩ := FailsAfter_chain p rp j e hj
      (Threaded_chain _ _ _ _ ht (Or.inl hre))
    exact ih.2.2.1 rp j2 l2 hfa (by omega)
  cases rv <;> cases re
  all_goals first
    | exact ih2
    | exact hcont _ rfl
    | (dsimp only
       split_ifs
       · simp
       · simp)

theorem fuel_parselist_some (ko : Bool) (e : Err) (f : Nat)
    (ih : FuelEnough ko e f) (p : Parser) (j : Nat) (t : Tag) (l : List Value)
    (hj : FailsAfter p j e) (hf : 4 * j + 4 ≤ f + 1) :
    (parselist ko (f + 1) p (some t) l).err ≠ some Err.outOfFuel := by
  obtain ⟨tv, st⟩ := t
  cases st
  all_goals simp only [parselist]
  all_goals first
    | exact ih.2.2.1 p j _ hj (by omega)
    | exact fuel_parselist_elem ko e f ih p j _ l hj hf _ rfl
    | simp

theorem fuel_parse_none (ko : Bool) (e : Err) (he : e ≠ Err.outOfFuel) (f : Nat)
    (ih : FuelEnough ko e f) (p : Parser) (j : Nat) (parent : Value) (hj : FailsAfter p j e)
    (hf : 4 * j + 1 ≤ f + 1) :
    (parse ko (f + 1) p none parent).err ≠ some Err.outOfFuel := by
  simp only [parse]
  rcases h : nexttag p with ⟨r, p1⟩
  rcases r with e1 | t1
  · have := FailsAfter_error p p1 j e e1 hj h
    subst this
    intro hc
    exact he (Option.some.inj hc)
  · obtain ⟨j1, hj1, hfa⟩ := FailsAfter_ok p p1 t1 j e hj h
    exact ih.2.2.2.2.2 p1 j1 t1 parent hfa (by omega)

theorem parse_bracketclose (ko : Bool) (f : Nat) (p : Parser) (t : Tag) (parent : Value)
    (ht : t.state = St.BRACKETCLOSE) : (parse ko (f + 1) p (some t) parent).err = none := by
  obtain ⟨tv, st⟩ := t
  simp only at ht
  subst ht
  simp only [parse]

theorem fuel_parse_key (ko : Bool) (e : Err) (f : Nat)
    (ih : FuelEnough ko e f) (p : Parser) (j : Nat) (tv : Bytes) (st : St) (parent : Value)
    (hj : FailsAfter p j e) (hf : 4 * j + 2 ≤ f + 1)
    (hst : st = St.TAG ∨ st = St.QUOTE ∨ st = St.VQUOTE ∨ st = St.SLASH) :
    (parse ko (f + 1) p (some ⟨tv, st⟩) parent).err ≠ some Err.outOfFuel := by
  rcases hst with h | h | h | h
  all_goals
    subst h
    simp only [parse]
    cases parent
    case map themap =>
      dsimp only
      cases hk : korderOf ko themap with
      | error e1 =>
        rw [korderOf_error ko themap e1 hk]
        simp
      | ok korder =>
        dsimp only
        have ih2 := ih.1 p j hj (by omega)
        have ht := (parser_threaded ko f).1 p none Value.null
        have hc := (parser_notag ko f).1 p none
        generalize parsevalue ko f p none Value.null = r at ih2 ht hc ⊢
        obtain ⟨rv, re, rp⟩ := r
        have hcont : ∀ par, (re = none ∨ rv ≠ Value.null) →
            (parse ko f rp none par).err ≠ some Err.outOfFuel := by
          intro par hre
          obtain ⟨j2, hj2, hfa⟩ := FailsAfter_chain p rp j e hj (Threaded_chain _ _ _ _ ht hre)
          exact ih.2.2.2.2.1 rp j2 par hfa (by omega)
        cases rv <;> cases re
        all_goals first
          | exact ih2
          | exact hcont _ (Or.inl rfl)
          | exact hcont _ (Or.inr (by simp))
          | (dsimp only
             split_ifs with hb
             · obtain ⟨g, rfl⟩ : ∃ g, f = g + 1 := ⟨f - 1, by omega⟩
               have hcl := hc _ rfl rfl
               rw [parse_bracketclose ko g rp _ _ (hcl.resolve_left hb)]
               simp
             · simp)
    all_goals simp

theorem fuel_parse_some (ko : Bool) (e : Err) (f : Nat)
    (ih : FuelEnough ko e f) (p : Parser) (j : Nat) (t : Tag) (parent : Value)
    (hj : FailsAfter p j e) (hf : 4 * j + 2 ≤ f + 1) :
    (parse ko (f + 1) p (some t) parent).err ≠ some Err.outOfFuel := by
  obtain ⟨tv, st⟩ := t
  cases st
  case TAG => exact fuel_parse_key ko e f ih p j tv _ parent hj hf (by simp)
  case QUOTE => exact fuel_parse_key ko e f ih p j tv _ parent hj hf (by simp)
  case VQUOTE => exact fuel_parse_key ko e f ih p j tv _ parent hj hf (by simp)
  case SLASH => exact fuel_parse_key ko e f ih p j tv _ parent hj hf (by simp)
  case BRACEOPEN =>
    simp only [parse]
    cases parent
    all_goals first
      | exact ih.2.2.2.2.1 p j _ hj (by omega)
      | (dsimp only; simp)
  all_goals simp only [parse]
  all_goals first
    | exact ih.2.2.2.2.1 p j _ hj (by omega)
    | exact ih.2.2.1 p j _ hj (by omega)
    | simp

theorem parser_fuel (ko : Bool) (e : Err) (he : e ≠ Err.outOfFuel) (f : Nat) :
    FuelEnough ko e f := by
  induction f with
  | zero =>
    refine ⟨?_, ?_, ?_, ?_, ?_, ?_⟩ <;> intros <;> omega
  | succ f ih =>
    exact ⟨fun p j hj hf => fuel_parsevalue_none ko e he f ih p j hj hf,
      fun p j t hj hf => fuel_parsevalue_some ko e he f ih p j t hj hf,
      fun p j l hj hf => fuel_parselist_none ko e he f ih p j l hj hf,
      fun p j t l hj hf => fuel_parselist_some ko e f ih p j t l hj hf,
      fun p j parent hj hf => fuel_parse_none ko e he f ih p j parent hj hf,
      fun p j t parent hj hf => fuel_parse_some ko e f ih p j t parent hj hf⟩

theorem parse_scan_error (ko : Bool) (p : Parser) (parent : Value) (k : Nat) (e : Err)
    (fuel : Nat) (hfa : FailsAfter p k e) (he : e ≠ Err.outOfFuel) (hf : 4 * k + 1 ≤ fuel) :
    (parse ko fuel p none parent).err = some e ∨
      ((parse ko fuel p none parent).err ≠ some Err.outOfFuel ∧
        ∃ j, j ≤ k ∧ afterTags j p = some (parse ko fuel p none parent).p) := by
  have hfuel := (parser_fuel ko e he fuel).2.2.2.2.1 p k parent hfa hf
  have ht := (parser_threaded ko fuel).2.2 p none parent
  obtain ⟨pk, p1, hk, hn⟩ := hfa
  rcases ht with ⟨j, hj⟩ | ⟨_, j, pj, e1, hj, hnj, hraw⟩
  · right
    refine ⟨hfuel, j, ?_, hj⟩
    by_contra hlt
    rw [afterTags_fail k _ pk p1 e hk hn j (by omega)] at hj
    exact Option.noConfusion hj
  · left
    have hjk : j = k := by
      rcases Nat.lt_trichotomy j k with h | h | h
      · rw [afterTags_fail j _ pj _ e1 hj hnj k h] at hk
        exact Option.noConfusion hk
      · exact h
      · rw [afterTags_fail k _ pk p1 e hk hn j h] at hj
        exact Option.noConfusion hj
    subst hjk
    rw [hk] at hj
    have hpk : pk = pj := Option.some.inj hj
    subst hpk
    rw [hn] at hnj
    have hee : e = e1 := Except.error.inj (Prod.mk.inj hnj).1
    subst hee
    exact hraw

theorem Ucl_scan_error (ko : Bool) (r : List Rd) (k : Nat) (e : Err)
    (hfa : FailsAfter (NewParser r) k e) (he : e ≠ Err.EOF) (he2 : e ≠ Err.outOfFuel)
    (hf : 4 * k + 1 ≤ uclFuel r) :
    (Ucl ko r).err = some e ∨
      ((Ucl ko r).err ≠ some Err.outOfFuel ∧
        ∃ j, j ≤ k ∧ afterTags j (NewParser r) = some (Ucl ko r).p) := by
  have h := parse_scan_error ko (NewParser r) (Value.map []) k e (uclFuel r) hfa he2 hf
  unfold Ucl
  generalize parse ko (uclFuel r) (NewParser r) none (Value.map []) = q at h ⊢
  obtain ⟨qv, qe, qp, qq⟩ := q
  dsimp only at h ⊢
  rcases h with h | ⟨h1, h2⟩
  · left
    rw [h, if_neg (by intro hc; exact he (Option.some.inj hc))]
  · right
    refine ⟨?_, h2⟩
    split_ifs
    · simp
    · exact h1

/-- C9: what holds of the claim, the byte right after a `<` in Tag state
apart. (1) Whenever the loop of `nexttags` reads a closing `}` or
`]` in Whitespace state, or in Tag state while the accumulated tag does not
end in `<`, and the innermost open scope is not the matching opener or no
scope is open, the `nexttags` call returns an error (`misplaced` in
Whitespace state, `unexpected` in Tag state); (2) an error of the `nexttags`
call that `nexttag` makes is the error of `nexttag`; (3) when the `nexttag`
call after `k` tags of the input fails with the error `e`, the call
`parse(nil, p.ucl)` of `Ucl`, run with any fuel from `4 * k + 1` on, returns
`e`, unless it had returned before making that call (after `j ≤ k` tags), and
it never ends for lack of fuel; (4) so `Ucl` returns `e` when `e` is not
`io.EOF`, unless it had stopped reading before. -/
theorem C9_scope_mismatch_error :
    (∀ (s : Scanner) (tags : List Tag) (c : Nat) (rest : Bytes) (r : List Rd),
      (s.state = St.WHITESPACE ∨ (s.state = St.TAG ∧ s.curtag.getLast? ≠ some 60)) →
      Mismatch s c →
      (nexttagsFrom s tags (c :: rest) r).res =
        Except.error (if s.state = St.WHITESPACE then Err.misplaced c else Err.unexpected c)) ∧
    (∀ (p : Parser) (e : Err), p.tags.dropWhile filtered = [] →
      (nexttags p.scanner p.buf p.r).res = Except.error e → (nexttag p).1 = Except.error e) ∧
    (∀ (ko : Bool) (r : List Rd) (k : Nat) (e : Err) (fuel : Nat),
      FailsAfter (NewParser r) k e → e ≠ Err.outOfFuel → 4 * k + 1 ≤ fuel →
      (parse ko fuel (NewParser r) none (Value.map [])).err = some e ∨
        ((parse ko fuel (NewParser r) none (Value.map [])).err ≠ some Err.outOfFuel ∧
          ∃ j, j ≤ k ∧
            afterTags j (NewParser r) = some (parse ko fuel (NewParser r) none (Value.map [])).p)) ∧
    (∀ (ko : Bool) (r : List Rd) (k : Nat) (e : Err),
      FailsAfter (NewParser r) k e → e ≠ Err.EOF → e ≠ Err.outOfFuel → 4 * k + 1 ≤ uclFuel r →
      (Ucl ko r).err = some e ∨
        ((Ucl ko r).err ≠ some Err.outOfFuel ∧
          ∃ j, j ≤ k ∧ afterTags j (NewParser r) = some (Ucl ko r).p)) :=
  ⟨fun s tags c rest r hs hm => nexttagsFrom_mismatch s tags c rest r hs hm,
   fun p e ht h => nexttag_of_nexttags_error p e ht h,
   fun ko r k e fuel hfa he hf => parse_scan_error ko (NewParser r) (Value.map []) k e fuel hfa he hf,
   fun ko r k e hfa he he2 hf => Ucl_scan_error ko r k e hfa he he2 hf⟩

/-- C9 (witness): on `{ a 1; ]` the scanner, after the four tags `{`, `a`,
`1`, `;`, reads `]` in Whitespace state while the open scope is a brace:
`nexttags` returns `misplaced ]`, so does `nexttag`, and `Ucl` returns that
error. -/
theorem C9_scope_mismatch_error_witness :
    (nexttagsFrom ⟨[123], [32], St.WHITESPACE, false, true, 1, [], []⟩ [] (B "]") []).res =
      Except.error (Err.misplaced 93) ∧
    FailsAfter (NewParser [B "\x7b a 1; ]"]) 4 (Err.misplaced 93) ∧
    (nexttag ⟨⟨[123], [], St.WHITESPACE, false, true, 1, [], []⟩, B " ]", [], []⟩).1 =
      Except.error (Err.misplaced 93) ∧
    (parse true 17 (NewParser [B "\x7b a 1; ]"]) none (Value.map [])).err =
      some (Err.misplaced 93) ∧
    (Ucl true [B "\x7b a 1; ]"]).err = some (Err.misplaced 93) := by
  have h1 := C9_scope_mismatch_error.1 ⟨[123], [32], St.WHITESPACE, false, true, 1, [], []⟩ []
    93 [] [] (Or.inl rfl) (Or.inr ⟨rfl, by decide⟩)
  have h2 := C9_scope_mismatch_error.2.1
    ⟨⟨[123], [], St.WHITESPACE, false, true, 1, [], []⟩, B " ]", [], []⟩ (Err.misplaced 93)
    rfl (by rfl)
  have hfa : FailsAfter (NewParser [B "\x7b a 1; ]"]) 4 (Err.misplaced 93) :=
    ⟨⟨⟨[123], [], St.WHITESPACE, false, true, 1, [], []⟩, B " ]", [], []⟩,
     ⟨⟨[123], [], St.WHITESPACE, false, true, 1, [], []⟩, [], [], []⟩, by rfl, by rfl⟩
  have h3 := C9_scope_mismatch_error.2.2.1 true [B "\x7b a 1; ]"] 4 (Err.misplaced 93) 17
    hfa (by decide) (by decide)
  have h4 := C9_scope_mismatch_error.2.2.2 true [B "\x7b a 1; ]"] 4 (Err.misplaced 93)
    hfa (by decide) (by decide) (by decide)
  refine ⟨h1, hfa, h2, ?_, ?_⟩
  · rcases h3 with h3 | ⟨_, j, _, hj⟩
    · exact h3
    · decide
  · rcases h4 with h4 | ⟨_, j, _, hj⟩
    · exact h4
    · decide

theorem nexttagsFrom_more_nil (s s1 : Scanner) (tags tags1 : List Tag) (buf : Bytes)
    (h : nexttagsBuf s tags 0 buf = BufOut.more s1 tags1) :
    nexttagsFrom s tags buf [] = eofOut s1 [] := by
  rw [nexttagsFrom, h]

theorem nexttagsFrom_more_empty (s s1 : Scanner) (tags tags1 : List Tag) (buf : Bytes)
    (e : Option RdErr) (r1 : List Rd) (h : nexttagsBuf s tags 0 buf = BufOut.more s1 tags1) :
    nexttagsFrom s tags buf (⟨[], e⟩ :: r1) = eofOut s1 r1 := by
  rw [nexttagsFrom, h]
  simp

theorem nexttagsFrom_more_chunk (s s1 : Scanner) (tags tags1 : List Tag) (buf chunk : Bytes)
    (r1 : List Rd) (h : nexttagsBuf s tags 0 buf = BufOut.more s1 tags1) (hc : chunk ≠ []) :
    nexttagsFrom s tags buf (chunk :: r1) = nexttagsFrom s1 tags1 chunk r1 := by
  have : chunk.length ≠ 0 := fun h0 => hc (List.length_eq_zero.1 h0)
  conv_lhs => rw [nexttagsFrom, h]
  simp only [if_neg this]

theorem nexttagsFrom_more_err (s s1 : Scanner) (tags tags1 : List Tag) (buf data : Bytes)
    (e : RdErr) (r1 : List Rd) (h : nexttagsBuf s tags 0 buf = BufOut.more s1 tags1)
    (hc : data ≠ []) :
    nexttagsFrom s tags buf (⟨data, some e⟩ :: r1) =
      { scanner := s1, buf := [], r := r1, res := Except.error e.toErr } := by
  have : data.length ≠ 0 := fun h0 => hc (List.length_eq_zero.1 h0)
  rw [nexttagsFrom, h]
  simp only [if_neg this]

/-- C11: what `nexttags` returns once the loop has used up its buffer, the
scanner then being `s1`. (1) When the next `Read` delivers no byte, because
the reader is exhausted or the `Read` returns no byte, whatever its error,
the call returns `UnexpectedEOF` if the scope stack of `s1` is not empty and
`io.EOF` if it is empty, and leaves the scanner as it was. (2) When the next
`Read` delivers at least one byte together with an error, the call returns
that error, whatever the scope stack holds, with the scanner as it was: with
`io.EOF` as the error of the `Read`, the call returns `io.EOF` also while a
scope is open. (3) A call on an exhausted input returns as in (1). -/
theorem C11_end_of_input_classification :
    (∀ (s s1 : Scanner) (tags tags1 : List Tag) (buf : Bytes) (r : List Rd),
      nexttagsBuf s tags 0 buf = BufOut.more s1 tags1 →
      (r = [] ∨ ∃ e r1, r = ⟨[], e⟩ :: r1) →
      (nexttagsFrom s tags buf r).res =
          Except.error (if s1.depth = [] then Err.EOF else Err.UnexpectedEOF) ∧
        (nexttagsFrom s tags buf r).scanner = s1) ∧
    (∀ (s s1 : Scanner) (tags tags1 : List Tag) (buf data : Bytes) (e : RdErr) (r1 : List Rd),
      nexttagsBuf s tags 0 buf = BufOut.more s1 tags1 → data ≠ [] →
      (nexttagsFrom s tags buf (⟨data, some e⟩ :: r1)).res = Except.error e.toErr ∧
        (nexttagsFrom s tags buf (⟨data, some e⟩ :: r1)).scanner = s1) ∧
    (∀ s : Scanner, (nexttags s [] []).res =
      Except.error (if s.depth = [] then Err.EOF else Err.UnexpectedEOF)) := by
  have hcls : ∀ (s1 : Scanner) (r : List Rd), (eofOut s1 r).res =
      Except.error (if s1.depth = [] then Err.EOF else Err.UnexpectedEOF) := by
    intro s1 r
    unfold eofOut
    cases hd : s1.depth <;> simp
  refine ⟨?_, ?_, ?_⟩
  · intro s s1 tags tags1 buf r h hr
    rcases hr with rfl | ⟨e, r1, rfl⟩
    · rw [nexttagsFrom_more_nil s s1 tags tags1 buf h]
      exact ⟨hcls s1 [], rfl⟩
    · rw [nexttagsFrom_more_empty s s1 tags tags1 buf e r1 h]
      exact ⟨hcls s1 r1, rfl⟩
  · intro s s1 tags tags1 buf data e r1 h hc
    rw [nexttagsFrom_more_err s s1 tags tags1 buf data e r1 h hc]
    exact ⟨rfl, rfl⟩
  · intro s
    have h : nexttagsBuf s [] 0 [] = BufOut.more s [] := rfl
    unfold nexttags
    rw [nexttagsFrom_more_nil s s [] [] [] h]
    exact hcls s []

/-- C11 (witness): after `{ a` the buffer is used up with the brace still
open. The exhausted reader makes `nexttags` return `UnexpectedEOF`; a `Read`
that delivers `b` together with `io.EOF` makes it return `io.EOF`. After
`a 1;` and a blank no scope is open and a `Read` without bytes makes it
return `io.EOF`. -/
theorem C11_end_of_input_classification_witness :
    (nexttags newScanner (B "\x7b a") []).res = Except.ok [⟨B "\x7b", St.BRACEOPEN⟩] ∧
    (nexttags ⟨[123], [], St.WHITESPACE, false, false, 1, [], []⟩ (B " a") []).res =
      Except.error Err.UnexpectedEOF ∧
    (nexttags ⟨[123], [], St.WHITESPACE, false, false, 1, [], []⟩ (B " a")
      [⟨B "b", some RdErr.EOF⟩]).res = Except.error Err.EOF ∧
    (nexttags ⟨[], [], St.WHITESPACE, false, true, 1, [], []⟩ (B " ") [⟨[], none⟩]).res =
      Except.error Err.EOF := by
  have h1 := (C11_end_of_input_classification.1
    ⟨[123], [], St.WHITESPACE, false, false, 1, [], []⟩
    ⟨[123], [97], St.TAG, true, true, 1, [], []⟩ [] [] (B " a") [] (by rfl) (Or.inl rfl)).1
  have h2 := (C11_end_of_input_classification.2.1
    ⟨[123], [], St.WHITESPACE, false, false, 1, [], []⟩
    ⟨[123], [97], St.TAG, true, true, 1, [], []⟩ [] [] (B " a") (B "b") RdErr.EOF [] (by rfl)
    (by decide)).1
  have h3 := (C11_end_of_input_classification.1
    ⟨[], [], St.WHITESPACE, false, true, 1, [], []⟩
    ⟨[], [32], St.WHITESPACE, false, true, 1, [], []⟩ [] [] (B " ") [⟨[], none⟩] (by rfl)
    (Or.inr ⟨none, [], rfl⟩)).1
  exact ⟨by rfl, h1, h2, h3⟩

/-- C11 (failing input): the reader whose first `Read` delivers `{` and a
blank, and whose second `Read` delivers `a` together with `io.EOF`. The first
call of `nexttags` returns the token `{`, leaving the brace on the scope
stack and the blank in the buffer. The second call uses the blank up, reads,
and returns `io.EOF` with the brace still open: the input is exhausted while
a scope is open and the result is not `UnexpectedEOF`; the byte `a` is never
scanned. `Ucl` on this reader returns a nil error and the empty map. When the
same bytes come without an error and the next `Read` delivers nothing, the
second call returns `UnexpectedEOF`, and so does `Ucl`. -/
theorem C11_eof_with_last_bytes_while_scope_open :
    (nexttags newScanner [] [B "\x7b ", ⟨B "a", some RdErr.EOF⟩]).res =
      Except.ok [⟨B "\x7b", St.BRACEOPEN⟩] ∧
    (nexttags newScanner [] [B "\x7b ", ⟨B "a", some RdErr.EOF⟩]).scanner.depth = B "\x7b" ∧
    (nexttags newScanner [] [B "\x7b ", ⟨B "a", some RdErr.EOF⟩]).buf = B " " ∧
    (nexttags newScanner [] [B "\x7b ", ⟨B "a", some RdErr.EOF⟩]).r = [⟨B "a", some RdErr.EOF⟩] ∧
    (nexttags (nexttags newScanner [] [B "\x7b ", ⟨B "a", some RdErr.EOF⟩]).scanner (B " ")
      [⟨B "a", some RdErr.EOF⟩]).res = Except.error Err.EOF ∧
    (nexttags (nexttags newScanner [] [B "\x7b ", ⟨B "a", some RdErr.EOF⟩]).scanner (B " ")
      [⟨B "a", some RdErr.EOF⟩]).scanner.depth = B "\x7b" ∧
    (Ucl true [B "\x7b ", ⟨B "a", some RdErr.EOF⟩]).err = none ∧
    (Ucl true [B "\x7b ", ⟨B "a", some RdErr.EOF⟩]).ucl = Value.map [] ∧
    (nexttags (nexttags newScanner [] [B "\x7b ", B "a"]).scanner (B " ") [B "a"]).res =
      Except.error Err.UnexpectedEOF ∧
    (Ucl true [B "\x7b ", B "a"]).err = some Err.UnexpectedEOF := by
  refine ⟨by rfl, by decide, by decide, by decide, by rfl, by decide, by decide, by rfl,
    by rfl, by decide⟩

/-- C12 (failing input): on the input `{ { a 1; }` the second brace is
never closed, yet `Ucl` returns a nil error with `a` mapped to `1`: `parse`
returns at the first `}`; the whole input has been read and the scope stack
of the scanner still holds one brace. The same input without its `}` is
refused with `UnexpectedEOF`. A nil error with a scope open is also what
`Ucl` returns when a `Read` delivers the last bytes together with `io.EOF`:
for the reads `{ a 1;` and then ` b 2;` with `io.EOF`, the document holds
`a` only and the brace is still open. -/
theorem C12_nil_error_with_open_scope :
    (Ucl true [B "\x7b \x7b a 1; \x7d"]).err = none ∧
    (Ucl true [B "\x7b \x7b a 1; \x7d"]).ucl =
      Value.map [(KeyOrder, Value.strs [B "a"]), (B "a", Value.str (B "1"))] ∧
    (Ucl true [B "\x7b \x7b a 1; \x7d"]).p.scanner.depth = [123] ∧
    (Ucl true [B "\x7b \x7b a 1; \x7d"]).p.buf = [] ∧
    (Ucl true [B "\x7b \x7b a 1; \x7d"]).p.r = [] ∧
    (Ucl true [B "\x7b \x7b a 1; \x7d"]).p.tags = [] ∧
    (Ucl true [B "\x7b \x7b a 1;"]).err = some Err.UnexpectedEOF ∧
    (Ucl true [B "\x7b a 1;", ⟨B " b 2;", some RdErr.EOF⟩]).err = none ∧
    (Ucl true [B "\x7b a 1;", ⟨B " b 2;", some RdErr.EOF⟩]).ucl =
      Value.map [(KeyOrder, Value.strs [B "a"]), (B "a", Value.str (B "1"))] ∧
    (Ucl true [B "\x7b a 1;", ⟨B " b 2;", some RdErr.EOF⟩]).p.scanner.depth = [123] := by
  refine ⟨by decide, by rfl, by decide, by decide, by decide, by decide, by decide, by decide,
    by rfl, by decide⟩

theorem scan_key_semi (d ct : Bytes) (sw ss : Bool) (ln : Nat) (mt cl : Bytes) (k rest : Bytes)
    (hct : WhiteEnd ct) (hk : Bareword k) :
    nexttagsBuf ⟨d, ct, St.WHITESPACE, sw, ss, ln, mt, cl⟩ [] 0 (k ++ 59 :: rest) =
      BufOut.ret ⟨d, [], St.WHITESPACE, true, true, ln, mt, cl⟩
        [⟨k, St.TAG⟩, ⟨[59], St.SEMICOL⟩] rest := by
  obtain ⟨hkne, hkb⟩ := hk
  cases k with
  | nil => exact absurd rfl hkne
  | cons c k' =>
    have hc := hkb c (by simp)
    have hk' : ∀ x ∈ k', isBare x = true := fun x hx => hkb x (by simp [hx])
    have h1 : ([c] : Bytes).getLast? ≠ some 60 :=
      getLast?_append_bare [] [c] nil_getLast?_ne (by intro x hx; simp at hx; subst hx; exact hc)
    have h2 : ([c] ++ k').getLast? ≠ some 60 := getLast?_append_bare [c] k' h1 hk'
    rw [List.cons_append, nexttagsBuf, step_white_bare d ct sw ss ln mt cl [] c _ hct hc]
    simp only []
    rw [buf_tag_word_first d true true ln mt cl _ k' [c] hk' h1]
    rw [nexttagsBuf, step_tag_semi d _ _ true ln mt cl _ _ h2 (by simp)]
    simp

theorem parse_key_null_of_scan (ko : Bool) (f : Nat) (S S1 : Scanner) (buf rest k : Bytes)
    (r : List Rd) (m : GoMap) (korder : Option (List Bytes))
    (hscan : nexttagsBuf S [] 0 buf = BufOut.ret S1 [⟨k, St.TAG⟩, ⟨[59], St.SEMICOL⟩] rest)
    (hm : korderOf ko m = Except.ok korder) :
    parse ko (f + 4) ⟨S, buf, r, []⟩ none (Value.map m) =
      parse ko (f + 2) ⟨S1, rest, r, []⟩ none (Value.map (insertKey m korder k Value.null)) := by
  have h1 := nexttag_scan _ _ _ _ r ⟨k, St.TAG⟩ _ [⟨[59], St.SEMICOL⟩] hscan
    (by simp [List.dropWhile, filtered])
  have h2 := nexttag_tags S1 rest r ⟨[59], St.SEMICOL⟩ [] (by simp [filtered])
  rw [parse_none, h1]
  simp only []
  rw [parse_key, hm]
  simp only []
  rw [parsevalue_none, h2]
  simp only []
  rfl

theorem mapGet_insertKey_null (ko : Bool) (k : Bytes) :
    mapGet (insertKey [] (if ko then some [] else none) k Value.null) k = some Value.null := by
  cases ko
  · simp [insertKey, mapGet, mapSet]
  · by_cases hk : k = KeyOrder
    · subst hk
      simp [insertKey, mapGet, mapSet]
    · have hk2 : ¬ KeyOrder = k := fun h => hk h.symm
      simp [insertKey, mapGet, mapSet, hk2]

theorem decode_keyOnly (ko : Bool) (k : Bytes) (hk : Bareword k) :
    (Ucl ko [(k ++ [59] : Bytes)]).ucl =
      Value.map (insertKey [] (if ko then some [] else none) k Value.null) ∧
    (Ucl ko [(k ++ [59] : Bytes)]).err = none := by
  obtain ⟨f, hf⟩ : ∃ f, uclFuel [(k ++ [59] : Bytes)] = f + 4 :=
    ⟨uclFuel [(k ++ [59] : Bytes)] - 4, by simp only [uclFuel]; omega⟩
  have hparse : parse ko (uclFuel [(k ++ [59] : Bytes)]) (NewParser [(k ++ [59] : Bytes)]) none (Value.map []) =
      ⟨Value.null, some Err.EOF,
        Value.map (insertKey [] (if ko then some [] else none) k Value.null),
        ⟨⟨[], [], St.WHITESPACE, true, true, 1, [], []⟩, [], [], []⟩⟩ := by
    rw [hf]
    show parse ko (f + 4)
      ⟨⟨[], [], St.WHITESPACE, false, false, 1, [], []⟩, [], [(k ++ [59] : Bytes)], []⟩
      none (Value.map []) = _
    have hne : k ++ [59] ≠ [] := bareword_ne_nil k hk _
    rw [parse_first_read _ _ _ _ _ _ hne]
    refine (parse_key_null_of_scan ko f _ _ _ [] k [] [] (if ko then some [] else none)
        (scan_key_semi [] [] false false 1 [] [] k [] WhiteEnd_nil hk)
        (by cases ko <;> rfl)).trans ?_
    rw [parse_eof _ _ _ _ rfl]
  rw [Ucl_of_parse _ _ _ _ _ _ hparse]
  simp

/-- C13: for every bareword key `k`, with or without order tracking, the
statement `k;` decodes without error to the document that the insertion of
`k` with the value nil into the empty map gives, in which `k` maps to Null:
with order tracking and `k` not the key-order sentinel it is the key-order
list `[k]` and the entry `k: nil`. -/
theorem C13_key_alone_is_null (ko : Bool) (k : Bytes) (hk : Bareword k) :
    (Ucl ko [(k ++ [59] : Bytes)]).err = none ∧
    (Ucl ko [(k ++ [59] : Bytes)]).ucl =
      Value.map (insertKey [] (if ko then some [] else none) k Value.null) ∧
    mapGet (insertKey [] (if ko then some [] else none) k Value.null) k = some Value.null ∧
    (k ≠ KeyOrder → (Ucl true [(k ++ [59] : Bytes)]).ucl =
      Value.map [(KeyOrder, Value.strs [k]), (k, Value.null)]) := by
  refine ⟨(decode_keyOnly ko k hk).2, (decode_keyOnly ko k hk).1, mapGet_insertKey_null ko k, ?_⟩
  intro hne
  rw [(decode_keyOnly true k hk).1]
  simp only [if_true]
  rw [insertKey_first k _ hne]

/-- C13 (witness): `none;`, the statement of the test, decodes to `none`
mapped to Null. -/
theorem C13_key_alone_is_null_witness :
    (Ucl true [B "none;"]).err = none ∧
    (Ucl true [B "none;"]).ucl =
      Value.map [(KeyOrder, Value.strs [B "none"]), (B "none", Value.null)] := by
  have h := C13_key_alone_is_null true (B "none") ⟨by decide, by decide⟩
  exact ⟨h.1, h.2.2.2 (by decide)⟩

theorem step_tag_rbrace_empty (d : Bytes) (sw ss : Bool) (ln : Nat) (mt cl : Bytes)
    (tags : List Tag) (rest : Bytes) :
    step ⟨d ++ [123], [], St.TAG, sw, ss, ln, mt, cl⟩ tags 125 rest =
      Step.ret ⟨d, [], St.WHITESPACE, sw, ss, ln, mt, cl⟩
        (tags ++ [⟨[125], St.BRACECLOSE⟩]) := by
  simp [step, stepTag, curdepth, scopereduce, trimTag, maketagV]

theorem scan_key_rbrace (d ct : Bytes) (sw ss : Bool) (ln : Nat) (mt cl : Bytes) (k rest : Bytes)
    (hk : Bareword k) :
    nexttagsBuf ⟨d ++ [123], ct, St.WHITESPACE, sw, ss, ln, mt, cl⟩ [] 0
        (32 :: (k ++ 32 :: 125 :: rest)) =
      BufOut.ret ⟨d, [], St.WHITESPACE, true, true, ln, mt, cl⟩
        [⟨k, St.TAG⟩, ⟨[125], St.BRACECLOSE⟩] rest := by
  obtain ⟨hkne, hkb⟩ := hk
  cases k with
  | nil => exact absurd rfl hkne
  | cons c k' =>
    have hc := hkb c (by simp)
    have hk' : ∀ x ∈ k', isBare x = true := fun x hx => hkb x (by simp [hx])
    have h1 : ([c] : Bytes).getLast? ≠ some 60 :=
      getLast?_append_bare [] [c] nil_getLast?_ne (by intro x hx; simp at hx; subst hx; exact hc)
    have h2 : ([c] ++ k').getLast? ≠ some 60 := getLast?_append_bare [c] k' h1 hk'
    rw [buf_white_blank, List.cons_append, nexttagsBuf,
      step_white_bare (d ++ [123]) _ sw ss ln mt cl [] c _ (WhiteEnd_append ct 32 (by decide)) hc]
    simp only []
    rw [buf_tag_word_first (d ++ [123]) true true ln mt cl _ k' [c] hk' h1]
    rw [nexttagsBuf, step_tag_space_first (d ++ [123]) _ _ true ln mt cl _ h2 (by simp)]
    simp only []
    rw [nexttagsBuf, step_tag_rbrace_empty]
    simp

theorem parse_keyOnlyBlock (ko : Bool) (f : Nat) (x k : Bytes) (hx : Bareword x)
    (hk : Bareword k) :
    parse ko (f + 9) ⟨⟨[], [], St.WHITESPACE, false, false, 1, [], []⟩, keyOnlyBlock x k, [], []⟩
        none (Value.map []) =
      ⟨Value.null, some Err.EOF, Value.map [],
        ⟨⟨[], [], St.WHITESPACE, true, true, 1, [], []⟩, [], [], []⟩⟩ := by
  have hscan := scan_key_lbrace [] [] false false 1 [] [] x (32 :: (k ++ [32, 125]))
    WhiteEnd_nil hx
  have h1 := nexttag_scan _ _ _ _ [] ⟨x, St.TAG⟩ _ [⟨[123], St.BRACEOPEN⟩] hscan
    (by simp [List.dropWhile, filtered])
  have h2 := nexttag_tags ⟨[] ++ [123], [], St.WHITESPACE, true, true, 1, [], []⟩
    (32 :: (k ++ [32, 125])) [] ⟨[123], St.BRACEOPEN⟩ [] (by simp [filtered])
  have hscan2 := scan_key_rbrace [] [] true true 1 [] [] k [] hk
  have h3 := nexttag_scan _ _ _ _ [] ⟨k, St.TAG⟩ _ [⟨[125], St.BRACECLOSE⟩] hscan2
    (by simp [List.dropWhile, filtered])
  have h4 := nexttag_tags ⟨[], [], St.WHITESPACE, true, true, 1, [], []⟩
    [] [] ⟨[125], St.BRACECLOSE⟩ [] (by simp [filtered])
  have hk0 : korderOf ko [] = Except.ok (if ko then some [] else none) := by cases ko <;> rfl
  unfold keyOnlyBlock
  rw [parse_none, h1]
  simp only []
  rw [parse_key, hk0]
  simp only []
  rw [parsevalue_none, h2]
  simp only []
  rw [parsevalue_braceopen, parse_braceopen_null, parse_none, h3]
  simp only []
  rw [parse_key, hk0]
  simp only []
  rw [parsevalue_none, h4]
  simp only []
  have h5 : parsevalue ko (f + 1) ⟨⟨[], [], St.WHITESPACE, true, true, 1, [], []⟩, [], [], []⟩
      (some ⟨[125], St.BRACECLOSE⟩) Value.null =
      ⟨Value.null, none, ⟨⟨[], [], St.WHITESPACE, true, true, 1, [], []⟩, [], [], []⟩⟩ := rfl
  rw [h5]
  simp only []
  rw [parse_eof _ _ _ _ rfl]

/-- C14: for all barewords `x` and `k`, with or without order tracking,
decoding `x { k }` returns a nil error and the empty document: `parsevalue`
takes the closing brace as the missing value of `k` and returns nil, `parse`
stores `k: nil` in the map of the block and reads on, the end of input makes
it return `io.EOF` without the block, and `x` is never stored. -/
theorem C14_key_only_block_is_dropped (ko : Bool) (x k : Bytes) (hx : Bareword x)
    (hk : Bareword k) :
    (Ucl ko [keyOnlyBlock x k]).err = none ∧
    (Ucl ko [keyOnlyBlock x k]).ucl = Value.map [] ∧
    (parse ko (uclFuel [keyOnlyBlock x k]) (NewParser [keyOnlyBlock x k]) none
      (Value.map [])).err = some Err.EOF := by
  obtain ⟨f, hf⟩ : ∃ f, uclFuel [keyOnlyBlock x k] = f + 9 :=
    ⟨uclFuel [keyOnlyBlock x k] - 9, by
      simp only [uclFuel, keyOnlyBlock, List.map_cons, List.map_nil, List.sum_cons, List.sum_nil,
        List.length_append, List.length_cons]
      omega⟩
  have hparse : parse ko (uclFuel [keyOnlyBlock x k]) (NewParser [keyOnlyBlock x k]) none
      (Value.map []) =
      ⟨Value.null, some Err.EOF, Value.map [],
        ⟨⟨[], [], St.WHITESPACE, true, true, 1, [], []⟩, [], [], []⟩⟩ := by
    rw [hf]
    show parse ko (f + 9)
      ⟨⟨[], [], St.WHITESPACE, false, false, 1, [], []⟩, [], [keyOnlyBlock x k], []⟩
      none (Value.map []) = _
    have hne : keyOnlyBlock x k ≠ [] := bareword_ne_nil x hx _
    rw [parse_first_read _ _ _ _ _ _ hne]
    exact parse_keyOnlyBlock ko f x k hx hk
  rw [Ucl_of_parse _ _ _ _ _ _ hparse, hparse]
  simp

/-- C14 (witness): `x { k }` decodes to the empty document with a nil error,
while `x { k; }` gives `x` mapped to the block in which `k` is Null. -/
theorem C14_key_only_block_is_dropped_witness :
    keyOnlyBlock (B "x") (B "k") = B "x \x7b k \x7d" ∧
    (Ucl true [B "x \x7b k \x7d"]).err = none ∧
    (Ucl true [B "x \x7b k \x7d"]).ucl = Value.map [] ∧
    (Ucl true [B "x \x7b k; \x7d"]).err = none ∧
    (Ucl true [B "x \x7b k; \x7d"]).ucl =
      Value.map [(KeyOrder, Value.strs [B "x"]),
        (B "x", Value.map [(KeyOrder, Value.strs [B "k"]), (B "k", Value.null)])] := by
  have h := C14_key_only_block_is_dropped true (B "x") (B "k") ⟨by decide, by decide⟩
    ⟨by decide, by decide⟩
  have t : keyOnlyBlock (B "x") (B "k") = B "x \x7b k \x7d" := by decide
  rw [t] at h
  exact ⟨t, h.1, h.2.1, by decide, by rfl⟩

/-- C18: with order tracking disabled, `a b "c";` decodes with a nil error
to `a` mapped to a map that holds the key-order sentinel with the list `[b]`
next to `b: c`: `parsevalue` builds the map of the nested-key shorthand with
a key-order list whatever the flag says. The map that `parse` fills carries
no sentinel, as in `a { b c; }`. -/
theorem C18_sentinel_with_tracking_disabled :
    (Ucl false [B "a b \"c\";"]).err = none ∧
    (Ucl false [B "a b \"c\";"]).ucl =
      Value.map [(B "a", Value.map [(KeyOrder, Value.strs [B "b"]), (B "b", Value.str (B "c"))])] ∧
    mapGet [(KeyOrder, Value.strs [B "b"]), (B "b", Value.str (B "c"))] KeyOrder =
      some (Value.strs [B "b"]) ∧
    (Ucl false [B "a \x7b b c; \x7d"]).err = none ∧
    (Ucl false [B "a \x7b b c; \x7d"]).ucl =
      Value.map [(B "a", Value.map [(B "b", Value.str (B "c"))])] := by
  refine ⟨by decide, by rfl, by rfl, by decide, by rfl⟩

theorem step_white_comma (s : Scanner) (tags : List Tag) (rest : Bytes)
    (hs : s.state = St.WHITESPACE) (hd : curdepth s ≠ 91) :
    step s tags 44 rest = Step.fail (Err.unexpected 44) := by
  obtain ⟨d, ct, st, sw, ss, ln, mt, cl⟩ := s
  simp only at hs
  subst hs
  have h2 : ∀ ct2, curdepth ⟨d, ct2, St.WHITESPACE, sw, ss, ln, mt, cl⟩ ≠ 91 := fun ct2 => hd
  simp only [step, stepWhite, discard]
  simp
  split_ifs <;> simp [h2]

theorem step_tag_comma_kept (s : Scanner) (tags : List Tag) (rest : Bytes)
    (hs : s.state = St.TAG) (hlt : s.curtag.getLast? ≠ some 60)
    (h1 : curdepth s ≠ 91) (h2 : curdepth s ≠ 123) :
    step s tags 44 rest = Step.cont { s with curtag := s.curtag ++ [44] } tags 0 := by
  obtain ⟨d, ct, st, sw, ss, ln, mt, cl⟩ := s
  simp only at hs hlt
  subst hs
  simp [step, stepTag, hlt, h1, h2]

theorem step_tag_comma_token (s : Scanner) (tags : List Tag) (rest : Bytes)
    (hs : s.state = St.TAG) (hlt : s.curtag.getLast? ≠ some 60)
    (hd : curdepth s = 91 ∨ curdepth s = 123) :
    step s tags 44 rest =
      Step.ret { s with curtag := [], state := St.WHITESPACE }
        (tags ++ [if 0 < s.curtag.length then ⟨s.curtag, St.TAG⟩ else ⟨[], St.WHITESPACE⟩,
          ⟨[44], St.COMMA⟩]) := by
  obtain ⟨d, ct, st, sw, ss, ln, mt, cl⟩ := s
  simp only at hs hlt
  subst hs
  have hd2 : ¬ (curdepth ⟨d, ct, St.TAG, sw, ss, ln, mt, cl⟩ ≠ 91 ∧
      curdepth ⟨d, ct, St.TAG, sw, ss, ln, mt, cl⟩ ≠ 123) := by
    intro h; rcases hd with hd | hd
    · exact h.1 hd
    · exact h.2 hd
  by_cases hc : 0 < ct.length
  · simp [step, stepTag, emit0, maketag0, hlt, hd2, hc]
  · have : ct = [] := by
      cases ct with
      | nil => rfl
      | cons a l => simp at hc
    subst this
    simp [step, stepTag, emit0, maketag0, hd2]

/-- C19 (counterexample): in Tag state the scanner reads `,` while the
innermost open scope is a brace and emits a Comma token, with no error
(`a,` inside braces gives the tags `a` and `,`); with no scope open it keeps
the `,` as part of the tag, again with no error (`a,b;` decodes to the key
`a,b`). -/
theorem C19_comma_in_tag_state_no_error :
    curdepth ⟨[123], [97], St.TAG, true, true, 1, [], []⟩ = 123 ∧
    step ⟨[123], [97], St.TAG, true, true, 1, [], []⟩ [] 44 (B "\x7d") =
      Step.ret ⟨[123], [], St.WHITESPACE, true, true, 1, [], []⟩
        [⟨B "a", St.TAG⟩, ⟨B ",", St.COMMA⟩] ∧
    (nexttags ⟨[123], [], St.WHITESPACE, false, false, 1, [], []⟩ (B "a,\x7d") []).res =
      Except.ok [⟨B "a", St.TAG⟩, ⟨B ",", St.COMMA⟩] ∧
    curdepth ⟨[], [97], St.TAG, true, true, 1, [], []⟩ = 0 ∧
    step ⟨[], [97], St.TAG, true, true, 1, [], []⟩ [] 44 (B "b;") =
      Step.cont ⟨[], [97, 44], St.TAG, true, true, 1, [], []⟩ [] 0 ∧
    (nexttags newScanner (B "a,b;") []).res =
      Except.ok [⟨B "a,b", St.TAG⟩, ⟨B ";", St.SEMICOL⟩] ∧
    (Ucl true [B "a,b;"]).err = none := by
  refine ⟨by decide, by rfl, by rfl, by decide, by rfl, by rfl, by decide⟩

/-- C19 (amended): (1) whenever the loop of `nexttags` reads `,` in
Whitespace state while the innermost open scope is not `[`, the call returns
the error `unexpected ','`; (2) in Tag state, the accumulated tag not ending
in `<`, a `,` read while the innermost open scope is neither `[` nor a brace
is appended to the tag and the loop goes on; (3) read while that scope is
`[` or a brace, it ends the tag and is returned as a Comma token. -/
theorem C19_comma_outside_array (s : Scanner) (tags : List Tag) (rest : Bytes) (r : List Rd) :
    (s.state = St.WHITESPACE → curdepth s ≠ 91 →
      step s tags 44 rest = Step.fail (Err.unexpected 44) ∧
      (nexttagsFrom s tags (44 :: rest) r).res = Except.error (Err.unexpected 44)) ∧
    (s.state = St.TAG → s.curtag.getLast? ≠ some 60 → curdepth s ≠ 91 → curdepth s ≠ 123 →
      step s tags 44 rest = Step.cont { s with curtag := s.curtag ++ [44] } tags 0) ∧
    (s.state = St.TAG → s.curtag.getLast? ≠ some 60 → (curdepth s = 91 ∨ curdepth s = 123) →
      step s tags 44 rest =
        Step.ret { s with curtag := [], state := St.WHITESPACE }
          (tags ++ [if 0 < s.curtag.length then ⟨s.curtag, St.TAG⟩ else ⟨[], St.WHITESPACE⟩,
            ⟨[44], St.COMMA⟩]) ∧
      (nexttagsFrom s tags (44 :: rest) r).res =
        Except.ok (tags ++ [if 0 < s.curtag.length then ⟨s.curtag, St.TAG⟩
          else ⟨[], St.WHITESPACE⟩, ⟨[44], St.COMMA⟩])) := by
  refine ⟨?_, ?_, ?_⟩
  · intro hs hd
    have h := step_white_comma s tags rest hs hd
    exact ⟨h, nexttagsFrom_fail s tags 44 rest r _ h⟩
  · intro hs hlt h1 h2
    exact step_tag_comma_kept s tags rest hs hlt h1 h2
  · intro hs hlt hd
    have h := step_tag_comma_token s tags rest hs hlt hd
    refine ⟨h, ?_⟩
    rw [nexttagsFrom]
    simp only [nexttagsBuf, h]

/-- C19 (witness): after `{ a 1;` and a blank, in Whitespace state with a
brace open, a `,` makes `nexttags` fail; in Tag state inside `[` it is
returned as a Comma token; in Tag state with no scope open it is kept. -/
theorem C19_comma_outside_array_witness :
    (nexttagsFrom ⟨[123], [32], St.WHITESPACE, false, true, 1, [], []⟩ [] (B ",") []).res =
      Except.error (Err.unexpected 44) ∧
    step ⟨[], [97], St.TAG, true, true, 1, [], []⟩ [] 44 (B "b;") =
      Step.cont ⟨[], [97, 44], St.TAG, true, true, 1, [], []⟩ [] 0 ∧
    (nexttagsFrom ⟨[91], [49], St.TAG, true, true, 1, [], []⟩ [] (B ",2]") []).res =
      Except.ok [⟨B "1", St.TAG⟩, ⟨B ",", St.COMMA⟩] ∧
    (Ucl true [B "\x7b a 1; ,"]).err = some (Err.unexpected 44) := by
  have h1 := ((C19_comma_outside_array ⟨[123], [32], St.WHITESPACE, false, true, 1, [], []⟩ []
    [] []).1 rfl (by decide)).2
  have h2 := (C19_comma_outside_array ⟨[], [97], St.TAG, true, true, 1, [], []⟩ []
    (B "b;") []).2.1 rfl (by decide) (by decide) (by decide)
  have h3 := ((C19_comma_outside_array ⟨[91], [49], St.TAG, true, true, 1, [], []⟩ []
    (B "2]") []).2.2 rfl (by decide) (Or.inl (by decide))).2
  exact ⟨h1, h2, h3, by decide⟩

theorem encodeKeys_join (e : Encoder) (m : GoMap) (parenttype : ParentType) (indent : Nat)
    (keys : List Bytes) (first : Bool) :
    encodeKeys e (fun k => ((mapChildren e m indent).lookup k).getD
        (encodeScalar e none ParentType.parent_map (indent + 1))) parenttype indent first keys =
      (if first ∨ keys = [] then [] else Fprintf0 e.newline) ++
        joinWith (Fprintf0 e.newline) (keys.map (mapRound e m parenttype indent)) := by
  induction keys generalizing first with
  | nil => simp [encodeKeys, joinWith]
  | cons k t ih =>
    rw [encodeKeys, ih false]
    cases t with
    | nil => cases first <;> simp [joinWith, mapRound]
    | cons k2 t2 => cases first <;> simp [joinWith, mapRound]

theorem doencode_keyorder (e : Encoder) (m : GoMap) (korder : List Bytes)
    (parenttype : ParentType) (indent : Nat)
    (h : mapGet m KeyOrder = some (Value.strs korder)) :
    doencode e (Value.map m) parenttype indent =
      joinWith (Fprintf0 e.newline) (korder.map (mapRound e m parenttype indent)) ++
        (if 0 < korder.length then Fprintf0 e.newline else []) := by
  rw [doencode]
  simp only [h]
  rw [encodeKeys_join]
  simp

theorem keyorder_not_listed (m : GoMap) (ks : List Bytes) (hm : KeyOrderInv m)
    (h : mapGet m KeyOrder = some (Value.strs ks)) : KeyOrder ∉ ks := by
  have := ((KeyOrderInv_iff m).1 hm).2.2 ks h
  rw [this.2]
  unfold otherKeys
  intro hc
  have := (List.mem_filter.1 hc).2
  simp at this

/-- C17 (counterexample): a map whose key-order list names the sentinel
itself is encoded with the sentinel key as an entry of the output, its value
being the list. -/
theorem C17_sentinel_listed_is_emitted :
    mapGet [(KeyOrder, Value.strs [KeyOrder])] KeyOrder = some (Value.strs [KeyOrder]) ∧
    testEncode (Value.map [(KeyOrder, Value.strs [KeyOrder])]) =
      B "\"--ucl-keyorder--\" [\n   \"--ucl-keyorder--\"\n];\n" := by
  refine ⟨by rfl, by decide⟩

/-- C17 (amended): when the map `m` carries the key-order list `korder`
under the sentinel key, `encodeMap` writes one round of its loop for each
element of `korder`, in list order, with the newline between the rounds and
after the last one, and nothing else: keys of `m` that the list does not
name are not written, and the sentinel key is written as an entry exactly
when the list names it, which no map that keeps the key-order invariant of
the decoder does. -/
theorem C17_key_order_list_is_iterated (e : Encoder) (m : GoMap) (korder : List Bytes)
    (parenttype : ParentType) (indent : Nat)
    (h : mapGet m KeyOrder = some (Value.strs korder)) :
    doencode e (Value.map m) parenttype indent =
      joinWith (Fprintf0 e.newline) (korder.map (mapRound e m parenttype indent)) ++
        (if 0 < korder.length then Fprintf0 e.newline else []) ∧
    (KeyOrderInv m → KeyOrder ∉ korder) :=
  ⟨doencode_keyorder e m korder parenttype indent h, fun hm => keyorder_not_listed m korder hm h⟩

/-- C17 (witness): with the key-order list `b, a` the map `a: 1, b: 2, c: 3`
is encoded as `b 2;` and `a 1;`: `c` and the sentinel are not written. -/
theorem C17_key_order_list_is_iterated_witness :
    testEncode (Value.map [(KeyOrder, Value.strs [B "b", B "a"]), (B "a", Value.str (B "1")),
      (B "b", Value.str (B "2")), (B "c", Value.str (B "3"))]) = B "b 2;\na 1;\n" ∧
    joinWith (B "\n") [B "b 2;", B "a 1;"] ++ B "\n" = B "b 2;\na 1;\n" := by
  have h := (C17_key_order_list_is_iterated ⟨noTbl, B "   ", [10], []⟩
    [(KeyOrder, Value.strs [B "b", B "a"]), (B "a", Value.str (B "1")),
      (B "b", Value.str (B "2")), (B "c", Value.str (B "3"))] [B "b", B "a"]
    ParentType.parent_map 0 (by rfl)).1
  refine ⟨?_, by decide⟩
  show doencode ⟨noTbl, B "   ", [10], []⟩ _ ParentType.parent_map 0 = _
  rw [h]
  decide

theorem step_tag_lbracket_empty (d : Bytes) (sw ss : Bool) (ln : Nat) (mt cl : Bytes)
    (tags : List Tag) (rest : Bytes) :
    step ⟨d, [], St.TAG, sw, ss, ln, mt, cl⟩ tags 91 rest =
      Step.ret ⟨d ++ [91], [], St.WHITESPACE, sw, ss, ln, mt, cl⟩
        (tags ++ [⟨[91], St.BRACKETOPEN⟩]) := by
  simp [step, stepTag, emit0, maketag0, scopeadd, fieldTags, splitSpace]

theorem scan_key_lbracket (d ct : Bytes) (sw ss : Bool) (ln : Nat) (mt cl : Bytes)
    (k rest : Bytes) (hct : WhiteEnd ct) (hk : Bareword k) :
    nexttagsBuf ⟨d, ct, St.WHITESPACE, sw, ss, ln, mt, cl⟩ [] 0 (k ++ 32 :: 91 :: rest) =
      BufOut.ret ⟨d ++ [91], [], St.WHITESPACE, true, true, ln, mt, cl⟩
        [⟨k, St.TAG⟩, ⟨[91], St.BRACKETOPEN⟩] rest := by
  obtain ⟨hkne, hkb⟩ := hk
  cases k with
  | nil => exact absurd rfl hkne
  | cons c k' =>
    have hc := hkb c (by simp)
    have hk' : ∀ x ∈ k', isBare x = true := fun x hx => hkb x (by simp [hx])
    have h1 : ([c] : Bytes).getLast? ≠ some 60 :=
      getLast?_append_bare [] [c] nil_getLast?_ne (by intro x hx; simp at hx; subst hx; exact hc)
    have h2 : ([c] ++ k').getLast? ≠ some 60 := getLast?_append_bare [c] k' h1 hk'
    rw [List.cons_append, nexttagsBuf, step_white_bare d ct sw ss ln mt cl [] c _ hct hc]
    simp only []
    rw [buf_tag_word_first d true true ln mt cl _ k' [c] hk' h1]
    rw [nexttagsBuf, step_tag_space_first d _ _ true ln mt cl _ h2 (by simp)]
    simp only []
    rw [nexttagsBuf, step_tag_lbracket_empty]
    simp

theorem scan_elem_comma (d ct : Bytes) (sw ss : Bool) (ln : Nat) (mt cl : Bytes)
    (e rest : Bytes) (he : Bareword e) :
    nexttagsBuf ⟨d ++ [91], ct, St.WHITESPACE, sw, ss, ln, mt, cl⟩ [] 0
        (32 :: (e ++ 44 :: rest)) =
      BufOut.ret ⟨d ++ [91], [], St.WHITESPACE, true, true, ln, mt, cl⟩
        [⟨e, St.TAG⟩, ⟨[44], St.COMMA⟩] rest := by
  obtain ⟨hene, heb⟩ := he
  cases e with
  | nil => exact absurd rfl hene
  | cons c e' =>
    have hc := heb c (by simp)
    have he' : ∀ x ∈ e', isBare x = true := fun x hx => heb x (by simp [hx])
    have h1 : ([c] : Bytes).getLast? ≠ some 60 :=
      getLast?_append_bare [] [c] nil_getLast?_ne (by intro x hx; simp at hx; subst hx; exact hc)
    have h2 : ([c] ++ e').getLast? ≠ some 60 := getLast?_append_bare [c] e' h1 he'
    rw [buf_white_blank, List.cons_append, nexttagsBuf,
      step_white_bare (d ++ [91]) _ sw ss ln mt cl [] c _ (WhiteEnd_append ct 32 (by decide)) hc]
    simp only []
    rw [buf_tag_word_first (d ++ [91]) true true ln mt cl _ e' [c] he' h1]
    rw [nexttagsBuf, step_tag_comma_token _ _ _ rfl h2 (Or.inl (by simp [curdepth]))]
    simp

theorem step_white_semi (d ct : Bytes) (sw ss : Bool) (ln : Nat) (mt cl : Bytes)
    (tags : List Tag) (rest : Bytes) (hct : WhiteEnd ct) :
    step ⟨d, ct, St.WHITESPACE, sw, ss, ln, mt, cl⟩ tags 59 rest =
      Step.ret ⟨d, [], St.WHITESPACE, sw, ss, ln, mt, cl⟩
        (tags ++ [⟨[59], St.SEMICOL⟩]) := by
  have hd := whiteEnd_discard ct hct
  cases hl : ct.getLast? with
  | none =>
    rw [List.getLast?_eq_none_iff] at hl
    subst hl
    simp [step, stepWhite, discard, emit0, maketag0]
  | some b =>
    have hb := hct b hl
    have hne : ct ≠ [] := by
      intro h0; rw [h0] at hl; cases hl
    have : 0 < ct.length := List.length_pos.2 hne
    simp [step, stepWhite, discard, emit0, maketag0, *]

theorem scan_semi (d ct : Bytes) (sw ss : Bool) (ln : Nat) (mt cl : Bytes) (rest : Bytes) :
    nexttagsBuf ⟨d, ct, St.WHITESPACE, sw, ss, ln, mt, cl⟩ [] 0 (32 :: 59 :: rest) =
      BufOut.ret ⟨d, [], St.WHITESPACE, sw, ss, ln, mt, cl⟩ [⟨[59], St.SEMICOL⟩] rest := by
  rw [buf_white_blank, nexttagsBuf,
    step_white_semi _ _ _ _ _ _ _ _ _ (WhiteEnd_append ct 32 (by decide))]
  rfl

theorem parsevalue_bracketopen (ko : Bool) (f : Nat) (p : Parser) (v : Bytes) (parent : Value) :
    parsevalue ko (f + 1) p (some ⟨v, St.BRACKETOPEN⟩) parent = parselist ko f p none [] := rfl

theorem parselist_word (ko : Bool) (f : Nat) (p : Parser) (e : Bytes) (l : List Value) :
    parselist ko (f + 1) p (some ⟨e, St.TAG⟩) l =
      match parsevalue ko f p (some ⟨e, St.TAG⟩) Value.null with
      | ⟨_, some e, p2⟩ => { val := Value.null, err := some e, p := p2 }
      | ⟨Value.tag restag, none, p2⟩ =>
        if restag.state = St.BRACKETCLOSE then
          { val := Value.list (l ++ [Value.str restag.val]), err := none, p := p2 }
        else { val := Value.null, err := some Err.unexpectedTag, p := p2 }
      | ⟨res, none, p2⟩ => parselist ko f p2 none (l ++ [res]) := rfl

theorem parselist_invalid (ko : Bool) (f : Nat) (p : Parser) (t : Tag) (l : List Value)
    (ht : t.state = St.SEMICOL ∨ t.state = St.COLON ∨ t.state = St.EQUAL) :
    parselist ko (f + 1) p (some t) l = ⟨Value.null, some Err.invalidTag, p⟩ := by
  obtain ⟨tv, st⟩ := t
  simp only at ht
  rcases ht with h | h | h <;> subst h <;> simp only [parselist]

theorem parselist_elem (ko : Bool) (f : Nat) (d ct : Bytes) (sw ss : Bool) (ln : Nat)
    (mt cl : Bytes) (e rest : Bytes) (r : List Rd) (l : List Value) (he : Bareword e) :
    parselist ko (f + 3)
        ⟨⟨d ++ [91], ct, St.WHITESPACE, sw, ss, ln, mt, cl⟩, 32 :: (e ++ 44 :: rest), r, []⟩
        none l =
      parselist ko (f + 1)
        ⟨⟨d ++ [91], [], St.WHITESPACE, true, true, ln, mt, cl⟩, rest, r, []⟩ none
        (l ++ [Value.str e]) := by
  have hscan := scan_elem_comma d ct sw ss ln mt cl e rest he
  have h1 := nexttag_scan _ _ _ _ r ⟨e, St.TAG⟩ _ [⟨[44], St.COMMA⟩] hscan
    (by simp [List.dropWhile, filtered])
  have h2 := nexttag_tags ⟨d ++ [91], [], St.WHITESPACE, true, true, ln, mt, cl⟩ rest r
    ⟨[44], St.COMMA⟩ [] (by simp [filtered])
  rw [parselist_none, h1]
  simp only []
  rw [parselist_word, parsevalue_word, h2]
  simp

theorem parselist_elems (ko : Bool) (f : Nat) (d : Bytes) (ln : Nat) (mt cl tail : Bytes)
    (r : List Rd) (es : List Bytes) :
    ∀ (l : List Value) (ct : Bytes) (sw ss : Bool), (∀ e ∈ es, Bareword e) →
      ∃ ct1 sw1 ss1,
        parselist ko (2 * es.length + (f + 1))
            ⟨⟨d ++ [91], ct, St.WHITESPACE, sw, ss, ln, mt, cl⟩, elemsSp es ++ tail, r, []⟩
            none l =
          parselist ko (f + 1)
            ⟨⟨d ++ [91], ct1, St.WHITESPACE, sw1, ss1, ln, mt, cl⟩, tail, r, []⟩ none
            (l ++ es.map Value.str) := by
  induction es with
  | nil =>
    intro l ct sw ss _
    exact ⟨ct, sw, ss, by simp [elemsSp]⟩
  | cons e es ih =>
    intro l ct sw ss hb
    have he := hb e (by simp)
    obtain ⟨ct1, sw1, ss1, h⟩ := ih (l ++ [Value.str e]) [] true true
      (fun x hx => hb x (by simp [hx]))
    refine ⟨ct1, sw1, ss1, ?_⟩
    have hfuel : 2 * (es.length + 1) + (f + 1) = (2 * es.length + f) + 3 := by omega
    have htext : elemsSp (e :: es) ++ tail = 32 :: (e ++ 44 :: (elemsSp es ++ tail)) := by
      simp [elemsSp]
    rw [List.length_cons, hfuel, htext, parselist_elem ko _ d ct sw ss ln mt cl e _ r l he]
    have hfuel2 : 2 * es.length + f + 1 = 2 * es.length + (f + 1) := by omega
    rw [hfuel2, h]
    simp

theorem elemsSp_length (es : List Bytes) : es.length ≤ (elemsSp es).length := by
  induction es with
  | nil => simp
  | cons e es ih =>
    simp only [elemsSp, List.map_cons, List.flatten_cons, List.length_append, List.length_cons]
      at ih ⊢
    omega

theorem parse_listSemi (ko : Bool) (g : Nat) (k : Bytes) (es : List Bytes) (rest : Bytes)
    (hk : Bareword k) (hes : ∀ e ∈ es, Bareword e) :
    ∃ p, parse ko (2 * es.length + (g + 2) + 4)
        ⟨⟨[], [], St.WHITESPACE, false, false, 1, [], []⟩, listSemi k es rest, [], []⟩
        none (Value.map []) =
      ⟨Value.null, some Err.invalidTag, Value.map [], p⟩ := by
  have hscan := scan_key_lbracket [] [] false false 1 [] [] k (elemsSp es ++ 32 :: 59 :: rest)
    WhiteEnd_nil hk
  have h1 := nexttag_scan _ _ _ _ [] ⟨k, St.TAG⟩ _ [⟨[91], St.BRACKETOPEN⟩] hscan
    (by simp [List.dropWhile, filtered])
  have h2 := nexttag_tags ⟨[] ++ [91], [], St.WHITESPACE, true, true, 1, [], []⟩
    (elemsSp es ++ 32 :: 59 :: rest) [] ⟨[91], St.BRACKETOPEN⟩ [] (by simp [filtered])
  obtain ⟨ct1, sw1, ss1, hel⟩ := parselist_elems ko (g + 1) [] 1 [] [] (32 :: 59 :: rest) [] es
    [] [] true true hes
  have hscan3 := scan_semi ([] ++ [91]) ct1 sw1 ss1 1 [] [] rest
  have h3 := nexttag_scan _ _ _ _ [] ⟨[59], St.SEMICOL⟩ _ [] hscan3
    (by simp [List.dropWhile, filtered])
  have hk0 : korderOf ko [] = Except.ok (if ko then some [] else none) := by cases ko <;> rfl
  refine ⟨⟨⟨[] ++ [91], [], St.WHITESPACE, sw1, ss1, 1, [], []⟩, rest, [], []⟩, ?_⟩
  unfold listSemi
  rw [show 2 * es.length + (g + 2) + 4 = (2 * es.length + (g + 1 + 1) + 3) + 1 by omega,
    parse_none, h1]
  simp only []
  rw [parse_key, hk0]
  simp only []
  rw [parsevalue_none, h2]
  simp only []
  rw [parsevalue_bracketopen, hel, parselist_none, h3]
  simp only []
  rw [parselist_invalid ko g _ _ _ (Or.inl rfl)]

theorem decode_listSemi (ko : Bool) (k : Bytes) (es : List Bytes) (rest : Bytes)
    (hk : Bareword k) (hes : ∀ e ∈ es, Bareword e) :
    (∀ fuel, 2 * es.length + 6 ≤ fuel →
      (parse ko fuel (NewParser [listSemi k es rest]) none (Value.map [])).err =
        some Err.invalidTag) ∧
    (Ucl ko [listSemi k es rest]).err = some Err.invalidTag ∧
    (Ucl ko [listSemi k es rest]).ucl = Value.map [] := by
  have hne : listSemi k es rest ≠ [] := bareword_ne_nil k hk _
  have hp : ∀ fuel, 2 * es.length + 6 ≤ fuel →
      ∃ p, parse ko fuel (NewParser [listSemi k es rest]) none (Value.map []) =
        ⟨Value.null, some Err.invalidTag, Value.map [], p⟩ := by
    intro fuel hf
    obtain ⟨g, rfl⟩ : ∃ g, fuel = 2 * es.length + (g + 2) + 4 := ⟨fuel - 2 * es.length - 6, by omega⟩
    obtain ⟨p, h⟩ := parse_listSemi ko g k es rest hk hes
    refine ⟨p, ?_⟩
    show parse ko (2 * es.length + (g + 2) + 3 + 1)
      ⟨⟨[], [], St.WHITESPACE, false, false, 1, [], []⟩, [], [listSemi k es rest], []⟩
      none (Value.map []) = _
    rw [parse_first_read _ _ _ _ _ _ hne]
    exact h
  have hlen := elemsSp_length es
  have hfuel : 2 * es.length + 6 ≤ uclFuel [listSemi k es rest] := by
    simp only [uclFuel, listSemi, List.map_cons, List.map_nil, List.sum_cons, List.sum_nil,
      List.length_append, List.length_cons]
    omega
  refine ⟨?_, ?_, ?_⟩
  · intro fuel hf
    obtain ⟨p, h⟩ := hp fuel hf
    rw [h]
  · obtain ⟨p, h⟩ := hp _ hfuel
    rw [Ucl_of_parse _ _ _ _ _ _ h]
    simp
  · obtain ⟨p, h⟩ := hp _ hfuel
    rw [Ucl_of_parse _ _ _ _ _ _ h]

/-- C20 (counterexample): `x [ a; ];` has a `;` token between `[` and its
`]` and decodes with a nil error to `x` mapped to the array `[a]`:
`parsevalue` takes the `;` as the end of the element `a`. So does the form
of the repository's test, `x [ { a: 123 } ];`, with a `:` token inside the
list. -/
theorem C20_separator_inside_list_accepted :
    (Ucl true [B "x [ a; ];"]).err = none ∧
    (Ucl true [B "x [ a; ];"]).ucl =
      Value.map [(KeyOrder, Value.strs [B "x"]), (B "x", Value.list [Value.str (B "a")])] ∧
    (Ucl true [B "x [ \x7b a: 123 \x7d ];"]).err = none ∧
    (Ucl true [B "x [ \x7b a: 123 \x7d ];"]).ucl =
      Value.map [(KeyOrder, Value.strs [B "x"]),
        (B "x", Value.list
          [Value.map [(KeyOrder, Value.strs [B "a"]), (B "a", Value.str (B "123"))]])] := by
  refine ⟨by decide, by rfl, by decide, by rfl⟩

/-- C20 (amended): a `;`, `:` or `=` token that `parselist` is handed where
an element is due makes it return the error `Invalid tag`, whether the token
is passed in (1) or fetched by its own `nexttag` call (2); and for every
bareword key `k` and bareword elements `e1 .. en`, decoding
`k [ e1, ... en, ;` followed by any text fails with that error and an empty
document, for `Ucl` and for every run of `parse(nil, p.ucl)` with fuel from
`2 n + 6` on (3). -/
theorem C20_invalid_tag_in_list (ko : Bool) :
    (∀ (f : Nat) (p : Parser) (t : Tag) (l : List Value),
      (t.state = St.SEMICOL ∨ t.state = St.COLON ∨ t.state = St.EQUAL) →
      parselist ko (f + 1) p (some t) l = ⟨Value.null, some Err.invalidTag, p⟩) ∧
    (∀ (f : Nat) (p p1 : Parser) (t : Tag) (l : List Value),
      nexttag p = (Except.ok t, p1) →
      (t.state = St.SEMICOL ∨ t.state = St.COLON ∨ t.state = St.EQUAL) →
      parselist ko (f + 2) p none l = ⟨Value.null, some Err.invalidTag, p1⟩) ∧
    (∀ (k : Bytes) (es : List Bytes) (rest : Bytes), Bareword k → (∀ e ∈ es, Bareword e) →
      (∀ fuel, 2 * es.length + 6 ≤ fuel →
        (parse ko fuel (NewParser [listSemi k es rest]) none (Value.map [])).err =
          some Err.invalidTag) ∧
      (Ucl ko [listSemi k es rest]).err = some Err.invalidTag ∧
      (Ucl ko [listSemi k es rest]).ucl = Value.map []) := by
  refine ⟨fun f p t l ht => parselist_invalid ko f p t l ht, ?_,
    fun k es rest hk hes => decode_listSemi ko k es rest hk hes⟩
  intro f p p1 t l hn ht
  rw [parselist_none, hn]
  exact parselist_invalid ko f p1 t l ht

/-- C20 (witness): `x [ ; ]` and `x [ a, b, ; ]` fail with `Invalid tag`. -/
theorem C20_invalid_tag_in_list_witness :
    listSemi (B "x") [] (B " ]") = B "x [ ; ]" ∧
    listSemi (B "x") [B "a", B "b"] (B " ]") = B "x [ a, b, ; ]" ∧
    (Ucl true [B "x [ ; ]"]).err = some Err.invalidTag ∧
    (Ucl true [B "x [ a, b, ; ]"]).err = some Err.invalidTag ∧
    parselist true 1 (NewParser []) (some ⟨B ";", St.SEMICOL⟩) [] =
      ⟨Value.null, some Err.invalidTag, NewParser []⟩ := by
  have h := C20_invalid_tag_in_list true
  have t1 : listSemi (B "x") [] (B " ]") = B "x [ ; ]" := by decide
  have t2 : listSemi (B "x") [B "a", B "b"] (B " ]") = B "x [ a, b, ; ]" := by decide
  have h1 := (h.2.2 (B "x") [] (B " ]") ⟨by decide, by decide⟩ (by simp)).2.1
  have h2 := (h.2.2 (B "x") [B "a", B "b"] (B " ]") ⟨by decide, by decide⟩
    (by intro e he; simp at he; rcases he with rfl | rfl <;> exact ⟨by decide, by decide⟩)).2.1
  rw [t1] at h1
  rw [t2] at h2
  exact ⟨t1, t2, h1, h2, h.1 0 (NewParser []) ⟨B ";", St.SEMICOL⟩ [] (Or.inl rfl)⟩

theorem step_tag_eq_first (d : Bytes) (sw : Bool) (ln : Nat) (mt cl : Bytes)
    (tags : List Tag) (rest : Bytes) :
    step ⟨d, [], St.TAG, sw, true, ln, mt, cl⟩ tags 61 rest =
      Step.cont ⟨d, [], St.TAG, sw, false, ln, mt, cl⟩
        (tags ++ [⟨[], St.WHITESPACE⟩, ⟨[61], St.EQUAL⟩]) 0 := by
  simp [step, stepTag, emit0, maketag0]

theorem step_tag_space_skip (d : Bytes) (ss : Bool) (ln : Nat) (mt cl : Bytes)
    (tags : List Tag) (rest : Bytes) (ht : tags ≠ []) :
    step ⟨d, [], St.TAG, true, ss, ln, mt, cl⟩ tags 32 rest =
      Step.cont ⟨d, [], St.TAG, true, ss, ln, mt, cl⟩ tags 0 := by
  have : tags.length ≠ 0 := by
    intro h; exact ht (List.length_eq_zero.1 h)
  simp [step, stepTag, *]

theorem step_tag_lt (d : Bytes) (sw ss : Bool) (ln : Nat) (mt cl : Bytes)
    (tags : List Tag) (rest : Bytes) (ht : tags ≠ []) :
    step ⟨d, [], St.TAG, sw, ss, ln, mt, cl⟩ tags 60 rest =
      Step.cont ⟨d, [60], St.TAG, false, ss, ln, mt, cl⟩ tags 0 := by
  have : 0 < tags.length := List.length_pos.2 ht
  simp [step, stepTag, *]

theorem step_tag_lt2 (d : Bytes) (sw ss : Bool) (ln : Nat) (mt cl : Bytes)
    (tags : List Tag) (rest : Bytes) :
    step ⟨d, [60], St.TAG, sw, ss, ln, mt, cl⟩ tags 60 rest =
      Step.cont ⟨d, [60, 60], St.MAYBE_MLSTRING, sw, ss, ln, mt, cl⟩ tags 0 := by
  simp [step, stepTag]

theorem alnum_ne_sep (c : Nat) (h : isAlnum c = true) : c ≠ 10 ∧ c ≠ 59 := by
  rw [isAlnum_iff] at h
  omega

theorem step_maybe_alnum (d ct : Bytes) (sw ss : Bool) (ln : Nat) (mt cl : Bytes)
    (tags : List Tag) (c : Nat) (rest : Bytes) (hc : isAlnum c = true) :
    step ⟨d, ct, St.MAYBE_MLSTRING, sw, ss, ln, mt, cl⟩ tags c rest =
      Step.cont ⟨d, ct ++ [c], St.MLSTRING_PREP, sw, ss, ln, mt, [c]⟩ tags 0 := by
  have := (alnum_ne_sep c hc).1
  simp [step, stepMl, *]

theorem step_prep_alnum_ret (d ct : Bytes) (sw ss : Bool) (ln : Nat) (mt cl : Bytes)
    (tags : List Tag) (c : Nat) (rest : Bytes) (hc : isAlnum c = true) (ht : tags ≠ []) :
    step ⟨d, 60 :: ct, St.MLSTRING_PREP, sw, ss, ln, mt, cl⟩ tags c rest =
      Step.ret ⟨d, 60 :: ct ++ [c], St.MLSTRING_PREP, sw, ss, ln, mt, cl ++ [c]⟩ tags := by
  have := (alnum_ne_sep c hc).1
  have : 0 < tags.length := List.length_pos.2 ht
  simp [step, stepMl, *]

theorem step_prep_alnum (d ct : Bytes) (sw ss : Bool) (ln : Nat) (mt cl : Bytes)
    (c : Nat) (rest : Bytes) (hc : isAlnum c = true) :
    step ⟨d, 60 :: ct, St.MLSTRING_PREP, sw, ss, ln, mt, cl⟩ [] c rest =
      Step.cont ⟨d, 60 :: ct ++ [c], St.MLSTRING_PREP, sw, ss, ln, mt, cl ++ [c]⟩ [] 0 := by
  have := (alnum_ne_sep c hc).1
  simp [step, stepMl, *]

theorem step_prep_newline (d ct : Bytes) (sw ss : Bool) (ln : Nat) (mt cl : Bytes)
    (tags : List Tag) (rest : Bytes) :
    step ⟨d, ct, St.MLSTRING_PREP, sw, ss, ln, mt, cl⟩ tags 10 rest =
      Step.cont ⟨d, [], St.MLSTRING, sw, ss, ln + 1, cl, []⟩ tags 0 := by
  simp [step, stepMl, isAlnum]

theorem step_ml_plain (d ct : Bytes) (sw ss : Bool) (ln : Nat) (mt cl : Bytes)
    (c : Nat) (rest : Bytes) (hc : c ≠ 59 ∧ c ≠ 10) :
    step ⟨d, ct, St.MLSTRING, sw, ss, ln, mt, cl⟩ [] c rest =
      Step.cont ⟨d, ct, St.MLSTRING, sw, ss, ln, mt, cl ++ [c]⟩ [] 0 := by
  simp [step, stepMl, hc.1, hc.2]

theorem step_ml_sep (d ct : Bytes) (sw ss : Bool) (ln : Nat) (mt cl : Bytes)
    (c : Nat) (rest : Bytes) (hc : c = 59 ∨ c = 10) (hne : cl ≠ mt) :
    step ⟨d, ct, St.MLSTRING, sw, ss, ln, mt, cl⟩ [] c rest =
      Step.cont ⟨d, ct ++ cl ++ [c], St.MLSTRING, sw, ss, if c = 10 then ln + 1 else ln, mt, []⟩
        [] 0 := by
  rcases hc with h | h <;> subst h <;> simp [step, stepMl, hne]

theorem step_ml_end (d ct : Bytes) (sw ss : Bool) (ln : Nat) (mt : Bytes)
    (tags : List Tag) (c b : Nat) (rest : Bytes) (hc : c = 59 ∨ c = 10) (hct : ct ≠ []) :
    step ⟨d, ct ++ [b], St.MLSTRING, sw, ss, ln, mt, mt⟩ tags c rest =
      Step.ret ⟨d, [], St.WHITESPACE, sw, ss, if c = 10 then ln + 1 else ln, mt, []⟩
        (tags ++ [⟨ct, St.MLSTRING⟩]) := by
  have : 0 < ct.length := List.length_pos.2 hct
  rcases hc with h | h <;> subst h <;> simp [step, stepMl, emit0, maketag0, *]

theorem buf_prep_word (d : Bytes) (sw ss : Bool) (ln : Nat) (mt : Bytes) (rest : Bytes)
    (w : Bytes) (hw : ∀ c ∈ w, isAlnum c = true) :
    ∀ (ct cl : Bytes),
    nexttagsBuf ⟨d, 60 :: ct, St.MLSTRING_PREP, sw, ss, ln, mt, cl⟩ [] 0 (w ++ rest) =
      nexttagsBuf ⟨d, 60 :: ct ++ w, St.MLSTRING_PREP, sw, ss, ln, mt, cl ++ w⟩ [] 0 rest := by
  induction w with
  | nil => intro ct cl; simp
  | cons c w ih =>
    intro ct cl
    have hc := hw c (by simp)
    have hw' : ∀ x ∈ w, isAlnum x = true := fun x hx => hw x (by simp [hx])
    rw [List.cons_append, nexttagsBuf, step_prep_alnum d ct sw ss ln mt cl c _ hc]
    simp only []
    have := ih hw' (ct ++ [c]) (cl ++ [c])
    simp only [List.cons_append, List.append_assoc, List.singleton_append] at this ⊢
    exact this

theorem buf_ml_run (d ct : Bytes) (sw ss : Bool) (ln : Nat) (mt : Bytes) (rest : Bytes)
    (w : Bytes) (hw : ∀ c ∈ w, c ≠ 59 ∧ c ≠ 10) :
    ∀ (cl : Bytes),
    nexttagsBuf ⟨d, ct, St.MLSTRING, sw, ss, ln, mt, cl⟩ [] 0 (w ++ rest) =
      nexttagsBuf ⟨d, ct, St.MLSTRING, sw, ss, ln, mt, cl ++ w⟩ [] 0 rest := by
  induction w with
  | nil => intro cl; simp
  | cons c w ih =>
    intro cl
    have hc := hw c (by simp)
    have hw' : ∀ x ∈ w, x ≠ 59 ∧ x ≠ 10 := fun x hx => hw x (by simp [hx])
    rw [List.cons_append, nexttagsBuf, step_ml_plain d ct sw ss ln mt cl c _ hc]
    simp only []
    rw [ih hw' (cl ++ [c])]
    simp

/-- The scanner in the heredoc body: the text `pre`, none of whose pieces is
the tag, then a `;` or newline, the tag, and again a `;` or newline; the
token is `pre` with what the scanner held before. -/
theorem buf_ml_body (d : Bytes) (sw ss : Bool) (T : Bytes) (hT : Alnum T) (c1 c2 : Nat)
    (hc1 : c1 = 59 ∨ c1 = 10) (hc2 : c2 = 59 ∨ c2 = 10) (rest : Bytes) :
    ∀ (pre ct cl : Bytes) (ln : Nat), T ∉ mlSegs cl pre → ct ++ cl ++ pre ≠ [] →
    ∃ ln1, nexttagsBuf ⟨d, ct, St.MLSTRING, sw, ss, ln, T, cl⟩ [] 0
        (pre ++ c1 :: (T ++ c2 :: rest)) =
      BufOut.ret ⟨d, [], St.WHITESPACE, sw, ss, ln1, T, []⟩ [⟨ct ++ cl ++ pre, St.MLSTRING⟩] rest := by
  have hTs : ∀ c ∈ T, c ≠ 59 ∧ c ≠ 10 := fun c hc =>
    ⟨(alnum_ne_sep c (hT.2 c hc)).2, (alnum_ne_sep c (hT.2 c hc)).1⟩
  intro pre
  induction pre with
  | nil =>
    intro ct cl ln hseg hne
    have hcl : cl ≠ T := by
      intro h; apply hseg; simp [mlSegs, h]
    have hne' : ct ++ cl ≠ [] := by simpa using hne
    refine ⟨if c2 = 10 then (if c1 = 10 then ln + 1 else ln) + 1
      else (if c1 = 10 then ln + 1 else ln), ?_⟩
    rw [List.nil_append, nexttagsBuf, step_ml_sep d ct sw ss ln T cl c1 _ hc1 hcl]
    simp only []
    rw [buf_ml_run d _ sw ss _ T _ T hTs []]
    rw [List.nil_append, nexttagsBuf, step_ml_end d (ct ++ cl) sw ss _ T [] c2 c1 _ hc2 hne']
    simp
  | cons c t ih =>
    intro ct cl ln hseg hne
    by_cases hc : c = 59 ∨ c = 10
    · have hseg' : cl ≠ T ∧ T ∉ mlSegs [] t := by
        simp only [mlSegs, if_pos hc, List.mem_cons, not_or] at hseg
        exact ⟨fun h => hseg.1 h.symm, hseg.2⟩
      obtain ⟨ln1, h1⟩ := ih (ct ++ cl ++ [c]) [] (if c = 10 then ln + 1 else ln) hseg'.2 (by simp)
      refine ⟨ln1, ?_⟩
      rw [List.cons_append, nexttagsBuf, step_ml_sep d ct sw ss ln T cl c _ hc hseg'.1]
      simp only []
      rw [h1]
      simp
    · have hseg' : T ∉ mlSegs (cl ++ [c]) t := by
        simpa only [mlSegs, if_neg hc] using hseg
      obtain ⟨ln1, h1⟩ := ih ct (cl ++ [c]) ln hseg' (by simp)
      refine ⟨ln1, ?_⟩
      rw [List.cons_append, nexttagsBuf, step_ml_plain d ct sw ss ln T cl c _ (by omega)]
      simp only []
      rw [h1]
      simp

theorem step_ml_plain_ret (d ct : Bytes) (sw ss : Bool) (ln : Nat) (mt cl : Bytes)
    (tags : List Tag) (c : Nat) (rest : Bytes) (hc : ¬ (c = 59 ∨ c = 10)) (ht : tags ≠ []) :
    step ⟨d, ct, St.MLSTRING, sw, ss, ln, mt, cl⟩ tags c rest =
      Step.ret ⟨d, ct, St.MLSTRING, sw, ss, ln, mt, cl ++ [c]⟩ tags := by
  have : 0 < tags.length := List.length_pos.2 ht
  have h1 : c ≠ 59 := fun h => hc (Or.inl h)
  have h2 : c ≠ 10 := fun h => hc (Or.inr h)
  simp [step, stepMl, *]

theorem step_ml_sep_ret (d ct : Bytes) (sw ss : Bool) (ln : Nat) (mt cl : Bytes)
    (tags : List Tag) (c : Nat) (rest : Bytes) (hc : c = 59 ∨ c = 10) (hne : cl ≠ mt)
    (ht : tags ≠ []) :
    step ⟨d, ct, St.MLSTRING, sw, ss, ln, mt, cl⟩ tags c rest =
      Step.ret ⟨d, ct ++ cl ++ [c], St.MLSTRING, sw, ss, if c = 10 then ln + 1 else ln, mt, []⟩
        tags := by
  have : 0 < tags.length := List.length_pos.2 ht
  rcases hc with h | h <;> subst h <;> simp [step, stepMl, hne, *]

/-- The scanner on `k = <<t`, `t` the first byte of the heredoc tag: the
tokens of the key and of `=` are pending, the tag is being read. -/
theorem scan_heredoc_open (d ct : Bytes) (sw ss : Bool) (ln : Nat) (mt cl : Bytes)
    (k : Bytes) (t0 : Nat) (rest : Bytes) (hct : WhiteEnd ct) (hk : Bareword k)
    (ht0 : isAlnum t0 = true) :
    nexttagsBuf ⟨d, ct, St.WHITESPACE, sw, ss, ln, mt, cl⟩ [] 0
        (k ++ 32 :: 61 :: 32 :: 60 :: 60 :: t0 :: rest) =
      nexttagsBuf ⟨d, [60, 60, t0], St.MLSTRING_PREP, false, false, ln, mt, [t0]⟩
        [⟨k, St.TAG⟩, ⟨[], St.WHITESPACE⟩, ⟨[61], St.EQUAL⟩] 0 rest := by
  obtain ⟨hkne, hkb⟩ := hk
  cases k with
  | nil => exact absurd rfl hkne
  | cons c k' =>
    have hc := hkb c (by simp)
    have hk' : ∀ x ∈ k', isBare x = true := fun x hx => hkb x (by simp [hx])
    have h1 : ([c] : Bytes).getLast? ≠ some 60 :=
      getLast?_append_bare [] [c] nil_getLast?_ne (by intro x hx; simp at hx; subst hx; exact hc)
    have h2 : ([c] ++ k').getLast? ≠ some 60 := getLast?_append_bare [c] k' h1 hk'
    rw [List.cons_append, nexttagsBuf, step_white_bare d ct sw ss ln mt cl [] c _ hct hc]
    simp only []
    rw [buf_tag_word_first d true true ln mt cl _ k' [c] hk' h1]
    rw [nexttagsBuf, step_tag_space_first d _ _ true ln mt cl _ h2 (by simp)]
    simp only []
    rw [nexttagsBuf, step_tag_eq_first]
    simp only []
    rw [nexttagsBuf, step_tag_space_skip d false ln mt cl _ _ (by simp)]
    simp only []
    rw [nexttagsBuf, step_tag_lt d true false ln mt cl _ _ (by simp)]
    simp only []
    rw [nexttagsBuf, step_tag_lt2]
    simp only []
    rw [nexttagsBuf, step_maybe_alnum d _ _ _ ln mt cl _ t0 _ ht0]
    simp

/-- The two scanner calls that read `k = <<T`, newline, `pre`, a `;` or
newline, `T` and again a `;` or newline: the first returns the key and `=`,
the second the heredoc token with the value `pre`. -/
theorem scan_heredoc (d ct : Bytes) (sw ss : Bool) (ln : Nat) (mt cl : Bytes)
    (k T pre : Bytes) (c1 c2 : Nat) (rest : Bytes) (hct : WhiteEnd ct) (hk : Bareword k)
    (hT : Alnum T) (hpre : pre ≠ []) (hseg : T ∉ mlSegs [] pre)
    (hc1 : c1 = 59 ∨ c1 = 10) (hc2 : c2 = 59 ∨ c2 = 10) :
    ∃ S1 rest1 ln1,
      nexttagsBuf ⟨d, ct, St.WHITESPACE, sw, ss, ln, mt, cl⟩ [] 0
          (k ++ 32 :: 61 :: 32 :: 60 :: 60 :: (T ++ 10 :: (pre ++ c1 :: (T ++ c2 :: rest)))) =
        BufOut.ret S1 [⟨k, St.TAG⟩, ⟨[], St.WHITESPACE⟩, ⟨[61], St.EQUAL⟩] rest1 ∧
      nexttagsBuf S1 [] 0 rest1 =
        BufOut.ret ⟨d, [], St.WHITESPACE, false, false, ln1, T, []⟩ [⟨pre, St.MLSTRING⟩] rest := by
  have hT0 := hT
  obtain ⟨hTne, hTa⟩ := hT
  cases T with
  | nil => exact absurd rfl hTne
  | cons t0 T1 =>
    have ht0 := hTa t0 (by simp)
    cases T1 with
    | nil =>
      cases pre with
      | nil => exact absurd rfl hpre
      | cons b0 pre1 =>
        by_cases hb : b0 = 59 ∨ b0 = 10
        · have hseg1 : [t0] ∉ mlSegs [] pre1 := by
            simp only [mlSegs, if_pos hb, List.mem_cons, not_or] at hseg
            exact hseg.2
          obtain ⟨ln1, h2⟩ := buf_ml_body d false false [t0] hT0 c1 c2 hc1 hc2 rest pre1 [b0] []
            (if b0 = 10 then ln + 1 + 1 else ln + 1) hseg1 (by simp)
          refine ⟨_, _, ln1, ?_, h2⟩
          rw [List.cons_append, scan_heredoc_open d ct sw ss ln mt cl k t0 _ hct hk ht0]
          rw [List.nil_append, nexttagsBuf, step_prep_newline]
          simp only []
          rw [List.cons_append, nexttagsBuf,
            step_ml_sep_ret d [] false false (ln + 1) [t0] [] _ b0 _ hb (by simp) (by simp)]
          simp
        · have hseg1 : [t0] ∉ mlSegs [b0] pre1 := by
            simpa only [mlSegs, if_neg hb, List.nil_append] using hseg
          obtain ⟨ln1, h2⟩ := buf_ml_body d false false [t0] hT0 c1 c2 hc1 hc2 rest pre1 [] [b0]
            (ln + 1) hseg1 (by simp)
          refine ⟨_, _, ln1, ?_, h2⟩
          rw [List.cons_append, scan_heredoc_open d ct sw ss ln mt cl k t0 _ hct hk ht0]
          rw [List.nil_append, nexttagsBuf, step_prep_newline]
          simp only []
          rw [List.cons_append, nexttagsBuf,
            step_ml_plain_ret d [] false false (ln + 1) [t0] [] _ b0 _ hb (by simp)]
          simp
    | cons t1 T2 =>
      have ht1 := hTa t1 (by simp)
      have hT2 : ∀ x ∈ T2, isAlnum x = true := fun x hx => hTa x (by simp [hx])
      obtain ⟨ln1, h2⟩ := buf_ml_body d false false (t0 :: t1 :: T2) hT0 c1 c2 hc1 hc2 rest pre [] []
        (ln + 1) hseg (by simpa using hpre)
      refine ⟨⟨d, 60 :: [60, t0] ++ [t1], St.MLSTRING_PREP, false, false, ln, mt, [t0] ++ [t1]⟩,
        T2 ++ 10 :: (pre ++ c1 :: (t0 :: t1 :: T2 ++ c2 :: rest)), ln1, ?_, ?_⟩
      · rw [List.cons_append, scan_heredoc_open d ct sw ss ln mt cl k t0 _ hct hk ht0]
        rw [List.cons_append, nexttagsBuf,
          step_prep_alnum_ret d [60, t0] false false ln mt [t0] _ t1 _ ht1 (by simp)]
      · rw [show (([60, 60, t0] : Bytes) ++ [t1]) = 60 :: ([60, t0] ++ [t1]) from rfl,
          buf_prep_word d false false ln mt _ T2 hT2 ([60, t0] ++ [t1]) ([t0] ++ [t1])]
        rw [nexttagsBuf, step_prep_newline]
        simp only []
        simpa using h2

theorem parse_heredoc_of_scan (ko : Bool) (f : Nat) (S S1 S2 : Scanner)
    (buf rest1 rest k v : Bytes) (r : List Rd) (m : GoMap) (korder : Option (List Bytes))
    (h1 : nexttagsBuf S [] 0 buf =
      BufOut.ret S1 [⟨k, St.TAG⟩, ⟨[], St.WHITESPACE⟩, ⟨[61], St.EQUAL⟩] rest1)
    (h2 : nexttagsBuf S1 [] 0 rest1 = BufOut.ret S2 [⟨v, St.MLSTRING⟩] rest)
    (hm : korderOf ko m = Except.ok korder) :
    parse ko (f + 6) ⟨S, buf, r, []⟩ none (Value.map m) =
      parse ko (f + 4) ⟨S2, rest, r, []⟩ none (Value.map (insertKey m korder k (Value.str v))) := by
  have n1 := nexttag_scan _ _ _ _ r ⟨k, St.TAG⟩ _ [⟨[], St.WHITESPACE⟩, ⟨[61], St.EQUAL⟩] h1
    (by simp [List.dropWhile, filtered])
  have n2 : nexttag ⟨S1, rest1, r, [⟨[], St.WHITESPACE⟩, ⟨[61], St.EQUAL⟩]⟩ =
      (Except.ok ⟨[61], St.EQUAL⟩, ⟨S1, rest1, r, []⟩) := by
    simp [nexttag, nexttagLoop, List.dropWhile, filtered]
  have n3 := nexttag_scan _ _ _ _ r ⟨v, St.MLSTRING⟩ _ [] h2
    (by simp [List.dropWhile, filtered])
  rw [parse_none, n1]
  simp only []
  rw [parse_key, hm]
  simp only []
  rw [parsevalue_none, n2]
  simp only []
  rw [show parsevalue ko (f + 3) ⟨S1, rest1, r, []⟩ (some ⟨[61], St.EQUAL⟩) Value.null =
    parsevalue ko (f + 2) ⟨S1, rest1, r, []⟩ none Value.null from rfl]
  rw [parsevalue_none, n3]
  simp only []
  rfl

theorem step_tag_newline (d ct : Bytes) (sw ss : Bool) (ln : Nat) (mt cl : Bytes)
    (tags : List Tag) (rest : Bytes) (hct : ct.getLast? ≠ some 60) (hne : ct ≠ []) :
    step ⟨d, ct, St.TAG, sw, ss, ln, mt, cl⟩ tags 10 rest =
      Step.ret ⟨d, [], St.WHITESPACE, sw, ss, ln + 1, mt, cl⟩
        (tags ++ [⟨ct, St.TAG⟩, ⟨[59], St.SEMICOL⟩]) := by
  have : 0 < ct.length := List.length_pos.2 hne
  simp [step, stepTag, emit0, maketag0, maketagV, *]

theorem scan_key_newline (d ct : Bytes) (sw ss : Bool) (ln : Nat) (mt cl : Bytes) (k rest : Bytes)
    (hct : WhiteEnd ct) (hk : Bareword k) :
    nexttagsBuf ⟨d, ct, St.WHITESPACE, sw, ss, ln, mt, cl⟩ [] 0 (k ++ 10 :: rest) =
      BufOut.ret ⟨d, [], St.WHITESPACE, true, true, ln + 1, mt, cl⟩
        [⟨k, St.TAG⟩, ⟨[59], St.SEMICOL⟩] rest := by
  obtain ⟨hkne, hkb⟩ := hk
  cases k with
  | nil => exact absurd rfl hkne
  | cons c k' =>
    have hc := hkb c (by simp)
    have hk' : ∀ x ∈ k', isBare x = true := fun x hx => hkb x (by simp [hx])
    have h1 : ([c] : Bytes).getLast? ≠ some 60 :=
      getLast?_append_bare [] [c] nil_getLast?_ne (by intro x hx; simp at hx; subst hx; exact hc)
    have h2 : ([c] ++ k').getLast? ≠ some 60 := getLast?_append_bare [c] k' h1 hk'
    rw [List.cons_append, nexttagsBuf, step_white_bare d ct sw ss ln mt cl [] c _ hct hc]
    simp only []
    rw [buf_tag_word_first d true true ln mt cl _ k' [c] hk' h1]
    rw [nexttagsBuf, step_tag_newline d _ _ true ln mt cl _ _ h2 (by simp)]
    simp

theorem parse_eof_newline (ko : Bool) (f : Nat) (ct : Bytes) (sw ss : Bool) (ln : Nat)
    (mt cl : Bytes) (parent : Value) (p1 : Parser)
    (hp : p1 = ⟨⟨[], ct ++ [10], St.WHITESPACE, sw, ss, ln + 1, mt, cl⟩, [], [], []⟩) :
    parse ko (f + 1) ⟨⟨[], ct, St.WHITESPACE, sw, ss, ln, mt, cl⟩, [10], [], []⟩ none parent =
      ⟨Value.null, some Err.EOF, parent, p1⟩ := by
  subst hp
  rw [parse_none]
  have : nexttag ⟨⟨[], ct, St.WHITESPACE, sw, ss, ln, mt, cl⟩, [10], [], []⟩ =
      (Except.error Err.EOF,
        ⟨⟨[], ct ++ [10], St.WHITESPACE, sw, ss, ln + 1, mt, cl⟩, [], [], []⟩) := by
    simp [nexttag, nexttagLoop, nexttags, nexttagsFrom, nexttagsBuf, step, stepWhite, eofOut,
      Parser.remaining]
  rw [this]

theorem mapGet_insertKey_new (ko : Bool) (k : Bytes) (v : Value) :
    mapGet (insertKey [] (if ko then some [] else none) k v) k = some v := by
  cases ko
  · simp [insertKey, mapGet, mapSet]
  · by_cases hk : k = KeyOrder
    · subst hk
      simp [insertKey, mapGet, mapSet]
    · have hk2 : ¬ KeyOrder = k := fun h => hk h.symm
      simp [insertKey, mapGet, mapSet, hk2]

theorem decode_heredoc (ko : Bool) (k T body : Bytes) (hk : Bareword k) (hT : Alnum T)
    (hb : body ≠ []) (hseg : T ∉ mlSegs [] body) :
    (Ucl ko [heredoc k T body]).ucl =
      Value.map (insertKey [] (if ko then some [] else none) k (Value.str body)) ∧
    (Ucl ko [heredoc k T body]).err = none := by
  obtain ⟨f, hf⟩ : ∃ f, uclFuel [heredoc k T body] = f + 6 :=
    ⟨uclFuel [heredoc k T body] - 6, by simp only [uclFuel]; omega⟩
  obtain ⟨S1, rest1, ln1, h1, h2⟩ := scan_heredoc [] [] false false 1 [] [] k T body 10 10 []
    WhiteEnd_nil hk hT hb hseg (Or.inr rfl) (Or.inr rfl)
  have hparse : ∃ p, parse ko (uclFuel [heredoc k T body]) (NewParser [heredoc k T body]) none
      (Value.map []) = ⟨Value.null, some Err.EOF,
        Value.map (insertKey [] (if ko then some [] else none) k (Value.str body)), p⟩ := by
    refine ⟨⟨⟨[], [], St.WHITESPACE, false, false, ln1, T, []⟩, [], [], []⟩, ?_⟩
    rw [hf]
    show parse ko (f + 6)
      ⟨⟨[], [], St.WHITESPACE, false, false, 1, [], []⟩, [], [heredoc k T body], []⟩
      none (Value.map []) = _
    have hne : heredoc k T body ≠ [] := bareword_ne_nil k hk _
    rw [parse_first_read _ _ _ _ _ _ hne]
    refine (parse_heredoc_of_scan ko f _ _ _ _ _ _ k body [] [] (if ko then some [] else none)
        h1 h2 (by cases ko <;> rfl)).trans ?_
    rw [parse_eof _ _ _ _ rfl]
  obtain ⟨p, hp⟩ := hparse
  rw [Ucl_of_parse _ _ _ _ _ _ hp]
  simp

theorem decode_heredocSemi (ko : Bool) (k T body : Bytes) (hk : Bareword k) (hT : Alnum T)
    (hb : body ≠ []) (hseg : T ∉ mlSegs [] body) :
    (Ucl ko [heredocSemi k T body]).ucl =
      Value.map (insertKey [] (if ko then some [] else none) k (Value.str body)) ∧
    (Ucl ko [heredocSemi k T body]).err = none := by
  obtain ⟨f, hf⟩ : ∃ f, uclFuel [heredocSemi k T body] = f + 6 :=
    ⟨uclFuel [heredocSemi k T body] - 6, by simp only [uclFuel]; omega⟩
  obtain ⟨S1, rest1, ln1, h1, h2⟩ := scan_heredoc [] [] false false 1 [] [] k T body 10 59 [10]
    WhiteEnd_nil hk hT hb hseg (Or.inr rfl) (Or.inl rfl)
  have hparse : ∃ p, parse ko (uclFuel [heredocSemi k T body]) (NewParser [heredocSemi k T body])
      none (Value.map []) = ⟨Value.null, some Err.EOF,
        Value.map (insertKey [] (if ko then some [] else none) k (Value.str body)), p⟩ := by
    refine ⟨⟨⟨[], [] ++ [10], St.WHITESPACE, false, false, ln1 + 1, T, []⟩, [], [], []⟩, ?_⟩
    rw [hf]
    show parse ko (f + 6)
      ⟨⟨[], [], St.WHITESPACE, false, false, 1, [], []⟩, [], [heredocSemi k T body], []⟩
      none (Value.map []) = _
    have hne : heredocSemi k T body ≠ [] := bareword_ne_nil k hk _
    rw [parse_first_read _ _ _ _ _ _ hne]
    refine (parse_heredoc_of_scan ko f _ _ _ _ _ _ k body [] [] (if ko then some [] else none)
        h1 h2 (by cases ko <;> rfl)).trans ?_
    rw [parse_eof_newline ko _ [] false false ln1 T [] _ _ rfl]
  obtain ⟨p, hp⟩ := hparse
  rw [Ucl_of_parse _ _ _ _ _ _ hp]
  simp

theorem decode_heredoc_cut (k T x : Bytes) (hk : Bareword k) (hT : Alnum T)
    (hx : x ≠ []) (hseg : T ∉ mlSegs [] x) (hko : k ≠ KeyOrder) (hkT : k ≠ T) :
    (Ucl true [heredoc k T (x ++ 59 :: T)]).ucl =
      Value.map (docOf [(k, Value.str x), (T, Value.null)]) ∧
    (Ucl true [heredoc k T (x ++ 59 :: T)]).err = none := by
  obtain ⟨f, hf⟩ : ∃ f, uclFuel [heredoc k T (x ++ 59 :: T)] = f + 8 :=
    ⟨uclFuel [heredoc k T (x ++ 59 :: T)] - 8, by simp only [uclFuel]; omega⟩
  have hin : heredoc k T (x ++ 59 :: T) =
      k ++ 32 :: 61 :: 32 :: 60 :: 60 :: (T ++ 10 :: (x ++ 59 :: (T ++ 10 :: (T ++ [10])))) := by
    simp [heredoc]
  obtain ⟨S1, rest1, ln1, h1, h2⟩ := scan_heredoc [] [] false false 1 [] [] k T x 59 10
    (T ++ [10]) WhiteEnd_nil hk hT hx hseg (Or.inl rfl) (Or.inr rfl)
  have hTk : T ≠ KeyOrder := Alnum.ne_keyOrder T hT
  have hparse : ∃ p, parse true (uclFuel [heredoc k T (x ++ 59 :: T)])
      (NewParser [heredoc k T (x ++ 59 :: T)]) none
      (Value.map []) = ⟨Value.null, some Err.EOF,
        Value.map (docOf [(k, Value.str x), (T, Value.null)]), p⟩ := by
    refine ⟨⟨⟨[], [], St.WHITESPACE, true, true, ln1 + 1, T, []⟩, [], [], []⟩, ?_⟩
    rw [hf]
    show parse true (f + 2 + 6)
      ⟨⟨[], [], St.WHITESPACE, false, false, 1, [], []⟩, [], [heredoc k T (x ++ 59 :: T)], []⟩
      none (Value.map []) = _
    have hne : heredoc k T (x ++ 59 :: T) ≠ [] := bareword_ne_nil k hk _
    rw [parse_first_read _ _ _ _ _ _ hne, hin]
    refine (parse_heredoc_of_scan true (f + 2) _ _ _ _ _ _ k x [] [] (some [])
        h1 h2 rfl).trans ?_
    rw [insertKey_first k _ hko]
    refine (parse_key_null_of_scan true (f + 2) _ _ _ [] T [] _ (some [k])
        (scan_key_newline [] [] false false ln1 T [] T [] WhiteEnd_nil (Bareword.of_alnum T hT))
        (korderOf_docOf [(k, Value.str x)])).trans ?_
    rw [parse_eof _ _ _ _ rfl]
    have := insertKey_docOf [(k, Value.str x)] T Value.null hTk
      (by simpa using fun h => hkT h.symm)
    simp only [List.map_cons, List.map_nil, List.cons_append, List.nil_append] at this
    rw [← this]
  obtain ⟨p, hp⟩ := hparse
  rw [Ucl_of_parse _ _ _ _ _ _ hp]
  simp

/-- C16: for every bareword key `k`, every alphanumeric tag `T` and every
non-empty `body` none of whose pieces between `;` and newline bytes is `T`,
with or without order tracking: `k = <<T`, newline, `body`, newline, `T`,
newline decodes without error to the document in which `k` maps to `body`
verbatim, and so does the text whose terminator line is `T;`. The heredoc
does not end only at a line equal to `T`: a `;` starts a new piece as a
newline does, so when the heredoc's text is `body;T` on its last line
(before the terminator line), the value of `k` is `body` alone, and the
terminator line is read as a further key `T` without a value. -/
theorem C16_heredoc_decoding (ko : Bool) (k T body : Bytes) (hk : Bareword k) (hT : Alnum T)
    (hb : body ≠ []) (hseg : T ∉ mlSegs [] body) :
    ((Ucl ko [heredoc k T body]).err = none ∧
      (Ucl ko [heredoc k T body]).ucl =
        Value.map (insertKey [] (if ko then some [] else none) k (Value.str body))) ∧
    ((Ucl ko [heredocSemi k T body]).err = none ∧
      (Ucl ko [heredocSemi k T body]).ucl =
        Value.map (insertKey [] (if ko then some [] else none) k (Value.str body))) ∧
    mapGet (insertKey [] (if ko then some [] else none) k (Value.str body)) k =
      some (Value.str body) ∧
    (k ≠ KeyOrder → k ≠ T →
      (Ucl true [heredoc k T (body ++ 59 :: T)]).err = none ∧
      (Ucl true [heredoc k T (body ++ 59 :: T)]).ucl =
        Value.map (docOf [(k, Value.str body), (T, Value.null)])) := by
  refine ⟨⟨(decode_heredoc ko k T body hk hT hb hseg).2, (decode_heredoc ko k T body hk hT hb hseg).1⟩,
    ⟨(decode_heredocSemi ko k T body hk hT hb hseg).2,
      (decode_heredocSemi ko k T body hk hT hb hseg).1⟩,
    mapGet_insertKey_new ko k _, ?_⟩
  intro hko hkT
  exact ⟨(decode_heredoc_cut k T body hk hT hb hseg hko hkT).2,
    (decode_heredoc_cut k T body hk hT hb hseg hko hkT).1⟩

/-- C16 (witness): the heredoc of the test, `mlstring = <<EODX` with seven
body lines, one of them blank, decodes to its body, with the terminator
`EODX` and with `EODX;`; and `k = <<T`, newline, `x;T`, newline, `T`,
newline decodes to `k` mapped to `x` and `T` mapped to nil. -/
theorem C16_heredoc_decoding_witness :
    ((Ucl true [B "mlstring = <<EODX\nThis is something\nof\n\na \nlong\nstring  .\n.\nEODX\n"]).err
        = none ∧
      (Ucl true [B "mlstring = <<EODX\nThis is something\nof\n\na \nlong\nstring  .\n.\nEODX\n"]).ucl
        = Value.map [(KeyOrder, Value.strs [B "mlstring"]),
            (B "mlstring", Value.str (B "This is something\nof\n\na \nlong\nstring  .\n."))]) ∧
    ((Ucl true [B "mlstring = <<EODX\nThis is something\nof\n\na \nlong\nstring  .\n.\nEODX;\n"]).err
        = none ∧
      (Ucl true [B "mlstring = <<EODX\nThis is something\nof\n\na \nlong\nstring  .\n.\nEODX;\n"]).ucl
        = Value.map [(KeyOrder, Value.strs [B "mlstring"]),
            (B "mlstring", Value.str (B "This is something\nof\n\na \nlong\nstring  .\n."))]) ∧
    ((Ucl true [B "k = <<T\nx;T\nT\n"]).err = none ∧
      (Ucl true [B "k = <<T\nx;T\nT\n"]).ucl =
        Value.map [(KeyOrder, Value.strs [B "k", B "T"]), (B "k", Value.str (B "x")),
          (B "T", Value.null)]) := by
  have h := C16_heredoc_decoding true (B "mlstring") (B "EODX")
    (B "This is something\nof\n\na \nlong\nstring  .\n.") ⟨by decide, by decide⟩
    ⟨by decide, by decide⟩ (by decide) (by decide)
  have h2 := C16_heredoc_decoding true (B "k") (B "T") (B "x") ⟨by decide, by decide⟩
    ⟨by decide, by decide⟩ (by decide) (by decide)
  exact ⟨h.1, h.2.1, h2.2.2.2 (by decide) (by decide)⟩

theorem unhex_lowerhex (d : Nat) (h : d < 16) : unhex (lowerhex d) = some d := by
  unfold lowerhex unhex
  by_cases h10 : d < 10
  · rw [if_pos h10, if_pos (by omega)]
    congr 1; omega
  · rw [if_neg h10, if_neg (by omega), if_pos (by omega)]
    congr 1; omega

theorem lowerhex_plain (d : Nat) (h : d < 16) :
    lowerhex d ≠ 92 ∧ lowerhex d ≠ 34 ∧ lowerhex d ≠ 10 := by
  unfold lowerhex
  split <;> omega

theorem unhexAll_cons (d : Nat) (t : Bytes) (v : Nat) (h : d < 16) :
    unhexAll (lowerhex d :: t) v = unhexAll t (v * 16 + d) := by
  simp only [unhexAll, unhex_lowerhex d h]

theorem unhexAll_2 (c : Nat) (h : c < 256) :
    unhexAll [lowerhex (c / 16 % 16), lowerhex (c % 16)] 0 = some c := by
  rw [unhexAll_cons _ _ _ (Nat.mod_lt _ (by decide)), unhexAll_cons _ _ _ (Nat.mod_lt _ (by decide))]
  simp only [unhexAll]
  congr 1; omega

theorem unhexAll_4 (r : Nat) (h : r < 65536) :
    unhexAll [lowerhex (r / 4096 % 16), lowerhex (r / 256 % 16), lowerhex (r / 16 % 16),
      lowerhex (r % 16)] 0 = some r := by
  rw [unhexAll_cons _ _ _ (Nat.mod_lt _ (by decide)), unhexAll_cons _ _ _ (Nat.mod_lt _ (by decide)),
    unhexAll_cons _ _ _ (Nat.mod_lt _ (by decide)), unhexAll_cons _ _ _ (Nat.mod_lt _ (by decide))]
  simp only [unhexAll]
  congr 1; omega

theorem unhexAll_8 (r : Nat) (h : r < 4294967296) :
    unhexAll [lowerhex (r / 268435456 % 16), lowerhex (r / 16777216 % 16),
      lowerhex (r / 1048576 % 16), lowerhex (r / 65536 % 16), lowerhex (r / 4096 % 16),
      lowerhex (r / 256 % 16), lowerhex (r / 16 % 16), lowerhex (r % 16)] 0 = some r := by
  rw [unhexAll_cons _ _ _ (Nat.mod_lt _ (by decide)), unhexAll_cons _ _ _ (Nat.mod_lt _ (by decide)),
    unhexAll_cons _ _ _ (Nat.mod_lt _ (by decide)), unhexAll_cons _ _ _ (Nat.mod_lt _ (by decide)),
    unhexAll_cons _ _ _ (Nat.mod_lt _ (by decide)), unhexAll_cons _ _ _ (Nat.mod_lt _ (by decide)),
    unhexAll_cons _ _ _ (Nat.mod_lt _ (by decide)), unhexAll_cons _ _ _ (Nat.mod_lt _ (by decide))]
  simp only [unhexAll]
  congr 1; omega

theorem decodeMulti_2 (s0 lo hi n s1 s2 s3 : Nat) (hn : 2 ≤ n) (h1 : lo ≤ s1 ∧ s1 ≤ hi) :
    decodeMulti s0 2 lo hi n s1 s2 s3 = ((s0 % 32) * 64 + s1 % 64, 2) := by
  unfold decodeMulti
  rw [if_neg (by omega), if_neg (by omega), if_pos (by omega)]

theorem decodeMulti_3 (s0 lo hi n s1 s2 s3 : Nat) (hn : 3 ≤ n) (h1 : lo ≤ s1 ∧ s1 ≤ hi)
    (h2 : 0x80 ≤ s2 ∧ s2 ≤ 0xBF) :
    decodeMulti s0 3 lo hi n s1 s2 s3 = ((s0 % 16) * 4096 + (s1 % 64) * 64 + s2 % 64, 3) := by
  unfold decodeMulti
  rw [if_neg (by omega), if_neg (by omega), if_neg (by omega), if_neg (by omega),
    if_pos (by omega)]

theorem decodeMulti_4 (s0 lo hi n s1 s2 s3 : Nat) (hn : 4 ≤ n) (h1 : lo ≤ s1 ∧ s1 ≤ hi)
    (h2 : 0x80 ≤ s2 ∧ s2 ≤ 0xBF) (h3 : 0x80 ≤ s3 ∧ s3 ≤ 0xBF) :
    decodeMulti s0 4 lo hi n s1 s2 s3 =
      ((s0 % 8) * 262144 + (s1 % 64) * 4096 + (s2 % 64) * 64 + s3 % 64, 4) := by
  unfold decodeMulti
  rw [if_neg (by omega), if_neg (by omega), if_neg (by omega), if_neg (by omega),
    if_neg (by omega), if_neg (by omega)]

/-- The two-byte case of `utf8.DecodeRuneInString`. -/
theorem decodeRune_2 (c s1 : Nat) (t : Bytes) (hc : 0xC2 ≤ c ∧ c < 0xE0)
    (h1 : 0x80 ≤ s1 ∧ s1 ≤ 0xBF) :
    decodeRune (c :: s1 :: t) = ((c % 32) * 64 + s1 % 64, 2) := by
  have e1 : ¬ c < 0x80 := by omega
  have e2 : ¬ (c < 0xC2 ∨ 0xF4 < c) := by omega
  have e3 : (if c < 0xE0 then 2 else if c < 0xF0 then 3 else 4) = 2 := by
    rw [if_pos hc.2]
  simp only [decodeRune, if_neg e1, if_neg e2, e3, List.getD_cons_zero, List.getD_cons_succ]
  exact decodeMulti_2 _ _ _ _ _ _ _ (by simp) (by split_ifs <;> omega)

theorem decodeRune_3 (c s1 s2 : Nat) (t : Bytes) (hc : 0xE0 ≤ c ∧ c < 0xF0)
    (h1 : (if c = 0xE0 then 0xA0 else 0x80) ≤ s1 ∧ s1 ≤ (if c = 0xED then 0x9F else 0xBF))
    (h2 : 0x80 ≤ s2 ∧ s2 ≤ 0xBF) :
    decodeRune (c :: s1 :: s2 :: t) = ((c % 16) * 4096 + (s1 % 64) * 64 + s2 % 64, 3) := by
  have e1 : ¬ c < 0x80 := by omega
  have e2 : ¬ (c < 0xC2 ∨ 0xF4 < c) := by omega
  have e3 : (if c < 0xE0 then 2 else if c < 0xF0 then 3 else 4) = 3 := by
    rw [if_neg (by omega), if_pos hc.2]
  simp only [decodeRune, if_neg e1, if_neg e2, e3, List.getD_cons_zero, List.getD_cons_succ]
  exact decodeMulti_3 _ _ _ _ _ _ _ (by simp) (by split_ifs at h1 ⊢ <;> omega) (by simpa using h2)

theorem decodeRune_4 (c s1 s2 s3 : Nat) (t : Bytes) (hc : 0xF0 ≤ c ∧ c ≤ 0xF4)
    (h1 : (if c = 0xF0 then 0x90 else 0x80) ≤ s1 ∧ s1 ≤ (if c = 0xF4 then 0x8F else 0xBF))
    (h2 : 0x80 ≤ s2 ∧ s2 ≤ 0xBF) (h3 : 0x80 ≤ s3 ∧ s3 ≤ 0xBF) :
    decodeRune (c :: s1 :: s2 :: s3 :: t) =
      ((c % 8) * 262144 + (s1 % 64) * 4096 + (s2 % 64) * 64 + s3 % 64, 4) := by
  have e1 : ¬ c < 0x80 := by omega
  have e2 : ¬ (c < 0xC2 ∨ 0xF4 < c) := by omega
  have e3 : (if c < 0xE0 then 2 else if c < 0xF0 then 3 else 4) = 4 := by
    rw [if_neg (by omega), if_neg (by omega)]
  simp only [decodeRune, if_neg e1, if_neg e2, e3, List.getD_cons_zero, List.getD_cons_succ]
  exact decodeMulti_4 _ _ _ _ _ _ _ (by simp) (by split_ifs at h1 ⊢ <;> omega)
    (by simpa using h2) (by simpa using h3)

theorem decodeMulti_inv (s0 sz lo hi n s1 s2 s3 : Nat) (hsz : sz = 2 ∨ sz = 3 ∨ sz = 4) :
    decodeMulti s0 sz lo hi n s1 s2 s3 = (0xFFFD, 1) ∨
    (sz ≤ n ∧ lo ≤ s1 ∧ s1 ≤ hi ∧
      (sz = 2 ∨ (0x80 ≤ s2 ∧ s2 ≤ 0xBF ∧ (sz = 3 ∨ (0x80 ≤ s3 ∧ s3 ≤ 0xBF))))) := by
  unfold decodeMulti
  by_cases h1 : n < sz
  · left; rw [if_pos h1]
  by_cases h2 : s1 < lo ∨ hi < s1
  · left; rw [if_neg h1, if_pos h2]
  by_cases h3 : sz ≤ 2
  · right; exact ⟨by omega, by omega, by omega, Or.inl (by omega)⟩
  by_cases h4 : s2 < 0x80 ∨ 0xBF < s2
  · left; rw [if_neg h1, if_neg h2, if_neg h3, if_pos h4]
  by_cases h5 : sz ≤ 3
  · right; exact ⟨by omega, by omega, by omega, Or.inr ⟨by omega, by omega, Or.inl (by omega)⟩⟩
  by_cases h6 : s3 < 0x80 ∨ 0xBF < s3
  · left; rw [if_neg h1, if_neg h2, if_neg h3, if_neg h4, if_neg h5, if_pos h6]
  right
  exact ⟨by omega, by omega, by omega, Or.inr ⟨by omega, by omega, Or.inr ⟨by omega, by omega⟩⟩⟩

/-- What `utf8.DecodeRuneInString` finds at a byte from `0x80` on: an
invalid encoding, or a sequence of two, three or four bytes in the ranges
of a well-formed encoding. -/
theorem decodeRune_cases (c : Nat) (rest : Bytes) (hc : 0x80 ≤ c) :
    decodeRune (c :: rest) = (0xFFFD, 1) ∨
    (∃ s1 t, rest = s1 :: t ∧ (0xC2 ≤ c ∧ c < 0xE0) ∧ (0x80 ≤ s1 ∧ s1 ≤ 0xBF)) ∨
    (∃ s1 s2 t, rest = s1 :: s2 :: t ∧ (0xE0 ≤ c ∧ c < 0xF0) ∧
      ((if c = 0xE0 then 0xA0 else 0x80) ≤ s1 ∧ s1 ≤ (if c = 0xED then 0x9F else 0xBF)) ∧
      (0x80 ≤ s2 ∧ s2 ≤ 0xBF)) ∨
    (∃ s1 s2 s3 t, rest = s1 :: s2 :: s3 :: t ∧ (0xF0 ≤ c ∧ c ≤ 0xF4) ∧
      ((if c = 0xF0 then 0x90 else 0x80) ≤ s1 ∧ s1 ≤ (if c = 0xF4 then 0x8F else 0xBF)) ∧
      (0x80 ≤ s2 ∧ s2 ≤ 0xBF) ∧ (0x80 ≤ s3 ∧ s3 ≤ 0xBF)) := by
  have e1 : ¬ c < 0x80 := by omega
  by_cases e2 : c < 0xC2 ∨ 0xF4 < c
  · left; simp only [decodeRune, if_neg e1, if_pos e2]
  have hsz : (if c < 0xE0 then 2 else if c < 0xF0 then 3 else 4) = 2 ∨
      (if c < 0xE0 then 2 else if c < 0xF0 then 3 else 4) = 3 ∨
      (if c < 0xE0 then 2 else if c < 0xF0 then 3 else 4) = 4 := by
    split_ifs <;> simp
  rcases decodeMulti_inv c (if c < 0xE0 then 2 else if c < 0xF0 then 3 else 4)
      (if c = 0xE0 then 0xA0 else if c = 0xF0 then 0x90 else 0x80)
      (if c = 0xED then 0x9F else if c = 0xF4 then 0x8F else 0xBF)
      (c :: rest).length (rest.getD 0 0) (rest.getD 1 0) (rest.getD 2 0) hsz with h | h
  · left; simp only [decodeRune, if_neg e1, if_neg e2]; exact h
  · right
    obtain ⟨hn, hlo, hhi, hrest⟩ := h
    by_cases c2 : c < 0xE0
    · left
      rw [if_pos c2] at hn
      cases rest with
      | nil => simp at hn
      | cons s1 t =>
        simp only [List.getD_cons_zero] at hlo hhi
        refine ⟨s1, t, rfl, by omega, ?_⟩
        split_ifs at hlo hhi <;> omega
    · right
      by_cases c3 : c < 0xF0
      · left
        rw [if_neg c2, if_pos c3] at hn hrest
        cases rest with
        | nil => simp at hn
        | cons s1 t =>
          cases t with
          | nil => simp at hn
          | cons s2 t =>
            simp only [List.getD_cons_zero, List.getD_cons_succ] at hlo hhi hrest
            refine ⟨s1, s2, t, rfl, by omega, ?_, by omega⟩
            split_ifs at hlo hhi ⊢ <;> omega
      · right
        rw [if_neg c2, if_neg c3] at hn hrest
        cases rest with
        | nil => simp at hn
        | cons s1 t =>
          cases t with
          | nil => simp at hn
          | cons s2 t =>
            cases t with
            | nil => simp at hn
            | cons s3 t =>
              simp only [List.getD_cons_zero, List.getD_cons_succ] at hlo hhi hrest
              refine ⟨s1, s2, s3, t, rfl, by omega, ?_, by omega, by omega⟩
              split_ifs at hlo hhi ⊢ <;> omega

theorem encodeRune_2 (c s1 : Nat) (hc : 0xC2 ≤ c ∧ c < 0xE0) (h1 : 0x80 ≤ s1 ∧ s1 ≤ 0xBF) :
    encodeRune ((c % 32) * 64 + s1 % 64) = [c, s1] ∧
    0x80 ≤ (c % 32) * 64 + s1 % 64 ∧ (c % 32) * 64 + s1 % 64 < 0x800 := by
  have hr : 0x80 ≤ (c % 32) * 64 + s1 % 64 ∧ (c % 32) * 64 + s1 % 64 < 0x800 := by omega
  refine ⟨?_, hr⟩
  generalize hr0 : (c % 32) * 64 + s1 % 64 = r at hr
  unfold encodeRune
  rw [if_neg (by omega), if_pos (by omega)]
  congr 1
  · omega
  · congr 1; omega

theorem encodeRune_3 (c s1 s2 : Nat) (hc : 0xE0 ≤ c ∧ c < 0xF0)
    (h1 : (if c = 0xE0 then 0xA0 else 0x80) ≤ s1 ∧ s1 ≤ (if c = 0xED then 0x9F else 0xBF))
    (h2 : 0x80 ≤ s2 ∧ s2 ≤ 0xBF) :
    encodeRune ((c % 16) * 4096 + (s1 % 64) * 64 + s2 % 64) = [c, s1, s2] ∧
    0x800 ≤ (c % 16) * 4096 + (s1 % 64) * 64 + s2 % 64 ∧
    (c % 16) * 4096 + (s1 % 64) * 64 + s2 % 64 < 0x10000 ∧
    ¬ (0xD800 ≤ (c % 16) * 4096 + (s1 % 64) * 64 + s2 % 64 ∧
      (c % 16) * 4096 + (s1 % 64) * 64 + s2 % 64 ≤ 0xDFFF) := by
  have hs1 : 0x80 ≤ s1 ∧ s1 ≤ 0xBF ∧ (c = 0xE0 → 0xA0 ≤ s1) ∧ (c = 0xED → s1 ≤ 0x9F) := by
    split_ifs at h1 <;> omega
  have hr : 0x800 ≤ (c % 16) * 4096 + (s1 % 64) * 64 + s2 % 64 ∧
      (c % 16) * 4096 + (s1 % 64) * 64 + s2 % 64 < 0x10000 ∧
      ¬ (0xD800 ≤ (c % 16) * 4096 + (s1 % 64) * 64 + s2 % 64 ∧
        (c % 16) * 4096 + (s1 % 64) * 64 + s2 % 64 ≤ 0xDFFF) := by omega
  refine ⟨?_, hr⟩
  generalize hr0 : (c % 16) * 4096 + (s1 % 64) * 64 + s2 % 64 = r at hr
  unfold encodeRune
  rw [if_neg (by omega), if_neg (by omega), if_neg (by omega), if_pos (by omega)]
  congr 1
  · omega
  · congr 1
    · omega
    · congr 1; omega

theorem encodeRune_4 (c s1 s2 s3 : Nat) (hc : 0xF0 ≤ c ∧ c ≤ 0xF4)
    (h1 : (if c = 0xF0 then 0x90 else 0x80) ≤ s1 ∧ s1 ≤ (if c = 0xF4 then 0x8F else 0xBF))
    (h2 : 0x80 ≤ s2 ∧ s2 ≤ 0xBF) (h3 : 0x80 ≤ s3 ∧ s3 ≤ 0xBF) :
    encodeRune ((c % 8) * 262144 + (s1 % 64) * 4096 + (s2 % 64) * 64 + s3 % 64) =
      [c, s1, s2, s3] ∧
    0x10000 ≤ (c % 8) * 262144 + (s1 % 64) * 4096 + (s2 % 64) * 64 + s3 % 64 ∧
    (c % 8) * 262144 + (s1 % 64) * 4096 + (s2 % 64) * 64 + s3 % 64 ≤ 0x10FFFF := by
  have hs1 : 0x80 ≤ s1 ∧ s1 ≤ 0xBF ∧ (c = 0xF0 → 0x90 ≤ s1) ∧ (c = 0xF4 → s1 ≤ 0x8F) := by
    split_ifs at h1 <;> omega
  have hr : 0x10000 ≤ (c % 8) * 262144 + (s1 % 64) * 4096 + (s2 % 64) * 64 + s3 % 64 ∧
      (c % 8) * 262144 + (s1 % 64) * 4096 + (s2 % 64) * 64 + s3 % 64 ≤ 0x10FFFF := by omega
  refine ⟨?_, hr⟩
  generalize hr0 : (c % 8) * 262144 + (s1 % 64) * 4096 + (s2 % 64) * 64 + s3 % 64 = r at hr
  unfold encodeRune
  rw [if_neg (by omega), if_neg (by omega), if_neg (by omega), if_neg (by omega)]
  congr 1
  · omega
  · congr 1
    · omega
    · congr 1
      · omega
      · congr 1; omega

theorem uq_x (c : Nat) (tail : Bytes) (hc : c < 256) :
    unquoteChar (92 :: 120 :: lowerhex (c / 16 % 16) :: lowerhex (c % 16) :: tail) 34 =
      some (c, false, tail) := by
  have h := unhexAll_2 c hc
  simp [unquoteChar, h]

theorem uq_u (r : Nat) (tail : Bytes) (hr : r < 65536) (hv : validRune r = true) :
    unquoteChar (92 :: 117 :: lowerhex (r / 4096 % 16) :: lowerhex (r / 256 % 16) ::
      lowerhex (r / 16 % 16) :: lowerhex (r % 16) :: tail) 34 = some (r, true, tail) := by
  have h := unhexAll_4 r hr
  simp [unquoteChar, h, hv]

theorem uq_U (r : Nat) (tail : Bytes) (hr : r < 4294967296) (hv : validRune r = true) :
    unquoteChar (92 :: 85 :: lowerhex (r / 268435456 % 16) :: lowerhex (r / 16777216 % 16) ::
      lowerhex (r / 1048576 % 16) :: lowerhex (r / 65536 % 16) :: lowerhex (r / 4096 % 16) ::
      lowerhex (r / 256 % 16) :: lowerhex (r / 16 % 16) :: lowerhex (r % 16) :: tail) 34 =
      some (r, true, tail) := by
  have h := unhexAll_8 r hr
  simp [unquoteChar, h, hv]

theorem uq_raw (c : Nat) (tail : Bytes) (h1 : c < 0x80) (h2 : c ≠ 92) (h3 : c ≠ 34) :
    unquoteChar (c :: tail) 34 = some (c, false, tail) := by
  have : ¬ 0x80 ≤ c := by omega
  simp [unquoteChar, *]

theorem uq_quote (c : Nat) (tail : Bytes) (h : c = 34 ∨ c = 92) :
    unquoteChar (92 :: c :: tail) 34 = some (c, false, tail) := by
  rcases h with h | h <;> subst h <;> simp [unquoteChar]

theorem uq_multi (c : Nat) (t : Bytes) (r w : Nat) (hc : 0x80 ≤ c)
    (hd : decodeRune (c :: t) = (r, w)) :
    unquoteChar (c :: t) 34 = some (r, true, (c :: t).drop w) := by
  have h1 : c ≠ 34 := by omega
  simp only [unquoteChar]
  rw [if_neg (by simp [h1]), if_pos hc, hd]

theorem QuotePiece_x (c : Nat) (hc : c < 256) :
    QuotePiece [92, 120, lowerhex (c / 16 % 16), lowerhex (c % 16)] [c] := by
  refine ⟨⟨c, false, fun tail => uq_x c tail hc, ?_⟩, Or.inr ⟨120, _, rfl, by decide, ?_⟩⟩
  · simp; omega
  · intro b hb
    simp only [List.mem_cons, List.mem_singleton, List.not_mem_nil, or_false] at hb
    rcases hb with h | h <;> subst h <;> exact lowerhex_plain _ (Nat.mod_lt _ (by decide))

theorem QuotePiece_short (c e : Nat) (hc : c < 256) (he : e ≠ 10)
    (ht : ∀ tail, unquoteChar (92 :: e :: tail) 34 = some (c, false, tail)) :
    QuotePiece [92, e] [c] := by
  refine ⟨⟨c, false, fun tail => ht tail, ?_⟩, Or.inr ⟨e, [], rfl, he, by simp⟩⟩
  simp; omega

theorem QuotePiece_escape_ascii (c : Nat) (h : c < 32 ∨ c = 127) :
    QuotePiece (escapeOther c) [c] := by
  unfold escapeOther
  split_ifs with h1 h2 h3 h4 h5 h6 h7
  · subst h1; exact QuotePiece_short 7 97 (by decide) (by decide) (fun t => by simp [unquoteChar])
  · subst h2; exact QuotePiece_short 8 98 (by decide) (by decide) (fun t => by simp [unquoteChar])
  · subst h3; exact QuotePiece_short 12 102 (by decide) (by decide) (fun t => by simp [unquoteChar])
  · subst h4; exact QuotePiece_short 10 110 (by decide) (by decide) (fun t => by simp [unquoteChar])
  · subst h5; exact QuotePiece_short 13 114 (by decide) (by decide) (fun t => by simp [unquoteChar])
  · subst h6; exact QuotePiece_short 9 116 (by decide) (by decide) (fun t => by simp [unquoteChar])
  · subst h7; exact QuotePiece_short 11 118 (by decide) (by decide) (fun t => by simp [unquoteChar])
  · exact QuotePiece_x c (by omega)

theorem QuotePiece_escape_rune (r : Nat) (h80 : 0x80 ≤ r) (hv : validRune r = true) :
    QuotePiece (escapeOther r) (encodeRune r) := by
  have hmax : r ≤ 0x10FFFF := by
    simp only [validRune, Bool.or_eq_true, decide_eq_true_eq, Bool.and_eq_true] at hv
    omega
  have hout : (if r < 0x80 ∨ ¬ true = true then [r % 256] else encodeRune r) = encodeRune r := by
    rw [if_neg (by simp; omega)]
  unfold escapeOther
  rw [if_neg (by omega), if_neg (by omega), if_neg (by omega), if_neg (by omega),
    if_neg (by omega), if_neg (by omega), if_neg (by omega), if_neg (by omega),
    if_neg (by simp [hv])]
  split_ifs with h1
  · refine ⟨⟨r, true, fun tail => uq_u r tail h1 hv, hout⟩, Or.inr ⟨117, _, rfl, by decide, ?_⟩⟩
    intro b hb
    simp only [List.mem_cons, List.mem_singleton, List.not_mem_nil, or_false] at hb
    rcases hb with h | h | h | h <;> subst h <;> exact lowerhex_plain _ (Nat.mod_lt _ (by decide))
  · refine ⟨⟨r, true, fun tail => uq_U r tail (by omega) hv, hout⟩,
      Or.inr ⟨85, _, rfl, by decide, ?_⟩⟩
    intro b hb
    simp only [List.mem_cons, List.mem_singleton, List.not_mem_nil, or_false] at hb
    rcases hb with h | h | h | h | h | h | h | h <;> subst h <;>
      exact lowerhex_plain _ (Nat.mod_lt _ (by decide))

theorem QuotePiece_raw_ascii (c : Nat) (h1 : 0x20 ≤ c ∧ c ≤ 0x7E) (h2 : c ≠ 92) (h3 : c ≠ 34) :
    QuotePiece (encodeRune c) [c] := by
  have he : encodeRune c = [c] := by
    unfold encodeRune; rw [if_pos (by omega)]
  rw [he]
  refine ⟨⟨c, false, fun tail => uq_raw c tail (by omega) h2 h3, ?_⟩, Or.inl ⟨rfl, ?_⟩⟩
  · simp; omega
  · intro b hb
    simp only [List.mem_singleton] at hb
    subst hb
    exact ⟨h2, h3, by omega⟩

theorem QuotePiece_quote (c : Nat) (h : c = 34 ∨ c = 92) : QuotePiece [92, c] [c] := by
  refine ⟨⟨c, false, fun tail => uq_quote c tail h, ?_⟩, Or.inr ⟨c, [], rfl, by omega, by simp⟩⟩
  simp; omega

/-- The piece for an ASCII byte. -/
theorem QuotePiece_ascii (tbl : Nat → Bool) (c : Nat) (hc : c < 0x80) :
    QuotePiece (appendEscapedRune tbl c) [c] := by
  unfold appendEscapedRune
  by_cases hq : c = 34 ∨ c = 92
  · rw [if_pos hq]; exact QuotePiece_quote c hq
  · rw [if_neg hq]
    by_cases hp : 0x20 ≤ c ∧ c ≤ 0x7E
    · have : isPrint tbl c = true := by
        unfold isPrint; rw [if_pos (by omega), if_pos hp]
      rw [if_pos this]
      exact QuotePiece_raw_ascii c hp (by omega) (by omega)
    · have : isPrint tbl c = false := by
        unfold isPrint; rw [if_pos (by omega), if_neg hp, if_neg (by omega)]
      rw [this]
      simp only [Bool.false_eq_true, if_false]
      exact QuotePiece_escape_ascii c (by omega)

theorem encodeRune_ne_nil (r : Nat) : encodeRune r ≠ [] := by
  unfold encodeRune
  split_ifs <;> simp

theorem QuotePiece_multi (tbl : Nat → Bool) (r : Nat) (chunk : Bytes) (h80 : 0x80 ≤ r)
    (hv : validRune r = true) (henc : encodeRune r = chunk)
    (hdec : ∀ tail, decodeRune (chunk ++ tail) = (r, chunk.length))
    (hb : ∀ b ∈ chunk, 0x80 ≤ b) :
    QuotePiece (appendEscapedRune tbl r) chunk := by
  unfold appendEscapedRune
  rw [if_neg (by omega)]
  by_cases hp : isPrint tbl r = true
  · rw [if_pos hp, henc]
    refine ⟨⟨r, true, fun tail => ?_, ?_⟩, Or.inl ⟨rfl, ?_⟩⟩
    · cases hch : chunk with
      | nil =>
        rw [hch] at henc
        exact absurd henc (encodeRune_ne_nil r)
      | cons c t =>
        have hc : 0x80 ≤ c := hb c (by rw [hch]; simp)
        have hd := hdec tail
        rw [hch] at hd
        rw [List.cons_append, uq_multi c (t ++ tail) r (c :: t).length hc hd]
        rw [← List.cons_append, List.drop_left]
    · rw [if_neg (by simp; omega)]; exact henc
    · intro b hb'
      have := hb b hb'
      omega
  · rw [if_neg hp]
    rw [← henc]
    exact QuotePiece_escape_rune r h80 hv

theorem quoteBody_skip (tbl : Nat → Bool) (s : Bytes) :
    ∀ k, quoteBody tbl k s = quoteBody tbl 0 (s.drop k) := by
  induction s with
  | nil => intro k; cases k <;> simp [quoteBody]
  | cons c rest ih =>
    intro k
    cases k with
    | zero => rfl
    | succ k =>
      rw [List.drop_succ_cons, ← ih k]
      simp only [quoteBody]

theorem validRune_of (r : Nat) (h1 : r ≤ 0x10FFFF) (h2 : ¬ (0xD800 ≤ r ∧ r ≤ 0xDFFF)) :
    validRune r = true := by
  simp only [validRune, Bool.or_eq_true, decide_eq_true_eq, Bool.and_eq_true]
  omega

/-- One round of the loop of `strconv.Quote`: the rune at the front of the
string takes `w` bytes, and what is written for it is a piece that
`strconv.UnquoteChar` reads back to these bytes. -/
theorem quoteBody_piece (tbl : Nat → Bool) (c : Nat) (rest : Bytes) (hc : c < 256) :
    ∃ w piece, 1 ≤ w ∧ w ≤ rest.length + 1 ∧
      quoteBody tbl 0 (c :: rest) = piece ++ quoteBody tbl 0 (rest.drop (w - 1)) ∧
      QuotePiece piece ((c :: rest).take w) := by
  by_cases h80 : 0x80 ≤ c
  · rcases decodeRune_cases c rest h80 with h | ⟨s1, t, hr, hc2, h1⟩ | ⟨s1, s2, t, hr, hc3, h1, h2⟩ |
        ⟨s1, s2, s3, t, hr, hc4, h1, h2, h3⟩
    · refine ⟨1, _, le_refl _, by omega, ?_, QuotePiece_x c hc⟩
      simp only [quoteBody, if_pos h80, h]
      simp
    · subst hr
      obtain ⟨he, hr1, hr2⟩ := encodeRune_2 c s1 hc2 h1
      refine ⟨2, appendEscapedRune tbl ((c % 32) * 64 + s1 % 64), by omega, by simp, ?_,
        QuotePiece_multi tbl _ _ hr1 (validRune_of _ (by omega) (by omega)) he
          (fun tail => decodeRune_2 c s1 tail hc2 h1) ?_⟩
      · simp only [quoteBody, if_pos h80, decodeRune_2 c s1 t hc2 h1]
        rw [quoteBody_skip]
        simp
      · intro b hb
        simp only [List.take, List.mem_cons, List.mem_singleton, List.not_mem_nil, or_false] at hb
        rcases hb with h | h <;> subst h <;> omega
    · subst hr
      obtain ⟨he, hr1, hr2, hr3⟩ := encodeRune_3 c s1 s2 hc3 h1 h2
      have hs1 : 0x80 ≤ s1 := by split_ifs at h1 <;> omega
      refine ⟨3, appendEscapedRune tbl ((c % 16) * 4096 + (s1 % 64) * 64 + s2 % 64), by omega,
        by simp, ?_,
        QuotePiece_multi tbl _ _ (by omega) (validRune_of _ (by omega) hr3) he
          (fun tail => decodeRune_3 c s1 s2 tail hc3 h1 h2) ?_⟩
      · simp only [quoteBody, if_pos h80, decodeRune_3 c s1 s2 t hc3 h1 h2]
        rw [quoteBody_skip]
        simp
      · intro b hb
        simp only [List.take, List.mem_cons, List.mem_singleton, List.not_mem_nil, or_false] at hb
        rcases hb with h | h | h <;> subst h <;> omega
    · subst hr
      obtain ⟨he, hr1, hr2⟩ := encodeRune_4 c s1 s2 s3 hc4 h1 h2 h3
      have hs1 : 0x80 ≤ s1 := by split_ifs at h1 <;> omega
      refine ⟨4, appendEscapedRune tbl ((c % 8) * 262144 + (s1 % 64) * 4096 + (s2 % 64) * 64 + s3 % 64),
        by omega, by simp, ?_,
        QuotePiece_multi tbl _ _ (by omega) (validRune_of _ (by omega) (by omega)) he
          (fun tail => decodeRune_4 c s1 s2 s3 tail hc4 h1 h2 h3) ?_⟩
      · simp only [quoteBody, if_pos h80, decodeRune_4 c s1 s2 s3 t hc4 h1 h2 h3]
        rw [quoteBody_skip]
        simp
      · intro b hb
        simp only [List.take, List.mem_cons, List.mem_singleton, List.not_mem_nil, or_false] at hb
        rcases hb with h | h | h | h <;> subst h <;> omega
  · refine ⟨1, appendEscapedRune tbl c, le_refl _, by omega, ?_, QuotePiece_ascii tbl c (by omega)⟩
    simp only [quoteBody, if_neg h80]
    rw [if_neg (by omega)]
    simp

theorem QuotePiece_ne_nil (piece chunk : Bytes) (h : QuotePiece piece chunk) : piece ≠ [] := by
  intro h0
  obtain ⟨⟨v, mb, hu, _⟩, _⟩ := h
  have := hu []
  rw [h0] at this
  simp [unquoteChar] at this

theorem take_drop_pred (c : Nat) (rest : Bytes) (w : Nat) (hw : 1 ≤ w) :
    (c :: rest).take w ++ rest.drop (w - 1) = c :: rest := by
  obtain ⟨k, rfl⟩ : ∃ k, w = k + 1 := ⟨w - 1, by omega⟩
  simp

theorem unquoteLoop_step (fuel : Nat) (piece Q buf : Bytes) (v : Nat) (mb : Bool)
    (hne : piece ≠ []) (hu : unquoteChar (piece ++ Q) 34 = some (v, mb, Q)) :
    unquoteLoop (fuel + 1) (piece ++ Q) 34 buf =
      unquoteLoop fuel Q 34 (buf ++ (if v < 0x80 ∨ ¬ mb = true then [v % 256] else encodeRune v)) := by
  cases hp : piece with
  | nil => exact absurd hp hne
  | cons p0 pt =>
    rw [hp] at hu
    rw [List.cons_append] at hu ⊢
    rw [unquoteLoop]
    simp only [hu]
    split_ifs <;> rfl

/-- The loop of `unquote` on the body of `strconv.Quote(s)` gives `s` back. -/
theorem unquoteLoop_quoteBody (tbl : Nat → Bool) :
    ∀ (n : Nat) (s : Bytes), s.length ≤ n → (∀ b ∈ s, b < 256) →
    ∀ (buf : Bytes) (fuel : Nat), (quoteBody tbl 0 s).length ≤ fuel →
      unquoteLoop fuel (quoteBody tbl 0 s) 34 buf = some (buf ++ s) := by
  intro n
  induction n with
  | zero =>
    intro s hs _ buf fuel _
    have : s = [] := List.length_eq_zero.1 (by omega)
    subst this
    simp [quoteBody, unquoteLoop]
  | succ n ih =>
    intro s hs hb buf fuel hf
    cases s with
    | nil => simp [quoteBody, unquoteLoop]
    | cons c rest =>
      obtain ⟨w, piece, hw1, hw2, hq, hp⟩ := quoteBody_piece tbl c rest (hb c (by simp))
      have hne := QuotePiece_ne_nil _ _ hp
      obtain ⟨⟨v, mb, hu, hout⟩, _⟩ := hp
      rw [hq] at hf ⊢
      have hpl : 1 ≤ piece.length := List.length_pos.2 hne
      rw [List.length_append] at hf
      obtain ⟨f, rfl⟩ : ∃ f, fuel = f + 1 := ⟨fuel - 1, by omega⟩
      rw [unquoteLoop_step f piece _ buf v mb hne (hu _), hout]
      rw [ih (rest.drop (w - 1)) (by simp only [List.length_drop, List.length_cons] at hs ⊢; omega)
        (fun b hb' => hb b (List.mem_cons_of_mem _ (List.mem_of_mem_drop hb'))) _ f (by omega)]
      rw [List.append_assoc, take_drop_pred c rest w hw1]

theorem quoteBody_no_backslash (tbl : Nat → Bool) :
    ∀ (n : Nat) (s : Bytes), s.length ≤ n → (∀ b ∈ s, b < 256) →
      contains (quoteBody tbl 0 s) 92 = false → quoteBody tbl 0 s = s := by
  intro n
  induction n with
  | zero =>
    intro s hs _ _
    have : s = [] := List.length_eq_zero.1 (by omega)
    subst this
    simp [quoteBody]
  | succ n ih =>
    intro s hs hb hc
    cases s with
    | nil => simp [quoteBody]
    | cons c rest =>
      obtain ⟨w, piece, hw1, hw2, hq, hp⟩ := quoteBody_piece tbl c rest (hb c (by simp))
      rw [hq] at hc ⊢
      simp only [contains, List.any_append, Bool.or_eq_false_iff] at hc
      obtain ⟨_, hraw | ⟨e, h, hesc, _⟩⟩ := hp
      · have h2 := ih (rest.drop (w - 1))
          (by simp only [List.length_drop, List.length_cons] at hs ⊢; omega)
          (fun b hb' => hb b (List.mem_cons_of_mem _ (List.mem_of_mem_drop hb')))
          (by simpa [contains] using hc.2)
        rw [h2, hraw.1, take_drop_pred c rest w hw1]
      · rw [hesc] at hc
        simp at hc

theorem quoteBody_nil (tbl : Nat → Bool) (s : Bytes) (h : (quoteBody tbl 0 s).length = 0) :
    s = [] := by
  have := quoteBody_len tbl s 0
  exact List.length_eq_zero.1 (by omega)

/-- The function `unquote` undoes `strconv.Quote`: on the body of
`strconv.Quote(s)` it returns `s`. -/
theorem unquote_quoteBody (tbl : Nat → Bool) (s : Bytes) (hb : ∀ b ∈ s, b < 256) :
    unquote (quoteBody tbl 0 s) 34 = some s := by
  unfold unquote
  by_cases h0 : (quoteBody tbl 0 s).length = 0
  · rw [if_pos h0, quoteBody_nil tbl s h0]
  · rw [if_neg h0, if_neg (by decide), if_neg (by decide)]
    by_cases h1 : ¬ contains (quoteBody tbl 0 s) 92 = true ∧ ¬ contains (quoteBody tbl 0 s) 34 = true
    · rw [if_pos h1]
      rw [quoteBody_no_backslash tbl s.length s (le_refl _) hb (by simpa using h1.1)]
    · rw [if_neg h1]
      have := unquoteLoop_quoteBody tbl s.length s (le_refl _) hb [] _ (le_refl _)
      simpa using this

theorem step_quote_byte (d ct : Bytes) (sw ss : Bool) (ln : Nat) (mt cl : Bytes)
    (tags : List Tag) (c : Nat) (rest : Bytes) (hc : c ≠ 92 ∧ c ≠ 34 ∧ c ≠ 10) :
    step ⟨d, ct, St.QUOTE, sw, ss, ln, mt, cl⟩ tags c rest =
      Step.cont ⟨d, ct ++ [c], St.QUOTE, sw, ss, ln, mt, cl⟩ tags 0 := by
  obtain ⟨h1, h2, h3⟩ := hc
  simp [step, stepQuote, *]

theorem step_quote_esc (d ct : Bytes) (sw ss : Bool) (ln : Nat) (mt cl : Bytes)
    (tags : List Tag) (e : Nat) (rest : Bytes) (he : e ≠ 10) :
    step ⟨d, ct, St.QUOTE, sw, ss, ln, mt, cl⟩ tags 92 (e :: rest) =
      Step.cont ⟨d, ct ++ [92, e], St.QUOTE, sw, ss, ln, mt, cl⟩ tags 1 := by
  simp [step, stepQuote, he]

theorem buf_quote_plain (d : Bytes) (sw ss : Bool) (ln : Nat) (mt cl : Bytes) (tags : List Tag)
    (rest : Bytes) (w : Bytes) (hw : ∀ c ∈ w, c ≠ 92 ∧ c ≠ 34 ∧ c ≠ 10) :
    ∀ ct : Bytes,
    nexttagsBuf ⟨d, ct, St.QUOTE, sw, ss, ln, mt, cl⟩ tags 0 (w ++ rest) =
      nexttagsBuf ⟨d, ct ++ w, St.QUOTE, sw, ss, ln, mt, cl⟩ tags 0 rest := by
  induction w with
  | nil => intro ct; simp
  | cons c w ih =>
    intro ct
    rw [List.cons_append, nexttagsBuf, step_quote_byte d ct sw ss ln mt cl tags c _ (hw c (by simp))]
    simp only []
    rw [ih (fun x hx => hw x (by simp [hx]))]
    simp

/-- In the state QUOTE the scanner takes a piece written by `strconv.Quote`
into the pending text as it stands. -/
theorem buf_quote_piece (d ct : Bytes) (sw ss : Bool) (ln : Nat) (mt cl : Bytes)
    (tags : List Tag) (rest piece chunk : Bytes) (hp : QuotePiece piece chunk) :
    nexttagsBuf ⟨d, ct, St.QUOTE, sw, ss, ln, mt, cl⟩ tags 0 (piece ++ rest) =
      nexttagsBuf ⟨d, ct ++ piece, St.QUOTE, sw, ss, ln, mt, cl⟩ tags 0 rest := by
  obtain ⟨_, hraw | ⟨e, h, hesc, he, hh⟩⟩ := hp
  · exact buf_quote_plain d sw ss ln mt cl tags rest piece hraw.2 ct
  · subst hesc
    rw [List.cons_append, List.cons_append, nexttagsBuf,
      step_quote_esc d ct sw ss ln mt cl tags e _ he]
    simp only []
    rw [nexttagsBuf]
    rw [buf_quote_plain d sw ss ln mt cl tags rest h hh]
    simp

theorem buf_quote_body (tbl : Nat → Bool) (d : Bytes) (sw ss : Bool) (ln : Nat) (mt cl : Bytes)
    (tags : List Tag) (rest : Bytes) :
    ∀ (n : Nat) (s : Bytes), s.length ≤ n → (∀ b ∈ s, b < 256) → ∀ ct : Bytes,
    nexttagsBuf ⟨d, ct, St.QUOTE, sw, ss, ln, mt, cl⟩ tags 0 (quoteBody tbl 0 s ++ rest) =
      nexttagsBuf ⟨d, ct ++ quoteBody tbl 0 s, St.QUOTE, sw, ss, ln, mt, cl⟩ tags 0 rest := by
  intro n
  induction n with
  | zero =>
    intro s hs _ ct
    have : s = [] := List.length_eq_zero.1 (by omega)
    subst this
    simp [quoteBody]
  | succ n ih =>
    intro s hs hb ct
    cases s with
    | nil => simp [quoteBody]
    | cons c t =>
      obtain ⟨w, piece, hw1, hw2, hq, hp⟩ := quoteBody_piece tbl c t (hb c (by simp))
      rw [hq, List.append_assoc, buf_quote_piece d ct sw ss ln mt cl tags _ piece _ hp]
      rw [ih (t.drop (w - 1)) (by simp only [List.length_drop, List.length_cons] at hs ⊢; omega)
        (fun b hb' => hb b (List.mem_cons_of_mem _ (List.mem_of_mem_drop hb')))]
      simp

theorem step_quote_close_of (d ct : Bytes) (sw ss : Bool) (ln : Nat) (mt cl : Bytes)
    (tags : List Tag) (rest v : Bytes) (hv : unquote ct 34 = some v) :
    step ⟨d, ct, St.QUOTE, sw, ss, ln, mt, cl⟩ tags 34 rest =
      Step.cont ⟨d, [], St.TAG, true, true, ln, mt, cl⟩ (tags ++ [⟨v, St.QUOTE⟩]) 0 := by
  simp [step, stepQuote, emit0, maketag0, hv]

/-- The scanner after an opening double quote, on the body of
`strconv.Quote(s)`, the closing quote and `;`: one QUOTE token with the
value `s`, then the tokens of the `;`. -/
theorem scan_quoted (tbl : Nat → Bool) (d : Bytes) (sw ss : Bool) (ln : Nat) (mt cl : Bytes)
    (s rest : Bytes) (hb : ∀ b ∈ s, b < 256) :
    nexttagsBuf ⟨d, [], St.QUOTE, sw, ss, ln, mt, cl⟩ [] 0 (quoteBody tbl 0 s ++ 34 :: 59 :: rest) =
      BufOut.ret ⟨d, [], St.WHITESPACE, true, true, ln, mt, cl⟩
        [⟨s, St.QUOTE⟩, ⟨[], St.WHITESPACE⟩, ⟨[59], St.SEMICOL⟩] rest := by
  rw [buf_quote_body tbl d sw ss ln mt cl [] _ s.length s (le_refl _) hb []]
  rw [nexttagsBuf, step_quote_close_of d _ sw ss ln mt cl [] _ s
    (by simpa using unquote_quoteBody tbl s hb)]
  simp only []
  rw [nexttagsBuf, step_tag_semi_empty]
  simp

theorem step_tag_quote_empty (d : Bytes) (sw ss : Bool) (ln : Nat) (mt cl : Bytes)
    (tags : List Tag) (rest : Bytes) :
    step ⟨d, [], St.TAG, sw, ss, ln, mt, cl⟩ tags 34 rest =
      Step.ret ⟨d, [], St.QUOTE, sw, ss, ln, mt, cl⟩ tags := by
  simp [step, stepTag, trimTag]

/-- The scanner on a key, a blank and an opening double quote: the key is
returned and the scanner is in the state QUOTE. -/
theorem scan_key_quote (d ct : Bytes) (sw ss : Bool) (ln : Nat) (mt cl : Bytes) (k rest : Bytes)
    (hct : WhiteEnd ct) (hk : Bareword k) :
    nexttagsBuf ⟨d, ct, St.WHITESPACE, sw, ss, ln, mt, cl⟩ [] 0 (k ++ 32 :: 34 :: rest) =
      BufOut.ret ⟨d, [], St.QUOTE, true, true, ln, mt, cl⟩ [⟨k, St.TAG⟩] rest := by
  obtain ⟨hkne, hkb⟩ := hk
  cases k with
  | nil => exact absurd rfl hkne
  | cons c k' =>
    have hc := hkb c (by simp)
    have hk' : ∀ x ∈ k', isBare x = true := fun x hx => hkb x (by simp [hx])
    have h1 : ([c] : Bytes).getLast? ≠ some 60 :=
      getLast?_append_bare [] [c] nil_getLast?_ne (by intro x hx; simp at hx; subst hx; exact hc)
    have h2 : ([c] ++ k').getLast? ≠ some 60 := getLast?_append_bare [c] k' h1 hk'
    rw [List.cons_append, nexttagsBuf, step_white_bare d ct sw ss ln mt cl [] c _ hct hc]
    simp only []
    rw [buf_tag_word_first d true true ln mt cl _ k' [c] hk' h1]
    rw [nexttagsBuf, step_tag_space_first d _ _ true ln mt cl _ h2 (by simp)]
    simp only []
    rw [nexttagsBuf, step_tag_quote_empty]
    simp

theorem parse_quoted_of_scan (ko : Bool) (f : Nat) (S S1 S2 : Scanner)
    (buf rest1 rest k v : Bytes) (r : List Rd) (m : GoMap) (korder : Option (List Bytes))
    (h1 : nexttagsBuf S [] 0 buf = BufOut.ret S1 [⟨k, St.TAG⟩] rest1)
    (h2 : nexttagsBuf S1 [] 0 rest1 =
      BufOut.ret S2 [⟨v, St.QUOTE⟩, ⟨[], St.WHITESPACE⟩, ⟨[59], St.SEMICOL⟩] rest)
    (hm : korderOf ko m = Except.ok korder) :
    parse ko (f + 5) ⟨S, buf, r, []⟩ none (Value.map m) =
      parse ko (f + 3) ⟨S2, rest, r, []⟩ none (Value.map (insertKey m korder k (Value.str v))) := by
  have n1 := nexttag_scan _ _ _ _ r ⟨k, St.TAG⟩ _ [] h1 (by simp [List.dropWhile, filtered])
  have n2 := nexttag_scan _ _ _ _ r ⟨v, St.QUOTE⟩ _ [⟨[], St.WHITESPACE⟩, ⟨[59], St.SEMICOL⟩] h2
    (by simp [List.dropWhile, filtered])
  have n3 := nexttag_tags_skip S2 rest r ⟨[], St.WHITESPACE⟩ ⟨[59], St.SEMICOL⟩ []
    (by simp [filtered]) (by simp [filtered])
  rw [parse_none, n1]
  simp only []
  rw [parse_key, hm]
  simp only []
  rw [parsevalue_none, n2]
  simp only []
  rw [parsevalue_quoted, n3]
  simp only []
  rfl

theorem quotedStmt_eq (tbl : Nat → Bool) (k s : Bytes) :
    quotedStmt tbl k s = k ++ 32 :: 34 :: (quoteBody tbl 0 s ++ 34 :: 59 :: []) := by
  simp [quotedStmt, Quote]

theorem decode_quoted (tbl : Nat → Bool) (ko : Bool) (k s : Bytes) (hk : Bareword k)
    (hs : ∀ b ∈ s, b < 256) :
    (Ucl ko [quotedStmt tbl k s]).ucl =
      Value.map (insertKey [] (if ko then some [] else none) k (Value.str s)) ∧
    (Ucl ko [quotedStmt tbl k s]).err = none := by
  obtain ⟨f, hf⟩ : ∃ f, uclFuel [quotedStmt tbl k s] = f + 5 :=
    ⟨uclFuel [quotedStmt tbl k s] - 5, by simp only [uclFuel]; omega⟩
  have hparse : parse ko (uclFuel [quotedStmt tbl k s]) (NewParser [quotedStmt tbl k s]) none
      (Value.map []) = ⟨Value.null, some Err.EOF,
        Value.map (insertKey [] (if ko then some [] else none) k (Value.str s)),
        ⟨⟨[], [], St.WHITESPACE, true, true, 1, [], []⟩, [], [], []⟩⟩ := by
    rw [hf]
    show parse ko (f + 5)
      ⟨⟨[], [], St.WHITESPACE, false, false, 1, [], []⟩, [], [quotedStmt tbl k s], []⟩
      none (Value.map []) = _
    have hne : quotedStmt tbl k s ≠ [] := bareword_ne_nil k hk _
    rw [parse_first_read _ _ _ _ _ _ hne, quotedStmt_eq]
    refine (parse_quoted_of_scan ko f _ _ _ _ _ [] k s [] [] (if ko then some [] else none)
        (scan_key_quote [] [] false false 1 [] [] k _ WhiteEnd_nil hk)
        (scan_quoted tbl [] true true 1 [] [] s [] hs)
        (by cases ko <;> rfl)).trans ?_
    rw [parse_eof _ _ _ _ rfl]
  rw [Ucl_of_parse _ _ _ _ _ _ hparse]
  simp

theorem nexttags_of_buf (s s1 : Scanner) (buf rest : Bytes) (r : List Rd) (tags : List Tag)
    (h : nexttagsBuf s [] 0 buf = BufOut.ret s1 tags rest) :
    nexttags s buf r = ⟨s1, rest, r, Except.ok tags⟩ := by
  rw [nexttags, nexttagsFrom, h]

/-- C15: for every byte string `s`, every printability table of
`strconv.Quote`, every bareword key `k` and either setting of the order
tracking: `unquote` returns `s` on the body of the literal
`strconv.Quote(s)`; on `k`, a blank, the literal, `;` and any further text in
one chunk, the first scanner call returns the key and stops behind the
opening quote, and the second call returns one QUOTE token whose value is
exactly `s`, followed by the tokens of the `;`, the escaped quotes and
backslashes of the literal not closing it; the statement decodes without
error to the document in which `k` maps to the string `s`. Inside single
quotes the escape of the single quote decodes to the single quote and a
double quote is ordinary content. -/
theorem C15_quoted_string_roundtrip (tbl : Nat → Bool) (ko : Bool) (k s rest : Bytes)
    (r : List Rd) (hk : Bareword k) (hs : ∀ b ∈ s, b < 256) :
    unquote (quoteBody tbl 0 s) 34 = some s ∧
    nexttags newScanner (k ++ 32 :: (Quote tbl s ++ 59 :: rest)) r =
      ⟨⟨[], [], St.QUOTE, true, true, 1, [], []⟩, quoteBody tbl 0 s ++ 34 :: 59 :: rest, r,
        Except.ok [⟨k, St.TAG⟩]⟩ ∧
    nexttags ⟨[], [], St.QUOTE, true, true, 1, [], []⟩ (quoteBody tbl 0 s ++ 34 :: 59 :: rest) r =
      ⟨⟨[], [], St.WHITESPACE, true, true, 1, [], []⟩, rest, r,
        Except.ok [⟨s, St.QUOTE⟩, ⟨[], St.WHITESPACE⟩, ⟨[59], St.SEMICOL⟩]⟩ ∧
    (Ucl ko [quotedStmt tbl k s]).err = none ∧
    (Ucl ko [quotedStmt tbl k s]).ucl =
      Value.map (insertKey [] (if ko then some [] else none) k (Value.str s)) ∧
    mapGet (insertKey [] (if ko then some [] else none) k (Value.str s)) k = some (Value.str s) ∧
    (∀ tail, unquoteChar (92 :: 39 :: tail) 39 = some (39, false, tail)) ∧
    (∀ tail, unquoteChar (34 :: tail) 39 = some (34, false, tail)) := by
  refine ⟨unquote_quoteBody tbl s hs, ?_, ?_, (decode_quoted tbl ko k s hk hs).2,
    (decode_quoted tbl ko k s hk hs).1, mapGet_insertKey_new ko k _, ?_, ?_⟩
  · have hin : k ++ 32 :: (Quote tbl s ++ 59 :: rest) =
        k ++ 32 :: 34 :: (quoteBody tbl 0 s ++ 34 :: 59 :: rest) := by
      simp [Quote]
    rw [hin]
    exact nexttags_of_buf _ _ _ _ r _
      (scan_key_quote [] [] false false 1 [] [] k _ WhiteEnd_nil hk)
  · exact nexttags_of_buf _ _ _ _ r _ (scan_quoted tbl [] true true 1 [] [] s rest hs)
  · intro tail; simp [unquoteChar]
  · intro tail; simp [unquoteChar]

/-- C15 (witness): the quoted values of the test. `internalquoted
"internally\"quoted with 'single quote'"` decodes to the string with the
inner double quote unescaped; a string of control bytes, quote, backslash,
bytes that are not UTF-8 and multi-byte runes comes back from `unquote`
unchanged. -/
theorem C15_quoted_string_roundtrip_witness :
    quotedStmt noTbl (B "internalquoted") (B "internally\"quoted with 'single quote'") =
      B "internalquoted \"internally\\\"quoted with 'single quote'\";" ∧
    (Ucl true [quotedStmt noTbl (B "internalquoted")
        (B "internally\"quoted with 'single quote'")]).err = none ∧
    (Ucl true [quotedStmt noTbl (B "internalquoted")
        (B "internally\"quoted with 'single quote'")]).ucl =
      Value.map [(KeyOrder, Value.strs [B "internalquoted"]),
        (B "internalquoted", Value.str (B "internally\"quoted with 'single quote'"))] ∧
    unquote (quoteBody noTbl 0 [0, 10, 34, 92, 128, 195, 169, 255, 226, 130, 172, 127]) 34 =
      some [0, 10, 34, 92, 128, 195, 169, 255, 226, 130, 172, 127] := by
  have h := C15_quoted_string_roundtrip noTbl true (B "internalquoted")
    (B "internally\"quoted with 'single quote'") [] [] ⟨by decide, by decide⟩ (by decide)
  have h2 := C15_quoted_string_roundtrip noTbl true (B "k")
    [0, 10, 34, 92, 128, 195, 169, 255, 226, 130, 172, 127] [] [] ⟨by decide, by decide⟩
    (by decide)
  exact ⟨by decide, h.2.2.2.1, h.2.2.2.2.1, h2.1⟩

theorem step_tag_sep_first (d ct : Bytes) (sw : Bool) (ln : Nat) (mt cl : Bytes)
    (tags : List Tag) (sep : Nat) (rest : Bytes) (hct : ct.getLast? ≠ some 60) (hne : ct ≠ [])
    (hs : sep = 58 ∨ sep = 61) :
    step ⟨d, ct, St.TAG, sw, true, ln, mt, cl⟩ tags sep rest =
      Step.cont ⟨d, [], St.TAG, sw, false, ln, mt, cl⟩ (tags ++ [⟨ct, St.TAG⟩, sepTag sep]) 0 := by
  have : 0 < ct.length := List.length_pos.2 hne
  rcases hs with h | h <;> subst h <;> simp [step, stepTag, emit0, maketag0, sepTag, *]

theorem step_tag_sep_kept (d ct : Bytes) (sw : Bool) (ln : Nat) (mt cl : Bytes)
    (tags : List Tag) (sep : Nat) (rest : Bytes) (hct : ct.getLast? ≠ some 60)
    (hs : sep = 58 ∨ sep = 61) :
    step ⟨d, ct, St.TAG, sw, false, ln, mt, cl⟩ tags sep rest =
      Step.cont ⟨d, ct ++ [sep], St.TAG, false, false, ln, mt, cl⟩ tags 0 := by
  rcases hs with h | h <;> subst h <;> simp [step, stepTag, *]

theorem getLast?_append_ne (ct : Bytes) (c : Nat) (hc : c ≠ 60) :
    (ct ++ [c]).getLast? ≠ some 60 := by
  simp [hc]

/-- In the state TAG, once the separator of the statement has been read,
bareword bytes and further `:` and `=` are all taken into the pending
text. -/
theorem buf_tag_value (d : Bytes) (ln : Nat) (mt cl : Bytes) (tags : List Tag) (ht : tags ≠ [])
    (rest : Bytes) (w : Bytes) (hw : ∀ c ∈ w, isBare c = true ∨ c = 58 ∨ c = 61) :
    ∀ (ct : Bytes) (sw : Bool), ct.getLast? ≠ some 60 →
    nexttagsBuf ⟨d, ct, St.TAG, sw, false, ln, mt, cl⟩ tags 0 (w ++ rest) =
      nexttagsBuf ⟨d, ct ++ w, St.TAG, if w ≠ [] then false else sw, false, ln, mt, cl⟩
        tags 0 rest := by
  have htl : 0 < tags.length := List.length_pos.2 ht
  induction w with
  | nil => intro ct sw _; simp
  | cons c w ih =>
    intro ct sw hct
    have hw' : ∀ x ∈ w, isBare x = true ∨ x = 58 ∨ x = 61 := fun x hx => hw x (by simp [hx])
    have hc60 : c ≠ 60 := by
      rcases hw c (by simp) with h | h | h
      · rw [isBare_iff] at h; omega
      · omega
      · omega
    have hct' := getLast?_append_ne ct c hc60
    rw [List.cons_append, nexttagsBuf]
    rcases hw c (by simp) with h | h
    · rw [step_tag_bare d ct sw false ln mt cl tags c _ hct h]
      simp only [htl, if_true]
      rw [ih hw' (ct ++ [c]) false hct']
      simp
    · rw [step_tag_sep_kept d ct sw ln mt cl tags c _ hct h]
      simp only []
      rw [ih hw' (ct ++ [c]) false hct']
      simp

theorem getLast?_value (w : Bytes) (hw : ∀ c ∈ w, isBare c = true ∨ c = 58 ∨ c = 61) :
    w.getLast? ≠ some 60 := by
  intro h
  have hm : (60 : Nat) ∈ w := List.mem_of_getLast?_eq_some h
  rcases hw 60 hm with h1 | h1 | h1
  · revert h1; decide
  · omega
  · omega

/-- The scanner on `a`, a separator, the value text `w` and `;`: the key,
the separator, one TAG token with all of `w`, and the `;`. -/
theorem scan_sep_stmt (d ct : Bytes) (sw ss : Bool) (ln : Nat) (mt cl : Bytes)
    (a w rest : Bytes) (sep : Nat) (hct : WhiteEnd ct) (ha : Bareword a)
    (hs : sep = 58 ∨ sep = 61) (hw : ∀ c ∈ w, isBare c = true ∨ c = 58 ∨ c = 61) (hwne : w ≠ []) :
    nexttagsBuf ⟨d, ct, St.WHITESPACE, sw, ss, ln, mt, cl⟩ [] 0 (a ++ sep :: (w ++ 59 :: rest)) =
      BufOut.ret ⟨d, [], St.WHITESPACE, false, false, ln, mt, cl⟩
        [⟨a, St.TAG⟩, sepTag sep, ⟨w, St.TAG⟩, ⟨[59], St.SEMICOL⟩] rest := by
  obtain ⟨hane, hab⟩ := ha
  cases a with
  | nil => exact absurd rfl hane
  | cons c a' =>
    have hc := hab c (by simp)
    have ha' : ∀ x ∈ a', isBare x = true := fun x hx => hab x (by simp [hx])
    have h1 : ([c] : Bytes).getLast? ≠ some 60 :=
      getLast?_append_bare [] [c] nil_getLast?_ne (by intro x hx; simp at hx; subst hx; exact hc)
    have h2 : ([c] ++ a').getLast? ≠ some 60 := getLast?_append_bare [c] a' h1 ha'
    have h3 : (([] : Bytes) ++ w).getLast? ≠ some 60 := by simpa using getLast?_value w hw
    rw [List.cons_append, nexttagsBuf, step_white_bare d ct sw ss ln mt cl [] c _ hct hc]
    simp only []
    rw [buf_tag_word_first d true true ln mt cl _ a' [c] ha' h1]
    rw [nexttagsBuf, step_tag_sep_first d _ true ln mt cl [] sep _ h2 (by simp) hs]
    simp only []
    rw [buf_tag_value d ln mt cl _ (by simp) _ w hw [] true nil_getLast?_ne]
    rw [nexttagsBuf, step_tag_semi d _ _ false ln mt cl _ _ h3 (by simpa using hwne)]
    simp [hwne]

theorem parse_sep_of_scan (ko : Bool) (f : Nat) (S S1 : Scanner) (buf rest k v : Bytes)
    (sep : Nat) (r : List Rd) (m : GoMap) (korder : Option (List Bytes))
    (hscan : nexttagsBuf S [] 0 buf =
      BufOut.ret S1 [⟨k, St.TAG⟩, sepTag sep, ⟨v, St.TAG⟩, ⟨[59], St.SEMICOL⟩] rest)
    (hm : korderOf ko m = Except.ok korder) :
    parse ko (f + 6) ⟨S, buf, r, []⟩ none (Value.map m) =
      parse ko (f + 4) ⟨S1, rest, r, []⟩ none (Value.map (insertKey m korder k (Value.str v))) := by
  have hf : filtered (sepTag sep) = false := by
    unfold sepTag filtered; split <;> simp
  have h1 := nexttag_scan _ _ _ _ r ⟨k, St.TAG⟩ _ [sepTag sep, ⟨v, St.TAG⟩, ⟨[59], St.SEMICOL⟩] hscan
    (by simp [List.dropWhile, filtered])
  have h2 := nexttag_tags S1 rest r (sepTag sep) [⟨v, St.TAG⟩, ⟨[59], St.SEMICOL⟩] hf
  have h3 := nexttag_tags S1 rest r ⟨v, St.TAG⟩ [⟨[59], St.SEMICOL⟩] (by simp [filtered])
  have h4 := nexttag_tags S1 rest r ⟨[59], St.SEMICOL⟩ [] (by simp [filtered])
  have hsep : ∀ p, parsevalue ko (f + 3) p (some (sepTag sep)) Value.null =
      parsevalue ko (f + 2) p none Value.null := by
    intro p; unfold sepTag; split <;> rfl
  rw [parse_none, h1]
  simp only []
  rw [parse_key, hm]
  simp only []
  rw [parsevalue_none, h2]
  simp only []
  rw [hsep, parsevalue_none, h3]
  simp only []
  rw [parsevalue_word, h4]
  simp

theorem decode_sepStmt (ko : Bool) (a w : Bytes) (sep : Nat) (ha : Bareword a)
    (hs : sep = 58 ∨ sep = 61) (hw : ∀ c ∈ w, isBare c = true ∨ c = 58 ∨ c = 61) (hwne : w ≠ []) :
    (Ucl ko [sepStmt a sep w]).ucl =
      Value.map (insertKey [] (if ko then some [] else none) a (Value.str w)) ∧
    (Ucl ko [sepStmt a sep w]).err = none := by
  obtain ⟨f, hf⟩ : ∃ f, uclFuel [sepStmt a sep w] = f + 6 :=
    ⟨uclFuel [sepStmt a sep w] - 6, by simp only [uclFuel]; omega⟩
  have hparse : parse ko (uclFuel [sepStmt a sep w]) (NewParser [sepStmt a sep w]) none
      (Value.map []) = ⟨Value.null, some Err.EOF,
        Value.map (insertKey [] (if ko then some [] else none) a (Value.str w)),
        ⟨⟨[], [], St.WHITESPACE, false, false, 1, [], []⟩, [], [], []⟩⟩ := by
    rw [hf]
    show parse ko (f + 6)
      ⟨⟨[], [], St.WHITESPACE, false, false, 1, [], []⟩, [], [sepStmt a sep w], []⟩
      none (Value.map []) = _
    have hne : sepStmt a sep w ≠ [] := bareword_ne_nil a ha _
    rw [parse_first_read _ _ _ _ _ _ hne]
    refine (parse_sep_of_scan ko f _ _ _ [] a w sep [] [] (if ko then some [] else none)
        (scan_sep_stmt [] [] false false 1 [] [] a w [] sep WhiteEnd_nil ha hs hw hwne)
        (by cases ko <;> rfl)).trans ?_
    rw [parse_eof _ _ _ _ rfl]
  rw [Ucl_of_parse _ _ _ _ _ _ hparse]
  simp

/-- C22: for every bareword key `a`, either separator `:` or `=`, and every
non-empty value text `w` made of bareword bytes and further `:` and `=`
bytes, with or without order tracking: `a`, the separator, `w`, `;` decodes
without error to the document in which `a` maps to the single string `w`;
the scanner returns the key, one token for the first separator and one TAG
token with all of `w`, later separators included. `a:b:c;` is the case
`w = b:c`. -/
theorem C22_first_separator_only (ko : Bool) (a w rest : Bytes) (sep : Nat) (ha : Bareword a)
    (hs : sep = 58 ∨ sep = 61) (hw : ∀ c ∈ w, isBare c = true ∨ c = 58 ∨ c = 61) (hwne : w ≠ []) :
    nexttagsBuf newScanner [] 0 (a ++ sep :: (w ++ 59 :: rest)) =
      BufOut.ret ⟨[], [], St.WHITESPACE, false, false, 1, [], []⟩
        [⟨a, St.TAG⟩, sepTag sep, ⟨w, St.TAG⟩, ⟨[59], St.SEMICOL⟩] rest ∧
    (Ucl ko [sepStmt a sep w]).err = none ∧
    (Ucl ko [sepStmt a sep w]).ucl =
      Value.map (insertKey [] (if ko then some [] else none) a (Value.str w)) ∧
    mapGet (insertKey [] (if ko then some [] else none) a (Value.str w)) a = some (Value.str w) :=
  ⟨scan_sep_stmt [] [] false false 1 [] [] a w rest sep WhiteEnd_nil ha hs hw hwne,
    (decode_sepStmt ko a w sep ha hs hw hwne).2, (decode_sepStmt ko a w sep ha hs hw hwne).1,
    mapGet_insertKey_new ko a _⟩

/-- C22 (witness): `a:b:c;` maps `a` to the string `b:c`, and `a=b:c=d;`
maps `a` to `b:c=d`. -/
theorem C22_first_separator_only_witness :
    sepStmt (B "a") 58 (B "b:c") = B "a:b:c;" ∧
    (Ucl true [B "a:b:c;"]).err = none ∧
    (Ucl true [B "a:b:c;"]).ucl =
      Value.map [(KeyOrder, Value.strs [B "a"]), (B "a", Value.str (B "b:c"))] ∧
    (Ucl true [B "a=b:c=d;"]).ucl =
      Value.map [(KeyOrder, Value.strs [B "a"]), (B "a", Value.str (B "b:c=d"))] := by
  have h := C22_first_separator_only true (B "a") (B "b:c") [] 58 ⟨by decide, by decide⟩
    (Or.inl rfl) (by decide) (by decide)
  have h2 := C22_first_separator_only true (B "a") (B "b:c=d") [] 61 ⟨by decide, by decide⟩
    (Or.inr rfl) (by decide) (by decide)
  exact ⟨by decide, h.2.1, h.2.2.1, h2.2.2.1⟩

theorem scan_stmt_newline (d ct : Bytes) (sw ss : Bool) (ln : Nat) (mt cl : Bytes)
    (k v rest : Bytes) (hct : WhiteEnd ct) (hk : Bareword k) (hv : Bareword v) :
    nexttagsBuf ⟨d, ct, St.WHITESPACE, sw, ss, ln, mt, cl⟩ [] 0 (k ++ 32 :: (v ++ 10 :: rest)) =
      BufOut.ret ⟨d, [], St.WHITESPACE, false, true, ln + 1, mt, cl⟩
        [⟨k, St.TAG⟩, ⟨v, St.TAG⟩, ⟨[59], St.SEMICOL⟩] rest := by
  obtain ⟨hkne, hkb⟩ := hk
  obtain ⟨hvne, hvb⟩ := hv
  cases k with
  | nil => exact absurd rfl hkne
  | cons c k' =>
    have hc := hkb c (by simp)
    have hk' : ∀ x ∈ k', isBare x = true := fun x hx => hkb x (by simp [hx])
    have h1 : ([c] : Bytes).getLast? ≠ some 60 :=
      getLast?_append_bare [] [c] nil_getLast?_ne (by intro x hx; simp at hx; subst hx; exact hc)
    have h2 : ([c] ++ k').getLast? ≠ some 60 := getLast?_append_bare [c] k' h1 hk'
    have h3 : (([] : Bytes) ++ v).getLast? ≠ some 60 := getLast?_append_bare [] v nil_getLast?_ne hvb
    rw [List.cons_append, nexttagsBuf, step_white_bare d ct sw ss ln mt cl [] c _ hct hc]
    simp only []
    rw [buf_tag_word d true ln mt cl [] _ k' hk' [c] true h1]
    rw [nexttagsBuf, step_tag_space_first d _ _ true ln mt cl _ h2 (by simp)]
    simp only []
    rw [buf_tag_word d true ln mt cl _ _ v hvb [] _ nil_getLast?_ne]
    rw [nexttagsBuf, step_tag_newline d _ _ true ln mt cl _ _ h3 (by simpa using hvne)]
    simp [hvne]

theorem decode_kv_semi (ko : Bool) (k v : Bytes) (hk : Bareword k) (hv : Bareword v) :
    (Ucl ko [(k ++ 32 :: (v ++ [59]) : Bytes)]).ucl =
      Value.map (insertKey [] (if ko then some [] else none) k (Value.str v)) ∧
    (Ucl ko [(k ++ 32 :: (v ++ [59]) : Bytes)]).err = none := by
  obtain ⟨f, hf⟩ : ∃ f, uclFuel [(k ++ 32 :: (v ++ [59]) : Bytes)] = f + 4 :=
    ⟨uclFuel [(k ++ 32 :: (v ++ [59]) : Bytes)] - 4, by simp only [uclFuel]; omega⟩
  have hparse : parse ko (uclFuel [(k ++ 32 :: (v ++ [59]) : Bytes)]) (NewParser [(k ++ 32 :: (v ++ [59]) : Bytes)])
      none (Value.map []) = ⟨Value.null, some Err.EOF,
        Value.map (insertKey [] (if ko then some [] else none) k (Value.str v)),
        ⟨⟨[], [], St.WHITESPACE, false, true, 1, [], []⟩, [], [], []⟩⟩ := by
    rw [hf]
    show parse ko (f + 4)
      ⟨⟨[], [], St.WHITESPACE, false, false, 1, [], []⟩, [], [(k ++ 32 :: (v ++ [59]) : Bytes)], []⟩
      none (Value.map []) = _
    have hne : k ++ 32 :: (v ++ [59]) ≠ [] := bareword_ne_nil k hk _
    rw [parse_first_read _ _ _ _ _ _ hne]
    refine (parse_kv_of_scan ko f _ _ _ [] k v [] [] (if ko then some [] else none)
        (scan_stmt [] [] false false 1 [] [] k v [] WhiteEnd_nil hk hv)
        (by cases ko <;> rfl)).trans ?_
    rw [parse_eof _ _ _ _ rfl]
  rw [Ucl_of_parse _ _ _ _ _ _ hparse]
  simp

theorem decode_kv_newline (ko : Bool) (k v : Bytes) (hk : Bareword k) (hv : Bareword v) :
    (Ucl ko [(k ++ 32 :: (v ++ [10]) : Bytes)]).ucl =
      Value.map (insertKey [] (if ko then some [] else none) k (Value.str v)) ∧
    (Ucl ko [(k ++ 32 :: (v ++ [10]) : Bytes)]).err = none := by
  obtain ⟨f, hf⟩ : ∃ f, uclFuel [(k ++ 32 :: (v ++ [10]) : Bytes)] = f + 4 :=
    ⟨uclFuel [(k ++ 32 :: (v ++ [10]) : Bytes)] - 4, by simp only [uclFuel]; omega⟩
  have hparse : parse ko (uclFuel [(k ++ 32 :: (v ++ [10]) : Bytes)]) (NewParser [(k ++ 32 :: (v ++ [10]) : Bytes)])
      none (Value.map []) = ⟨Value.null, some Err.EOF,
        Value.map (insertKey [] (if ko then some [] else none) k (Value.str v)),
        ⟨⟨[], [], St.WHITESPACE, false, true, 2, [], []⟩, [], [], []⟩⟩ := by
    rw [hf]
    show parse ko (f + 4)
      ⟨⟨[], [], St.WHITESPACE, false, false, 1, [], []⟩, [], [(k ++ 32 :: (v ++ [10]) : Bytes)], []⟩
      none (Value.map []) = _
    have hne : k ++ 32 :: (v ++ [10]) ≠ [] := bareword_ne_nil k hk _
    rw [parse_first_read _ _ _ _ _ _ hne]
    refine (parse_kv_of_scan ko f _ _ _ [] k v [] [] (if ko then some [] else none)
        (scan_stmt_newline [] [] false false 1 [] [] k v [] WhiteEnd_nil hk hv)
        (by cases ko <;> rfl)).trans ?_
    rw [parse_eof _ _ _ _ rfl]
  rw [Ucl_of_parse _ _ _ _ _ _ hparse]
  simp

/-- C23: a newline met in the state TAG emits the pending tag and a
Semicolon token that the scanner makes up, as `;` does; for every bareword
key `k` and bareword value `v`, with or without order tracking, the scanner
returns the same tokens for `k v` followed by a newline as for `k v;`, both
texts decode without error, and to the same document, in which `k` maps to
the string `v`. -/
theorem C23_newline_ends_statement (ko : Bool) (k v rest : Bytes) (hk : Bareword k)
    (hv : Bareword v) :
    (∀ (d ct : Bytes) (sw ss : Bool) (ln : Nat) (mt cl : Bytes) (tags : List Tag) (tail : Bytes),
      ct.getLast? ≠ some 60 → ct ≠ [] →
      step ⟨d, ct, St.TAG, sw, ss, ln, mt, cl⟩ tags 10 tail =
        Step.ret ⟨d, [], St.WHITESPACE, sw, ss, ln + 1, mt, cl⟩
          (tags ++ [⟨ct, St.TAG⟩, ⟨[59], St.SEMICOL⟩])) ∧
    nexttagsBuf newScanner [] 0 (k ++ 32 :: (v ++ 10 :: rest)) =
      BufOut.ret ⟨[], [], St.WHITESPACE, false, true, 2, [], []⟩
        [⟨k, St.TAG⟩, ⟨v, St.TAG⟩, ⟨[59], St.SEMICOL⟩] rest ∧
    nexttagsBuf newScanner [] 0 (k ++ 32 :: (v ++ 59 :: rest)) =
      BufOut.ret ⟨[], [], St.WHITESPACE, false, true, 1, [], []⟩
        [⟨k, St.TAG⟩, ⟨v, St.TAG⟩, ⟨[59], St.SEMICOL⟩] rest ∧
    (Ucl ko [(k ++ 32 :: (v ++ [10]) : Bytes)]).err = none ∧
    (Ucl ko [(k ++ 32 :: (v ++ [59]) : Bytes)]).err = none ∧
    (Ucl ko [(k ++ 32 :: (v ++ [10]) : Bytes)]).ucl = (Ucl ko [(k ++ 32 :: (v ++ [59]) : Bytes)]).ucl ∧
    (Ucl ko [(k ++ 32 :: (v ++ [59]) : Bytes)]).ucl =
      Value.map (insertKey [] (if ko then some [] else none) k (Value.str v)) := by
  refine ⟨fun d ct sw ss ln mt cl tags tail h1 h2 =>
      step_tag_newline d ct sw ss ln mt cl tags tail h1 h2,
    scan_stmt_newline [] [] false false 1 [] [] k v rest WhiteEnd_nil hk hv,
    scan_stmt [] [] false false 1 [] [] k v rest WhiteEnd_nil hk hv,
    (decode_kv_newline ko k v hk hv).2, (decode_kv_semi ko k v hk hv).2, ?_,
    (decode_kv_semi ko k v hk hv).1⟩
  rw [(decode_kv_newline ko k v hk hv).1, (decode_kv_semi ko k v hk hv).1]

/-- C23 (witness): `k v` followed by a newline and `k v;` both decode to
`k` mapped to `v`. -/
theorem C23_newline_ends_statement_witness :
    (Ucl true [B "k v\n"]).err = none ∧
    (Ucl true [B "k v\n"]).ucl = (Ucl true [B "k v;"]).ucl ∧
    (Ucl true [B "k v;"]).ucl =
      Value.map [(KeyOrder, Value.strs [B "k"]), (B "k", Value.str (B "v"))] := by
  have h := C23_newline_ends_statement true (B "k") (B "v") [] ⟨by decide, by decide⟩
    ⟨by decide, by decide⟩
  exact ⟨h.2.2.2.1, h.2.2.2.2.2.1, h.2.2.2.2.2.2⟩

/-- The scanner on `k v` with nothing after `v`: the buffer is used up with
the token of `k` pending and `v` in the pending text. -/
theorem scan_kv_open (d ct : Bytes) (sw ss : Bool) (ln : Nat) (mt cl : Bytes) (k v : Bytes)
    (hct : WhiteEnd ct) (hk : Bareword k) (hv : Bareword v) :
    nexttagsBuf ⟨d, ct, St.WHITESPACE, sw, ss, ln, mt, cl⟩ [] 0 (k ++ 32 :: v) =
      BufOut.more ⟨d, v, St.TAG, false, true, ln, mt, cl⟩ [⟨k, St.TAG⟩] := by
  obtain ⟨hkne, hkb⟩ := hk
  obtain ⟨hvne, hvb⟩ := hv
  cases k with
  | nil => exact absurd rfl hkne
  | cons c k' =>
    have hc := hkb c (by simp)
    have hk' : ∀ x ∈ k', isBare x = true := fun x hx => hkb x (by simp [hx])
    have h1 : ([c] : Bytes).getLast? ≠ some 60 :=
      getLast?_append_bare [] [c] nil_getLast?_ne (by intro x hx; simp at hx; subst hx; exact hc)
    have h2 : ([c] ++ k').getLast? ≠ some 60 := getLast?_append_bare [c] k' h1 hk'
    rw [List.cons_append, nexttagsBuf, step_white_bare d ct sw ss ln mt cl [] c _ hct hc]
    simp only []
    rw [buf_tag_word_first d true true ln mt cl _ k' [c] hk' h1]
    rw [nexttagsBuf, step_tag_space_first d _ _ true ln mt cl _ h2 (by simp)]
    simp only []
    have h := buf_tag_word_value d true true ln mt cl [⟨[c] ++ k', St.TAG⟩] [] v [] hvb
      nil_getLast?_ne hvne (by simp)
    rw [List.append_nil] at h
    rw [h]
    simp [nexttagsBuf]

theorem parse_kv_open (ko : Bool) (f : Nat) (k v : Bytes) (hk : Bareword k) (hv : Bareword v)
    (parent : Value) :
    parse ko (f + 1) ⟨newScanner, k ++ 32 :: v, [], []⟩ none parent =
      ⟨Value.null, some Err.EOF, parent,
        ⟨⟨[], v, St.TAG, false, true, 1, [], []⟩, [], [], []⟩⟩ := by
  have hs := scan_kv_open [] [] false false 1 [] [] k v WhiteEnd_nil hk hv
  have hn : nexttag ⟨newScanner, k ++ 32 :: v, [], []⟩ =
      (Except.error Err.EOF, ⟨⟨[], v, St.TAG, false, true, 1, [], []⟩, [], [], []⟩) := by
    have hs' : nexttagsBuf newScanner [] 0 (k ++ 32 :: v) =
        BufOut.more ⟨[], v, St.TAG, false, true, 1, [], []⟩ [⟨k, St.TAG⟩] := hs
    simp [nexttag, nexttagLoop, nexttags, nexttagsFrom, hs', eofOut]
  rw [parse_none, hn]

theorem decode_kv_open (ko : Bool) (k v : Bytes) (hk : Bareword k) (hv : Bareword v) :
    (Ucl ko [(k ++ 32 :: v : Bytes)]).ucl = Value.map [] ∧ (Ucl ko [(k ++ 32 :: v : Bytes)]).err = none := by
  obtain ⟨f, hf⟩ : ∃ f, uclFuel [(k ++ 32 :: v : Bytes)] = f + 1 :=
    ⟨uclFuel [(k ++ 32 :: v : Bytes)] - 1, by simp only [uclFuel]; omega⟩
  have hparse : parse ko (uclFuel [(k ++ 32 :: v : Bytes)]) (NewParser [(k ++ 32 :: v : Bytes)]) none (Value.map []) =
      ⟨Value.null, some Err.EOF, Value.map [],
        ⟨⟨[], v, St.TAG, false, true, 1, [], []⟩, [], [], []⟩⟩ := by
    rw [hf]
    show parse ko (f + 1)
      ⟨⟨[], [], St.WHITESPACE, false, false, 1, [], []⟩, [], [(k ++ 32 :: v : Bytes)], []⟩
      none (Value.map []) = _
    have hne : k ++ 32 :: v ≠ [] := bareword_ne_nil k hk _
    rw [parse_first_read _ _ _ _ _ _ hne]
    exact parse_kv_open ko f k v hk hv _
  rw [Ucl_of_parse _ _ _ _ _ _ hparse]
  simp

/-- C29: for every bareword key `k` and bareword value `v`, with or without
order tracking, decoding `k v` with the input ending right after `v` returns
a nil error and the empty document: the end of input is met with the token
of `k` pending and `v` in the pending text, the scanner returns `io.EOF`
without them, and `Ucl` turns `io.EOF` into nil. The document of `k v;`, in
which `k` maps to `v`, is a different one. -/
theorem C29_unterminated_statement_is_dropped (ko : Bool) (k v : Bytes) (hk : Bareword k)
    (hv : Bareword v) :
    nexttagsBuf newScanner [] 0 (k ++ 32 :: v) =
      BufOut.more ⟨[], v, St.TAG, false, true, 1, [], []⟩ [⟨k, St.TAG⟩] ∧
    (Ucl ko [(k ++ 32 :: v : Bytes)]).err = none ∧
    (Ucl ko [(k ++ 32 :: v : Bytes)]).ucl = Value.map [] ∧
    (Ucl ko [(k ++ 32 :: (v ++ [59]) : Bytes)]).ucl =
      Value.map (insertKey [] (if ko then some [] else none) k (Value.str v)) ∧
    (Ucl ko [(k ++ 32 :: v : Bytes)]).ucl ≠ (Ucl ko [(k ++ 32 :: (v ++ [59]) : Bytes)]).ucl := by
  refine ⟨scan_kv_open [] [] false false 1 [] [] k v WhiteEnd_nil hk hv,
    (decode_kv_open ko k v hk hv).2, (decode_kv_open ko k v hk hv).1,
    (decode_kv_semi ko k v hk hv).1, ?_⟩
  rw [(decode_kv_open ko k v hk hv).1, (decode_kv_semi ko k v hk hv).1]
  intro h
  have h1 : ([] : GoMap) = insertKey [] (if ko then some [] else none) k (Value.str v) := by
    injection h
  have h2 := mapGet_insertKey_new ko k (Value.str v)
  rw [← h1] at h2
  simp [mapGet] at h2

/-- C29 (witness): `k v` decodes to the empty document with a nil error,
`k v;` to `k` mapped to `v`. -/
theorem C29_unterminated_statement_is_dropped_witness :
    (Ucl true [B "k v"]).err = none ∧
    (Ucl true [B "k v"]).ucl = Value.map [] ∧
    (Ucl true [B "k v;"]).ucl =
      Value.map [(KeyOrder, Value.strs [B "k"]), (B "k", Value.str (B "v"))] := by
  have h := C29_unterminated_statement_is_dropped true (B "k") (B "v") ⟨by decide, by decide⟩
    ⟨by decide, by decide⟩
  exact ⟨h.2.1, h.2.2.1, h.2.2.2.1⟩

theorem step_ml_end_empty (d : Bytes) (sw ss : Bool) (ln : Nat) (mt : Bytes)
    (tags : List Tag) (c : Nat) (rest : Bytes) (hc : c = 59 ∨ c = 10) :
    step ⟨d, [], St.MLSTRING, sw, ss, ln, mt, mt⟩ tags c rest = Step.fail Err.indexOutOfRange := by
  rcases hc with h | h <;> subst h <;> simp [step, stepMl]

/-- The two scanner calls that read `k = <<T`, newline, `T`, newline, a
heredoc whose terminator line follows its header: the first returns the key
and `=`, the second reaches the terminator with an empty pending text and
fails on `s.curtag[:len(s.curtag)-1]`. -/
theorem scan_heredoc_empty (d ct : Bytes) (sw ss : Bool) (ln : Nat) (mt cl : Bytes)
    (k T : Bytes) (rest : Bytes) (hct : WhiteEnd ct) (hk : Bareword k) (hT : Alnum T) :
    ∃ S1 rest1,
      nexttagsBuf ⟨d, ct, St.WHITESPACE, sw, ss, ln, mt, cl⟩ [] 0
          (k ++ 32 :: 61 :: 32 :: 60 :: 60 :: (T ++ 10 :: (T ++ 10 :: rest))) =
        BufOut.ret S1 [⟨k, St.TAG⟩, ⟨[], St.WHITESPACE⟩, ⟨[61], St.EQUAL⟩] rest1 ∧
      nexttagsBuf S1 [] 0 rest1 = BufOut.fail Err.indexOutOfRange := by
  have hTs : ∀ c ∈ T, c ≠ 59 ∧ c ≠ 10 := fun c hc =>
    ⟨(alnum_ne_sep c (hT.2 c hc)).2, (alnum_ne_sep c (hT.2 c hc)).1⟩
  obtain ⟨hTne, hTa⟩ := hT
  cases hT1 : T with
  | nil => exact absurd hT1 hTne
  | cons t0 T1 =>
    rw [hT1] at hTa hTs
    have ht0 := hTa t0 (by simp)
    have ht0s := hTs t0 (by simp)
    cases T1 with
    | nil =>
      refine ⟨⟨d, [], St.MLSTRING, false, false, ln + 1, [t0], [] ++ [t0]⟩, 10 :: rest, ?_, ?_⟩
      · rw [List.cons_append, scan_heredoc_open d ct sw ss ln mt cl k t0 _ hct hk ht0]
        rw [List.nil_append, nexttagsBuf, step_prep_newline]
        simp only []
        rw [List.cons_append, nexttagsBuf,
          step_ml_plain_ret d [] false false (ln + 1) [t0] [] _ t0 _ (by omega) (by simp)]
        simp
      · rw [nexttagsBuf, List.nil_append,
          step_ml_end_empty d false false (ln + 1) [t0] [] 10 rest (Or.inr rfl)]
    | cons t1 T2 =>
      have ht1 := hTa t1 (by simp)
      have hT2 : ∀ x ∈ T2, isAlnum x = true := fun x hx => hTa x (by simp [hx])
      refine ⟨⟨d, 60 :: [60, t0] ++ [t1], St.MLSTRING_PREP, false, false, ln, mt, [t0] ++ [t1]⟩,
        T2 ++ 10 :: (t0 :: t1 :: T2 ++ 10 :: rest), ?_, ?_⟩
      · rw [List.cons_append, scan_heredoc_open d ct sw ss ln mt cl k t0 _ hct hk ht0]
        rw [List.cons_append, nexttagsBuf,
          step_prep_alnum_ret d [60, t0] false false ln mt [t0] _ t1 _ ht1 (by simp)]
      · rw [show (([60, 60, t0] : Bytes) ++ [t1]) = 60 :: ([60, t0] ++ [t1]) from rfl,
          buf_prep_word d false false ln mt _ T2 hT2 ([60, t0] ++ [t1]) ([t0] ++ [t1])]
        rw [nexttagsBuf, step_prep_newline]
        simp only []
        rw [buf_ml_run d [] false false (ln + 1) _ _ (t0 :: t1 :: T2) hTs []]
        have hcl : [t0] ++ [t1] ++ T2 = [] ++ t0 :: t1 :: T2 := by simp
        rw [hcl, nexttagsBuf, step_ml_end_empty d false false (ln + 1) _ [] 10 rest (Or.inr rfl)]

theorem nexttag_scan_fail (s : Scanner) (buf : Bytes) (r : List Rd) (e : Err)
    (h : nexttagsBuf s [] 0 buf = BufOut.fail e) :
    (nexttag ⟨s, buf, r, []⟩).1 = Except.error e := by
  simp [nexttag, nexttagLoop, nexttags, nexttagsFrom, h]

theorem parse_heredoc_fail (ko : Bool) (f : Nat) (S S1 : Scanner) (buf rest1 k : Bytes)
    (r : List Rd) (m : GoMap) (e : Err)
    (h1 : nexttagsBuf S [] 0 buf =
      BufOut.ret S1 [⟨k, St.TAG⟩, ⟨[], St.WHITESPACE⟩, ⟨[61], St.EQUAL⟩] rest1)
    (h2 : nexttagsBuf S1 [] 0 rest1 = BufOut.fail e)
    (hm : ∃ korder, korderOf ko m = Except.ok korder) :
    (parse ko (f + 5) ⟨S, buf, r, []⟩ none (Value.map m)).err = some e := by
  obtain ⟨korder, hm⟩ := hm
  have n1 := nexttag_scan _ _ _ _ r ⟨k, St.TAG⟩ _ [⟨[], St.WHITESPACE⟩, ⟨[61], St.EQUAL⟩] h1
    (by simp [List.dropWhile, filtered])
  have n2 : nexttag ⟨S1, rest1, r, [⟨[], St.WHITESPACE⟩, ⟨[61], St.EQUAL⟩]⟩ =
      (Except.ok ⟨[61], St.EQUAL⟩, ⟨S1, rest1, r, []⟩) := by
    simp [nexttag, nexttagLoop, List.dropWhile, filtered]
  have n3 := nexttag_scan_fail S1 rest1 r e h2
  rw [parse_none, n1]
  simp only []
  rw [parse_key, hm]
  simp only []
  rw [parsevalue_none, n2]
  simp only []
  rw [show parsevalue ko (f + 2) ⟨S1, rest1, r, []⟩ (some ⟨[61], St.EQUAL⟩) Value.null =
    parsevalue ko (f + 1) ⟨S1, rest1, r, []⟩ none Value.null from rfl]
  rw [parsevalue_none]
  generalize nexttag ⟨S1, rest1, r, []⟩ = q at n3 ⊢
  obtain ⟨q1, q2⟩ := q
  simp only at n3
  subst n3
  rfl

theorem Ucl_err_of_parse (ko : Bool) (r : List Rd) (e : Err) (he : e ≠ Err.EOF)
    (h : (parse ko (uclFuel r) (NewParser r) none (Value.map [])).err = some e) :
    (Ucl ko r).err = some e := by
  unfold Ucl
  generalize parse ko (uclFuel r) (NewParser r) none (Value.map []) = q at h ⊢
  obtain ⟨qv, qe, qp, qq⟩ := q
  dsimp only at h ⊢
  rw [h, if_neg (by intro hc; exact he (Option.some.inj hc))]

theorem decode_heredocEmpty (ko : Bool) (k T : Bytes) (hk : Bareword k) (hT : Alnum T) :
    (Ucl ko [heredocEmpty k T]).err = some Err.indexOutOfRange := by
  apply Ucl_err_of_parse _ _ _ (by decide)
  obtain ⟨f, hf⟩ : ∃ f, uclFuel [heredocEmpty k T] = f + 5 :=
    ⟨uclFuel [heredocEmpty k T] - 5, by simp only [uclFuel]; omega⟩
  obtain ⟨S1, rest1, h1, h2⟩ := scan_heredoc_empty [] [] false false 1 [] [] k T []
    WhiteEnd_nil hk hT
  rw [hf]
  show (parse ko (f + 5)
    ⟨⟨[], [], St.WHITESPACE, false, false, 1, [], []⟩, [], [heredocEmpty k T], []⟩
    none (Value.map [])).err = _
  have hne : heredocEmpty k T ≠ [] := bareword_ne_nil k hk _
  rw [parse_first_read _ _ _ _ _ _ hne]
  exact parse_heredoc_fail ko f _ _ _ _ k [] [] Err.indexOutOfRange h1 h2
    ⟨if ko then some [] else none, by cases ko <;> rfl⟩

/-- C25: the scanner is not total. In the state MLSTRING, a `;` or newline
met while the current line equals the heredoc tag and the pending text is
empty makes the scanner evaluate `s.curtag[:len(s.curtag)-1]` with
`len(s.curtag) = 0`, which is out of bounds. For every bareword key `k` and
alphanumeric tag `T`, on `k = <<T`, newline, `T`, newline, where the
terminator line follows the header, the first scanner call returns the key
and `=` and the second one fails in this way, and `Ucl` ends with that
failure, with or without order tracking. -/
theorem C25_empty_heredoc_out_of_bounds (ko : Bool) (k T : Bytes) (hk : Bareword k)
    (hT : Alnum T) :
    (∀ (d : Bytes) (sw ss : Bool) (ln : Nat) (mt : Bytes) (tags : List Tag) (c : Nat)
        (rest : Bytes), c = 59 ∨ c = 10 →
      step ⟨d, [], St.MLSTRING, sw, ss, ln, mt, mt⟩ tags c rest = Step.fail Err.indexOutOfRange) ∧
    (∃ S1 rest1,
      nexttagsBuf newScanner [] 0 (heredocEmpty k T) =
        BufOut.ret S1 [⟨k, St.TAG⟩, ⟨[], St.WHITESPACE⟩, ⟨[61], St.EQUAL⟩] rest1 ∧
      nexttagsBuf S1 [] 0 rest1 = BufOut.fail Err.indexOutOfRange) ∧
    (Ucl ko [heredocEmpty k T]).err = some Err.indexOutOfRange :=
  ⟨fun d sw ss ln mt tags c rest hc => step_ml_end_empty d sw ss ln mt tags c rest hc,
    scan_heredoc_empty [] [] false false 1 [] [] k T [] WhiteEnd_nil hk hT,
    decode_heredocEmpty ko k T hk hT⟩

/-- C25 (witness): `Ucl` on `k = <<T`, newline, `T`, newline ends with the
out-of-bounds failure. -/
theorem C25_empty_heredoc_out_of_bounds_witness :
    heredocEmpty (B "k") (B "T") = B "k = <<T\nT\n" ∧
    (Ucl true [B "k = <<T\nT\n"]).err = some Err.indexOutOfRange := by
  have h := C25_empty_heredoc_out_of_bounds true (B "k") (B "T") ⟨by decide, by decide⟩
    ⟨by decide, by decide⟩
  exact ⟨by decide, h.2.2⟩

/-- A top-level block followed by anything: `Ucl` returns at the closing
brace of the block, with the entries of the block and a nil error, and
leaves what follows unread. -/
theorem decode_block_rest (kvs : List (Bytes × Bytes)) (rest : Bytes) (r : List Rd)
    (hb : ∀ kv ∈ kvs, Bareword kv.1 ∧ Bareword kv.2 ∧ kv.1 ≠ KeyOrder)
    (hnd : (kvs.map Prod.fst).Nodup) :
    (Ucl true ((block kvs ++ rest) :: r)).ucl = Value.map (docOf (entriesOf kvs)) ∧
    (Ucl true ((block kvs ++ rest) :: r)).err = none ∧
    (Ucl true ((block kvs ++ rest) :: r)).p.buf = rest ∧
    (Ucl true ((block kvs ++ rest) :: r)).p.r = r := by
  have hlen := stmtsSp_length kvs
  obtain ⟨f, hf⟩ : ∃ f, uclFuel ((block kvs ++ rest) :: r) = (2 * kvs.length + f + 1) + 3 := by
    refine ⟨uclFuel ((block kvs ++ rest) :: r) - 2 * kvs.length - 4, ?_⟩
    simp only [uclFuel, block, List.map_cons, List.sum_cons,
      List.length_cons, List.length_append, List.length_nil]
    omega
  obtain ⟨ct1, sw1, ss1, h⟩ := decode_stmtsSp f ([] ++ [123]) 1 [] [] (32 :: 125 :: rest) r kvs
    [] [] false false hb (by simpa using hnd)
  have hparse : parse true (uclFuel ((block kvs ++ rest) :: r)) (NewParser ((block kvs ++ rest) :: r))
      none (Value.map []) =
      ⟨Value.map (docOf (entriesOf kvs)), none, Value.map (docOf (entriesOf kvs)),
        ⟨⟨[], [], St.WHITESPACE, sw1, ss1, 1, [], []⟩, rest, r, []⟩⟩ := by
    rw [hf]
    show parse true (2 * kvs.length + f + 1 + 3)
      ⟨⟨[], [], St.WHITESPACE, false, false, 1, [], []⟩, [], (block kvs ++ rest) :: r, []⟩ none
      (Value.map []) = _
    rw [parse_first_read _ _ _ _ _ _ (by simp [block])]
    have htext : block kvs ++ rest = 123 :: (stmtsSp kvs ++ 32 :: 125 :: rest) := by
      simp [block]
    rw [htext, parse_block_open _ _ _ _ _ _ _ _ _ _ _ _ WhiteEnd_nil]
    have hfu : 2 * kvs.length + f + 1 + 1 = 2 * kvs.length + (f + 2) := by omega
    rw [hfu]
    refine h.trans ?_
    rw [parse_block_close]
    rfl
  rw [Ucl_of_parse _ _ _ _ _ _ hparse]
  simp

/-- C28 (failing input): `Ucl` on `{ a 1; } b 2;` returns a nil error and
the document with the key `a` only: `parse` returns at the closing brace,
the statement `b 2;` is left unread in the buffer and `b` is not in the
document. A statement is also lost, with a nil error, when a `Read` delivers
it together with `io.EOF`: for the reads `a 1;` and then ` b 2;` with
`io.EOF` the document holds `a` only, and for the one read `a 1;` with
`io.EOF` it is empty. -/
theorem C28_statements_after_block_not_read :
    (Ucl true [B "\x7b a 1; \x7d b 2;"]).err = none ∧
    (Ucl true [B "\x7b a 1; \x7d b 2;"]).ucl =
      Value.map [(KeyOrder, Value.strs [B "a"]), (B "a", Value.str (B "1"))] ∧
    mapGet [(KeyOrder, Value.strs [B "a"]), (B "a", Value.str (B "1"))] (B "b") = none ∧
    (Ucl true [B "\x7b a 1; \x7d b 2;"]).p.buf = B " b 2;" ∧
    (Ucl true [B "a 1;", ⟨B " b 2;", some RdErr.EOF⟩]).err = none ∧
    (Ucl true [B "a 1;", ⟨B " b 2;", some RdErr.EOF⟩]).ucl =
      Value.map [(KeyOrder, Value.strs [B "a"]), (B "a", Value.str (B "1"))] ∧
    (Ucl true [⟨B "a 1;", some RdErr.EOF⟩]).err = none ∧
    (Ucl true [⟨B "a 1;", some RdErr.EOF⟩]).ucl = Value.map [] := by
  refine ⟨by decide, by rfl, by rfl, by decide, by decide, by rfl, by decide, by rfl⟩

/-- C28: a top-level block ends the decoding. For every block
`{ k1 v1; ... kn vn; }` of distinct bareword keys other than the sentinel,
followed by any text and any further reads, `Ucl` returns a nil error and
exactly the entries of the block: `parse` returns at the closing brace, and
the text after the block and the further reads stay unread. -/
theorem C28_top_level_block_ends_decoding (kvs : List (Bytes × Bytes)) (rest : Bytes)
    (r : List Rd)
    (hb : ∀ kv ∈ kvs, Bareword kv.1 ∧ Bareword kv.2 ∧ kv.1 ≠ KeyOrder)
    (hnd : (kvs.map Prod.fst).Nodup) :
    (Ucl true ((block kvs ++ rest) :: r)).ucl = Value.map (docOf (entriesOf kvs)) ∧
    (Ucl true ((block kvs ++ rest) :: r)).err = none ∧
    (Ucl true ((block kvs ++ rest) :: r)).p.buf = rest ∧
    (Ucl true ((block kvs ++ rest) :: r)).p.r = r :=
  decode_block_rest kvs rest r hb hnd

/-- C28 (witness): of `{ a 1; } b 2;` and a further read `c 3;` only the
block is decoded; ` b 2;` stays in the buffer and `c 3;` is never read. -/
theorem C28_top_level_block_ends_decoding_witness :
    block [(B "a", B "1")] ++ B " b 2;" = B "\x7b a 1; \x7d b 2;" ∧
    (Ucl true [B "\x7b a 1; \x7d b 2;", B "c 3;"]).err = none ∧
    (Ucl true [B "\x7b a 1; \x7d b 2;", B "c 3;"]).ucl =
      Value.map [(KeyOrder, Value.strs [B "a"]), (B "a", Value.str (B "1"))] ∧
    (Ucl true [B "\x7b a 1; \x7d b 2;", B "c 3;"]).p.buf = B " b 2;" ∧
    (Ucl true [B "\x7b a 1; \x7d b 2;", B "c 3;"]).p.r = [B "c 3;"] := by
  have h3 := C28_top_level_block_ends_decoding [(B "a", B "1")] (B " b 2;") [B "c 3;"]
    (by
      intro kv hkv
      simp only [List.mem_singleton] at hkv
      subst hkv
      exact ⟨⟨by decide, by decide⟩, ⟨by decide, by decide⟩, by decide⟩)
    (by simp)
  exact ⟨by decide, h3.2.1, h3.1, h3.2.2.1, h3.2.2.2⟩

/-- C27 (counterexample): the result depends on how the reader splits the
input. A backslash that is the last byte of a chunk is taken into the pending
text alone, and the byte that follows it in the next chunk is scanned as an
ordinary byte, while inside a chunk the two are taken together. In one chunk
`k "a\"b";` decodes to `k` mapped to `a"b`; split behind the backslash, the
quote of the escape closes the string and the decode fails in `unquote`. In
one chunk `k "a\\";` decodes to `k` mapped to `a\`; split between the two
backslashes, the second one escapes the closing quote, the string never
ends and the document comes back empty with a nil error. The slash literal
`/a\/b/` is the one key `/a\b/` in one chunk and, split behind the
backslash, the key `/a\/` with a nested key. -/
theorem C27_escape_split_across_chunks :
    B "k \"a\\" ++ B "\"b\";" = B "k \"a\\\"b\";" ∧
    (Ucl true [B "k \"a\\\"b\";"]).err = none ∧
    (Ucl true [B "k \"a\\\"b\";"]).ucl =
      Value.map [(KeyOrder, Value.strs [B "k"]), (B "k", Value.str (B "a\"b"))] ∧
    (Ucl true [B "k \"a\\", B "\"b\";"]).err = some Err.unquoteErr ∧
    B "k \"a\\" ++ B "\\\";" = B "k \"a\\\\\";" ∧
    (Ucl true [B "k \"a\\\\\";"]).err = none ∧
    (Ucl true [B "k \"a\\\\\";"]).ucl =
      Value.map [(KeyOrder, Value.strs [B "k"]), (B "k", Value.str (B "a\\"))] ∧
    (Ucl true [B "k \"a\\", B "\\\";"]).err = none ∧
    (Ucl true [B "k \"a\\", B "\\\";"]).ucl = Value.map [] ∧
    B "/a\\" ++ B "/b/ v;" = B "/a\\/b/ v;" ∧
    (Ucl true [B "/a\\/b/ v;"]).ucl =
      Value.map [(KeyOrder, Value.strs [B "/a\\b/"]), (B "/a\\b/", Value.str (B "v"))] ∧
    (Ucl true [B "/a\\", B "/b/ v;"]).ucl =
      Value.map [(KeyOrder, Value.strs [B "/a\\/"]),
        (B "/a\\/", Value.map [(KeyOrder, Value.strs [B "b/"]), (B "b/", Value.str (B "v"))])] ∧
    (nexttags ⟨[], [], St.QUOTE, true, true, 1, [], []⟩ (B "a\\\"b\";") []).res =
      Except.ok [⟨B "a\"b", St.QUOTE⟩, ⟨[], St.WHITESPACE⟩, ⟨[59], St.SEMICOL⟩] ∧
    (nexttags ⟨[], [], St.QUOTE, true, true, 1, [], []⟩ (B "a\\") [B "\"b\";"]).res =
      Except.error Err.unquoteErr := by
  refine ⟨by decide, by decide, by rfl, by decide, by decide, by decide, by rfl, by decide, by rfl,
    by decide, by rfl, by rfl, by rfl, by rfl⟩

theorem ite_rests (P : Prop) [Decidable P] (a b : Step)
    (ha : P → RestsEmpty a) (hb : ¬ P → RestsEmpty b) : RestsEmpty (if P then a else b) := by
  split_ifs with h
  · exact ha h
  · exact hb h

theorem ret_rests (s : Scanner) (tags : List Tag) : RestsEmpty (Step.ret s tags) := by
  intro s1 tags1 k h; cases h

theorem fail_rests (e : Err) : RestsEmpty (Step.fail e) := by
  intro s1 tags1 k h; cases h

theorem cont_rests (s : Scanner) (tags : List Tag) (n : Nat)
    (h : s.state = St.WHITESPACE → tags = []) : RestsEmpty (Step.cont s tags n) := by
  intro s1 tags1 k he hs
  simp only [Step.cont.injEq] at he
  obtain ⟨h1, h2, _⟩ := he
  subst h1 h2
  exact h hs

theorem maketag0_state (s s1 : Scanner) (t : Tag) (h : maketag0 s = some (s1, t)) :
    s1.state = s.state := by
  unfold maketag0 at h
  by_cases hq : s.state = St.QUOTE ∨ s.state = St.VQUOTE
  · rw [if_pos hq] at h
    dsimp only at h
    cases hu : unquote s.curtag (if s.state = St.QUOTE then 34 else 39) with
    | none => rw [hu] at h; cases h
    | some qs =>
      rw [hu] at h
      simp only [Option.some.injEq, Prod.mk.injEq] at h
      rw [← h.1]
  · rw [if_neg hq] at h
    by_cases hl : 0 < s.curtag.length
    · rw [if_pos hl] at h
      simp only [Option.some.injEq, Prod.mk.injEq] at h
      rw [← h.1]
    · rw [if_neg hl] at h
      simp only [Option.some.injEq, Prod.mk.injEq] at h
      rw [← h.1]

theorem emit0_rests (s : Scanner) (tags : List Tag) (k : Scanner → List Tag → Step)
    (hk : ∀ s1 t, s1.state = s.state → RestsEmpty (k s1 (tags ++ [t]))) :
    RestsEmpty (emit0 s tags k) := by
  unfold emit0
  cases hm : maketag0 s with
  | none => exact fail_rests _
  | some st =>
    obtain ⟨s1, t⟩ := st
    exact hk s1 t (maketag0_state s s1 t hm)

theorem stepWhite_rests (s : Scanner) (tags : List Tag) (c : Nat) :
    RestsEmpty (stepWhite s tags c) := by
  unfold stepWhite
  dsimp only
  repeat' first
    | exact ret_rests _ _
    | exact fail_rests _
    | (apply cont_rests; dsimp only; intro h; first | exact absurd h (by decide) | (exact List.length_eq_zero.1 (by omega)))
    | (apply ite_rests <;> intro _)
    | (apply emit0_rests; intro s1 t1 hst1; try dsimp only)

theorem stepTag_rests (s : Scanner) (tags : List Tag) (c : Nat) (hs : s.state = St.TAG) :
    RestsEmpty (stepTag s tags c) := by
  unfold stepTag
  repeat' first
    | exact ret_rests _ _
    | exact fail_rests _
    | (apply cont_rests; (try dsimp only); intro h; first
        | exact absurd h (by decide)
        | (rw [hs] at h; exact absurd h (by decide))
        | (rw [hst1, hs] at h; exact absurd h (by decide)))
    | (apply ite_rests <;> intro _)
    | (apply emit0_rests; intro s1 t1 hst1; try dsimp only)

theorem stepMl_rests (s : Scanner) (tags : List Tag) (c : Nat) :
    RestsEmpty (stepMl s tags c) := by
  unfold stepMl
  dsimp only
  repeat' first
    | exact ret_rests _ _
    | exact fail_rests _
    | (apply cont_rests; dsimp only; intro h; first
        | exact absurd h (by decide)
        | (exact List.length_eq_zero.1 (by omega))
        | (rw [‹s.state = St.MLSTRING_HEADER_OK›] at h; exact absurd h (by decide))
        | (split at h <;> exact absurd h (by decide)))
    | (apply ite_rests <;> intro _)
    | (apply emit0_rests; intro s1 t1 hst1; try dsimp only)
    | split

theorem stepQuote_rests (s : Scanner) (tags : List Tag) (c : Nat) (rest : Bytes)
    (hs : s.state = St.QUOTE ∨ s.state = St.VQUOTE) :
    RestsEmpty (stepQuote s tags c rest) := by
  have hne : s.state ≠ St.WHITESPACE := by
    rcases hs with h | h <;> rw [h] <;> decide
  unfold stepQuote
  repeat' first
    | exact ret_rests _ _
    | exact fail_rests _
    | (apply cont_rests; dsimp only; intro h; first
        | exact absurd h (by decide)
        | exact absurd h hne)
    | (apply ite_rests <;> intro _)
    | (apply emit0_rests; intro s1 t1 hst1; try dsimp only)
    | split

theorem stepSlash_rests (s : Scanner) (tags : List Tag) (c : Nat) (rest : Bytes)
    (hs : s.state = St.SLASH) :
    RestsEmpty (stepSlash s tags c rest) := by
  have hne : s.state ≠ St.WHITESPACE := by rw [hs]; decide
  unfold stepSlash
  repeat' first
    | exact ret_rests _ _
    | exact fail_rests _
    | (apply cont_rests; dsimp only; intro h; first
        | exact absurd h (by decide)
        | exact absurd h hne)
    | (apply ite_rests <;> intro _)
    | (apply emit0_rests; intro s1 t1 hst1; try dsimp only)
    | split

theorem stepComment_rests (s : Scanner) (tags : List Tag) (c : Nat) :
    RestsEmpty (stepComment s tags c) := by
  unfold stepComment
  repeat' first
    | exact ret_rests _ _
    | exact fail_rests _
    | (apply cont_rests; dsimp only; intro h; first
        | exact absurd h (by decide)
        | (rw [‹s.state = St.HCOMMENT›] at h; exact absurd h (by decide))
        | (split at h <;> exact absurd h (by decide)))
    | (apply ite_rests <;> intro _)
    | (apply emit0_rests; intro s1 t1 hst1; try dsimp only)

/-- Every round of the loop that goes on in the state WHITESPACE goes on
with no token pending. -/
theorem step_rests (s : Scanner) (tags : List Tag) (c : Nat) (rest : Bytes) :
    RestsEmpty (step s tags c rest) := by
  unfold step
  dsimp only
  split
  all_goals first
    | exact stepWhite_rests _ _ _
    | exact stepTag_rests _ _ _ (by assumption)
    | exact stepMl_rests _ _ _
    | exact stepQuote_rests _ _ _ _ (by first | exact Or.inl (by assumption) | exact Or.inr (by assumption))
    | exact stepSlash_rests _ _ _ _ (by assumption)
    | exact stepComment_rests _ _ _
    | (apply cont_rests; intro h; exact absurd h (by assumption))

theorem LoopAt_rests (s0 s : Scanner) (tags : List Tag) (h : LoopAt s0 s tags) :
    s.state = St.WHITESPACE → tags = [] := by
  cases h with
  | start => intro _; rfl
  | round s' tags' c rest s1 tags1 k _ hstep =>
    exact step_rests s' tags' c rest s tags k hstep

/-- The loop over a buffer stays within the rounds of the call: when it has
used the buffer up, it is at the top of a round. -/
theorem LoopAt_buf (s0 : Scanner) (buf : Bytes) :
    ∀ (s : Scanner) (tags : List Tag) (skip : Nat) (s1 : Scanner) (tags1 : List Tag),
      LoopAt s0 s tags → nexttagsBuf s tags skip buf = BufOut.more s1 tags1 →
      LoopAt s0 s1 tags1 := by
  induction buf with
  | nil =>
    intro s tags skip s1 tags1 h hb
    simp only [nexttagsBuf, BufOut.more.injEq] at hb
    rw [← hb.1, ← hb.2]
    exact h
  | cons c rest ih =>
    intro s tags skip s1 tags1 h hb
    cases skip with
    | succ k =>
      simp only [nexttagsBuf] at hb
      exact ih s tags k s1 tags1 h hb
    | zero =>
      simp only [nexttagsBuf] at hb
      cases hst : step s tags c rest with
      | cont s2 tags2 k2 =>
        rw [hst] at hb
        exact ih s2 tags2 k2 s1 tags1 (LoopAt.round s tags c rest s2 tags2 k2 h hst) hb
      | ret s2 tags2 => rw [hst] at hb; cases hb
      | fail e => rw [hst] at hb; cases hb

theorem step_white_sep_error (s : Scanner) (c : Nat) (rest : Bytes)
    (hs : s.state = St.WHITESPACE) (hc : c = 61 ∨ c = 58) :
    step s [] c rest = Step.fail (Err.unexpected c) := by
  rcases hc with h | h <;> subst h <;> simp [step, hs, stepWhite]

/-- C30: at the top of every round of the loop of a `nexttags` call, if the
scanner is in the state WHITESPACE, no token is pending in the call; hence a
`=` or `:` read in that state makes the call return the error `unexpected`,
whatever the scanner holds otherwise, and the test for a preceding quoted
key on that path is never met with a token to look at. The same holds when
the loop has used up a buffer and goes on to read the next one. -/
theorem C30_whitespace_state_has_no_pending_tokens (s0 s : Scanner) (tags : List Tag)
    (h : LoopAt s0 s tags) (hs : s.state = St.WHITESPACE) :
    tags = [] ∧
    (∀ (c : Nat) (rest : Bytes), c = 61 ∨ c = 58 →
      step s tags c rest = Step.fail (Err.unexpected c)) ∧
    (∀ (buf : Bytes) (skip : Nat) (s1 : Scanner) (tags1 : List Tag),
      nexttagsBuf s tags skip buf = BufOut.more s1 tags1 → s1.state = St.WHITESPACE →
      tags1 = []) := by
  have ht := LoopAt_rests s0 s tags h hs
  refine ⟨ht, ?_, ?_⟩
  · intro c rest hc
    rw [ht]
    exact step_white_sep_error s c rest hs hc
  · intro buf skip s1 tags1 hb hs1
    exact LoopAt_rests s0 s1 tags1 (LoopAt_buf s0 buf s tags skip s1 tags1 h hb) hs1

/-- C30 (witness): on ` = v;` the blank is read in the state WHITESPACE and
the loop goes on with nothing pending, the `=` after it fails, and `Ucl`
returns that error; a quoted key leaves the scanner in the state TAG, where
`=` is the separator: `"k" = v;` decodes to `k` mapped to `v`. -/
theorem C30_whitespace_state_has_no_pending_tokens_witness :
    step newScanner [] 32 (B "= v;") =
      Step.cont ⟨[], [32], St.WHITESPACE, false, false, 1, [], []⟩ [] 0 ∧
    step ⟨[], [32], St.WHITESPACE, false, false, 1, [], []⟩ [] 61 (B " v;") =
      Step.fail (Err.unexpected 61) ∧
    (Ucl true [B " = v;"]).err = some (Err.unexpected 61) ∧
    (Ucl true [B "\"k\" = v;"]).err = none ∧
    (Ucl true [B "\"k\" = v;"]).ucl =
      Value.map [(KeyOrder, Value.strs [B "k"]), (B "k", Value.str (B "v"))] := by
  have h1 : step newScanner [] 32 (B "= v;") =
      Step.cont ⟨[], [32], St.WHITESPACE, false, false, 1, [], []⟩ [] 0 := by decide
  have h := C30_whitespace_state_has_no_pending_tokens newScanner
    ⟨[], [32], St.WHITESPACE, false, false, 1, [], []⟩ []
    (LoopAt.round newScanner [] 32 (B "= v;") _ _ 0 LoopAt.start h1) rfl
  exact ⟨h1, h.2.1 61 (B " v;") (Or.inl rfl), by decide, by decide, by rfl⟩

theorem ite_np (P : Prop) [Decidable P] (a b : Step)
    (ha : a ≠ Step.fail Err.panicked) (hb : b ≠ Step.fail Err.panicked) :
    (if P then a else b) ≠ Step.fail Err.panicked := by
  split_ifs
  · exact ha
  · exact hb

theorem cont_np (s : Scanner) (tags : List Tag) (n : Nat) :
    Step.cont s tags n ≠ Step.fail Err.panicked := by
  intro h; cases h

theorem ret_np (s : Scanner) (tags : List Tag) : Step.ret s tags ≠ Step.fail Err.panicked := by
  intro h; cases h

theorem fail_np (x : Err) (hx : x ≠ Err.panicked) : Step.fail x ≠ Step.fail Err.panicked := by
  intro h
  simp only [Step.fail.injEq] at h
  exact hx h

theorem emit0_np (s : Scanner) (tags : List Tag) (k : Scanner → List Tag → Step)
    (hk : ∀ s1 tags1, k s1 tags1 ≠ Step.fail Err.panicked) :
    emit0 s tags k ≠ Step.fail Err.panicked := by
  unfold emit0
  cases hm : maketag0 s with
  | none => exact fail_np _ (by simp)
  | some st =>
    obtain ⟨s1, t⟩ := st
    exact hk _ _

/-- When the innermost open scope is `{`, `scopereduce` of `}` succeeds. -/
theorem scopereduce_brace_ok (s : Scanner) (h : curdepth s = 123) :
    (scopereduce s 125).2 = true := by
  unfold scopereduce
  unfold curdepth at h
  cases hd : s.depth.getLast? with
  | none => rw [hd] at h; simp at h
  | some top =>
    rw [hd] at h
    simp only [Option.getD_some] at h
    subst h
    rfl

/-- When the innermost open scope is `[`, `scopereduce` of `]` succeeds. -/
theorem scopereduce_bracket_ok (s : Scanner) (h : curdepth s = 91) :
    (scopereduce s 93).2 = true := by
  unfold scopereduce
  unfold curdepth at h
  cases hd : s.depth.getLast? with
  | none => rw [hd] at h; simp at h
  | some top =>
    rw [hd] at h
    simp only [Option.getD_some] at h
    subst h
    rfl

theorem stepWhite_np (s : Scanner) (tags : List Tag) (c : Nat) :
    stepWhite s tags c ≠ Step.fail Err.panicked := by
  unfold stepWhite
  dsimp only
  repeat' first
    | exact cont_np _ _ _
    | exact ret_np _ _
    | exact fail_np _ (by simp)
    | apply ite_np
    | (apply emit0_np; intro s1 t1; try dsimp only)

/-- The case TAG never takes one of its two `panic("shouldn't happen")`
branches: each stands behind the test that the innermost open scope is the
matching bracket, under which `scopereduce` returns true. -/
theorem stepTag_np (s : Scanner) (tags : List Tag) (c : Nat) :
    stepTag s tags c ≠ Step.fail Err.panicked := by
  unfold stepTag
  by_cases h1 : 0 < s.curtag.length ∧ s.curtag.getLast? = some 60
  · rw [if_pos h1]; exact cont_np _ _ _
  rw [if_neg h1]
  by_cases h2 : c = 123
  · rw [if_pos h2]
    apply emit0_np; intro s1 t1; exact ret_np _ _
  rw [if_neg h2]
  by_cases h3 : c = 125
  · rw [if_pos h3]
    by_cases hd : curdepth s ≠ 123
    · rw [if_pos hd]; exact fail_np _ (by simp)
    · rw [if_neg hd]
      have hd1 : curdepth s = 123 := not_not.1 hd
      subst h3
      rw [if_pos (scopereduce_brace_ok s hd1)]
      exact ret_np _ _
  rw [if_neg h3]
  by_cases h4 : c = 39 ∨ c = 34
  · rw [if_pos h4]; exact ret_np _ _
  rw [if_neg h4]
  by_cases h5 : c = 91
  · rw [if_pos h5]
    apply emit0_np; intro s1 t1; exact ret_np _ _
  rw [if_neg h5]
  by_cases h6 : c = 93
  · rw [if_pos h6]
    by_cases hd : curdepth s ≠ 91
    · rw [if_pos hd]; exact fail_np _ (by simp)
    · rw [if_neg hd]
      have hd1 : curdepth s = 91 := not_not.1 hd
      subst h6
      rw [if_pos (scopereduce_bracket_ok s hd1)]
      exact ret_np _ _
  rw [if_neg h6]
  repeat' first
    | exact cont_np _ _ _
    | exact ret_np _ _
    | exact fail_np _ (by simp)
    | apply ite_np
    | (apply emit0_np; intro s1 t1; try dsimp only)

theorem stepQuote_np (s : Scanner) (tags : List Tag) (c : Nat) (rest : Bytes) :
    stepQuote s tags c rest ≠ Step.fail Err.panicked := by
  unfold stepQuote
  repeat' first
    | exact cont_np _ _ _
    | exact ret_np _ _
    | exact fail_np _ (by simp)
    | apply ite_np
    | (apply emit0_np; intro s1 t1; try dsimp only)
    | split

theorem stepSlash_np (s : Scanner) (tags : List Tag) (c : Nat) (rest : Bytes) :
    stepSlash s tags c rest ≠ Step.fail Err.panicked := by
  unfold stepSlash
  repeat' first
    | exact cont_np _ _ _
    | exact ret_np _ _
    | exact fail_np _ (by simp)
    | apply ite_np
    | (apply emit0_np; intro s1 t1; try dsimp only)
    | split

theorem stepComment_np (s : Scanner) (tags : List Tag) (c : Nat) :
    stepComment s tags c ≠ Step.fail Err.panicked := by
  unfold stepComment
  repeat' first
    | exact cont_np _ _ _
    | exact ret_np _ _
    | exact fail_np _ (by simp)
    | apply ite_np
    | (apply emit0_np; intro s1 t1; try dsimp only)

theorem stepMl_np (s : Scanner) (tags : List Tag) (c : Nat) :
    stepMl s tags c ≠ Step.fail Err.panicked := by
  unfold stepMl
  dsimp only
  repeat' first
    | exact cont_np _ _ _
    | exact ret_np _ _
    | exact fail_np _ (by simp)
    | apply ite_np
    | (apply emit0_np; intro s1 t1; try dsimp only)
    | split

/-- No round of the scanner loop ends in an explicit `panic` call. -/
theorem step_np (s : Scanner) (tags : List Tag) (c : Nat) (rest : Bytes) :
    step s tags c rest ≠ Step.fail Err.panicked := by
  unfold step
  dsimp only
  split
  all_goals first
    | exact stepWhite_np _ _ _
    | exact stepTag_np _ _ _
    | exact stepMl_np _ _ _
    | exact stepQuote_np _ _ _ _
    | exact stepSlash_np _ _ _ _
    | exact stepComment_np _ _ _
    | exact cont_np _ _ _

theorem nexttagsBuf_np (s : Scanner) (tags : List Tag) (k : Nat) (buf : Bytes) :
    nexttagsBuf s tags k buf ≠ BufOut.fail Err.panicked := by
  induction buf generalizing s tags k with
  | nil => simp [nexttagsBuf]
  | cons c rest ih =>
    cases k with
    | succ k =>
      simp only [nexttagsBuf]
      exact ih s tags k
    | zero =>
      simp only [nexttagsBuf]
      cases hs : step s tags c rest with
      | cont s1 tags1 k1 => exact ih s1 tags1 k1
      | ret s1 tags1 => simp
      | fail e1 =>
        intro h
        simp only [BufOut.fail.injEq] at h
        rw [h] at hs
        exact step_np s tags c rest hs

theorem eofOut_np (s : Scanner) (r : List Rd) :
    (eofOut s r).res ≠ Except.error Err.panicked := by
  simp only [eofOut]
  split_ifs <;> simp

theorem nexttagsFrom_np (s : Scanner) (tags : List Tag) (buf : Bytes) (r : List Rd) :
    (nexttagsFrom s tags buf r).res ≠ Except.error Err.panicked := by
  induction r generalizing s tags buf with
  | nil =>
    rw [nexttagsFrom]
    cases hb : nexttagsBuf s tags 0 buf with
    | ret s1 tags1 rest => simp
    | fail e =>
      intro h
      simp only [Except.error.injEq] at h
      rw [h] at hb
      exact nexttagsBuf_np s tags 0 buf hb
    | more s1 tags1 => exact eofOut_np s1 []
  | cons chunk r1 ih =>
    rw [nexttagsFrom]
    cases hb : nexttagsBuf s tags 0 buf with
    | ret s1 tags1 rest => simp
    | fail e =>
      intro h
      simp only [Except.error.injEq] at h
      rw [h] at hb
      exact nexttagsBuf_np s tags 0 buf hb
    | more s1 tags1 =>
      dsimp only
      split_ifs
      · exact eofOut_np s1 r1
      · cases he : chunk.err with
        | none => exact ih s1 tags1 chunk.data
        | some e => cases e <;> simp [RdErr.toErr]

theorem nexttagLoop_np (fuel : Nat) (p : Parser) :
    (nexttagLoop fuel p).1 ≠ Except.error Err.panicked := by
  induction fuel generalizing p with
  | zero => simp [nexttagLoop]
  | succ fuel ih =>
    simp only [nexttagLoop]
    cases hd : p.tags.dropWhile filtered with
    | cons m rest => simp
    | nil =>
      dsimp only
      have hq := nexttagsFrom_np p.scanner [] p.buf p.r
      unfold nexttags
      generalize nexttagsFrom p.scanner [] p.buf p.r = q at hq
      obtain ⟨s1, b1, r1, res⟩ := q
      cases res with
      | error e =>
        dsimp only at hq ⊢
        intro h
        simp only [Except.error.injEq] at h
        exact hq (by rw [h])
      | ok tags => dsimp only; exact ih _

/-- The scanner never hands the parser an explicit `panic`. -/
theorem nexttag_np (p p1 : Parser) (e : Err) (h : nexttag p = (Except.error e, p1)) :
    e ≠ Err.panicked := by
  intro he
  subst he
  have := nexttagLoop_np (p.remaining + 2) p
  unfold nexttag at h
  rw [h] at this
  exact this rfl

theorem parsevalue_np_key (ko : Bool) (f : Nat)
    (ihv : ∀ p t, (parsevalue ko f p t Value.null).err ≠ some Err.panicked)
    (p : Parser) (tv : Bytes) (st : St)
    (hst : st = St.TAG ∨ st = St.QUOTE ∨ st = St.VQUOTE ∨ st = St.SLASH) :
    (parsevalue ko (f + 1) p (some ⟨tv, st⟩) Value.null).err ≠ some Err.panicked := by
  rcases hst with h | h | h | h
  all_goals
    subst h
    simp only [parsevalue]
    rcases h : nexttag p with ⟨r, p1⟩
    rcases r with e | nt
    · intro he
      exact nexttag_np p p1 e h (Option.some.inj he)
    · dsimp only
      split_ifs
      · simp
      · simp
      · have ih := ihv p1 (some nt)
        generalize parsevalue ko f p1 (some nt) Value.null = r at ih ⊢
        obtain ⟨rv, re, rp⟩ := r
        cases re with
        | some e => exact ih
        | none => simp

theorem parsevalue_np_step (ko : Bool) (f : Nat)
    (ihv : ∀ p t, (parsevalue ko f p t Value.null).err ≠ some Err.panicked)
    (ihl : ∀ p t l, (parselist ko f p t l).err ≠ some Err.panicked)
    (ihb : ∀ p tv, (parse ko f p (some ⟨tv, St.BRACEOPEN⟩) Value.null).err ≠ some Err.panicked) :
    ∀ p t, (parsevalue ko (f + 1) p t Value.null).err ≠ some Err.panicked := by
  intro p t
  cases t with
  | none =>
    simp only [parsevalue]
    cases h : nexttag p with
    | mk r p1 =>
      cases r with
      | error e =>
        intro he
        exact nexttag_np p p1 e h (Option.some.inj he)
      | ok t1 => exact ihv p1 (some t1)
  | some t =>
    obtain ⟨tv, st⟩ := t
    cases st
    case TAG => exact parsevalue_np_key ko f ihv p tv _ (by simp)
    case QUOTE => exact parsevalue_np_key ko f ihv p tv _ (by simp)
    case VQUOTE => exact parsevalue_np_key ko f ihv p tv _ (by simp)
    case SLASH => exact parsevalue_np_key ko f ihv p tv _ (by simp)
    all_goals simp only [parsevalue]
    all_goals first
      | exact ihv _ _
      | exact ihb _ _
      | exact ihl _ _ _
      | simp

theorem parselist_np_elem (ko : Bool) (f : Nat)
    (ihv : ∀ p t, (parsevalue ko f p t Value.null).err ≠ some Err.panicked)
    (ihl : ∀ p t l, (parselist ko f p t l).err ≠ some Err.panicked)
    (p : Parser) (t : Tag) (l : List Value) (q : PRes)
    (hq : q = (match parsevalue ko f p (some t) Value.null with
      | ⟨_, some e, p2⟩ => ({ val := Value.null, err := some e, p := p2 } : PRes)
      | ⟨Value.tag restag, none, p2⟩ =>
        if restag.state = St.BRACKETCLOSE then
          { val := Value.list (l ++ [Value.str restag.val]), err := none, p := p2 }
        else { val := Value.null, err := some Err.unexpectedTag, p := p2 }
      | ⟨res, none, p2⟩ => parselist ko f p2 none (l ++ [res]))) :
    q.err ≠ some Err.panicked := by
  subst hq
  have ih := ihv p (some t)
  generalize parsevalue ko f p (some t) Value.null = r at ih ⊢
  obtain ⟨rv, re, rp⟩ := r
  cases rv <;> cases re
  all_goals first
    | exact ih
    | exact ihl _ _ _
    | (dsimp only
       split_ifs
       · simp
       · simp)

theorem parselist_np_step (ko : Bool) (f : Nat)
    (ihv : ∀ p t, (parsevalue ko f p t Value.null).err ≠ some Err.panicked)
    (ihl : ∀ p t l, (parselist ko f p t l).err ≠ some Err.panicked) :
    ∀ p t l, (parselist ko (f + 1) p t l).err ≠ some Err.panicked := by
  intro p t l
  cases t with
  | none =>
    simp only [parselist]
    cases h : nexttag p with
    | mk r p1 =>
      cases r with
      | error e =>
        intro he
        exact nexttag_np p p1 e h (Option.some.inj he)
      | ok t1 => exact ihl p1 (some t1) l
  | some t =>
    obtain ⟨tv, st⟩ := t
    cases st
    all_goals simp only [parselist]
    all_goals first
      | exact ihl _ _ _
      | exact parselist_np_elem ko f ihv ihl p _ l _ rfl
      | simp

theorem parse_np_key (ko : Bool) (f : Nat)
    (ihv : ∀ p t, (parsevalue ko f p t Value.null).err ≠ some Err.panicked)
    (ihp : ∀ p t m, (parse ko f p t (Value.map m)).err ≠ some Err.panicked)
    (p : Parser) (tv : Bytes) (st : St) (themap : GoMap)
    (hst : st = St.TAG ∨ st = St.QUOTE ∨ st = St.VQUOTE ∨ st = St.SLASH) :
    (parse ko (f + 1) p (some ⟨tv, st⟩) (Value.map themap)).err ≠ some Err.panicked := by
  rcases hst with h | h | h | h
  all_goals
    subst h
    simp only [parse]
    cases hk : korderOf ko themap with
    | error e =>
      rw [korderOf_error ko themap e hk]
      simp
    | ok korder =>
      dsimp only
      have ih := ihv p none
      generalize parsevalue ko f p none Value.null = r at ih ⊢
      obtain ⟨rv, re, rp⟩ := r
      cases rv <;> cases re
      all_goals first
        | exact ih
        | exact ihp _ _ _
        | (dsimp only
           split_ifs
           · exact ihp _ _ _
           · simp)

theorem parse_np_step (ko : Bool) (f : Nat)
    (ihv : ∀ p t, (parsevalue ko f p t Value.null).err ≠ some Err.panicked)
    (ihl : ∀ p t l, (parselist ko f p t l).err ≠ some Err.panicked)
    (ihp : ∀ p t m, (parse ko f p t (Value.map m)).err ≠ some Err.panicked) :
    ∀ p t m, (parse ko (f + 1) p t (Value.map m)).err ≠ some Err.panicked := by
  intro p t m
  cases t with
  | none =>
    simp only [parse]
    cases h : nexttag p with
    | mk r p1 =>
      cases r with
      | error e =>
        intro he
        exact nexttag_np p p1 e h (Option.some.inj he)
      | ok t1 => exact ihp p1 (some t1) m
  | some t =>
    obtain ⟨tv, st⟩ := t
    cases st
    case TAG => exact parse_np_key ko f ihv ihp p tv _ m (by simp)
    case QUOTE => exact parse_np_key ko f ihv ihp p tv _ m (by simp)
    case VQUOTE => exact parse_np_key ko f ihv ihp p tv _ m (by simp)
    case SLASH => exact parse_np_key ko f ihv ihp p tv _ m (by simp)
    all_goals simp only [parse]
    all_goals first
      | exact ihp _ _ _
      | exact ihl _ _ _
      | simp

theorem parse_np_brace (ko : Bool) (f : Nat)
    (ihp : ∀ p t m, (parse ko f p t (Value.map m)).err ≠ some Err.panicked) :
    ∀ p tv, (parse ko (f + 1) p (some ⟨tv, St.BRACEOPEN⟩) Value.null).err ≠
      some Err.panicked := by
  intro p tv
  simp only [parse]
  exact ihp _ _ _

/-- Whatever the fuel, the calls that a run of `Ucl` makes do not end in the
`panic("...")` of `parse`: `parsevalue` is entered with a nil parent,
`parse` with a map as parent, or with a nil parent on a `{`, for which it
makes the map; and the scanner hands over no `panic` of its own. -/
theorem parser_np (ko : Bool) (f : Nat) :
    (∀ p t, (parsevalue ko f p t Value.null).err ≠ some Err.panicked) ∧
    (∀ p t l, (parselist ko f p t l).err ≠ some Err.panicked) ∧
    (∀ p t m, (parse ko f p t (Value.map m)).err ≠ some Err.panicked) ∧
    (∀ p tv, (parse ko f p (some ⟨tv, St.BRACEOPEN⟩) Value.null).err ≠ some Err.panicked) := by
  induction f with
  | zero =>
    refine ⟨?_, ?_, ?_, ?_⟩
    · intro p t; simp [parsevalue]
    · intro p t l; simp [parselist]
    · intro p t m; simp [parse]
    · intro p tv; simp [parse]
  | succ f ih =>
    obtain ⟨ihv, ihl, ihp, ihb⟩ := ih
    exact ⟨parsevalue_np_step ko f ihv ihl ihb, parselist_np_step ko f ihv ihl,
      parse_np_step ko f ihv ihl ihp, parse_np_brace ko f ihp⟩

theorem Ucl_np (ko : Bool) (r : List Rd) : (Ucl ko r).err ≠ some Err.panicked := by
  have h := (parser_np ko (uclFuel r)).2.2.1 (NewParser r) none []
  unfold Ucl
  generalize parse ko (uclFuel r) (NewParser r) none (Value.map []) = q at h ⊢
  obtain ⟨qv, qe, qp, qq⟩ := q
  dsimp only at h ⊢
  split_ifs with hc
  · simp
  · exact h

/-- C26: no explicit `panic` call is reached from `NewParser(r).Ucl()`. In the
scanner, the case TAG takes neither of its two `panic("shouldn't happen")`
branches, whatever the scanner state, the pending tags and the byte: each
stands behind the test that the innermost open scope is the matching
bracket, under which `scopereduce` returns true; hence no round of the loop
and no call of `nexttag` ends in one. In the parser, for every reader `r`,
with or without order tracking and whatever the fuel of the run, the call
`parse(nil, p.ucl)` that `Ucl` makes, and `Ucl` itself, do not end in the
`panic("...")` that `parse` raises on a key under a parent that is not a map.
A direct call of `parse` on a key with a nil parent does reach it. -/
theorem C26_explicit_panics_unreachable :
    (∀ (s : Scanner) (tags : List Tag) (c : Nat), stepTag s tags c ≠ Step.fail Err.panicked) ∧
    (∀ (s : Scanner) (tags : List Tag) (c : Nat) (rest : Bytes),
      step s tags c rest ≠ Step.fail Err.panicked) ∧
    (∀ (p : Parser), (nexttag p).1 ≠ Except.error Err.panicked) ∧
    (∀ (ko : Bool) (r : List Rd) (fuel : Nat),
      (parse ko fuel (NewParser r) none (Value.map [])).err ≠ some Err.panicked) ∧
    (∀ (ko : Bool) (r : List Rd), (Ucl ko r).err ≠ some Err.panicked) ∧
    (∀ (ko : Bool) (fuel : Nat) (p : Parser) (k : Bytes),
      (parse ko (fuel + 1) p (some ⟨k, St.TAG⟩) Value.null).err = some Err.panicked) := by
  refine ⟨stepTag_np, step_np, fun p => nexttagLoop_np _ p,
    fun ko r fuel => (parser_np ko fuel).2.2.1 (NewParser r) none [],
    Ucl_np, ?_⟩
  intro ko fuel p k
  simp only [parse]

theorem mapChildren_lookup (e : Encoder) (m : GoMap) (indent : Nat) (k : Bytes) (v : Value)
    (hk : mapGet m k = some v) (hv : v ≠ Value.null) :
    (mapChildren e m indent).lookup k = some ([32] ++ entryValue e v indent) := by
  induction m with
  | nil => simp [mapGet] at hk
  | cons kv t ih =>
    obtain ⟨k1, v1⟩ := kv
    rw [mapGet] at hk
    by_cases h1 : k1 = k
    · rw [if_pos h1] at hk
      have hv1 : v1 = v := Option.some.inj hk
      subst hv1
      subst h1
      cases v1 <;> first
        | exact absurd rfl hv
        | simp [mapChildren, entryValue, List.lookup]
    · rw [if_neg h1] at hk
      have hne : (k == k1) = false := by
        simp only [beq_eq_false_iff_ne, ne_eq]
        exact fun h => h1 h.symm
      cases v1 <;> simp only [mapChildren, List.lookup, hne] <;> exact ih hk

theorem mapRound_present (e : Encoder) (m : GoMap) (parenttype : ParentType) (indent : Nat)
    (k : Bytes) (v : Value) (hk : mapGet m k = some v) (hv : v ≠ Value.null) :
    mapRound e m parenttype indent k =
      indents e indent ++ encodeStr e.tbl k ++ [32] ++ entryValue e v indent ++
        (if parenttype = ParentType.parent_array then [] else [59]) := by
  unfold mapRound
  rw [mapChildren_lookup e m indent k v hk hv]
  cases parenttype <;> simp

theorem doencode_loopKeys (e : Encoder) (m : GoMap) (parenttype : ParentType) (indent : Nat) :
    doencode e (Value.map m) parenttype indent =
      joinWith (Fprintf0 e.newline) ((loopKeys m).map (mapRound e m parenttype indent)) ++
        (if 0 < (loopKeys m).length then Fprintf0 e.newline else []) := by
  rw [doencode]
  unfold loopKeys
  cases h : mapGet m KeyOrder with
  | none =>
    simp only []
    rw [encodeKeys_join]
    simp
  | some w =>
    cases w <;> simp only [] <;> rw [encodeKeys_join] <;> simp

/-- C24 (counterexample): a map that is an element of a list is written
without the `;` after its entries. The list holding the map `a: 1, b: 2` is
encoded compactly as `[` `{` `a 1b 2` `}` `]` and with a one-space indent
with `a 1` and `b 2` on lines of their own, no `;` after either; the same map
at the top level is written as `a 1;b 2;`. The document decoded from
`x [ { a 1; b 2; } ];` is encoded in the same way. -/
theorem C24_map_in_list_has_no_semicolon :
    Encode noTbl listOfMap [] [] = B "[\x7ba 1b 2\x7d]" ∧
    Encode noTbl listOfMap (B " ") [] = B "[\n \x7b\n  a 1\n  b 2\n \x7d\n]" ∧
    Encode noTbl (Value.map [(B "a", Value.str (B "1")), (B "b", Value.str (B "2"))]) [] [] =
      B "a 1;b 2;" ∧
    (Ucl true [B "x [ \x7b a 1; b 2; \x7d ];"]).err = none ∧
    (Ucl true [B "x [ \x7b a 1; b 2; \x7d ];"]).ucl = listOfMapDoc ∧
    Encode noTbl listOfMapDoc (B " ") [] = B "x [\n \x7b\n  a 1\n  b 2\n \x7d\n];\n" := by
  refine ⟨by decide, by decide, by decide, by decide, by rfl, by decide⟩

/-- C24 (amended): `encodeMap` writes one round of its loop for each key of
the key-order list, or of `MapKeys()` when the map has no such list, with
the newline between the rounds and after the last one. A round for a key `k`
whose value `v` is present writes the indent, the key, one space and the
encoded value; the `;` follows unless the map is written as an element of a
list, which is when `encodeSlice` passes `parent_array`; the top-level
call of `Encode` and a map that is the value of a key are written with
`parent_map`. -/
theorem C24_map_entry_layout (e : Encoder) (m : GoMap) (parenttype : ParentType) (indent : Nat)
    (k : Bytes) (v : Value) (hk : mapGet m k = some v) (hv : v ≠ Value.null) :
    doencode e (Value.map m) parenttype indent =
      joinWith (Fprintf0 e.newline) ((loopKeys m).map (mapRound e m parenttype indent)) ++
        (if 0 < (loopKeys m).length then Fprintf0 e.newline else []) ∧
    mapRound e m parenttype indent k =
      indents e indent ++ encodeStr e.tbl k ++ [32] ++ entryValue e v indent ++
        (if parenttype = ParentType.parent_array then [] else [59]) ∧
    (∀ tbl w indenter nilval, Encode tbl w indenter nilval =
      doencode ⟨tbl, indenter, if indenter ≠ [] then [10] else [], nilval⟩ w
        ParentType.parent_map 0) ∧
    (∀ c, entryValue e (Value.map c) indent =
      [123] ++ e.newline ++ doencode e (Value.map c) ParentType.parent_map (indent + 1)
        ++ indents e indent ++ [125]) ∧
    (∀ c t first, sliceElems e (Value.map c :: t) indent first =
      (if first then Fprintf0 e.newline else [44] ++ e.newline) ++
      (e.indenter ++ indents e indent ++ [123] ++ e.newline ++
        doencode e (Value.map c) ParentType.parent_array (indent + 2) ++
        e.indenter ++ indents e indent ++ [125]) ++ sliceElems e t indent false) := by
  refine ⟨doencode_loopKeys e m parenttype indent,
    mapRound_present e m parenttype indent k v hk hv, ?_, ?_, ?_⟩
  · intro tbl w indenter nilval; rfl
  · intro c; rfl
  · intro c t first; rw [sliceElems]

/-- C24 (witness): the entry `a: 1` of the map `a: 1, b: 2` is written as
`a 1;` under a map parent and as `a 1` when the map is an element of a
list. -/
theorem C24_map_entry_layout_witness :
    mapRound ⟨noTbl, [], [], []⟩ [(B "a", Value.str (B "1")), (B "b", Value.str (B "2"))]
      ParentType.parent_map 0 (B "a") = B "a 1;" ∧
    mapRound ⟨noTbl, [], [], []⟩ [(B "a", Value.str (B "1")), (B "b", Value.str (B "2"))]
      ParentType.parent_array 2 (B "a") = B "a 1" := by
  have h1 := (C24_map_entry_layout ⟨noTbl, [], [], []⟩
    [(B "a", Value.str (B "1")), (B "b", Value.str (B "2"))] ParentType.parent_map 0 (B "a")
    (Value.str (B "1")) (by rfl) (by simp)).2.1
  have h2 := (C24_map_entry_layout ⟨noTbl, [], [], []⟩
    [(B "a", Value.str (B "1")), (B "b", Value.str (B "2"))] ParentType.parent_array 2 (B "a")
    (Value.str (B "1")) (by rfl) (by simp)).2.1
  rw [h1, h2]
  exact ⟨by decide, by decide⟩

theorem encodeScalarW_err (e : Encoder) (w : Writer) (v : Option Bytes) (pt : ParentType)
    (indent : Nat) : (encodeScalarW e w v pt indent).2 = none := by
  unfold encodeScalarW
  cases v <;> rfl

theorem encodeStructW_err (e : Encoder) (w : Writer) (pt : ParentType) :
    (encodeStructW e w pt).2 = none := rfl

theorem encodeKeysW_err (e : Encoder) (child : Bytes → Writer → Writer × Option Err)
    (hc : ∀ k w, (child k w).2 = none) (pt : ParentType) (indent : Nat) (first : Bool)
    (keys : List Bytes) (w : Writer) : (encodeKeysW e child pt indent first keys w).2 = none := by
  induction keys generalizing first w with
  | nil => rfl
  | cons k t ih =>
    rw [encodeKeysW]
    have h := hc k (Fprintf (if first then w else Fprintf w (Fprintf0 e.newline))
      (indents e indent ++ encodeStr e.tbl k))
    generalize child k (Fprintf (if first then w else Fprintf w (Fprintf0 e.newline))
      (indents e indent ++ encodeStr e.tbl k)) = r at h
    obtain ⟨w3, err⟩ := r
    dsimp only at h
    subst h
    exact ih _ _

theorem encodeMapW_err (e : Encoder) (child : Bytes → Writer → Writer × Option Err)
    (hc : ∀ k w, (child k w).2 = none) (pt : ParentType) (indent : Nat)
    (keys : List Bytes) (w : Writer) : (encodeMapW e child pt indent keys w).2 = none := by
  unfold encodeMapW
  have h := encodeKeysW_err e child hc pt indent true keys w
  generalize encodeKeysW e child pt indent true keys w = r at h
  obtain ⟨w1, err⟩ := r
  dsimp only at h
  subst h
  rfl

theorem encodeStrsW_err (e : Encoder) (indent : Nat) (first : Bool) (l : List Bytes)
    (w : Writer) : (encodeStrsW e indent first l w).2 = none := by
  induction l generalizing first w with
  | nil => rfl
  | cons x t ih =>
    rw [encodeStrsW]
    have h := encodeScalarW_err e (Fprintf w (if first then Fprintf0 e.newline else [44] ++ e.newline))
      (some x) ParentType.parent_array (indent + 1)
    generalize encodeScalarW e (Fprintf w (if first then Fprintf0 e.newline else [44] ++ e.newline))
      (some x) ParentType.parent_array (indent + 1) = r at h
    obtain ⟨w1, err⟩ := r
    dsimp only at h
    subst h
    exact ih _ _

theorem lookup_getD_err (cs : List (Bytes × (Writer → Writer × Option Err)))
    (d : Writer → Writer × Option Err)
    (hcs : ∀ kf ∈ cs, ∀ w, (kf.2 w).2 = none) (hd : ∀ w, (d w).2 = none) (k : Bytes) (w : Writer) :
    (((cs.lookup k).getD d) w).2 = none := by
  induction cs with
  | nil => exact hd w
  | cons kf t ih =>
    obtain ⟨k1, f⟩ := kf
    rw [List.lookup]
    cases hk : (k == k1) with
    | true => exact hcs (k1, f) (by simp) w
    | false => exact ih (fun kf hkf => hcs kf (by simp [hkf]))

mutual

theorem doencodeW_err (e : Encoder) (v : Value) (pt : ParentType) (indent : Nat) (w : Writer) :
    (doencodeW e v pt indent w).2 = none := by
  cases v with
  | map m =>
    rw [doencodeW]
    have hc : ∀ k w, ((((mapChildrenW e m indent).lookup k).getD
        (fun w1 => encodeScalarW e w1 none ParentType.parent_map (indent + 1))) w).2 = none :=
      fun k w => lookup_getD_err _ _ (mapChildrenW_err e m indent)
        (fun w => encodeScalarW_err e w none _ _) k w
    split
    · exact encodeMapW_err e _ hc pt indent _ w
    · exact encodeMapW_err e _ hc pt indent _ w
  | list l =>
    rw [doencodeW]
    exact sliceElemsW_err e l indent true _
  | strs l =>
    rw [doencodeW]
    exact encodeStrsW_err e indent true l _
  | tag t => rw [doencodeW]; exact encodeStructW_err e w pt
  | str s => rw [doencodeW]; exact encodeScalarW_err e w _ pt indent
  | null => rw [doencodeW]; exact encodeScalarW_err e w _ pt indent

theorem mapChildrenW_err (e : Encoder) (m : List (Bytes × Value)) (indent : Nat) :
    ∀ kf ∈ mapChildrenW e m indent, ∀ w, (kf.2 w).2 = none := by
  cases m with
  | nil => intro kf hkf; simp [mapChildrenW] at hkf
  | cons kv t =>
    obtain ⟨k, v⟩ := kv
    have ht := mapChildrenW_err e t indent
    have hv := fun pt ind w => doencodeW_err e v pt ind w
    intro kf hkf w
    cases v <;> simp only [mapChildrenW, List.mem_cons] at hkf <;> rcases hkf with h | h
    all_goals first
      | exact ht kf h w
      | (subst h
         dsimp only
         exact hv _ _ _)

theorem sliceElemsW_err (e : Encoder) (l : List Value) (indent : Nat) (first : Bool)
    (w : Writer) : (sliceElemsW e l indent first w).2 = none := by
  cases l with
  | nil => rfl
  | cons v t =>
    have hv := fun pt ind w => doencodeW_err e v pt ind w
    have ht := fun w => sliceElemsW_err e t indent false w
    cases v
    all_goals simp only [sliceElemsW]
    all_goals first
      | (have h2 := hv ParentType.parent_array (indent + 1)
           (Fprintf w (if first then Fprintf0 e.newline else [44] ++ e.newline))
         generalize doencodeW e _ ParentType.parent_array (indent + 1)
           (Fprintf w (if first then Fprintf0 e.newline else [44] ++ e.newline)) = r at h2 ⊢
         obtain ⟨w2, err⟩ := r
         dsimp only at h2
         subst h2
         exact ht _)
      | (have h2 := hv ParentType.parent_array indent
           (Fprintf w (if first then Fprintf0 e.newline else [44] ++ e.newline))
         generalize doencodeW e _ ParentType.parent_array indent
           (Fprintf w (if first then Fprintf0 e.newline else [44] ++ e.newline)) = r at h2 ⊢
         obtain ⟨w2, err⟩ := r
         dsimp only at h2
         subst h2
         exact ht _)
      | (have h2 := hv ParentType.parent_array (indent + 2)
           (Fprintf (Fprintf w (if first then Fprintf0 e.newline else [44] ++ e.newline))
              (e.indenter ++ indents e indent ++ [123] ++ e.newline))
         generalize doencodeW e _ ParentType.parent_array (indent + 2)
           (Fprintf (Fprintf w (if first then Fprintf0 e.newline else [44] ++ e.newline))
              (e.indenter ++ indents e indent ++ [123] ++ e.newline)) = r at h2 ⊢
         obtain ⟨w2, err⟩ := r
         dsimp only at h2
         subst h2
         exact ht _)

end

theorem Wrote_refl (w : Writer) : Wrote w w [] := by
  simp [Wrote]

theorem Wrote_trans (w w1 w2 : Writer) (a b : Bytes) (h1 : Wrote w w1 a) (h2 : Wrote w1 w2 b) :
    Wrote w w2 (a ++ b) := by
  obtain ⟨h1c, h1f⟩ := h1
  obtain ⟨h2c, h2f⟩ := h2
  exact ⟨by rw [h2c, h1c, List.append_assoc], by rw [h2f, h1f]⟩

theorem Wrote_Fprintf (w : Writer) (text : Bytes) : Wrote w (Fprintf w text) text := by
  simp [Wrote, Fprintf, Writer.Write]

theorem Wrote_then (w w1 : Writer) (a b : Bytes) (h1 : Wrote w w1 a) :
    Wrote w (Fprintf w1 b) (a ++ b) :=
  Wrote_trans w w1 _ a b h1 (Wrote_Fprintf w1 b)

theorem Wrote_eq (w w1 : Writer) (a b : Bytes) (h : Wrote w w1 a) (hab : a = b) : Wrote w w1 b :=
  hab ▸ h

theorem encodeStringW_wrote (e : Encoder) (w : Writer) (s : Bytes) :
    Wrote w (encodeStringW e w s) (encodeString e s) := by
  unfold encodeStringW encodeString
  dsimp only
  generalize (if 160 < s.length then s.count 10 else 0) = nl
  by_cases h1 : 3 < nl
  · rw [if_pos h1, if_pos h1]
    exact Wrote_eq _ _ _ _
      (Wrote_then _ _ _ _ (Wrote_then _ _ _ _ (Wrote_Fprintf w _))) (by simp)
  · rw [if_neg h1, if_neg h1]
    by_cases h2 : s.length = 0
    · rw [if_pos h2, if_pos h2]; exact Wrote_Fprintf w _
    · rw [if_neg h2, if_neg h2]
      by_cases h3 : s.head? ≠ some 47
      · rw [if_pos h3, if_pos h3]; exact Wrote_Fprintf w _
      · rw [if_neg h3, if_neg h3]; exact Wrote_Fprintf w _

theorem encodeScalarW_wrote (e : Encoder) (w : Writer) (v : Option Bytes) (pt : ParentType)
    (indent : Nat) : Wrote w (encodeScalarW e w v pt indent).1 (encodeScalar e v pt indent) := by
  unfold encodeScalarW encodeScalar
  have h1 : Wrote w (if pt = ParentType.parent_array then Fprintf w (indents e indent) else w)
      (if pt = ParentType.parent_array then indents e indent else []) := by
    split_ifs
    · exact Wrote_Fprintf w _
    · exact Wrote_refl w
  dsimp only
  generalize (if pt = ParentType.parent_array then Fprintf w (indents e indent) else w) = w1
    at h1 ⊢
  generalize (if pt = ParentType.parent_array then indents e indent else []) = t1 at h1 ⊢
  cases v with
  | some s => exact Wrote_trans _ _ _ _ _ h1 (encodeStringW_wrote e _ s)
  | none =>
    refine Wrote_trans _ _ _ _ _ h1 ?_
    dsimp only
    by_cases hn : e.nilval ≠ []
    · rw [if_pos hn, if_pos hn]; exact Wrote_Fprintf _ _
    · rw [if_neg hn, if_neg hn]; exact Wrote_refl _

theorem encodeStructW_wrote (e : Encoder) (w : Writer) (pt : ParentType) :
    Wrote w (encodeStructW e w pt).1 (encodeStruct e pt) := by
  unfold encodeStructW encodeStruct
  dsimp only
  refine Wrote_trans _ _ _ _ _ (Wrote_then _ _ _ _ (Wrote_Fprintf w _)) ?_
  split_ifs
  · exact Wrote_Fprintf _ _
  · exact Wrote_refl _

theorem encodeKeysW_wrote (e : Encoder) (childW : Bytes → Writer → Writer × Option Err)
    (child : Bytes → Bytes) (hc : ∀ k w, (childW k w).2 = none)
    (hw : ∀ k w, Wrote w (childW k w).1 (child k)) (pt : ParentType) (indent : Nat)
    (first : Bool) (keys : List Bytes) (w : Writer) :
    Wrote w (encodeKeysW e childW pt indent first keys w).1
      (encodeKeys e child pt indent first keys) := by
  induction keys generalizing first w with
  | nil => exact Wrote_refl w
  | cons k t ih =>
    rw [encodeKeysW, encodeKeys]
    have h1 : Wrote w (if first then w else Fprintf w (Fprintf0 e.newline))
        (if first then [] else Fprintf0 e.newline) := by
      cases first
      · exact Wrote_Fprintf w _
      · exact Wrote_refl w
    have h2 := Wrote_then _ _ _ (indents e indent ++ encodeStr e.tbl k) h1
    have h3 := hw k (Fprintf (if first then w else Fprintf w (Fprintf0 e.newline))
      (indents e indent ++ encodeStr e.tbl k))
    have h4 := hc k (Fprintf (if first then w else Fprintf w (Fprintf0 e.newline))
      (indents e indent ++ encodeStr e.tbl k))
    generalize childW k (Fprintf (if first then w else Fprintf w (Fprintf0 e.newline))
      (indents e indent ++ encodeStr e.tbl k)) = r at h3 h4
    obtain ⟨w3, err⟩ := r
    dsimp only at h3 h4
    subst h4
    dsimp only
    have h5 : Wrote w3 (if pt ≠ ParentType.parent_array then Fprintf w3 [59] else w3)
        (if pt ≠ ParentType.parent_array then [59] else []) := by
      split_ifs
      · exact Wrote_Fprintf w3 _
      · exact Wrote_refl w3
    have h6 := ih false (if pt ≠ ParentType.parent_array then Fprintf w3 [59] else w3)
    exact Wrote_eq _ _ _ _
      (Wrote_trans _ _ _ _ _ (Wrote_trans _ _ _ _ _ (Wrote_trans _ _ _ _ _ h2 h3) h5) h6)
      (by simp)

theorem encodeMapW_wrote (e : Encoder) (childW : Bytes → Writer → Writer × Option Err)
    (child : Bytes → Bytes) (hc : ∀ k w, (childW k w).2 = none)
    (hw : ∀ k w, Wrote w (childW k w).1 (child k)) (pt : ParentType) (indent : Nat)
    (keys : List Bytes) (w : Writer) :
    Wrote w (encodeMapW e childW pt indent keys w).1
      (encodeKeys e child pt indent true keys ++
        (if 0 < keys.length then Fprintf0 e.newline else [])) := by
  unfold encodeMapW
  have h1 := encodeKeysW_wrote e childW child hc hw pt indent true keys w
  have h2 := encodeKeysW_err e childW hc pt indent true keys w
  generalize encodeKeysW e childW pt indent true keys w = r at h1 h2
  obtain ⟨w1, err⟩ := r
  dsimp only at h1 h2
  subst h2
  dsimp only
  refine Wrote_trans _ _ _ _ _ h1 ?_
  split_ifs
  · exact Wrote_Fprintf _ _
  · exact Wrote_refl _

theorem encodeStrsW_wrote (e : Encoder) (indent : Nat) (first : Bool) (l : List Bytes)
    (w : Writer) : Wrote w (encodeStrsW e indent first l w).1 (encodeStrs e indent first l) := by
  induction l generalizing first w with
  | nil => exact Wrote_refl w
  | cons x t ih =>
    rw [encodeStrsW, encodeStrs]
    have h1 := Wrote_Fprintf w (if first then Fprintf0 e.newline else [44] ++ e.newline)
    have h2 := encodeScalarW_wrote e
      (Fprintf w (if first then Fprintf0 e.newline else [44] ++ e.newline))
      (some x) ParentType.parent_array (indent + 1)
    have h3 := encodeScalarW_err e
      (Fprintf w (if first then Fprintf0 e.newline else [44] ++ e.newline))
      (some x) ParentType.parent_array (indent + 1)
    generalize encodeScalarW e
      (Fprintf w (if first then Fprintf0 e.newline else [44] ++ e.newline))
      (some x) ParentType.parent_array (indent + 1) = r at h2 h3
    obtain ⟨w1, err⟩ := r
    dsimp only at h2 h3
    subst h3
    dsimp only
    exact Wrote_eq _ _ _ _ (Wrote_trans _ _ _ _ _ (Wrote_trans _ _ _ _ _ h1 h2) (ih false w1))
      (by simp)

theorem closeSlice_wrote (e : Encoder) (indent len : Nat) (w : Writer) (r : Writer × Option Err)
    (body : Bytes) (h : Wrote (Fprintf w [91]) r.1 body) :
    Wrote w (closeSlice e indent len r).1
      ([91] ++ body ++ (if 0 < len then Fprintf0 e.newline ++ indents e indent ++ [93] else [93])) := by
  unfold closeSlice
  dsimp only
  have h1 := Wrote_trans _ _ _ _ _ (Wrote_Fprintf w [91]) h
  refine Wrote_trans _ _ _ _ _ h1 ?_
  split_ifs
  · exact Wrote_eq _ _ _ _ (Wrote_then _ _ _ _ (Wrote_Fprintf r.1 _)) (by simp)
  · exact Wrote_Fprintf _ _

theorem lookup_getD_wrote (cw : List (Bytes × (Writer → Writer × Option Err)))
    (c : List (Bytes × Bytes)) (dw : Writer → Writer × Option Err) (d : Bytes)
    (h : ChildrenAgree cw c) (hd : ∀ w, Wrote w (dw w).1 d) (k : Bytes) (w : Writer) :
    Wrote w (((cw.lookup k).getD dw) w).1 ((c.lookup k).getD d) := by
  induction cw generalizing c with
  | nil =>
    cases h
    exact hd w
  | cons a ta ih =>
    cases h with
    | cons hab htl =>
      rename_i b tb
      obtain ⟨ka, fa⟩ := a
      obtain ⟨kb, vb⟩ := b
      obtain ⟨hk, hf⟩ := hab
      dsimp only at hk hf
      subst hk
      rw [List.lookup, List.lookup]
      cases hkk : (k == ka) with
      | true => exact hf w
      | false => exact ih tb htl

mutual

theorem doencodeW_wrote (e : Encoder) (v : Value) (pt : ParentType) (indent : Nat) (w : Writer) :
    Wrote w (doencodeW e v pt indent w).1 (doencode e v pt indent) := by
  cases v with
  | map m =>
    rw [doencodeW, doencode]
    have hc : ∀ k w, ((((mapChildrenW e m indent).lookup k).getD
        (fun w1 => encodeScalarW e w1 none ParentType.parent_map (indent + 1))) w).2 = none :=
      fun k w => lookup_getD_err _ _ (mapChildrenW_err e m indent)
        (fun w => encodeScalarW_err e w none _ _) k w
    have hw : ∀ k w, Wrote w ((((mapChildrenW e m indent).lookup k).getD
        (fun w1 => encodeScalarW e w1 none ParentType.parent_map (indent + 1))) w).1
        (((mapChildren e m indent).lookup k).getD
          (encodeScalar e none ParentType.parent_map (indent + 1))) :=
      fun k w => lookup_getD_wrote _ _ _ _ (mapChildrenW_agree e m indent)
        (fun w => encodeScalarW_wrote e w none _ _) k w
    cases h : mapGet m KeyOrder with
    | none =>
      simp only []
      exact Wrote_eq _ _ _ _ (encodeMapW_wrote e _ _ hc hw pt indent (m.map Prod.fst) w)
        (by simp)
    | some v =>
      cases v with
      | strs korder =>
        simp only []
        exact encodeMapW_wrote e _ _ hc hw pt indent korder w
      | null =>
        simp only []
        exact Wrote_eq _ _ _ _ (encodeMapW_wrote e _ _ hc hw pt indent (m.map Prod.fst) w)
          (by simp)
      | str x =>
        simp only []
        exact Wrote_eq _ _ _ _ (encodeMapW_wrote e _ _ hc hw pt indent (m.map Prod.fst) w)
          (by simp)
      | map x =>
        simp only []
        exact Wrote_eq _ _ _ _ (encodeMapW_wrote e _ _ hc hw pt indent (m.map Prod.fst) w)
          (by simp)
      | list x =>
        simp only []
        exact Wrote_eq _ _ _ _ (encodeMapW_wrote e _ _ hc hw pt indent (m.map Prod.fst) w)
          (by simp)
      | tag x =>
        simp only []
        exact Wrote_eq _ _ _ _ (encodeMapW_wrote e _ _ hc hw pt indent (m.map Prod.fst) w)
          (by simp)
  | list l =>
    rw [doencodeW, doencode]
    exact closeSlice_wrote e indent l.length w _ _ (sliceElemsW_wrote e l indent true _)
  | strs l =>
    rw [doencodeW, doencode]
    exact closeSlice_wrote e indent l.length w _ _ (encodeStrsW_wrote e indent true l _)
  | tag t => rw [doencodeW, doencode]; exact encodeStructW_wrote e w pt
  | str s => rw [doencodeW, doencode]; exact encodeScalarW_wrote e w _ pt indent
  | null => rw [doencodeW, doencode]; exact encodeScalarW_wrote e w _ pt indent

theorem mapChildrenW_agree (e : Encoder) (m : List (Bytes × Value)) (indent : Nat) :
    ChildrenAgree (mapChildrenW e m indent) (mapChildren e m indent) := by
  cases m with
  | nil => simp [mapChildrenW, mapChildren, ChildrenAgree]
  | cons kv t =>
    obtain ⟨k, v⟩ := kv
    have ht := mapChildrenW_agree e t indent
    have hv := fun pt ind w => doencodeW_wrote e v pt ind w
    cases v with
    | null =>
      simp only [mapChildrenW, mapChildren]
      exact List.Forall₂.cons ⟨rfl, fun w => hv ParentType.parent_map (indent + 1) w⟩ ht
    | str s =>
      simp only [mapChildrenW, mapChildren]
      exact List.Forall₂.cons ⟨rfl, fun w => Wrote_trans w (Fprintf w [32]) _ [32] _
        (Wrote_Fprintf w [32]) (hv ParentType.parent_map (indent + 1) (Fprintf w [32]))⟩ ht
    | tag tg =>
      simp only [mapChildrenW, mapChildren]
      exact List.Forall₂.cons ⟨rfl, fun w => Wrote_trans w (Fprintf w [32]) _ [32] _
        (Wrote_Fprintf w [32]) (hv ParentType.parent_map (indent + 1) (Fprintf w [32]))⟩ ht
    | list l =>
      simp only [mapChildrenW, mapChildren]
      exact List.Forall₂.cons ⟨rfl, fun w => Wrote_trans w (Fprintf w [32]) _ [32] _
        (Wrote_Fprintf w [32]) (hv ParentType.parent_map indent (Fprintf w [32]))⟩ ht
    | strs l =>
      simp only [mapChildrenW, mapChildren]
      exact List.Forall₂.cons ⟨rfl, fun w => Wrote_trans w (Fprintf w [32]) _ [32] _
        (Wrote_Fprintf w [32]) (hv ParentType.parent_map indent (Fprintf w [32]))⟩ ht
    | map c =>
      simp only [mapChildrenW, mapChildren]
      refine List.Forall₂.cons ⟨rfl, fun w => ?_⟩ ht
      have h2 := hv ParentType.parent_map (indent + 1)
        (Fprintf (Fprintf w [32]) ([123] ++ e.newline))
      have h1 : Wrote w (Fprintf (Fprintf w [32]) ([123] ++ e.newline))
          ([32] ++ ([123] ++ e.newline)) :=
        Wrote_then w (Fprintf w [32]) [32] ([123] ++ e.newline) (Wrote_Fprintf w [32])
      exact Wrote_eq _ _ _ _
        (Wrote_then w _ _ (indents e indent ++ [125]) (Wrote_trans w _ _ _ _ h1 h2))
        (by simp)

/-- The loop of `encodeSlice` when the element wrote `text` without error. -/
theorem sliceElemsW_step (e : Encoder) (t : List Value) (indent : Nat) (w : Writer)
    (r : Writer × Option Err) (text : Bytes) (hr : r.2 = none) (hw : Wrote w r.1 text)
    (ht : ∀ w2, Wrote w2 (sliceElemsW e t indent false w2).1 (sliceElems e t indent false)) :
    Wrote w (match r with
      | (w2, some err) => (w2, some err)
      | (w2, none) => sliceElemsW e t indent false w2).1
      (text ++ sliceElems e t indent false) := by
  obtain ⟨w2, err⟩ := r
  dsimp only at hr hw
  subst hr
  dsimp only
  exact Wrote_trans w w2 _ _ _ hw (ht w2)

theorem sliceElemsW_wrote (e : Encoder) (l : List Value) (indent : Nat) (first : Bool)
    (w : Writer) : Wrote w (sliceElemsW e l indent first w).1 (sliceElems e l indent first) := by
  cases l with
  | nil => exact Wrote_refl w
  | cons v t =>
    have hv := fun pt ind w => doencodeW_wrote e v pt ind w
    have he := fun pt ind w => doencodeW_err e v pt ind w
    have ht := fun w => sliceElemsW_wrote e t indent false w
    have h0 := Wrote_Fprintf w (if first then Fprintf0 e.newline else [44] ++ e.newline)
    generalize hw0 : Fprintf w (if first then Fprintf0 e.newline else [44] ++ e.newline) = w0
      at h0
    generalize hsep : (if first then Fprintf0 e.newline else [44] ++ e.newline) = sep at h0 hw0
    cases v with
    | null =>
      simp only [sliceElemsW, sliceElems, hsep, hw0]
      exact Wrote_eq _ _ _ _ (sliceElemsW_step e t indent w _ _
        (he ParentType.parent_array (indent + 1) w0)
        (Wrote_trans w w0 _ _ _ h0 (hv ParentType.parent_array (indent + 1) w0)) ht) (by simp)
    | str s =>
      simp only [sliceElemsW, sliceElems, hsep, hw0]
      exact Wrote_eq _ _ _ _ (sliceElemsW_step e t indent w _ _
        (he ParentType.parent_array (indent + 1) w0)
        (Wrote_trans w w0 _ _ _ h0 (hv ParentType.parent_array (indent + 1) w0)) ht) (by simp)
    | tag tg =>
      simp only [sliceElemsW, sliceElems, hsep, hw0]
      exact Wrote_eq _ _ _ _ (sliceElemsW_step e t indent w _ _
        (he ParentType.parent_array (indent + 1) w0)
        (Wrote_trans w w0 _ _ _ h0 (hv ParentType.parent_array (indent + 1) w0)) ht) (by simp)
    | list x =>
      simp only [sliceElemsW, sliceElems, hsep, hw0]
      exact Wrote_eq _ _ _ _ (sliceElemsW_step e t indent w _ _
        (he ParentType.parent_array indent w0)
        (Wrote_trans w w0 _ _ _ h0 (hv ParentType.parent_array indent w0)) ht) (by simp)
    | strs x =>
      simp only [sliceElemsW, sliceElems, hsep, hw0]
      exact Wrote_eq _ _ _ _ (sliceElemsW_step e t indent w _ _
        (he ParentType.parent_array indent w0)
        (Wrote_trans w w0 _ _ _ h0 (hv ParentType.parent_array indent w0)) ht) (by simp)
    | map c =>
      simp only [sliceElemsW, sliceElems, hsep, hw0]
      have h2 := hv ParentType.parent_array (indent + 2)
        (Fprintf w0 (e.indenter ++ indents e indent ++ [123] ++ e.newline))
      have h3 := he ParentType.parent_array (indent + 2)
        (Fprintf w0 (e.indenter ++ indents e indent ++ [123] ++ e.newline))
      have h1 := Wrote_then w w0 _ (e.indenter ++ indents e indent ++ [123] ++ e.newline) h0
      generalize doencodeW e (Value.map c) ParentType.parent_array (indent + 2)
        (Fprintf w0 (e.indenter ++ indents e indent ++ [123] ++ e.newline)) = r at h2 h3 ⊢
      obtain ⟨w2, err⟩ := r
      dsimp only at h2 h3
      subst h3
      dsimp only
      exact Wrote_eq _ _ _ _
        (Wrote_trans w _ _ _ _
          (Wrote_then w w2 _ (e.indenter ++ indents e indent ++ [125])
            (Wrote_trans w _ w2 _ _ h1 h2)) (ht _)) (by simp)

end

theorem EncodeW_err (tbl : Nat → Bool) (w : Writer) (v : Value) (indenter nilval : Bytes) :
    (EncodeW tbl w v indenter nilval).2 = none :=
  doencodeW_err _ v ParentType.parent_map 0 w

theorem EncodeW_wrote (tbl : Nat → Bool) (w : Writer) (v : Value) (indenter nilval : Bytes) :
    Wrote w (EncodeW tbl w v indenter nilval).1 (Encode tbl v indenter nilval) :=
  doencodeW_wrote _ v ParentType.parent_map 0 w

/-- C21 (counterexample): on a writer whose every `Write` returns an error,
`Encode` of the document decoded from `a 1;` makes its five `Write` calls,
for `a`, the blank, `1`, `;` and the newline, and returns a nil error. -/
theorem C21_writer_error_not_returned :
    (∀ n, brokenWriter.fails n = true) ∧
    (brokenWriter.Write (B "a")).2 = true ∧
    (Ucl true [B "a 1;"]).ucl = oneEntryDoc ∧
    (EncodeW noTbl brokenWriter oneEntryDoc (B "   ") []).1.calls =
      [B "a", B " ", B "1", B ";", B "\n"] ∧
    (EncodeW noTbl brokenWriter oneEntryDoc (B "   ") []).2 = none := by
  refine ⟨fun n => rfl, by rfl, by rfl, by decide, by decide⟩

/-- C21 (amended): the encoder does not look at the results of its writes.
For every writer, whichever of its `Write` calls fail, and every value of the
document model, `Encode` returns a nil error, and the `Write` calls it makes
add up to the text that it writes to a writer that never fails: no write is
given up after a failure. -/
theorem C21_encode_returns_nil_whatever_the_writer (tbl : Nat → Bool) (w : Writer) (v : Value)
    (indenter nilval : Bytes) :
    (EncodeW tbl w v indenter nilval).2 = none ∧
    (EncodeW tbl w v indenter nilval).1.calls.flatten =
      w.calls.flatten ++ Encode tbl v indenter nilval ∧
    (EncodeW tbl w v indenter nilval).1.fails = w.fails :=
  ⟨EncodeW_err tbl w v indenter nilval, (EncodeW_wrote tbl w v indenter nilval).1,
    (EncodeW_wrote tbl w v indenter nilval).2⟩

theorem Runs_append (s s1 s2 : Scanner) (tags tags1 tags2 : List Tag) (a b : Bytes)
    (h1 : Runs s tags a s1 tags1) (h2 : Runs s1 tags1 b s2 tags2) :
    Runs s tags (a ++ b) s2 tags2 := by
  induction h1 with
  | nil s tags => exact h2
  | cons s sa sb tags tagsa tagsb c w hstep _ ih =>
    exact Runs.cons s sa s2 tags tagsa tags2 c (w ++ b) hstep (ih h2)

theorem Runs_split (a b : Bytes) :
    ∀ (s s2 : Scanner) (tags tags2 : List Tag), Runs s tags (a ++ b) s2 tags2 →
      ∃ sm tm, Runs s tags a sm tm ∧ Runs sm tm b s2 tags2 := by
  induction a with
  | nil =>
    intro s s2 tags tags2 h
    exact ⟨s, tags, Runs.nil s tags, h⟩
  | cons c a ih =>
    intro s s2 tags tags2 h
    cases h with
    | cons _ s1 _ _ tags1 _ _ _ hstep hrest =>
      obtain ⟨sm, tm, h1, h2⟩ := ih s1 s2 tags1 tags2 hrest
      exact ⟨sm, tm, Runs.cons s s1 sm tags tags1 tm c a hstep h1, h2⟩

theorem Runs_one (s s1 : Scanner) (tags tags1 : List Tag) (c : Nat)
    (h : ∀ rest, step s tags c rest = Step.cont s1 tags1 0) : Runs s tags [c] s1 tags1 :=
  Runs.cons s s1 s1 tags tags1 tags1 c [] h (Runs.nil s1 tags1)

/-- Over a run of rounds that go round again, the loop over the buffer moves
on to what follows the run. -/
theorem Runs_buf (s s1 : Scanner) (tags tags1 : List Tag) (w : Bytes)
    (h : Runs s tags w s1 tags1) (rest : Bytes) :
    nexttagsBuf s tags 0 (w ++ rest) = nexttagsBuf s1 tags1 0 rest := by
  induction h with
  | nil s tags => rfl
  | cons s sa sb tags tagsa tagsb c w hstep _ ih =>
    rw [List.cons_append, nexttagsBuf, hstep]
    exact ih

theorem Runs_more (s s1 : Scanner) (tags tags1 : List Tag) (w : Bytes)
    (h : Runs s tags w s1 tags1) : nexttagsBuf s tags 0 w = BufOut.more s1 tags1 := by
  have := Runs_buf s s1 tags tags1 w h []
  rw [List.append_nil] at this
  rw [this, nexttagsBuf]

/-- A run that ends in a returning round, read through any split of the
input into the unread buffer and the reads of the reader, each of which
delivers bytes with a nil error: the call returns the tags of that round and
leaves the input that follows it. -/
theorem scanFrom_ret (c : Nat) (s1 s2 : Scanner) (tags1 tags2 : List Tag)
    (hret : ∀ rest, step s1 tags1 c rest = Step.ret s2 tags2) :
    ∀ (r : List Rd) (buf : Bytes) (s : Scanner) (tags : List Tag) (w tail : Bytes),
      Runs s tags w s1 tags1 → (∀ x ∈ r, x.data ≠ [] ∧ x.err = none) →
      buf ++ (r.map Rd.data).flatten = w ++ c :: tail →
      ∃ buf1 r1, (∀ x ∈ r1, x.data ≠ [] ∧ x.err = none) ∧
        buf1 ++ (r1.map Rd.data).flatten = tail ∧
        nexttagsFrom s tags buf r = ⟨s2, buf1, r1, Except.ok tags2⟩ := by
  intro r
  induction r with
  | nil =>
    intro buf s tags w tail hrun _ hin
    simp only [List.map_nil, List.flatten_nil, List.append_nil] at hin
    subst hin
    refine ⟨tail, [], by simp, by simp, ?_⟩
    rw [nexttagsFrom, Runs_buf s s1 tags tags1 w hrun, nexttagsBuf, hret]
  | cons chunk r1 ih =>
    intro buf s tags w tail hrun hne hin
    obtain ⟨data, err⟩ := chunk
    obtain ⟨hchunk, herr⟩ := hne ⟨data, err⟩ (by simp)
    simp only at hchunk herr
    subst herr
    have hne1 : ∀ x ∈ r1, x.data ≠ [] ∧ x.err = none := fun x hx => hne x (by simp [hx])
    simp only [List.map_cons, List.flatten_cons] at hin
    have hmain : ∀ a, w = buf ++ a → data ++ (r1.map Rd.data).flatten = a ++ c :: tail →
        ∃ buf1 r2, (∀ x ∈ r2, x.data ≠ [] ∧ x.err = none) ∧
          buf1 ++ (r2.map Rd.data).flatten = tail ∧
          nexttagsFrom s tags buf (⟨data, none⟩ :: r1) = ⟨s2, buf1, r2, Except.ok tags2⟩ := by
      intro a ha hfl
      subst ha
      obtain ⟨sm, tm, hr1, hr2⟩ := Runs_split buf a s s1 tags tags1 hrun
      have hlen : ¬ data.length = 0 := fun h0 => hchunk (List.length_eq_zero.1 h0)
      rw [nexttagsFrom, Runs_more s sm tags tm buf hr1]
      simp only [if_neg hlen]
      exact ih data sm tm a tail hr2 hne1 hfl
    rcases List.append_eq_append_iff.1 hin with ⟨a, ha, hb⟩ | ⟨b, hb, hc⟩
    · exact hmain a ha hb
    · cases b with
      | nil =>
        exact hmain [] (by simpa using hb.symm) (by simpa using hc.symm)
      | cons c1 b2 =>
        simp only [List.cons_append, List.cons.injEq] at hc
        obtain ⟨hc1, hc2⟩ := hc
        subst hc1
        subst hb
        refine ⟨b2, ⟨data, none⟩ :: r1, hne, by simpa using hc2.symm, ?_⟩
        rw [nexttagsFrom, Runs_buf s s1 tags tags1 w hrun, nexttagsBuf, hret]

/-- A run that uses the whole input up, read through any split of the input
into the unread buffer and the reads of the reader, each of which delivers
bytes with a nil error: the call ends at the end of the input. -/
theorem scanFrom_eof (s1 : Scanner) (tags1 : List Tag) :
    ∀ (r : List Rd) (buf : Bytes) (s : Scanner) (tags : List Tag) (w : Bytes),
      Runs s tags w s1 tags1 → (∀ x ∈ r, x.data ≠ [] ∧ x.err = none) →
      buf ++ (r.map Rd.data).flatten = w →
      nexttagsFrom s tags buf r = eofOut s1 [] := by
  intro r
  induction r with
  | nil =>
    intro buf s tags w hrun _ hin
    simp only [List.map_nil, List.flatten_nil, List.append_nil] at hin
    subst hin
    rw [nexttagsFrom, Runs_more s s1 tags tags1 buf hrun]
  | cons chunk r1 ih =>
    intro buf s tags w hrun hne hin
    obtain ⟨data, err⟩ := chunk
    obtain ⟨hchunk, herr⟩ := hne ⟨data, err⟩ (by simp)
    simp only at hchunk herr
    subst herr
    have hne1 : ∀ x ∈ r1, x.data ≠ [] ∧ x.err = none := fun x hx => hne x (by simp [hx])
    simp only [List.map_cons, List.flatten_cons] at hin
    subst hin
    obtain ⟨sm, tm, hr1, hr2⟩ := Runs_split buf _ s s1 tags tags1 hrun
    have hlen : ¬ data.length = 0 := fun h0 => hchunk (List.length_eq_zero.1 h0)
    rw [nexttagsFrom, Runs_more s sm tags tm buf hr1]
    simp only [if_neg hlen]
    exact ih data sm tm _ hr2 hne1 rfl

theorem step_white_low (d ct : Bytes) (sw ss : Bool) (ln : Nat) (mt cl : Bytes)
    (c : Nat) (rest : Bytes) (hc : c ≤ 32) :
    step ⟨d, ct, St.WHITESPACE, sw, ss, ln, mt, cl⟩ [] c rest =
      Step.cont ⟨d, ct ++ [c], St.WHITESPACE, sw, ss, if c = 10 then ln + 1 else ln, mt, cl⟩
        [] 0 := by
  by_cases h10 : c = 10
  · simp [step, stepWhite, h10]
  · simp [step, stepWhite, h10, hc]

theorem WhiteEnd_blanks (ct ws : Bytes) (hct : WhiteEnd ct) (hws : ∀ b ∈ ws, b ≤ 32) :
    WhiteEnd (ct ++ ws) := by
  rcases List.eq_nil_or_concat ws with hnil | ⟨ws1, c, hwc⟩
  · subst hnil; simpa using hct
  · subst hwc
    rw [List.concat_eq_append, ← List.append_assoc]
    exact WhiteEnd_append _ c (hws c (by simp))

/-- Blanks in the whitespace state are gathered in `curtag`; each newline
among them counts a line. -/
theorem Runs_blanks (d : Bytes) (sw ss : Bool) (mt cl : Bytes) (ws : Bytes)
    (hws : ∀ b ∈ ws, b ≤ 32) :
    ∀ (ct : Bytes) (ln : Nat),
      Runs ⟨d, ct, St.WHITESPACE, sw, ss, ln, mt, cl⟩ [] ws
        ⟨d, ct ++ ws, St.WHITESPACE, sw, ss, ln + ws.count 10, mt, cl⟩ [] := by
  induction ws with
  | nil =>
    intro ct ln
    simpa using Runs.nil ⟨d, ct, St.WHITESPACE, sw, ss, ln, mt, cl⟩ []
  | cons c ws ih =>
    intro ct ln
    have hc : c ≤ 32 := hws c (by simp)
    have h := ih (fun b hb => hws b (by simp [hb])) (ct ++ [c]) (if c = 10 then ln + 1 else ln)
    have hst : (⟨d, ct ++ c :: ws, St.WHITESPACE, sw, ss, ln + (c :: ws).count 10, mt, cl⟩ : Scanner) =
        ⟨d, ct ++ [c] ++ ws, St.WHITESPACE, sw, ss, (if c = 10 then ln + 1 else ln) + ws.count 10,
          mt, cl⟩ := by
      by_cases h10 : c = 10
      · subst h10
        simp [List.count_cons]
        omega
      · have : (10 == c) = false := by simpa using fun h => h10 h.symm
        simp [List.count_cons, h10, this]
    rw [hst]
    exact Runs.cons _ _ _ _ _ _ c ws
      (fun rest => step_white_low d ct sw ss ln mt cl c rest hc) h

/-- The bytes of a bareword in the Tag state are appended to `curtag`. -/
theorem Runs_word (d : Bytes) (ss : Bool) (ln : Nat) (mt cl : Bytes) (tags : List Tag)
    (w : Bytes) (hw : ∀ c ∈ w, isBare c = true) :
    ∀ (ct : Bytes) (sw : Bool), ct.getLast? ≠ some 60 →
      Runs ⟨d, ct, St.TAG, sw, ss, ln, mt, cl⟩ tags w
        ⟨d, ct ++ w, St.TAG, if w ≠ [] ∧ 0 < tags.length then false else sw, ss, ln, mt, cl⟩
        tags := by
  induction w with
  | nil =>
    intro ct sw _
    simpa using Runs.nil ⟨d, ct, St.TAG, sw, ss, ln, mt, cl⟩ tags
  | cons c w ih =>
    intro ct sw hct
    have hc := hw c (by simp)
    have hw1 : ∀ x ∈ w, isBare x = true := fun x hx => hw x (by simp [hx])
    have hct1 : (ct ++ [c]).getLast? ≠ some 60 :=
      getLast?_append_bare ct [c] hct (by intro x hx; simp at hx; subst hx; exact hc)
    have h := ih hw1 (ct ++ [c]) (if 0 < tags.length then false else sw) hct1
    have hst : (⟨d, ct ++ c :: w, St.TAG,
          if c :: w ≠ [] ∧ 0 < tags.length then false else sw, ss, ln, mt, cl⟩ : Scanner) =
        ⟨d, ct ++ [c] ++ w, St.TAG,
          if w ≠ [] ∧ 0 < tags.length then false else (if 0 < tags.length then false else sw),
          ss, ln, mt, cl⟩ := by
      by_cases ht : 0 < tags.length <;> simp [ht]
    rw [hst]
    exact Runs.cons _ _ _ _ _ _ c w
      (fun rest => step_tag_bare d ct sw ss ln mt cl tags c rest hct hc) h

/-- The text of a statement up to its `;`, after any blanks: the scanner is
left in the Tag state holding the value, the key being the one pending tag. -/
theorem Runs_stmt (d ct : Bytes) (sw ss : Bool) (ln : Nat) (mt cl : Bytes) (ws k v : Bytes)
    (hct : WhiteEnd ct) (hws : ∀ b ∈ ws, b ≤ 32) (hk : Bareword k) (hv : Bareword v) :
    Runs ⟨d, ct, St.WHITESPACE, sw, ss, ln, mt, cl⟩ [] (ws ++ (k ++ 32 :: v))
      ⟨d, v, St.TAG, false, true, ln + ws.count 10, mt, cl⟩ [⟨k, St.TAG⟩] := by
  obtain ⟨hkne, hkb⟩ := hk
  obtain ⟨hvne, hvb⟩ := hv
  cases k with
  | nil => exact absurd rfl hkne
  | cons c k1 =>
    have hc := hkb c (by simp)
    have hk1 : ∀ x ∈ k1, isBare x = true := fun x hx => hkb x (by simp [hx])
    have h1 : ([c] : Bytes).getLast? ≠ some 60 :=
      getLast?_append_bare [] [c] nil_getLast?_ne (by intro x hx; simp at hx; subst hx; exact hc)
    have h2 : ([c] ++ k1).getLast? ≠ some 60 := getLast?_append_bare [c] k1 h1 hk1
    have hA := Runs_blanks d sw ss mt cl ws hws ct ln
    have hB := Runs_one _ _ _ _ c
      (fun rest => step_white_bare d (ct ++ ws) sw ss (ln + ws.count 10) mt cl [] c rest
        (WhiteEnd_blanks ct ws hct hws) hc)
    have hC := Runs_word d true (ln + ws.count 10) mt cl [] k1 hk1 [c] true h1
    have hD := Runs_one _ _ _ _ 32
      (fun rest => step_tag_space_first d ([c] ++ k1)
        (if k1 ≠ [] ∧ 0 < ([] : List Tag).length then false else true) true
        (ln + ws.count 10) mt cl rest h2 (by simp))
    have hE := Runs_word d true (ln + ws.count 10) mt cl [⟨[c] ++ k1, St.TAG⟩] v hvb []
      (if k1 ≠ [] ∧ 0 < ([] : List Tag).length then false else true) nil_getLast?_ne
    have hall := Runs_append _ _ _ _ _ _ _ _ hA
      (Runs_append _ _ _ _ _ _ _ _ hB
        (Runs_append _ _ _ _ _ _ _ _ hC (Runs_append _ _ _ _ _ _ _ _ hD hE)))
    simpa [hvne] using hall

/-- One statement, after any blanks, read through any split of the input:
the call returns the key, the value and the `;`. -/
theorem scan_stmt_chunks (d ct : Bytes) (sw ss : Bool) (ln : Nat) (mt cl : Bytes)
    (ws k v tail buf : Bytes) (r : List Rd)
    (hct : WhiteEnd ct) (hws : ∀ b ∈ ws, b ≤ 32) (hk : Bareword k) (hv : Bareword v)
    (hne : ∀ x ∈ r, x.data ≠ [] ∧ x.err = none)
    (hin : buf ++ (r.map Rd.data).flatten = ws ++ (k ++ 32 :: (v ++ 59 :: tail))) :
    ∃ buf1 r1, (∀ x ∈ r1, x.data ≠ [] ∧ x.err = none) ∧
      buf1 ++ (r1.map Rd.data).flatten = tail ∧
      nexttagsFrom ⟨d, ct, St.WHITESPACE, sw, ss, ln, mt, cl⟩ [] buf r =
        ⟨⟨d, [], St.WHITESPACE, false, true, ln + ws.count 10, mt, cl⟩, buf1, r1,
          Except.ok [⟨k, St.TAG⟩, ⟨v, St.TAG⟩, ⟨[59], St.SEMICOL⟩]⟩ := by
  have hrun := Runs_stmt d ct sw ss ln mt cl ws k v hct hws hk hv
  have h3 : v.getLast? ≠ some 60 := by
    simpa using getLast?_append_bare [] v nil_getLast?_ne hv.2
  have hret : ∀ rest, step ⟨d, v, St.TAG, false, true, ln + ws.count 10, mt, cl⟩
      [⟨k, St.TAG⟩] 59 rest =
      Step.ret ⟨d, [], St.WHITESPACE, false, true, ln + ws.count 10, mt, cl⟩
        [⟨k, St.TAG⟩, ⟨v, St.TAG⟩, ⟨[59], St.SEMICOL⟩] := by
    intro rest
    simpa using step_tag_semi d v false true (ln + ws.count 10) mt cl [⟨k, St.TAG⟩] rest h3 hv.1
  exact scanFrom_ret 59 _ _ _ _ hret r buf _ _ (ws ++ (k ++ 32 :: v)) tail hrun hne
    (by simpa using hin)

theorem nexttag_scanFrom (s s1 : Scanner) (buf buf1 : Bytes) (r r1 : List Rd) (t : Tag)
    (tags1 ts : List Tag)
    (h : nexttagsFrom s [] buf r = ⟨s1, buf1, r1, Except.ok tags1⟩)
    (ht : tags1.dropWhile filtered = t :: ts) :
    nexttag ⟨s, buf, r, []⟩ = (Except.ok t, ⟨s1, buf1, r1, ts⟩) := by
  simp [nexttag, nexttagLoop, nexttags, h, ht]

theorem parse_kv_of_scanFrom (ko : Bool) (f : Nat) (S S1 : Scanner) (buf buf1 k v : Bytes)
    (r r1 : List Rd) (m : GoMap) (korder : Option (List Bytes))
    (hscan : nexttagsFrom S [] buf r =
      ⟨S1, buf1, r1, Except.ok [⟨k, St.TAG⟩, ⟨v, St.TAG⟩, ⟨[59], St.SEMICOL⟩]⟩)
    (hm : korderOf ko m = Except.ok korder) :
    parse ko (f + 4) ⟨S, buf, r, []⟩ none (Value.map m) =
      parse ko (f + 2) ⟨S1, buf1, r1, []⟩ none (Value.map (insertKey m korder k (Value.str v))) := by
  have h1 := nexttag_scanFrom _ _ _ _ _ _ ⟨k, St.TAG⟩ _ [⟨v, St.TAG⟩, ⟨[59], St.SEMICOL⟩] hscan
    (by simp [List.dropWhile, filtered])
  have h2 := nexttag_tags S1 buf1 r1 ⟨v, St.TAG⟩ [⟨[59], St.SEMICOL⟩] (by simp [filtered])
  have h3 := nexttag_tags S1 buf1 r1 ⟨[59], St.SEMICOL⟩ [] (by simp [filtered])
  rw [parse_none, h1]
  simp only []
  rw [parse_key, hm]
  simp only []
  rw [parsevalue_none, h2]
  simp only []
  rw [parsevalue_word, h3]
  simp

theorem parse_eof_of_scan (ko : Bool) (f : Nat) (s s1 : Scanner) (buf : Bytes) (r : List Rd)
    (parent : Value) (h : nexttagsFrom s [] buf r = eofOut s1 []) (hd : s1.depth = []) :
    parse ko (f + 1) ⟨s, buf, r, []⟩ none parent =
      ⟨Value.null, some Err.EOF, parent, ⟨s1, [], [], []⟩⟩ := by
  rw [parse_none]
  simp [nexttag, nexttagLoop, nexttags, h, eofOut, hd]

/-- The statements `k1 v1;` .. `kn vn;` with blanks `nl` between them and
blanks `trail` after the last one, read through any split of the input into
the unread buffer and the chunks of the reader: `parse` stores the entries in
this order and ends at the end of the input. -/
theorem decode_lines (nl trail : Bytes) (hnl : ∀ b ∈ nl, b ≤ 32) (htr : ∀ b ∈ trail, b ≤ 32)
    (f : Nat) (mt cl : Bytes) (kvs : List (Bytes × Bytes)) :
    ∀ (first : Bool) (es : List (Bytes × Value)) (ct : Bytes) (sw ss : Bool) (ln : Nat)
      (buf : Bytes) (r : List Rd),
      (∀ kv ∈ kvs, Bareword kv.1 ∧ Bareword kv.2 ∧ kv.1 ≠ KeyOrder) →
      (es.map Prod.fst ++ kvs.map Prod.fst).Nodup →
      WhiteEnd ct → (∀ x ∈ r, x.data ≠ [] ∧ x.err = none) →
      buf ++ (r.map Rd.data).flatten = encLines nl first kvs ++ trail →
      ∃ p1,
        parse true (2 * kvs.length + (f + 2))
            ⟨⟨[], ct, St.WHITESPACE, sw, ss, ln, mt, cl⟩, buf, r, []⟩ none
            (Value.map (docOf es)) =
          ⟨Value.null, some Err.EOF, Value.map (docOf (es ++ entriesOf kvs)), p1⟩ := by
  induction kvs with
  | nil =>
    intro first es ct sw ss ln buf r _ _ _ hne hin
    have hrun := Runs_blanks [] sw ss mt cl trail htr ct ln
    have hscan := scanFrom_eof _ _ r buf _ _ trail hrun hne (by simpa [encLines] using hin)
    refine ⟨⟨⟨[], ct ++ trail, St.WHITESPACE, sw, ss, ln + trail.count 10, mt, cl⟩, [], [], []⟩, ?_⟩
    have hfu : 2 * ([] : List (Bytes × Bytes)).length + (f + 2) = (f + 1) + 1 := by simp
    rw [hfu, parse_eof_of_scan true (f + 1) _ _ buf r _ hscan rfl]
    simp [entriesOf]
  | cons kv kvs ih =>
    intro first es ct sw ss ln buf r hb hnd hct hne hin
    obtain ⟨k, v⟩ := kv
    obtain ⟨hk, hv, hkk⟩ := hb (k, v) (by simp)
    have hb1 : ∀ kv ∈ kvs, Bareword kv.1 ∧ Bareword kv.2 ∧ kv.1 ≠ KeyOrder :=
      fun kv h => hb kv (by simp [h])
    have hfresh : k ∉ es.map Prod.fst := by
      intro hmem
      have := List.nodup_append.1 hnd
      exact this.2.2 hmem (by simp)
    have hnd1 : ((es ++ [(k, Value.str v)]).map Prod.fst ++ kvs.map Prod.fst).Nodup := by
      simpa [List.append_assoc] using hnd
    have hws : ∀ b ∈ (if first then ([] : Bytes) else nl), b ≤ 32 := by
      intro b hb
      cases first
      · exact hnl b (by simpa using hb)
      · simp at hb
    have hin1 : buf ++ (r.map Rd.data).flatten =
        (if first then ([] : Bytes) else nl) ++
          (k ++ 32 :: (v ++ 59 :: (encLines nl false kvs ++ trail))) := by
      rw [hin]
      simp [encLines]
    obtain ⟨buf1, r1, hne1, hrest, hscan⟩ :=
      scan_stmt_chunks [] ct sw ss ln mt cl _ k v _ buf r hct hws hk hv hne hin1
    obtain ⟨p1, h⟩ := ih false (es ++ [(k, Value.str v)]) [] false true
      (ln + (if first then ([] : Bytes) else nl).count 10) buf1 r1 hb1 hnd1 WhiteEnd_nil hne1 hrest
    refine ⟨p1, ?_⟩
    have hfuel : 2 * ((k, v) :: kvs).length + (f + 2) = (2 * kvs.length + f) + 4 := by
      simp only [List.length_cons]
      omega
    rw [hfuel, parse_kv_of_scanFrom true _ _ _ buf buf1 k v r r1 _ _ hscan (korderOf_docOf es),
      insertKey_docOf es k (Value.str v) hkk hfresh]
    have hfuel2 : 2 * kvs.length + f + 2 = 2 * kvs.length + (f + 2) := by omega
    rw [hfuel2, h]
    simp [entriesOf, List.append_assoc]

theorem encLines_length (nl : Bytes) (kvs : List (Bytes × Bytes)) :
    ∀ first, kvs.length ≤ (encLines nl first kvs).length := by
  induction kvs with
  | nil => intro first; simp [encLines]
  | cons kv kvs ih =>
    intro first
    have := ih false
    simp only [encLines, List.length_append, List.length_cons, List.length_nil]
    omega

/-- Decoding the text of the statements from any reader that delivers it in
reads of at least one byte, each with a nil error, gives the document of the
entries and a nil error. -/
theorem decode_lines_Ucl (nl trail : Bytes) (hnl : ∀ b ∈ nl, b ≤ 32) (htr : ∀ b ∈ trail, b ≤ 32)
    (kvs : List (Bytes × Bytes)) (r : List Rd)
    (hb : ∀ kv ∈ kvs, Bareword kv.1 ∧ Bareword kv.2 ∧ kv.1 ≠ KeyOrder)
    (hnd : (kvs.map Prod.fst).Nodup) (hne : ∀ x ∈ r, x.data ≠ [] ∧ x.err = none)
    (hin : (r.map Rd.data).flatten = encLines nl true kvs ++ trail) :
    (Ucl true r).ucl = Value.map (docOf (entriesOf kvs)) ∧ (Ucl true r).err = none := by
  have hlen : kvs.length ≤ (r.map (fun rd => rd.data.length)).sum := by
    have h1 := encLines_length nl kvs true
    have h2 : (r.map (fun rd => rd.data.length)).sum = (r.map Rd.data).flatten.length := by
      rw [List.length_flatten, List.map_map]
      rfl
    rw [h2, hin, List.length_append]
    omega
  obtain ⟨f, hf⟩ : ∃ f, uclFuel r = 2 * kvs.length + (f + 2) := by
    refine ⟨uclFuel r - 2 * kvs.length - 2, ?_⟩
    unfold uclFuel
    omega
  obtain ⟨p1, h⟩ := decode_lines nl trail hnl htr f [] [] kvs true [] [] false false 1 [] r hb
    (by simpa using hnd) WhiteEnd_nil hne (by simpa using hin)
  have hparse : parse true (uclFuel r) (NewParser r) none (Value.map []) =
      ⟨Value.null, some Err.EOF, Value.map (docOf (entriesOf kvs)), p1⟩ := by
    rw [hf]
    simpa [docOf] using h
  rw [Ucl_of_parse _ _ _ _ _ _ hparse]
  simp

theorem flatMap_eq_docOf (kvs : List (Bytes × Bytes)) (h : kvs ≠ []) :
    flatMap kvs = docOf (entriesOf kvs) := by
  cases kvs with
  | nil => exact absurd rfl h
  | cons kv kvs => simp [flatMap, docOf, entriesOf]

theorem flatMap_keyOrder (kvs : List (Bytes × Bytes)) :
    mapGet (flatMap kvs) KeyOrder = some (Value.strs (kvs.map Prod.fst)) := by
  simp [flatMap, mapGet]

theorem mapGet_entriesOf (kvs : List (Bytes × Bytes)) (k : Bytes) (hk : k ∈ kvs.map Prod.fst) :
    ∃ v, mapGet (entriesOf kvs) k = some (Value.str v) := by
  induction kvs with
  | nil => simp at hk
  | cons kv kvs ih =>
    obtain ⟨k1, v1⟩ := kv
    by_cases h1 : k1 = k
    · exact ⟨v1, by simp [entriesOf, mapGet, h1]⟩
    · have hk1 : k ∈ kvs.map Prod.fst := by
        simp only [List.map_cons, List.mem_cons] at hk
        rcases hk with h | h
        · exact absurd h.symm h1
        · exact h
      obtain ⟨v, hv⟩ := ih hk1
      refine ⟨v, ?_⟩
      simp only [entriesOf, List.map_cons, mapGet, if_neg h1]
      exact hv

/-- Every key of the key-order list of a flat map holds a value. -/
theorem flatMap_present (kvs : List (Bytes × Bytes)) (k : Bytes) (hk : k ∈ kvs.map Prod.fst) :
    ∃ v, mapGet (flatMap kvs) k = some v ∧ v ≠ Value.null := by
  by_cases h : KeyOrder = k
  · subst h
    exact ⟨_, flatMap_keyOrder kvs, by simp⟩
  · obtain ⟨v, hv⟩ := mapGet_entriesOf kvs k hk
    refine ⟨Value.str v, ?_, by simp⟩
    simp only [flatMap, mapGet, if_neg h]
    exact hv

/-- The text written for a map depends on the map through its lookups only:
a map with the lookups of a flat map is written as the flat map is. -/
theorem Encode_sameMap (tbl : Nat → Bool) (indenter nilval : Bytes) (kvs : List (Bytes × Bytes))
    (m : GoMap) (hm : ∀ k, mapGet m k = mapGet (flatMap kvs) k) :
    Encode tbl (Value.map m) indenter nilval =
      Encode tbl (Value.map (flatMap kvs)) indenter nilval := by
  unfold Encode
  rw [doencode_keyorder _ m (kvs.map Prod.fst) _ _ ((hm KeyOrder).trans (flatMap_keyOrder kvs)),
    doencode_keyorder _ (flatMap kvs) (kvs.map Prod.fst) _ _ (flatMap_keyOrder kvs)]
  congr 2
  apply List.map_congr_left
  intro k hk
  obtain ⟨v, hv, hvn⟩ := flatMap_present kvs k hk
  rw [mapRound_present _ m _ _ k v ((hm k).trans hv) hvn,
    mapRound_present _ (flatMap kvs) _ _ k v hv hvn]

theorem newline_blank (indenter : Bytes) :
    ∀ b ∈ (if indenter ≠ [] then [10] else ([] : Bytes)), b ≤ 32 := by
  intro b hb
  split at hb
  · simp at hb; omega
  · cases hb

/-- C31 (counterexample): a map whose key-order list is empty does not come
back. `Encode` writes nothing for it, whatever the indent; the empty text is
decoded, with a nil error, to the map without any entry, which has no
key-order list, while the encoded map holds the empty one. The map without
any entry is itself written as the empty text. -/
theorem C31_empty_key_order_list_is_lost :
    (∀ (tbl : Nat → Bool) (indenter nilval : Bytes),
      Encode tbl (Value.map (flatMap [])) indenter nilval = []) ∧
    (∀ (tbl : Nat → Bool) (indenter nilval : Bytes),
      Encode tbl (Value.map []) indenter nilval = []) ∧
    (Ucl true []).err = none ∧
    (Ucl true []).ucl = Value.map [] ∧
    mapGet [] KeyOrder = none ∧
    mapGet (flatMap []) KeyOrder = some (Value.strs []) ∧
    (Ucl true []).ucl ≠ Value.map (flatMap []) := by
  refine ⟨?_, ?_, by decide, rfl, rfl, rfl, ?_⟩
  · intro tbl indenter nilval
    simp [Encode, doencode, flatMap, entriesOf, mapGet, encodeKeys]
  · intro tbl indenter nilval
    simp [Encode, doencode, mapGet, encodeKeys]
  · have h : (Ucl true []).ucl = Value.map [] := rfl
    rw [h]
    intro he
    simp [flatMap] at he

/-- C31 (amended): strong round trip on flat documents with at least one
key. Let `k1 .. kn`, `n ≥ 1`, be distinct non-empty alphanumeric keys and
`v1 .. vn` non-empty alphanumeric strings, and let `m` be a map with the
lookups of the flat map of these entries: the key-order list `k1 .. kn`
under the sentinel key, `vi` under `ki`, nothing else. For every indent
string, null literal and table of printable runes, and for every reader
that delivers the text written by `Encode` for `m` in reads of at least one
byte, each with a nil error, however the text is split into them, `Ucl`
with order tracking returns a
nil error and the flat map of these entries: the same keys, values and
key-order list. The text is `k1 v1;` .. `kn vn;`, with a newline after each
`;` unless the indent string is empty. -/
theorem C31_flat_round_trip (tbl : Nat → Bool) (indenter nilval : Bytes)
    (kvs : List (Bytes × Bytes)) (m : GoMap) (r : List Rd)
    (hkvs : kvs ≠ [])
    (h : ∀ x ∈ kvs, Alnum x.1 ∧ Alnum x.2) (hnd : (kvs.map Prod.fst).Nodup)
    (hm : ∀ k, mapGet m k = mapGet (flatMap kvs) k)
    (hne : ∀ x ∈ r, x.data ≠ [] ∧ x.err = none)
    (hin : (r.map Rd.data).flatten = Encode tbl (Value.map m) indenter nilval) :
    (Ucl true r).err = none ∧ (Ucl true r).ucl = Value.map (flatMap kvs) ∧
    Encode tbl (Value.map m) indenter nilval =
      encLines (if indenter ≠ [] then [10] else []) true kvs ++
        (if indenter ≠ [] then [10] else []) := by
  have he := encode_docOf tbl indenter nilval kvs h hnd
  rw [if_neg hkvs] at he
  rw [Encode_sameMap tbl indenter nilval kvs m hm, flatMap_eq_docOf kvs hkvs, he] at hin ⊢
  have hd := decode_lines_Ucl (if indenter ≠ [] then [10] else [])
    (if indenter ≠ [] then [10] else [])
    (newline_blank indenter) (newline_blank indenter)
    kvs r (bare_of_alnum_entries kvs h) hnd hne hin
  exact ⟨hd.2, hd.1, rfl⟩

/-- C31 (witness): the map with the key order `port, host`, `8080` under
`port` and `web1` under `host`, its entries stored in another order, is
written with a tab as indent as `port 8080;` and `host web1;` on two lines;
read in three chunks that cut a value and a key in the middle, the text
decodes with a nil error to the flat map of these entries. -/
theorem C31_flat_round_trip_witness :
    [B "port 80", B "80;\nho", B "st web1;\n"].flatten =
      Encode noTbl (Value.map [(B "host", Value.str (B "web1")),
        (KeyOrder, Value.strs [B "port", B "host"]), (B "port", Value.str (B "8080"))])
        (B "\t") [] ∧
    (Ucl true [B "port 80", B "80;\nho", B "st web1;\n"]).err = none ∧
    (Ucl true [B "port 80", B "80;\nho", B "st web1;\n"]).ucl =
      Value.map [(KeyOrder, Value.strs [B "port", B "host"]), (B "port", Value.str (B "8080")),
        (B "host", Value.str (B "web1"))] := by
  have hin : [B "port 80", B "80;\nho", B "st web1;\n"].flatten =
      Encode noTbl (Value.map [(B "host", Value.str (B "web1")),
        (KeyOrder, Value.strs [B "port", B "host"]), (B "port", Value.str (B "8080"))])
        (B "\t") [] := by decide
  have hA : ∀ x ∈ [(B "port", B "8080"), (B "host", B "web1")], Alnum x.1 ∧ Alnum x.2 := by
    intro x hx
    simp only [List.mem_cons, List.mem_singleton, List.not_mem_nil, or_false] at hx
    rcases hx with rfl | rfl <;> exact ⟨⟨by decide, by decide⟩, ⟨by decide, by decide⟩⟩
  have hN : (([(B "port", B "8080"), (B "host", B "web1")] : List (Bytes × Bytes)).map
      Prod.fst).Nodup := by decide
  have hm : ∀ k, mapGet [(B "host", Value.str (B "web1")),
        (KeyOrder, Value.strs [B "port", B "host"]), (B "port", Value.str (B "8080"))] k =
      mapGet (flatMap [(B "port", B "8080"), (B "host", B "web1")]) k := by
    intro k
    by_cases h1 : B "host" = k
    · subst h1; rfl
    · by_cases h2 : KeyOrder = k
      · subst h2; rfl
      · by_cases h3 : B "port" = k
        · subst h3; rfl
        · simp [mapGet, flatMap, entriesOf, h1, h2, h3]
  have hne : ∀ x ∈ ([B "port 80", B "80;\nho", B "st web1;\n"] : List Rd),
      x.data ≠ [] ∧ x.err = none := by decide
  have hw := C31_flat_round_trip noTbl (B "\t") []
    [(B "port", B "8080"), (B "host", B "web1")] _ _ (by simp) hA hN hm hne hin
  exact ⟨hin, hw.1, hw.2.1⟩

theorem scan_sp_key_lbrace (d ct : Bytes) (sw ss : Bool) (ln : Nat) (mt cl : Bytes)
    (k rest : Bytes) (hk : Bareword k) :
    nexttagsBuf ⟨d, ct, St.WHITESPACE, sw, ss, ln, mt, cl⟩ [] 0 (32 :: (k ++ 32 :: 123 :: rest)) =
      BufOut.ret ⟨d ++ [123], [], St.WHITESPACE, true, true, ln, mt, cl⟩
        [⟨k, St.TAG⟩, ⟨[123], St.BRACEOPEN⟩] rest := by
  rw [buf_white_blank,
    scan_key_lbrace d (ct ++ [32]) sw ss ln mt cl k rest (WhiteEnd_append ct 32 (by decide)) hk]

/-- A key with its block, the block being decoded to the map `m` by the
`parse` call that `parsevalue` makes for it: the key is stored with `m`, and
`parse` goes on behind the block. -/
theorem parse_key_block (f : Nat) (S S2 S3 : Scanner) (buf rest rest3 x : Bytes) (r r3 : List Rd)
    (m : GoMap) (hx : x ≠ KeyOrder)
    (hscan : nexttagsBuf S [] 0 buf =
      BufOut.ret S2 [⟨x, St.TAG⟩, ⟨[123], St.BRACEOPEN⟩] rest)
    (hin : parse true f ⟨S2, rest, r, []⟩ none (Value.map []) =
      ⟨Value.map m, none, Value.map m, ⟨S3, rest3, r3, []⟩⟩) :
    parse true (f + 5) ⟨S, buf, r, []⟩ none (Value.map []) =
      parse true (f + 3) ⟨S3, rest3, r3, []⟩ none
        (Value.map [(KeyOrder, Value.strs [x]), (x, Value.map m)]) := by
  have h1 := nexttag_scan _ _ _ _ r ⟨x, St.TAG⟩ _ [⟨[123], St.BRACEOPEN⟩] hscan
    (by simp [List.dropWhile, filtered])
  have h2 := nexttag_tags S2 rest r ⟨[123], St.BRACEOPEN⟩ [] (by simp [filtered])
  rw [parse_none, h1]
  simp only []
  rw [parse_key]
  have hk0 : korderOf true [] = Except.ok (some []) := rfl
  rw [hk0]
  simp only []
  rw [parsevalue_none, h2]
  simp only []
  rw [parsevalue_braceopen, parse_braceopen_null, hin]
  simp only []
  rw [insertKey_first x _ hx]

/-- The statements `k v1; ... k vn;` inside the nested blocks of the keys
`xs`, up to the closing brace of the enclosing block: `parse` returns the
nested maps, the innermost holding `k` with the promoted values. -/
theorem parse_dup_nested (k v1 : Bytes) (vs : List Bytes) (hk : Bareword k) (hkk : k ≠ KeyOrder)
    (hv1 : Bareword v1) (hvs : ∀ v ∈ vs, Bareword v) (ln : Nat) (mt cl : Bytes) (r : List Rd) :
    ∀ (xs : List Bytes), (∀ x ∈ xs, Bareword x ∧ x ≠ KeyOrder) →
      ∀ (f : Nat) (d ct : Bytes) (sw ss : Bool) (rest : Bytes), WhiteEnd ct →
      ∃ sw1 ss1,
        parse true (5 * xs.length + (2 * vs.length + (f + 4)))
            ⟨⟨d ++ [123], ct, St.WHITESPACE, sw, ss, ln, mt, cl⟩,
              nestSp xs (stmtsSp (sameKey k (v1 :: vs))) ++ 32 :: 125 :: rest, r, []⟩ none
            (Value.map []) =
          ⟨Value.map (nestMap xs [(KeyOrder, Value.strs [k]),
              (k, vs.foldl (fun acc v => promote acc (Value.str v)) (Value.str v1))]), none,
            Value.map (nestMap xs [(KeyOrder, Value.strs [k]),
              (k, vs.foldl (fun acc v => promote acc (Value.str v)) (Value.str v1))]),
            ⟨⟨d, [], St.WHITESPACE, sw1, ss1, ln, mt, cl⟩, rest, r, []⟩⟩ := by
  intro xs
  induction xs with
  | nil =>
    intro _ f d ct sw ss rest hct
    obtain ⟨ct1, sw1, ss1, h⟩ := decode_dup f (d ++ [123]) ln mt cl (32 :: 125 :: rest) r k hk hkk
      vs (Value.str v1) [] false true hvs
    refine ⟨sw1, ss1, ?_⟩
    have htext : nestSp [] (stmtsSp (sameKey k (v1 :: vs))) ++ 32 :: 125 :: rest =
        stmtSp (k, v1) ++ (stmtsSp (sameKey k vs) ++ 32 :: 125 :: rest) := by
      simp [nestSp, stmtsSp, sameKey]
    have hfu0 : 5 * ([] : List Bytes).length + (2 * vs.length + (f + 4)) =
        (2 * vs.length + f) + 4 := by
      simp only [List.length_nil]
      omega
    rw [htext, hfu0, parse_stmt_sp true _ _ _ _ _ _ _ _ k v1 _ _ [] (some []) hk hv1 rfl]
    have hi : insertKey [] (some []) k (Value.str v1)
        = docOf [(k, Value.str v1)] := insertKey_docOf [] k (Value.str v1) hkk (by simp)
    have hfu : 2 * vs.length + f + 2 = 2 * vs.length + (f + 2) := by omega
    rw [hi, hfu]
    refine h.trans ?_
    rw [parse_block_close]
    rfl
  | cons x xs ih =>
    intro hxs f d ct sw ss rest hct
    obtain ⟨hxb, hxk⟩ := hxs x (by simp)
    obtain ⟨sw1, ss1, hin⟩ := ih (fun y hy => hxs y (by simp [hy])) f (d ++ [123]) [] true true
      (32 :: 125 :: rest) WhiteEnd_nil
    refine ⟨sw1, ss1, ?_⟩
    have htext : nestSp (x :: xs) (stmtsSp (sameKey k (v1 :: vs))) ++ 32 :: 125 :: rest =
        32 :: (x ++ 32 :: 123 ::
          (nestSp xs (stmtsSp (sameKey k (v1 :: vs))) ++ 32 :: 125 :: 32 :: 125 :: rest)) := by
      simp [nestSp]
    have hfu0 : 5 * (x :: xs).length + (2 * vs.length + (f + 4)) =
        (5 * xs.length + (2 * vs.length + (f + 4))) + 5 := by
      simp only [List.length_cons]
      omega
    rw [htext, hfu0,
      parse_key_block _ _ _ _ _ _ _ x r r _ hxk
        (scan_sp_key_lbrace (d ++ [123]) ct sw ss ln mt cl x _ hxb) hin]
    have hfu : 5 * xs.length + (2 * vs.length + (f + 4)) + 3 =
        (5 * xs.length + (2 * vs.length + (f + 4)) + 1) + 2 := by omega
    rw [hfu, parse_block_close]
    rfl

theorem nestSp_length (xs : List Bytes) (body : Bytes) :
    body.length + 5 * xs.length ≤ (nestSp xs body).length := by
  induction xs with
  | nil => simp [nestSp]
  | cons x xs ih =>
    simp only [nestSp, List.length_cons, List.length_append, List.length_nil]
    omega

/-- The statements `k v1; ... k vn;` in the block of the key `x`, itself
inside the nested blocks of the keys `xs`: `Ucl` returns the nested maps. -/
theorem decode_dup_nested (k v1 : Bytes) (vs : List Bytes) (x : Bytes) (xs : List Bytes)
    (hk : Bareword k) (hkk : k ≠ KeyOrder) (hv1 : Bareword v1) (hvs : ∀ v ∈ vs, Bareword v)
    (hxs : ∀ y ∈ x :: xs, Bareword y ∧ y ≠ KeyOrder) :
    (Ucl true [nested (x :: xs) (stmtsSp (sameKey k (v1 :: vs)))]).ucl =
      Value.map (nestMap (x :: xs) [(KeyOrder, Value.strs [k]),
        (k, vs.foldl (fun acc v => promote acc (Value.str v)) (Value.str v1))]) ∧
    (Ucl true [nested (x :: xs) (stmtsSp (sameKey k (v1 :: vs)))]).err = none := by
  obtain ⟨hxb, hxk⟩ := hxs x (by simp)
  have htext : nested (x :: xs) (stmtsSp (sameKey k (v1 :: vs))) =
      x ++ 32 :: 123 :: (nestSp xs (stmtsSp (sameKey k (v1 :: vs))) ++ 32 :: 125 :: []) := by
    simp [nested, nestSp]
  have hlen1 := nestSp_length xs (stmtsSp (sameKey k (v1 :: vs)))
  have hlen2 := stmtsSp_length (sameKey k (v1 :: vs))
  have hl2 : (sameKey k (v1 :: vs)).length = vs.length + 1 := by simp [sameKey]
  have hne : nested (x :: xs) (stmtsSp (sameKey k (v1 :: vs))) ≠ [] := by
    rw [htext]
    exact bareword_ne_nil x hxb _
  obtain ⟨f, hf⟩ : ∃ f, uclFuel [nested (x :: xs) (stmtsSp (sameKey k (v1 :: vs)))] =
      (5 * xs.length + (2 * vs.length + (f + 4))) + 5 := by
    refine ⟨uclFuel [nested (x :: xs) (stmtsSp (sameKey k (v1 :: vs)))] -
      5 * xs.length - 2 * vs.length - 9, ?_⟩
    rw [htext]
    simp only [uclFuel, List.map_cons, List.map_nil, List.sum_cons, List.sum_nil,
      List.length_cons, List.length_append, List.length_nil]
    omega
  obtain ⟨sw1, ss1, hin⟩ := parse_dup_nested k v1 vs hk hkk hv1 hvs 1 [] [] []
    xs (fun y hy => hxs y (by simp [hy])) f [] [] true true [] WhiteEnd_nil
  have hparse : parse true (uclFuel [nested (x :: xs) (stmtsSp (sameKey k (v1 :: vs)))])
      (NewParser [nested (x :: xs) (stmtsSp (sameKey k (v1 :: vs)))]) none (Value.map []) =
      ⟨Value.null, some Err.EOF,
        Value.map (nestMap (x :: xs) [(KeyOrder, Value.strs [k]),
          (k, vs.foldl (fun acc v => promote acc (Value.str v)) (Value.str v1))]),
        ⟨⟨[], [], St.WHITESPACE, sw1, ss1, 1, [], []⟩, [], [], []⟩⟩ := by
    rw [hf]
    show parse true (5 * xs.length + (2 * vs.length + (f + 4)) + 5)
      ⟨⟨[], [], St.WHITESPACE, false, false, 1, [], []⟩, [],
        [nested (x :: xs) (stmtsSp (sameKey k (v1 :: vs)))], []⟩ none (Value.map []) = _
    rw [parse_first_read _ _ _ _ _ _ hne, htext,
      parse_key_block _ _ _ _ _ _ _ x [] [] _ hxk
        (scan_key_lbrace [] [] false false 1 [] [] x _ WhiteEnd_nil hxb) hin,
      parse_eof _ _ _ _ rfl]
    rfl
  rw [Ucl_of_parse _ _ _ _ _ _ hparse]
  simp

/-- C2 (amended): for a bareword key `k` other than the sentinel
`--ucl-keyorder--` and alphanumeric values `v1 v2 .. vn` (n ≥ 2), decoding
`k v1; k v2; ... k vn;` returns no error and maps `k` to the array of the
strings `v1 .. vn` in this order: at top level, inside top-level braces, and
inside the block of a key `x` that is itself nested, at any depth, in the
blocks of the keys `xs`, the map with the array being found under these
keys. Whatever encloses a block: the call `parse(nil, m)` on a fresh map `m`
that a `{` leads to, entered right behind the `{` with any scopes open, any
text behind the closing `}` and any reader, and run with at least
`2 * n + 4` of fuel, returns at the `}` with a nil error and the map in
which `k` holds the array. A repeated assignment appends to a value that is
an array and replaces any other value by the array of the old and the new
value. -/
theorem C2_duplicate_key_promotion (k v1 v2 : Bytes) (vs : List Bytes) (x : Bytes)
    (xs : List Bytes)
    (hk : Bareword k) (hkk : k ≠ KeyOrder) (hv1 : Alnum v1) (hv2 : Alnum v2)
    (hvs : ∀ v ∈ vs, Alnum v) (hxs : ∀ y ∈ x :: xs, Bareword y ∧ y ≠ KeyOrder) :
    (Ucl true [stmts (sameKey k (v1 :: v2 :: vs))]).err = none ∧
    (Ucl true [stmts (sameKey k (v1 :: v2 :: vs))]).ucl =
      Value.map [(KeyOrder, Value.strs [k]), (k, Value.list ((v1 :: v2 :: vs).map Value.str))] ∧
    (Ucl true [block (sameKey k (v1 :: v2 :: vs))]).err = none ∧
    (Ucl true [block (sameKey k (v1 :: v2 :: vs))]).ucl =
      Value.map [(KeyOrder, Value.strs [k]), (k, Value.list ((v1 :: v2 :: vs).map Value.str))] ∧
    (Ucl true [nested (x :: xs) (stmtsSp (sameKey k (v1 :: v2 :: vs)))]).err = none ∧
    (Ucl true [nested (x :: xs) (stmtsSp (sameKey k (v1 :: v2 :: vs)))]).ucl =
      Value.map (nestMap (x :: xs)
        [(KeyOrder, Value.strs [k]), (k, Value.list ((v1 :: v2 :: vs).map Value.str))]) ∧
    (∀ (f : Nat) (d ct : Bytes) (sw ss : Bool) (ln : Nat) (mt cl rest : Bytes) (r : List Rd),
      WhiteEnd ct →
      ∃ sw1 ss1,
        parse true (2 * (v1 :: v2 :: vs).length + (f + 2))
            ⟨⟨d ++ [123], ct, St.WHITESPACE, sw, ss, ln, mt, cl⟩,
              stmtsSp (sameKey k (v1 :: v2 :: vs)) ++ 32 :: 125 :: rest, r, []⟩ none
            (Value.map []) =
          ⟨Value.map
              [(KeyOrder, Value.strs [k]), (k, Value.list ((v1 :: v2 :: vs).map Value.str))],
            none,
            Value.map
              [(KeyOrder, Value.strs [k]), (k, Value.list ((v1 :: v2 :: vs).map Value.str))],
            ⟨⟨d, [], St.WHITESPACE, sw1, ss1, ln, mt, cl⟩, rest, r, []⟩⟩) ∧
    (∀ (ko : Option (List Bytes)) (l : List Value) (res : Value),
      insertKey [(k, Value.list l)] ko k res = [(k, Value.list (l ++ [res]))]) ∧
    (∀ (ko : Option (List Bytes)) (old : Bytes) (res : Value),
      insertKey [(k, Value.str old)] ko k res = [(k, Value.list [Value.str old, res])]) := by
  have hb : ∀ v ∈ v2 :: vs, Bareword v := by
    intro v hv
    rcases List.mem_cons.1 hv with h | h
    · subst h; exact Bareword.of_alnum _ hv2
    · exact Bareword.of_alnum _ (hvs v h)
  obtain ⟨hs1, hs2⟩ := decode_dup_stmts k v1 (v2 :: vs) hk hkk (Bareword.of_alnum _ hv1) hb
  obtain ⟨hb1, hb2⟩ := decode_dup_block k v1 (v2 :: vs) hk hkk (Bareword.of_alnum _ hv1) hb
  obtain ⟨hn1, hn2⟩ := decode_dup_nested k v1 (v2 :: vs) x xs hk hkk (Bareword.of_alnum _ hv1)
    hb hxs
  rw [foldl_promote_str] at hs1 hb1 hn1
  refine ⟨hs2, hs1, hb2, hb1, hn2, hn1, ?_, ?_, ?_⟩
  · intro f d ct sw ss ln mt cl rest r hct
    obtain ⟨sw1, ss1, h⟩ := parse_dup_nested k v1 (v2 :: vs) hk hkk (Bareword.of_alnum _ hv1) hb
      ln mt cl r [] (by simp) f d ct sw ss rest hct
    refine ⟨sw1, ss1, ?_⟩
    have hfu : 2 * (v1 :: v2 :: vs).length + (f + 2) =
        5 * ([] : List Bytes).length + (2 * (v2 :: vs).length + (f + 4)) := by
      simp only [List.length_cons, List.length_nil]
      omega
    rw [hfu]
    simpa only [nestSp, nestMap, foldl_promote_str] using h
  · intro ko l res
    simp [insertKey, mapGet, mapSet]
  · intro ko old res
    simp [insertKey, mapGet, mapSet]

/-- C2 (witness): `a 1; a 2; a 3;` maps `a` to the array of `1`, `2`, `3`,
and so it does inside the nested blocks `x { y { a 1; a 2; a 3; } }`. -/
theorem C2_duplicate_key_promotion_witness :
    stmts (sameKey (B "a") [B "1", B "2", B "3"]) = B "a 1; a 2; a 3;" ∧
    (Ucl true [B "a 1; a 2; a 3;"]).err = none ∧
    (Ucl true [B "a 1; a 2; a 3;"]).ucl =
      Value.map [(KeyOrder, Value.strs [B "a"]),
        (B "a", Value.list [Value.str (B "1"), Value.str (B "2"), Value.str (B "3")])] ∧
    nested [B "x", B "y"] (stmtsSp (sameKey (B "a") [B "1", B "2", B "3"])) =
      B "x \x7b y \x7b a 1; a 2; a 3; \x7d \x7d" ∧
    (Ucl true [B "x \x7b y \x7b a 1; a 2; a 3; \x7d \x7d"]).err = none ∧
    (Ucl true [B "x \x7b y \x7b a 1; a 2; a 3; \x7d \x7d"]).ucl =
      Value.map [(KeyOrder, Value.strs [B "x"]),
        (B "x", Value.map [(KeyOrder, Value.strs [B "y"]),
          (B "y", Value.map [(KeyOrder, Value.strs [B "a"]),
            (B "a", Value.list [Value.str (B "1"), Value.str (B "2"), Value.str (B "3")])])])] := by
  have hw := C2_duplicate_key_promotion (B "a") (B "1") (B "2") [B "3"] (B "x") [B "y"]
    ⟨by decide, by decide⟩ (by decide) ⟨by decide, by decide⟩ ⟨by decide, by decide⟩
    (by intro v hv; simp only [List.mem_singleton] at hv; subst hv; exact ⟨by decide, by decide⟩)
    (by
      intro y hy
      simp only [List.mem_cons, List.mem_singleton, List.not_mem_nil, or_false] at hy
      rcases hy with rfl | rfl <;> exact ⟨⟨by decide, by decide⟩, by decide⟩)
  have ht : stmts (sameKey (B "a") [B "1", B "2", B "3"]) = B "a 1; a 2; a 3;" := by decide
  have hn : nested [B "x", B "y"] (stmtsSp (sameKey (B "a") [B "1", B "2", B "3"])) =
      B "x \x7b y \x7b a 1; a 2; a 3; \x7d \x7d" := by decide
  rw [ht, hn] at hw
  exact ⟨ht, hw.1, hw.2.1, hn, hw.2.2.2.2.1, hw.2.2.2.2.2.1⟩

end GoUcl
